import Mathlib

set_option linter.unusedSectionVars false
set_option linter.unusedVariables false

/-!
# Hash tables of `namespace ics` (`hash_map.hpp`, `hash_set.hpp`)

A shallow embedding of the two separate-chaining hash tables and of their fail-fast
iterators, followed by the properties proved about them.

Modelling conventions.

* A bin's chain `n1 -> n2 -> ... -> TRAILER` is the list `[n1, n2, ...]` of the values of
  its live nodes; the trailer node (the only node whose `next` is `nullptr`) is the end of
  the list.  The bucket array `LN** map` is `Option (List (List _))`, `none` being `nullptr`.
* An `LN*` into the chain of a known bin is the position of the node in that chain, counted
  from the head (position `length` is the trailer).  The splice `*p = *(p->next); delete next`
  keeps `p` and every pointer before it, which is `List.eraseIdx` at the position of `p`.
* A function pointer `int (*)(const KEY&)` is an address (`hashfunc`); `code` maps an
  address to the function stored there, so `==` on function pointers is `=` on addresses.
* `int` fields are unbounded integers: the counters move by one per call and signed
  overflow is undefined behaviour in C++.  `double` is modelled by `ℚ`.
* `operator==` of the key, value and element types is Lean equality.
* A thrown exception is `Except.error`.
-/

namespace ics

/-- The exception classes of `ics_exceptions.hpp` thrown by the containers, and the
`GraphError` of `hash_graph.hpp`. -/
inductive Error
  | TemplateFunctionError
  | KeyError
  | ConcurrentModificationError
  | CannotEraseError
  | IteratorPositionIllegal
  | ComparingDifferentIteratorsError
  | IteratorTypeError
  | EmptyError
  | GraphError
  deriving DecidableEq, Repr

/-- A function pointer `int (*)(const KEY& a)`: the address it holds. -/
abbrev hashfunc := Nat

/-- The address of `undefinedhash<T>`, the marker for "no hash function supplied". -/
def undefinedhash : hashfunc := 0

/-- The right operand of a member operator taking `const C& rhs`: the receiver itself
(`this == &rhs`) or another object. -/
inductive Rhs (α : Type)
  | self
  | other (rhs : α)

/-- The configurations of the two hash function candidates that the constructors reject:
neither is supplied, or both are and they differ. -/
def ambiguous_or_missing (thash chash : hashfunc) : Prop :=
  (thash = undefinedhash ∧ chash = undefinedhash) ∨
    (thash ≠ undefinedhash ∧ chash ≠ undefinedhash ∧ thash ≠ chash)

instance instDecidableAmbiguousOrMissing (thash chash : hashfunc) :
    Decidable (ambiguous_or_missing thash chash) :=
  inferInstanceAs (Decidable ((thash = undefinedhash ∧ chash = undefinedhash) ∨
    (thash ≠ undefinedhash ∧ chash ≠ undefinedhash ∧ thash ≠ chash)))

/-! ## The 32-bit `int` -/

/-- The least value of the 32-bit `int`. -/
def INT_MIN : Int := -2147483648

/-- The greatest value of the 32-bit `int`, `std::numeric_limits<int>::max()`. -/
def INT_MAX : Int := 2147483647

/-- The value of an `int` expression whose mathematical value is `x`: undefined (`none`)
when `x` does not fit the 32-bit `int`. -/
def int_value (x : Int) : Option Int :=
  if INT_MIN ≤ x ∧ x ≤ INT_MAX then some x else none

/-- The body of `hash_compress` on the `int` values `h = hash(key)` and `bins`:
`int result = h % bins; if (result < 0) result = result * -1; return result;` with the
truncating `%` of C++, which is undefined for `bins == 0` and for `INT_MIN % -1`. -/
def hash_compress_int (h bins : Int) : Option Int :=
  if bins = 0 ∨ (h = INT_MIN ∧ bins = -1) then none
  else
    match int_value (Int.tmod h bins) with
    | none => none
    | some result => if result < 0 then int_value (result * -1) else some result

/-! ## Bucket arrays (code shared verbatim by `HashMap` and `HashSet`) -/

namespace Bucket

variable {E K : Type} [DecidableEq K]

/-- The chain walk of `find_key` / `find_element`:
`for (temp = head; temp->next != nullptr; temp = temp->next) if (k == key(temp->value)) return temp;`
followed by `return nullptr`.  The result is the node found: its position and its value. -/
def find (key : E → K) (k : K) : List E → Option (Nat × E)
  | [] => none
  | e :: rest =>
    if k = key e then some (0, e)
    else (find key k rest).map (fun p => (p.1 + 1, p.2))

/-- The statement `map[index] = new LN(e, map[index])`. -/
def push_front (bs : List (List E)) (index : Nat) (e : E) : List (List E) :=
  bs.set index (e :: bs.getD index [])

/-- The statements `to_delete = temp->next; *temp = *(temp->next); delete to_delete;` for the
node `temp` at position `i` of bin `b`. -/
def splice (bs : List (List E)) (b i : Nat) : List (List E) :=
  bs.set b ((bs.getD b []).eraseIdx i)

/-- The array `new LN*[bins]` with `map[j] = new LN()` for every `j`: `bins` empty chains. -/
def fresh (bins : Nat) : List (List E) :=
  List.replicate bins []

/-- The inner loop of `ensure_load_threshold` on one old bin: while the bin is not down to
its trailer, unlink its first node and link it in front of bin `place (node)` of `tempMap`. -/
def relink (place : E → Nat) (tempMap : List (List E)) (chain : List E) : List (List E) :=
  chain.foldl (fun tm e => push_front tm (place e) e) tempMap

/-- The outer loop of `ensure_load_threshold`: old bins `0 .. tempBins-1` in order. -/
def rehash (place : E → Nat) (old : List (List E)) (newBins : Nat) : List (List E) :=
  old.foldl (relink place) (fresh newBins)

/-- The recursion of `copy_list`: a new trailer for a trailer, otherwise a new node holding
the same value in front of the copy of the rest. -/
def copy_list : List E → List E
  | [] => []
  | e :: rest => e :: copy_list rest

/-- The function `copy_hash_table(ht, bins)`: `nullptr` for `nullptr`, otherwise a new array
whose bin `i` is `copy_list(ht[i])` for `i < bins`. -/
def copy_hash_table (ht : Option (List (List E))) (bins : Nat) : Option (List (List E)) :=
  match ht with
  | none => none
  | some bs => some ((List.range bins).map (fun i => copy_list (bs.getD i [])))

/-- The test `current.second->next == nullptr`: the node under the cursor is a trailer. -/
def at_trailer (bs : List (List E)) (cur : Int × Option Nat) : Bool :=
  match cur.2 with
  | none => false
  | some i => decide ((bs.getD cur.1.toNat []).length ≤ i)

/-- The value `current.second->value`, `none` when the node is a trailer (whose payload is
meaningless) or the pointer is `nullptr`. -/
def node_value (bs : List (List E)) (cur : Int × Option Nat) : Option E :=
  match cur.2 with
  | none => none
  | some i => (bs.getD cur.1.toNat [])[i]?

/-- The loop of `advance_cursors`, one iteration per unit of fuel:
`while (current.second->next == nullptr && current.first < bins)` either stops at
`(-1, nullptr)` when `current.first + 1 >= bins` or moves to the head of the next bin. -/
def advance_loop (bins : Nat) (bs : List (List E)) : Nat → Int × Option Nat → Int × Option Nat
  | 0, cur => cur
  | fuel + 1, cur =>
    if at_trailer bs cur = true ∧ cur.1 < (bins : Int) then
      if cur.1 + 1 ≥ (bins : Int) then (-1, none)
      else advance_loop bins bs fuel (cur.1 + 1, some 0)
    else cur

/-- The method `advance_cursors`; every iteration increases the bin index, so `bins`
iterations are enough. -/
def advance_cursors (bins : Nat) (bs : List (List E)) (cur : Int × Option Nat) :
    Int × Option Nat :=
  advance_loop bins bs bins cur

/-- The pointer step `current.second = current.second->next`. -/
def next_node (cur : Int × Option Nat) : Int × Option Nat :=
  (cur.1, cur.2.map (· + 1))

/-- The splice of cursor `erase()` applied to the node under the cursor. -/
def splice_at (bs : List (List E)) (cur : Int × Option Nat) : List (List E) :=
  match cur.2 with
  | none => bs
  | some i => splice bs cur.1.toNat i

/-- The cursor position is the end position `(-1, nullptr)` or lies on a live node. -/
def End_or_live (bs : List (List E)) (cur : Int × Option Nat) : Prop :=
  cur = (-1, none) ∨ (0 ≤ cur.1 ∧ (node_value bs cur).isSome = true)

instance instDecidableEndOrLive (bs : List (List E)) (cur : Int × Option Nat) :
    Decidable (End_or_live bs cur) :=
  inferInstanceAs (Decidable (cur = (-1, none) ∨ (0 ≤ cur.1 ∧ (node_value bs cur).isSome = true)))

/-- The values still ahead of the node at position `i` of bin `b`, that node included: the
rest of its chain, then the chains of the later bins. -/
def ahead (bs : List (List E)) (b i : Nat) : List E :=
  (bs.getD b []).drop i ++ (bs.drop (b + 1)).flatten

/-- Every value stored in bin `i` belongs to bin `i` according to `place`. -/
def Placed (place : E → Nat) (bs : List (List E)) : Prop :=
  ∀ i, i < bs.length → ∀ e ∈ bs.getD i [], place e = i

instance instDecidablePlaced (place : E → Nat) (bs : List (List E)) :
    Decidable (Placed place bs) :=
  inferInstanceAs (Decidable (∀ i, i < bs.length → ∀ e ∈ bs.getD i [], place e = i))

/-! ### Checked memory reads

The functions above read bucket arrays and chains through total accessors.  The functions
below perform the same reads checked: the result is `none` when a read is undefined. -/

/-- The read `ht[i]`: undefined when `ht == nullptr` and when `i` is outside `[0, bins-1]`
or outside the array allocated. -/
def read_bin (ht : Option (List (List E))) (bins : Nat) (i : Int) : Option (List E) :=
  match ht with
  | none => none
  | some bs =>
    if 0 ≤ i ∧ i < (bins : Int) ∧ i.toNat < bs.length then some (bs.getD i.toNat []) else none

/-- The dereference of a node pointer into `chain`: position `p` is a live node for
`p < length`, the trailer for `p = length` and `nullptr`, the `next` link of the trailer,
beyond; dereferencing `nullptr` is undefined. -/
def deref (chain : List E) (p : Nat) : Option Nat :=
  if p ≤ chain.length then some p else none

/-- The chain walk of `find_key` / `find_element` from position `p`, one iteration per unit
of fuel, with `temp->next` and `temp->value` read through `deref`. -/
def find_checked (key : E → K) (k : K) (chain : List E) :
    Nat → Nat → Option (Option (Nat × E))
  | 0, _ => none
  | fuel + 1, p =>
    match deref chain p with
    | none => none
    | some _ =>
      match chain[p]? with
      | none => some none
      | some e =>
        if k = key e then some (some (p, e)) else find_checked key k chain fuel (p + 1)

/-- The chain walk `for (temp = map[i]; temp->next != nullptr; temp = temp->next)` of `str`
from position `p`, with `temp->next` and `temp->value` read through `deref`; the result is
the list of the values printed. -/
def walk_checked (chain : List E) : Nat → Nat → Option (List E)
  | 0, _ => none
  | fuel + 1, p =>
    match deref chain p with
    | none => none
    | some _ =>
      match chain[p]? with
      | none => some []
      | some e => (walk_checked chain fuel (p + 1)).map (fun rest => e :: rest)

/-- The statement `map[index] = new LN(e, map[index])` with `map[index]` read checked. -/
def push_front_checked (bs : List (List E)) (bins : Nat) (index : Int) (e : E) :
    Option (List (List E)) :=
  match read_bin (some bs) bins index with
  | none => none
  | some _ => some (push_front bs index.toNat e)

/-- The inner loop of `ensure_load_threshold` with `tempMap[hash_compress(..)]` read
checked. -/
def relink_checked (place : E → Int) (newBins : Nat) (tempMap : List (List E))
    (chain : List E) : Option (List (List E)) :=
  chain.foldlM (fun tm e => push_front_checked tm newBins (place e) e) tempMap

/-- The outer loop of `ensure_load_threshold` with `map[i]` read checked for
`i = 0 .. tempBins-1`. -/
def rehash_checked (place : E → Int) (old : List (List E)) (tempBins newBins : Nat) :
    Option (List (List E)) :=
  (List.range tempBins).foldlM
    (fun tm (i : Nat) =>
      match read_bin (some old) tempBins (i : Int) with
      | none => none
      | some chain => relink_checked place newBins tm chain)
    (fresh newBins)

/-- The dereference of `current.second`, a pointer into the chain of bin `current.first`. -/
def deref_cursor (bs : List (List E)) (cur : Int × Option Nat) : Option Nat :=
  match cur.2 with
  | none => none
  | some p =>
    if 0 ≤ cur.1 ∧ cur.1.toNat < bs.length then deref (bs.getD cur.1.toNat []) p else none

/-- The loop of `advance_cursors` with `current.second->next` and `map[++current.first]`
read checked, one iteration per unit of fuel; `none` also when the fuel runs out. -/
def advance_loop_checked (bins : Nat) (ht : Option (List (List E))) :
    Nat → Int × Option Nat → Option (Int × Option Nat)
  | 0, _ => none
  | fuel + 1, cur =>
    match deref_cursor (ht.getD []) cur with
    | none => none
    | some _ =>
      if at_trailer (ht.getD []) cur = true ∧ cur.1 < (bins : Int) then
        if cur.1 + 1 ≥ (bins : Int) then some (-1, none)
        else
          match read_bin ht bins (cur.1 + 1) with
          | none => none
          | some _ => advance_loop_checked bins ht fuel (cur.1 + 1, some 0)
      else some cur

/-- The method `advance_cursors` with checked reads and `bins` units of fuel. -/
def advance_cursors_checked (bins : Nat) (ht : Option (List (List E)))
    (cur : Int × Option Nat) : Option (Int × Option Nat) :=
  advance_loop_checked bins ht bins cur

end Bucket

/-- The state of a `HashMap<KEY,T,thash>::Iterator` or `HashSet<T,thash>::Iterator`, without
the pointer `ref_map` / `ref_set`: the table is passed to every operation. -/
structure Iterator where
  /-- `Cursor current`: bin index and `LN*` (`(-1, nullptr)` is the end position). -/
  current : Int × Option Nat
  expected_mod_count : Int
  can_erase : Bool
  deriving DecidableEq, Repr

/-! ## `HashMap` -/

/-- The instance variables of `HashMap<KEY,T,thash>`. -/
structure HashMap (K V : Type) where
  hash : hashfunc
  map : Option (List (List (K × V)))
  load_threshold : ℚ
  bins : Nat
  used : Int
  mod_count : Int

namespace HashMap

variable {K V : Type} [DecidableEq K]

/-- The bucket array as read by `map[i]`; a `nullptr` array has no bins. -/
def table (m : HashMap K V) : List (List (K × V)) :=
  m.map.getD []

def empty (m : HashMap K V) : Bool :=
  decide (m.used = 0)

def size (m : HashMap K V) : Int :=
  m.used

/-- The statements `int result = hash(key) % bins; if (result < 0) result = result * -1;`
with the truncating `%` of C++. -/
def hash_compress (code : hashfunc → K → Int) (m : HashMap K V) (key : K) : Int :=
  let result := Int.tmod (code m.hash key) (m.bins : Int)
  if result < 0 then result * -1 else result

def find_key (code : hashfunc → K → Int) (m : HashMap K V) (key : K) : Option (Nat × (K × V)) :=
  match m.map with
  | none => none
  | some bs => Bucket.find Prod.fst key (bs.getD (hash_compress code m key).toNat [])

def has_key (code : hashfunc → K → Int) (m : HashMap K V) (key : K) : Bool :=
  (find_key code m key).isSome

def ensure_load_threshold (code : hashfunc → K → Int) (m : HashMap K V) (new_used : Int) :
    HashMap K V :=
  let map0 : List (List (K × V)) :=
    match m.map with
    | none => Bucket.fresh m.bins
    | some bs => bs
  if (new_used : ℚ) / (m.bins : ℚ) ≤ m.load_threshold then
    { m with map := some map0 }
  else
    let m2 : HashMap K V := { m with bins := m.bins * 2 }
    let tempMap := Bucket.rehash (fun e => (hash_compress code m2 e.1).toNat) map0 m2.bins
    { m2 with map := some tempMap }

def put (code : hashfunc → K → Int) (m : HashMap K V) (key : K) (value : V) :
    V × HashMap K V :=
  let temp := find_key code m key
  let m1 : HashMap K V := { m with mod_count := m.mod_count + 1 }
  match temp with
  | none =>
    let m2 := ensure_load_threshold code { m1 with used := m1.used + 1 } (m1.used + 1)
    let index := (hash_compress code m2 key).toNat
    (value, { m2 with map := some (Bucket.push_front m2.table index (key, value)) })
  | some (i, e) =>
    let b := (hash_compress code m1 key).toNat
    (e.2, { m1 with map := some (m1.table.set b ((m1.table.getD b []).set i (e.1, value))) })

def erase (code : hashfunc → K → Int) (m : HashMap K V) (key : K) :
    Except Error (V × HashMap K V) :=
  match find_key code m key with
  | some (i, e) =>
    let b := (hash_compress code m key).toNat
    .ok (e.2, { m with map := some (Bucket.splice m.table b i),
                       used := m.used - 1, mod_count := m.mod_count + 1 })
  | none => .error Error.KeyError

/-- The call `delete_hash_table(map,bins)` leaves `map == nullptr`. -/
def clear (m : HashMap K V) : HashMap K V :=
  { m with map := none, mod_count := m.mod_count + 1, used := 0 }

/-- The entries in the order in which `for (const Entry& e : m)` visits them: nothing when
`empty()`, else bin 0 from its head to its trailer, then bin 1, and so on. -/
def traversal (m : HashMap K V) : List (K × V) :=
  if m.used = 0 then [] else m.table.flatten

/-- The method `put_all` over a sequence of entries; the first component is `count`. -/
def put_all (code : hashfunc → K → Int) (m : HashMap K V) (i : List (K × V)) :
    Int × HashMap K V :=
  i.foldl (fun acc e => (acc.1 + 1, (put code acc.2 e.1 e.2).2)) (0, m)

/-- The non-const `operator[]`; the first component is the value referred to. -/
def operator_index [Inhabited V] (code : hashfunc → K → Int) (m : HashMap K V) (key : K) :
    V × HashMap K V :=
  match find_key code m key with
  | none =>
    let m1 : HashMap K V := { m with mod_count := m.mod_count + 1 }
    let m2 := ensure_load_threshold code { m1 with used := m1.used + 1 } (m1.used + 1)
    let index := (hash_compress code m2 key).toNat
    (default, { m2 with map := some (Bucket.push_front m2.table index (key, default)) })
  | some (_, e) => (e.2, m)

/-- The const `operator[]`. -/
def operator_index_const (code : hashfunc → K → Int) (m : HashMap K V) (key : K) :
    Except Error V :=
  match find_key code m key with
  | some (_, e) => .ok e.2
  | none => .error Error.KeyError

def operator_assign (code : hashfunc → K → Int) (this : HashMap K V) :
    Rhs (HashMap K V) → HashMap K V
  | .self => this
  | .other rhs =>
    let t := clear this
    let t : HashMap K V :=
      if t.hash = rhs.hash then
        { t with map := Bucket.copy_hash_table rhs.map rhs.bins, used := rhs.used,
                 bins := rhs.bins }
      else
        (put_all code { t with hash := rhs.hash } (traversal rhs)).2
    { t with mod_count := t.mod_count + 1 }

def operator_eq [DecidableEq V] (code : hashfunc → K → Int) (this : HashMap K V) :
    Rhs (HashMap K V) → Bool
  | .self => true
  | .other rhs =>
    if this.used ≠ rhs.used then false
    else (traversal rhs).all (fun e =>
      match find_key code this e.1 with
      | none => false
      | some (_, f) => decide (f.2 = e.2))

/-- The shared prologue of the constructors: `hash(thash != undefinedhash ? thash : chash)`
and the two `TemplateFunctionError` tests. -/
def resolve_hash (thash chash : hashfunc) : Except Error hashfunc :=
  let hash := if thash ≠ undefinedhash then thash else chash
  if hash = undefinedhash then .error Error.TemplateFunctionError
  else if thash ≠ undefinedhash ∧ chash ≠ undefinedhash ∧ thash ≠ chash then
    .error Error.TemplateFunctionError
  else .ok hash

/-- The constructor `HashMap(double the_load_threshold, chash)`. -/
def ctor_default (code : hashfunc → K → Int) (thash : hashfunc) (the_load_threshold : ℚ)
    (chash : hashfunc) : Except Error (HashMap K V) :=
  match resolve_hash thash chash with
  | .error err => .error err
  | .ok hash =>
    let load_threshold := if the_load_threshold ≤ 0 then 1 else the_load_threshold
    .ok (ensure_load_threshold code
      { hash := hash, map := none, load_threshold := load_threshold, bins := 1, used := 0,
        mod_count := 0 } 0)

/-- The constructor `HashMap(int initial_bins, double the_load_threshold, chash)`. -/
def ctor_bins (code : hashfunc → K → Int) (thash : hashfunc) (initial_bins : Int)
    (the_load_threshold : ℚ) (chash : hashfunc) : Except Error (HashMap K V) :=
  match resolve_hash thash chash with
  | .error err => .error err
  | .ok hash =>
    let load_threshold := if the_load_threshold ≤ 0 then 1 else the_load_threshold
    let bins := if initial_bins < 1 then 1 else initial_bins.toNat
    .ok (ensure_load_threshold code
      { hash := hash, map := none, load_threshold := load_threshold, bins := bins, used := 0,
        mod_count := 0 } 0)

/-- The constructors from an `initializer_list` and from an `Iterable`, the sequence given
as the list of its entries. -/
def ctor_il (code : hashfunc → K → Int) (thash : hashfunc) (il : List (K × V))
    (the_load_threshold : ℚ) (chash : hashfunc) : Except Error (HashMap K V) :=
  match resolve_hash thash chash with
  | .error err => .error err
  | .ok hash =>
    let load_threshold := if the_load_threshold ≤ 0 then 1 else the_load_threshold
    .ok (il.foldl (fun t e => (put code t e.1 e.2).2)
      { hash := hash, map := none, load_threshold := load_threshold, bins := 1, used := 0,
        mod_count := 0 })

/-- The copy constructor `HashMap(const HashMap& to_copy, double the_load_threshold, chash)`. -/
def ctor_copy (code : hashfunc → K → Int) (thash : hashfunc) (to_copy : HashMap K V)
    (the_load_threshold : ℚ) (chash : hashfunc) : Except Error (HashMap K V) :=
  let hash0 := if thash ≠ undefinedhash then thash else chash
  let hash := if hash0 = undefinedhash then to_copy.hash else hash0
  if thash ≠ undefinedhash ∧ chash ≠ undefinedhash ∧ chash ≠ thash then
    .error Error.TemplateFunctionError
  else
    let load_threshold :=
      if the_load_threshold ≤ 0 then to_copy.load_threshold else the_load_threshold
    let this : HashMap K V :=
      { hash := hash, map := none, load_threshold := load_threshold, bins := 1, used := 0,
        mod_count := 0 }
    if hash = to_copy.hash then
      .ok { this with used := to_copy.used, bins := to_copy.bins,
                      map := Bucket.copy_hash_table to_copy.map to_copy.bins }
    else
      .ok ((traversal to_copy).foldl (fun t e => (put code t e.1 e.2).2) this)

/-! ### `HashMap::Iterator` -/

/-- The constructor `Iterator(iterate_over, from_begin)`. -/
def Iterator_ctor (m : HashMap K V) (from_begin : Bool) : Iterator :=
  if from_begin = true ∧ m.empty = false then
    { current := Bucket.advance_cursors m.bins m.table (0, some 0),
      expected_mod_count := m.mod_count, can_erase := true }
  else
    { current := (-1, none), expected_mod_count := m.mod_count, can_erase := true }

def begin (m : HashMap K V) : Iterator :=
  Iterator_ctor m true

def end_ (m : HashMap K V) : Iterator :=
  Iterator_ctor m false

/-- The method `Iterator::erase()` of a cursor bound to `m`; the value returned is `none`
when the node under the cursor is a trailer. -/
def Iterator_erase (m : HashMap K V) (it : Iterator) :
    Except Error (Option (K × V) × Iterator × HashMap K V) :=
  if it.expected_mod_count ≠ m.mod_count then .error Error.ConcurrentModificationError
  else if it.can_erase = false then .error Error.CannotEraseError
  else if it.current.1 = -1 then .error Error.CannotEraseError
  else
    let returnVal := Bucket.node_value m.table it.current
    let m2 : HashMap K V :=
      { m with map := some (Bucket.splice_at m.table it.current),
               used := m.used - 1, mod_count := m.mod_count + 1 }
    .ok (returnVal,
         { current := Bucket.advance_cursors m2.bins m2.table it.current,
           expected_mod_count := m2.mod_count, can_erase := false },
         m2)

/-- The prefix `operator++` of a cursor bound to `m`. -/
def Iterator_inc (m : HashMap K V) (it : Iterator) : Except Error Iterator :=
  if it.expected_mod_count ≠ m.mod_count then .error Error.ConcurrentModificationError
  else if it.current.1 = -1 then .ok it
  else if it.can_erase = true then
    .ok { it with current := Bucket.advance_cursors m.bins m.table (Bucket.next_node it.current) }
  else .ok { it with can_erase := true }

/-- The method `operator*` of a cursor bound to `m`. -/
def Iterator_deref (m : HashMap K V) (it : Iterator) : Except Error (Option (K × V)) :=
  if it.expected_mod_count ≠ m.mod_count then .error Error.ConcurrentModificationError
  else if it.can_erase = false ∨ it.current.1 = -1 then .error Error.IteratorPositionIllegal
  else .ok (Bucket.node_value m.table it.current)

/-- The method `operator->` of a cursor bound to `m`: the same tests as `operator*`, then
the address of the same value. -/
def Iterator_arrow (m : HashMap K V) (it : Iterator) : Except Error (Option (K × V)) :=
  if it.expected_mod_count ≠ m.mod_count then .error Error.ConcurrentModificationError
  else if it.can_erase = false ∨ it.current.1 = -1 then .error Error.IteratorPositionIllegal
  else .ok (Bucket.node_value m.table it.current)

/-- The method `operator ==` of the cursor `it`, bound to the table `m` at address
`ref_map`, against the cursor `rhs`, which holds the table address `rhs_ref_map`.  The
`dynamic_cast` of `rhs` to its own type cannot yield 0, so `IteratorTypeError` is not
thrown. -/
def Iterator_eq (m : HashMap K V) (ref_map : Nat) (it : Iterator) (rhs_ref_map : Nat)
    (rhs : Iterator) : Except Error Bool :=
  if m.mod_count ≠ it.expected_mod_count then .error Error.ConcurrentModificationError
  else if ref_map ≠ rhs_ref_map then .error Error.ComparingDifferentIteratorsError
  else .ok (decide (it.current = rhs.current))

/-- The method `operator !=` of the cursor `it`, bound to the table `m` at address
`ref_map`, against the cursor `rhs`, which holds the table address `rhs_ref_map`. -/
def Iterator_ne (m : HashMap K V) (ref_map : Nat) (it : Iterator) (rhs_ref_map : Nat)
    (rhs : Iterator) : Except Error Bool :=
  if m.mod_count ≠ it.expected_mod_count then .error Error.ConcurrentModificationError
  else if ref_map ≠ rhs_ref_map then .error Error.ComparingDifferentIteratorsError
  else .ok (decide (it.current ≠ rhs.current))

/-- The loop `for (; i != m.end(); ++i) visit(*i)` on the table `m` at address `ref_map`,
one iteration per unit of fuel: `none` when the fuel runs out before the loop ends, else
the exception thrown or the values visited, in order. -/
def range_for_loop (m : HashMap K V) (ref_map : Nat) :
    Nat → Iterator → Option (Except Error (List (Option (K × V))))
  | 0, _ => none
  | fuel + 1, i =>
    match Iterator_ne m ref_map i ref_map (end_ m) with
    | .error err => some (.error err)
    | .ok false => some (.ok [])
    | .ok true =>
      match Iterator_deref m i with
      | .error err => some (.error err)
      | .ok v =>
        match Iterator_inc m i with
        | .error err => some (.error err)
        | .ok i2 => (range_for_loop m ref_map fuel i2).map (fun r => r.map (fun l => v :: l))

/-- The loop `for (Iterator i = m.begin(); i != m.end(); ++i) visit(*i)`. -/
def range_for (m : HashMap K V) (ref_map : Nat) (fuel : Nat) :
    Option (Except Error (List (Option (K × V)))) :=
  range_for_loop m ref_map fuel (begin m)

/-- The loop `for (c = begin(); c != end(); ++c) if (p(*c)) c.erase();` on the table `m` at
address `ref_map`, one iteration per unit of fuel.  The result is `none` when the fuel runs
out, or when `*c` reads the payload of a trailer, which the model does not hold; else the
exception thrown, or the values dereferenced, in order, and the table. -/
def erase_if_loop (p : K × V → Bool) (ref_map : Nat) :
    Nat → HashMap K V → Iterator → Option (Except Error (List (K × V) × HashMap K V))
  | 0, _, _ => none
  | fuel + 1, m, c =>
    match Iterator_ne m ref_map c ref_map (end_ m) with
    | .error err => some (.error err)
    | .ok false => some (.ok ([], m))
    | .ok true =>
      match Iterator_deref m c with
      | .error err => some (.error err)
      | .ok none => none
      | .ok (some v) =>
        if p v = true then
          match Iterator_erase m c with
          | .error err => some (.error err)
          | .ok (_, c2, m2) =>
            match Iterator_inc m2 c2 with
            | .error err => some (.error err)
            | .ok c3 =>
              (erase_if_loop p ref_map fuel m2 c3).map
                (fun r => r.map (fun x => (v :: x.1, x.2)))
        else
          match Iterator_inc m c with
          | .error err => some (.error err)
          | .ok c2 =>
            (erase_if_loop p ref_map fuel m c2).map
              (fun r => r.map (fun x => (v :: x.1, x.2)))

/-- The loop above, started at `begin()`. -/
def erase_if (p : K × V → Bool) (m : HashMap K V) (ref_map : Nat) (fuel : Nat) :
    Option (Except Error (List (K × V) × HashMap K V)) :=
  erase_if_loop p ref_map fuel m (begin m)

/-! ### Calls together with the state in which they end

The functions above return no state when a call throws.  The functions below return the
outcome of a call together with the state of the table and of the cursor in which the call
ends, be it by `return` or by `throw`: every assignment of the source updates the state,
in the order of the source. -/

/-- The method `erase(key)`: `throw ics::KeyError` is reached with no assignment executed. -/
def erase_exec (code : hashfunc → K → Int) (m : HashMap K V) (key : K) :
    Except Error V × HashMap K V :=
  match find_key code m key with
  | some (i, e) =>
    let returnVal := e.2
    let m1 : HashMap K V :=
      { m with map := some (Bucket.splice m.table (hash_compress code m key).toNat i) }
    let m2 : HashMap K V := { m1 with used := m1.used - 1 }
    let m3 : HashMap K V := { m2 with mod_count := m2.mod_count + 1 }
    (.ok returnVal, m3)
  | none => (.error Error.KeyError, m)

/-- The const `operator[]`: a `const` method whose body holds no assignment. -/
def operator_index_const_exec (code : hashfunc → K → Int) (m : HashMap K V) (key : K) :
    Except Error V × HashMap K V :=
  match find_key code m key with
  | some (_, e) => (.ok e.2, m)
  | none => (.error Error.KeyError, m)

/-- The method `Iterator::erase()`: the three `throw` statements precede `can_erase = false;`,
the first assignment. -/
def Iterator_erase_exec (m : HashMap K V) (it : Iterator) :
    Except Error (Option (K × V)) × Iterator × HashMap K V :=
  if it.expected_mod_count ≠ m.mod_count then (.error Error.ConcurrentModificationError, it, m)
  else if it.can_erase = false then (.error Error.CannotEraseError, it, m)
  else if it.current.1 = -1 then (.error Error.CannotEraseError, it, m)
  else
    let it1 : Iterator := { it with can_erase := false }
    let returnVal := Bucket.node_value m.table it1.current
    let m1 : HashMap K V := { m with map := some (Bucket.splice_at m.table it1.current) }
    let m2 : HashMap K V := { m1 with used := m1.used - 1 }
    let m3 : HashMap K V := { m2 with mod_count := m2.mod_count + 1 }
    let it2 : Iterator := { it1 with expected_mod_count := m3.mod_count }
    let it3 : Iterator :=
      { it2 with current := Bucket.advance_cursors m3.bins m3.table it2.current }
    (.ok returnVal, it3, m3)

/-- The prefix `operator++`, which returns `*this`. -/
def Iterator_inc_exec (m : HashMap K V) (it : Iterator) :
    Except Error Unit × Iterator × HashMap K V :=
  if it.expected_mod_count ≠ m.mod_count then (.error Error.ConcurrentModificationError, it, m)
  else if it.current.1 = -1 then (.ok (), it, m)
  else if it.can_erase = true then
    let it1 : Iterator := { it with current := Bucket.next_node it.current }
    let it2 : Iterator :=
      { it1 with current := Bucket.advance_cursors m.bins m.table it1.current }
    (.ok (), it2, m)
  else (.ok (), { it with can_erase := true }, m)

/-- The postfix `operator++(int)`, which returns `*this` at the end position and the copy
`to_return` made before the step otherwise. -/
def Iterator_post_inc_exec (m : HashMap K V) (it : Iterator) :
    Except Error Iterator × Iterator × HashMap K V :=
  if it.expected_mod_count ≠ m.mod_count then (.error Error.ConcurrentModificationError, it, m)
  else if it.current.1 = -1 then (.ok it, it, m)
  else
    let to_return := it
    if it.can_erase = true then
      let it1 : Iterator := { it with current := Bucket.next_node it.current }
      let it2 : Iterator :=
        { it1 with current := Bucket.advance_cursors m.bins m.table it1.current }
      (.ok to_return, it2, m)
    else (.ok to_return, { it with can_erase := true }, m)

/-- The method `operator*`: a `const` method whose body holds no assignment. -/
def Iterator_deref_exec (m : HashMap K V) (it : Iterator) :
    Except Error (Option (K × V)) × Iterator × HashMap K V :=
  if it.expected_mod_count ≠ m.mod_count then (.error Error.ConcurrentModificationError, it, m)
  else if it.can_erase = false ∨ it.current.1 = -1 then
    (.error Error.IteratorPositionIllegal, it, m)
  else (.ok (Bucket.node_value m.table it.current), it, m)

/-- The method `operator->`: a `const` method whose body holds no assignment. -/
def Iterator_arrow_exec (m : HashMap K V) (it : Iterator) :
    Except Error (Option (K × V)) × Iterator × HashMap K V :=
  if it.expected_mod_count ≠ m.mod_count then (.error Error.ConcurrentModificationError, it, m)
  else if it.can_erase = false ∨ it.current.1 = -1 then
    (.error Error.IteratorPositionIllegal, it, m)
  else (.ok (Bucket.node_value m.table it.current), it, m)

/-- The method `operator ==`: a `const` method on a `const` argument, whose body holds no
assignment to either cursor or to the table. -/
def Iterator_eq_exec (m : HashMap K V) (ref_map : Nat) (it : Iterator) (rhs_ref_map : Nat)
    (rhs : Iterator) : Except Error Bool × Iterator × Iterator × HashMap K V :=
  if m.mod_count ≠ it.expected_mod_count then
    (.error Error.ConcurrentModificationError, it, rhs, m)
  else if ref_map ≠ rhs_ref_map then (.error Error.ComparingDifferentIteratorsError, it, rhs, m)
  else (.ok (decide (it.current = rhs.current)), it, rhs, m)

/-- The method `operator !=`: a `const` method on a `const` argument, whose body holds no
assignment to either cursor or to the table. -/
def Iterator_ne_exec (m : HashMap K V) (ref_map : Nat) (it : Iterator) (rhs_ref_map : Nat)
    (rhs : Iterator) : Except Error Bool × Iterator × Iterator × HashMap K V :=
  if m.mod_count ≠ it.expected_mod_count then
    (.error Error.ConcurrentModificationError, it, rhs, m)
  else if ref_map ≠ rhs_ref_map then (.error Error.ComparingDifferentIteratorsError, it, rhs, m)
  else (.ok (decide (it.current ≠ rhs.current)), it, rhs, m)

/-- The cursor `it` is usable on `m`: its snapshot is not ahead of the mutation counter,
and if it is the counter, the position is the end position or a live node. -/
def Cursor_ok (m : HashMap K V) (it : Iterator) : Prop :=
  it.expected_mod_count ≤ m.mod_count ∧
    (it.expected_mod_count = m.mod_count → Bucket.End_or_live m.table it.current)

instance instDecidableCursorOk (m : HashMap K V) (it : Iterator) : Decidable (Cursor_ok m it) :=
  inferInstanceAs (Decidable (it.expected_mod_count ≤ m.mod_count ∧
    (it.expected_mod_count = m.mod_count → Bucket.End_or_live m.table it.current)))

/-- Every operation of the cursor `it`, bound to `m`, throws `ConcurrentModificationError`. -/
def fails_fast (m : HashMap K V) (it : Iterator) : Prop :=
  Iterator_inc m it = .error Error.ConcurrentModificationError ∧
  Iterator_deref m it = .error Error.ConcurrentModificationError ∧
  Iterator_arrow m it = .error Error.ConcurrentModificationError ∧
  Iterator_erase m it = .error Error.ConcurrentModificationError

/-- The step from `m` to `m2` strictly increases the mutation counter, and every cursor
whose snapshot is at most the counter of `m` (every cursor created on the table up to then)
fails fast on `m2`. -/
def invalidates (m m2 : HashMap K V) : Prop :=
  m.mod_count < m2.mod_count ∧
    ∀ it : Iterator, it.expected_mod_count ≤ m.mod_count → fails_fast m2 it

/-! ### Representation invariant of `HashMap` -/

/-- The live entries of the table, bin after bin. -/
def entries (m : HashMap K V) : List (K × V) :=
  m.table.flatten

/-- The bin in which `hash_compress` places an entry. -/
def place (code : hashfunc → K → Int) (m : HashMap K V) (e : K × V) : Nat :=
  (hash_compress code m e.1).toNat

/-- The shape of the bucket array: at least one bin, an allocated array has `bins` bins,
every entry lies in the bin `hash_compress` selects for its key, and no key occurs twice. -/
def Shape (code : hashfunc → K → Int) (m : HashMap K V) : Prop :=
  1 ≤ m.bins ∧ (m.map.isSome = true → m.table.length = m.bins) ∧
    Bucket.Placed (place code m) m.table ∧ (m.entries.map Prod.fst).Nodup

/-- The representation invariant: the shape above, and `used` counts the live entries. -/
def WF (code : hashfunc → K → Int) (m : HashMap K V) : Prop :=
  Shape code m ∧ m.used = (m.entries.length : Int)

/-- The value stored under a key, as `find_key` sees it. -/
def get? (code : hashfunc → K → Int) (m : HashMap K V) (key : K) : Option V :=
  (find_key code m key).map (fun p => p.2.2)

instance instDecidableShape (code : hashfunc → K → Int) (m : HashMap K V) :
    Decidable (Shape code m) :=
  inferInstanceAs (Decidable (1 ≤ m.bins ∧ (m.map.isSome = true → m.table.length = m.bins) ∧
    Bucket.Placed (place code m) m.table ∧ (m.entries.map Prod.fst).Nodup))

instance instDecidableWF (code : hashfunc → K → Int) (m : HashMap K V) :
    Decidable (WF code m) :=
  inferInstanceAs (Decidable (Shape code m ∧ m.used = (m.entries.length : Int)))

/-! ### `HashMap` operations with checked reads -/

/-- The method `find_key` with checked reads. -/
def find_key_checked (code : hashfunc → K → Int) (m : HashMap K V) (key : K) :
    Option (Option (Nat × (K × V))) :=
  match m.map with
  | none => some none
  | some _ =>
    match Bucket.read_bin m.map m.bins (hash_compress code m key) with
    | none => none
    | some chain => Bucket.find_checked Prod.fst key chain (chain.length + 1) 0

/-- The loop of `has_value` over the bins in the list given. -/
def has_value_loop [DecidableEq V] (m : HashMap K V) (value : V) : List Nat → Option Bool
  | [] => some false
  | i :: rest =>
    match Bucket.read_bin m.map m.bins (i : Int) with
    | none => none
    | some chain =>
      match Bucket.find_checked Prod.snd value chain (chain.length + 1) 0 with
      | none => none
      | some (some _) => some true
      | some none => has_value_loop m value rest

/-- The method `has_value` with checked reads. -/
def has_value_checked [DecidableEq V] (m : HashMap K V) (value : V) : Option Bool :=
  if m.empty = true then some false else has_value_loop m value (List.range m.bins)

/-- The reads of the method `str`: for `used > 0` every `map[i]`, `i = 0 .. bins-1`, whose
chain is then printed from its head to its trailer; the result is the chains printed. -/
def str_checked (m : HashMap K V) : Option (List (List (K × V))) :=
  if m.used > 0 then
    (List.range m.bins).mapM (fun (i : Nat) =>
      match Bucket.read_bin m.map m.bins (i : Int) with
      | none => none
      | some chain => Bucket.walk_checked chain (chain.length + 1) 0)
  else some []

/-- The method `ensure_load_threshold` with checked reads. -/
def ensure_load_threshold_checked (code : hashfunc → K → Int) (m : HashMap K V)
    (new_used : Int) : Option (HashMap K V) :=
  let map0 : List (List (K × V)) :=
    match m.map with
    | none => Bucket.fresh m.bins
    | some bs => bs
  if (new_used : ℚ) / (m.bins : ℚ) ≤ m.load_threshold then
    some { m with map := some map0 }
  else
    let m2 : HashMap K V := { m with bins := m.bins * 2 }
    match Bucket.rehash_checked (fun e => hash_compress code m2 e.1) map0 m.bins m2.bins with
    | none => none
    | some tempMap => some { m2 with map := some tempMap }

/-- The method `put` with checked reads. -/
def put_checked (code : hashfunc → K → Int) (m : HashMap K V) (key : K) (value : V) :
    Option (V × HashMap K V) :=
  match find_key_checked code m key with
  | none => none
  | some temp =>
    let m1 : HashMap K V := { m with mod_count := m.mod_count + 1 }
    match temp with
    | none =>
      match ensure_load_threshold_checked code { m1 with used := m1.used + 1 } (m1.used + 1) with
      | none => none
      | some m2 =>
        match Bucket.read_bin m2.map m2.bins (hash_compress code m2 key) with
        | none => none
        | some _ =>
          some (value, { m2 with map := some (Bucket.push_front m2.table
            (hash_compress code m2 key).toNat (key, value)) })
    | some (i, e) =>
      let b := (hash_compress code m1 key).toNat
      some (e.2, { m1 with map := some (m1.table.set b ((m1.table.getD b []).set i (e.1, value))) })

/-- The non-const `operator[]` with checked reads. -/
def operator_index_checked [Inhabited V] (code : hashfunc → K → Int) (m : HashMap K V)
    (key : K) : Option (V × HashMap K V) :=
  match find_key_checked code m key with
  | none => none
  | some none =>
    let m1 : HashMap K V := { m with mod_count := m.mod_count + 1 }
    match ensure_load_threshold_checked code { m1 with used := m1.used + 1 } (m1.used + 1) with
    | none => none
    | some m2 =>
      match Bucket.read_bin m2.map m2.bins (hash_compress code m2 key) with
      | none => none
      | some _ =>
        some (default, { m2 with map := some (Bucket.push_front m2.table
          (hash_compress code m2 key).toNat (key, default)) })
  | some (some (_, e)) => some (e.2, m)

/-- The constructor `Iterator(iterate_over, from_begin)` with checked reads. -/
def Iterator_ctor_checked (m : HashMap K V) (from_begin : Bool) : Option Iterator :=
  if from_begin = true ∧ m.empty = false then
    match Bucket.read_bin m.map m.bins 0 with
    | none => none
    | some _ =>
      (Bucket.advance_cursors_checked m.bins m.map (0, some 0)).map
        (fun c => { current := c, expected_mod_count := m.mod_count, can_erase := true })
  else some { current := (-1, none), expected_mod_count := m.mod_count, can_erase := true }

/-- The method `begin()` with checked reads. -/
def begin_checked (m : HashMap K V) : Option Iterator :=
  Iterator_ctor_checked m true

/-- The prefix `operator++` with checked reads. -/
def Iterator_inc_checked (m : HashMap K V) (it : Iterator) : Option (Except Error Iterator) :=
  if it.expected_mod_count ≠ m.mod_count then some (.error Error.ConcurrentModificationError)
  else if it.current.1 = -1 then some (.ok it)
  else if it.can_erase = true then
    match Bucket.deref_cursor m.table it.current with
    | none => none
    | some _ =>
      (Bucket.advance_cursors_checked m.bins m.map (Bucket.next_node it.current)).map
        (fun c => .ok { it with current := c })
  else some (.ok { it with can_erase := true })

/-- The method `Iterator::erase()` with checked reads: `current.second->value`,
`current.second->next` and `*(current.second->next)` are dereferences. -/
def Iterator_erase_checked (m : HashMap K V) (it : Iterator) :
    Option (Except Error (Option (K × V) × Iterator × HashMap K V)) :=
  if it.expected_mod_count ≠ m.mod_count then some (.error Error.ConcurrentModificationError)
  else if it.can_erase = false then some (.error Error.CannotEraseError)
  else if it.current.1 = -1 then some (.error Error.CannotEraseError)
  else
    match Bucket.deref_cursor m.table it.current,
      Bucket.deref_cursor m.table (Bucket.next_node it.current) with
    | some _, some _ =>
      let returnVal := Bucket.node_value m.table it.current
      let m2 : HashMap K V :=
        { m with map := some (Bucket.splice_at m.table it.current),
                 used := m.used - 1, mod_count := m.mod_count + 1 }
      (Bucket.advance_cursors_checked m2.bins m2.map it.current).map
        (fun c => .ok (returnVal,
          { current := c, expected_mod_count := m2.mod_count, can_erase := false }, m2))
    | _, _ => none

/-- The method `operator*` with `current.second->value` read checked. -/
def Iterator_deref_checked (m : HashMap K V) (it : Iterator) :
    Option (Except Error (Option (K × V))) :=
  if it.expected_mod_count ≠ m.mod_count then some (.error Error.ConcurrentModificationError)
  else if it.can_erase = false ∨ it.current.1 = -1 then
    some (.error Error.IteratorPositionIllegal)
  else
    match Bucket.deref_cursor m.table it.current with
    | none => none
    | some _ => some (.ok (Bucket.node_value m.table it.current))

/-- The tables of the class `HashMap<KEY,T,thash>` that the public operations produce: the
results of the constructors, and of `put`, `erase`, `clear`, the non-const `operator[]`,
`operator=` and the cursor `erase()` (of a usable cursor) applied to such tables.
`put_all` is a sequence of `put` calls and growth is a part of `put` and `operator[]`. -/
inductive Reachable [Inhabited V] (code : hashfunc → K → Int) (thash : hashfunc) :
    HashMap K V → Prop
  | by_ctor_default (t : ℚ) (chash : hashfunc) (m : HashMap K V)
      (h : HashMap.ctor_default code thash t chash = .ok m) : Reachable code thash m
  | by_ctor_bins (initial_bins : Int) (t : ℚ) (chash : hashfunc) (m : HashMap K V)
      (h : HashMap.ctor_bins code thash initial_bins t chash = .ok m) : Reachable code thash m
  | by_ctor_il (il : List (K × V)) (t : ℚ) (chash : hashfunc) (m : HashMap K V)
      (h : HashMap.ctor_il code thash il t chash = .ok m) : Reachable code thash m
  | by_ctor_copy (b : HashMap K V) (t : ℚ) (chash : hashfunc) (a : HashMap K V)
      (hb : Reachable code thash b)
      (h : HashMap.ctor_copy code thash b t chash = .ok a) : Reachable code thash a
  | by_put (m : HashMap K V) (k : K) (v : V) (hm : Reachable code thash m) :
      Reachable code thash (HashMap.put code m k v).2
  | by_erase (m : HashMap K V) (k : K) (v : V) (m2 : HashMap K V)
      (hm : Reachable code thash m) (h : HashMap.erase code m k = .ok (v, m2)) :
      Reachable code thash m2
  | by_clear (m : HashMap K V) (hm : Reachable code thash m) :
      Reachable code thash (HashMap.clear m)
  | by_operator_index (m : HashMap K V) (k : K) (hm : Reachable code thash m) :
      Reachable code thash (HashMap.operator_index code m k).2
  | by_operator_assign (a b : HashMap K V) (ha : Reachable code thash a)
      (hb : Reachable code thash b) :
      Reachable code thash (HashMap.operator_assign code a (.other b))
  | by_Iterator_erase (m : HashMap K V) (it : Iterator) (r : Option (K × V)) (it2 : Iterator)
      (m2 : HashMap K V) (hm : Reachable code thash m) (hc : HashMap.Cursor_ok m it)
      (h : HashMap.Iterator_erase m it = .ok (r, it2, m2)) : Reachable code thash m2

end HashMap

/-! ## `HashSet` -/

/-- The instance variables of `HashSet<T,thash>`. -/
structure HashSet (T : Type) where
  hash : hashfunc
  set : Option (List (List T))
  load_threshold : ℚ
  bins : Nat
  used : Int
  mod_count : Int

namespace HashSet

variable {T : Type} [DecidableEq T]

/-- The bucket array as read by `set[i]`; a `nullptr` array has no bins. -/
def table (s : HashSet T) : List (List T) :=
  s.set.getD []

def empty (s : HashSet T) : Bool :=
  decide (s.used = 0)

def size (s : HashSet T) : Int :=
  s.used

/-- The statements `int result = hash(element) % bins; if (result < 0) result = result * -1;`
with the truncating `%` of C++. -/
def hash_compress (code : hashfunc → T → Int) (s : HashSet T) (element : T) : Int :=
  let result := Int.tmod (code s.hash element) (s.bins : Int)
  if result < 0 then result * -1 else result

def find_element (code : hashfunc → T → Int) (s : HashSet T) (element : T) :
    Option (Nat × T) :=
  match s.set with
  | none => none
  | some bs => Bucket.find id element (bs.getD (hash_compress code s element).toNat [])

def contains (code : hashfunc → T → Int) (s : HashSet T) (element : T) : Bool :=
  (find_element code s element).isSome

def contains_all (code : hashfunc → T → Int) (s : HashSet T) (i : List T) : Bool :=
  i.all (fun v => contains code s v)

def ensure_load_threshold (code : hashfunc → T → Int) (s : HashSet T) (new_used : Int) :
    HashSet T :=
  let set0 : List (List T) :=
    match s.set with
    | none => Bucket.fresh s.bins
    | some bs => bs
  if (new_used : ℚ) / (s.bins : ℚ) ≤ s.load_threshold then
    { s with set := some set0 }
  else
    let s2 : HashSet T := { s with bins := s.bins * 2 }
    let newSet := Bucket.rehash (fun e => (hash_compress code s2 e).toNat) set0 s2.bins
    { s2 with set := some newSet }

def insert (code : hashfunc → T → Int) (s : HashSet T) (element : T) : Int × HashSet T :=
  match find_element code s element with
  | some _ => (0, s)
  | none =>
    let s1 : HashSet T := { s with mod_count := s.mod_count + 1 }
    let s2 := ensure_load_threshold code { s1 with used := s1.used + 1 } (s1.used + 1)
    let index := (hash_compress code s2 element).toNat
    (1, { s2 with set := some (Bucket.push_front s2.table index element) })

def erase (code : hashfunc → T → Int) (s : HashSet T) (element : T) : Int × HashSet T :=
  match find_element code s element with
  | none => (0, s)
  | some (i, _) =>
    let b := (hash_compress code s element).toNat
    (1, { s with set := some (Bucket.splice s.table b i),
                 used := s.used - 1, mod_count := s.mod_count + 1 })

/-- The call `delete_hash_table(set,bins)` leaves `set == nullptr`. -/
def clear (s : HashSet T) : HashSet T :=
  { s with set := none, used := 0, mod_count := s.mod_count + 1 }

/-- The elements in the order in which `for (const T& e : s)` visits them: nothing when
`empty()`, else bin 0 from its head to its trailer, then bin 1, and so on. -/
def traversal (s : HashSet T) : List T :=
  if s.used = 0 then [] else s.table.flatten

/-- The method `insert_all` over a sequence of elements; the first component is `count`. -/
def insert_all (code : hashfunc → T → Int) (s : HashSet T) (i : List T) : Int × HashSet T :=
  i.foldl (fun acc e => (acc.1 + (insert code acc.2 e).1, (insert code acc.2 e).2)) (0, s)

/-- The method `erase_all` over a sequence of elements; the first component is `count`. -/
def erase_all (code : hashfunc → T → Int) (s : HashSet T) (i : List T) : Int × HashSet T :=
  i.foldl (fun acc e => (acc.1 + (erase code acc.2 e).1, (erase code acc.2 e).2)) (0, s)

def operator_assign (code : hashfunc → T → Int) (this : HashSet T) :
    Rhs (HashSet T) → HashSet T
  | .self => this
  | .other rhs =>
    let t := clear this
    let t : HashSet T :=
      if t.hash = rhs.hash then
        { t with set := Bucket.copy_hash_table rhs.set rhs.bins, used := rhs.used,
                 bins := rhs.bins }
      else
        (insert_all code { t with hash := rhs.hash } (traversal rhs)).2
    { t with mod_count := t.mod_count + 1 }

def operator_eq (code : hashfunc → T → Int) (this : HashSet T) : Rhs (HashSet T) → Bool
  | .self => true
  | .other rhs =>
    if this.used ≠ rhs.used then false
    else (traversal rhs).all (fun e => (find_element code this e).isSome)

/-- The shared prologue of the constructors: `hash(thash != undefinedhash ? thash : chash)`
and the two `TemplateFunctionError` tests. -/
def resolve_hash (thash chash : hashfunc) : Except Error hashfunc :=
  let hash := if thash ≠ undefinedhash then thash else chash
  if hash = undefinedhash then .error Error.TemplateFunctionError
  else if thash ≠ undefinedhash ∧ chash ≠ undefinedhash ∧ thash ≠ chash then
    .error Error.TemplateFunctionError
  else .ok hash

/-- The constructor `HashSet(double the_load_threshold, chash)`. -/
def ctor_default (code : hashfunc → T → Int) (thash : hashfunc) (the_load_threshold : ℚ)
    (chash : hashfunc) : Except Error (HashSet T) :=
  match resolve_hash thash chash with
  | .error err => .error err
  | .ok hash =>
    let load_threshold := if the_load_threshold ≤ 0 then 1 else the_load_threshold
    .ok (ensure_load_threshold code
      { hash := hash, set := none, load_threshold := load_threshold, bins := 1, used := 0,
        mod_count := 0 } 0)

/-- The constructor `HashSet(int initial_bins, double the_load_threshold, chash)`. -/
def ctor_bins (code : hashfunc → T → Int) (thash : hashfunc) (initial_bins : Int)
    (the_load_threshold : ℚ) (chash : hashfunc) : Except Error (HashSet T) :=
  match resolve_hash thash chash with
  | .error err => .error err
  | .ok hash =>
    let load_threshold := if the_load_threshold ≤ 0 then 1 else the_load_threshold
    let bins := if initial_bins < 1 then 1 else initial_bins.toNat
    .ok (ensure_load_threshold code
      { hash := hash, set := none, load_threshold := load_threshold, bins := bins, used := 0,
        mod_count := 0 } 0)

/-- The constructors from an `initializer_list` and from an `Iterable`, the sequence given
as the list of its elements. -/
def ctor_il (code : hashfunc → T → Int) (thash : hashfunc) (il : List T)
    (the_load_threshold : ℚ) (chash : hashfunc) : Except Error (HashSet T) :=
  match resolve_hash thash chash with
  | .error err => .error err
  | .ok hash =>
    let load_threshold := if the_load_threshold ≤ 0 then 1 else the_load_threshold
    .ok (il.foldl (fun t e => (insert code t e).2)
      { hash := hash, set := none, load_threshold := load_threshold, bins := 1, used := 0,
        mod_count := 0 })

/-- The copy constructor `HashSet(const HashSet& to_copy, double the_load_threshold, chash)`. -/
def ctor_copy (code : hashfunc → T → Int) (thash : hashfunc) (to_copy : HashSet T)
    (the_load_threshold : ℚ) (chash : hashfunc) : Except Error (HashSet T) :=
  let hash0 := if thash ≠ undefinedhash then thash else chash
  let hash := if hash0 = undefinedhash then to_copy.hash else hash0
  if thash ≠ undefinedhash ∧ chash ≠ undefinedhash ∧ thash ≠ chash then
    .error Error.TemplateFunctionError
  else
    let load_threshold := if the_load_threshold ≤ 0 then 1 else the_load_threshold
    let this : HashSet T :=
      { hash := hash, set := none, load_threshold := load_threshold, bins := 1, used := 0,
        mod_count := 0 }
    if hash = to_copy.hash then
      .ok { this with used := to_copy.used, bins := to_copy.bins,
                      set := Bucket.copy_hash_table to_copy.set to_copy.bins }
    else
      .ok ((traversal to_copy).foldl (fun t e => (insert code t e).2) this)

/-! ### `HashSet::Iterator` -/

/-- The constructor `Iterator(iterate_over, begin)`. -/
def Iterator_ctor (s : HashSet T) (from_begin : Bool) : Iterator :=
  if from_begin = true ∧ s.empty = false then
    { current := Bucket.advance_cursors s.bins s.table (0, some 0),
      expected_mod_count := s.mod_count, can_erase := true }
  else
    { current := (-1, none), expected_mod_count := s.mod_count, can_erase := true }

def begin (s : HashSet T) : Iterator :=
  Iterator_ctor s true

def end_ (s : HashSet T) : Iterator :=
  Iterator_ctor s false

/-- The method `Iterator::erase()` of a cursor bound to `s`; the value returned is `none`
when the node under the cursor is a trailer. -/
def Iterator_erase (s : HashSet T) (it : Iterator) :
    Except Error (Option T × Iterator × HashSet T) :=
  if it.expected_mod_count ≠ s.mod_count then .error Error.ConcurrentModificationError
  else if it.can_erase = false then .error Error.CannotEraseError
  else if it.current.1 = -1 then .error Error.CannotEraseError
  else
    let returnVal := Bucket.node_value s.table it.current
    let s2 : HashSet T :=
      { s with set := some (Bucket.splice_at s.table it.current),
               used := s.used - 1, mod_count := s.mod_count + 1 }
    .ok (returnVal,
         { current := Bucket.advance_cursors s2.bins s2.table it.current,
           expected_mod_count := s2.mod_count, can_erase := false },
         s2)

/-- The prefix `operator++` of a cursor bound to `s`. -/
def Iterator_inc (s : HashSet T) (it : Iterator) : Except Error Iterator :=
  if it.expected_mod_count ≠ s.mod_count then .error Error.ConcurrentModificationError
  else if it.current.1 = -1 then .ok it
  else if it.can_erase = true then
    .ok { it with current := Bucket.advance_cursors s.bins s.table (Bucket.next_node it.current) }
  else .ok { it with can_erase := true }

/-- The method `operator*` of a cursor bound to `s`. -/
def Iterator_deref (s : HashSet T) (it : Iterator) : Except Error (Option T) :=
  if it.expected_mod_count ≠ s.mod_count then .error Error.ConcurrentModificationError
  else if it.can_erase = false ∨ it.current.1 = -1 then .error Error.IteratorPositionIllegal
  else .ok (Bucket.node_value s.table it.current)

/-- The method `operator->` of a cursor bound to `s`: the same tests as `operator*`, then
the address of the same value. -/
def Iterator_arrow (s : HashSet T) (it : Iterator) : Except Error (Option T) :=
  if it.expected_mod_count ≠ s.mod_count then .error Error.ConcurrentModificationError
  else if it.can_erase = false ∨ it.current.1 = -1 then .error Error.IteratorPositionIllegal
  else .ok (Bucket.node_value s.table it.current)

/-- The method `operator ==` of the cursor `it`, bound to the table `s` at address
`ref_set`, against the cursor `rhs`, which holds the table address `rhs_ref_set`.  The
`dynamic_cast` of `rhs` to its own type cannot yield 0, so `IteratorTypeError` is not
thrown. -/
def Iterator_eq (s : HashSet T) (ref_set : Nat) (it : Iterator) (rhs_ref_set : Nat)
    (rhs : Iterator) : Except Error Bool :=
  if it.expected_mod_count ≠ s.mod_count then .error Error.ConcurrentModificationError
  else if ref_set ≠ rhs_ref_set then .error Error.ComparingDifferentIteratorsError
  else .ok (decide (it.current = rhs.current))

/-- The method `operator !=` of the cursor `it`, bound to the table `s` at address
`ref_set`, against the cursor `rhs`, which holds the table address `rhs_ref_set`. -/
def Iterator_ne (s : HashSet T) (ref_set : Nat) (it : Iterator) (rhs_ref_set : Nat)
    (rhs : Iterator) : Except Error Bool :=
  if it.expected_mod_count ≠ s.mod_count then .error Error.ConcurrentModificationError
  else if ref_set ≠ rhs_ref_set then .error Error.ComparingDifferentIteratorsError
  else .ok (decide (it.current ≠ rhs.current))

/-- The loop `for (; i != s.end(); ++i) visit(*i)` on the table `s` at address `ref_set`,
one iteration per unit of fuel: `none` when the fuel runs out before the loop ends, else
the exception thrown or the values visited, in order. -/
def range_for_loop (s : HashSet T) (ref_set : Nat) :
    Nat → Iterator → Option (Except Error (List (Option T)))
  | 0, _ => none
  | fuel + 1, i =>
    match Iterator_ne s ref_set i ref_set (end_ s) with
    | .error err => some (.error err)
    | .ok false => some (.ok [])
    | .ok true =>
      match Iterator_deref s i with
      | .error err => some (.error err)
      | .ok v =>
        match Iterator_inc s i with
        | .error err => some (.error err)
        | .ok i2 => (range_for_loop s ref_set fuel i2).map (fun r => r.map (fun l => v :: l))

/-- The loop `for (Iterator i = s.begin(); i != s.end(); ++i) visit(*i)`. -/
def range_for (s : HashSet T) (ref_set : Nat) (fuel : Nat) :
    Option (Except Error (List (Option T))) :=
  range_for_loop s ref_set fuel (begin s)

/-- The loop of `retain_all` on the table `s` at address `ref_set`, one iteration per unit
of fuel: `for (i = begin(); i != end(); ++i) if (!hset.contains(*i)) { i.erase(); ++count; }`.
The result is `none` when the fuel runs out, or when `*i` reads the payload of a trailer,
which the model does not hold; else the exception thrown, or `count` and the table. -/
def retain_all_loop (code : hashfunc → T → Int) (hset : HashSet T) (ref_set : Nat) :
    Nat → HashSet T → Iterator → Int → Option (Except Error (Int × HashSet T))
  | 0, _, _, _ => none
  | fuel + 1, s, i, count =>
    match Iterator_ne s ref_set i ref_set (end_ s) with
    | .error err => some (.error err)
    | .ok false => some (.ok (count, s))
    | .ok true =>
      match Iterator_deref s i with
      | .error err => some (.error err)
      | .ok none => none
      | .ok (some v) =>
        if contains code hset v = false then
          match Iterator_erase s i with
          | .error err => some (.error err)
          | .ok (_, i2, s2) =>
            match Iterator_inc s2 i2 with
            | .error err => some (.error err)
            | .ok i3 => retain_all_loop code hset ref_set fuel s2 i3 (count + 1)
        else
          match Iterator_inc s i with
          | .error err => some (.error err)
          | .ok i2 => retain_all_loop code hset ref_set fuel s i2 count

/-- The method `retain_all(i)` of a set of the class with type-level hash function
`thash`, for an iterable `i` of another type, given as the list of its elements: the
statement `HashSet hset(i);` calls the `Iterable` constructor of the same class with its
default arguments `the_load_threshold = 1.0` and `chash = undefinedhash`. -/
def retain_all (code : hashfunc → T → Int) (thash : hashfunc) (s : HashSet T)
    (ref_set : Nat) (i : List T) (fuel : Nat) : Option (Except Error (Int × HashSet T)) :=
  match ctor_il code thash i 1 undefinedhash with
  | .error err => some (.error err)
  | .ok hset => retain_all_loop code hset ref_set fuel s (begin s) 0

/-- The loop `for (c = begin(); c != end(); ++c) if (p(*c)) c.erase();` on the table `s` at
address `ref_set`, one iteration per unit of fuel.  The result is `none` when the fuel runs
out, or when `*c` reads the payload of a trailer, which the model does not hold; else the
exception thrown, or the values dereferenced, in order, and the table. -/
def erase_if_loop (p : T → Bool) (ref_set : Nat) :
    Nat → HashSet T → Iterator → Option (Except Error (List T × HashSet T))
  | 0, _, _ => none
  | fuel + 1, s, c =>
    match Iterator_ne s ref_set c ref_set (end_ s) with
    | .error err => some (.error err)
    | .ok false => some (.ok ([], s))
    | .ok true =>
      match Iterator_deref s c with
      | .error err => some (.error err)
      | .ok none => none
      | .ok (some v) =>
        if p v = true then
          match Iterator_erase s c with
          | .error err => some (.error err)
          | .ok (_, c2, s2) =>
            match Iterator_inc s2 c2 with
            | .error err => some (.error err)
            | .ok c3 =>
              (erase_if_loop p ref_set fuel s2 c3).map
                (fun r => r.map (fun x => (v :: x.1, x.2)))
        else
          match Iterator_inc s c with
          | .error err => some (.error err)
          | .ok c2 =>
            (erase_if_loop p ref_set fuel s c2).map
              (fun r => r.map (fun x => (v :: x.1, x.2)))

/-- The loop above, started at `begin()`. -/
def erase_if (p : T → Bool) (s : HashSet T) (ref_set : Nat) (fuel : Nat) :
    Option (Except Error (List T × HashSet T)) :=
  erase_if_loop p ref_set fuel s (begin s)

/-! ### Calls together with the state in which they end

The functions above return no state when a call throws.  The functions below return the
outcome of a call together with the state of the table and of the cursor in which the call
ends, be it by `return` or by `throw`: every assignment of the source updates the state,
in the order of the source. -/

/-- The method `Iterator::erase()`: the three `throw` statements precede `can_erase = false;`,
the first assignment. -/
def Iterator_erase_exec (s : HashSet T) (it : Iterator) :
    Except Error (Option T) × Iterator × HashSet T :=
  if it.expected_mod_count ≠ s.mod_count then (.error Error.ConcurrentModificationError, it, s)
  else if it.can_erase = false then (.error Error.CannotEraseError, it, s)
  else if it.current.1 = -1 then (.error Error.CannotEraseError, it, s)
  else
    let it1 : Iterator := { it with can_erase := false }
    let returnVal := Bucket.node_value s.table it1.current
    let s1 : HashSet T := { s with set := some (Bucket.splice_at s.table it1.current) }
    let s2 : HashSet T := { s1 with used := s1.used - 1 }
    let s3 : HashSet T := { s2 with mod_count := s2.mod_count + 1 }
    let it2 : Iterator := { it1 with expected_mod_count := s3.mod_count }
    let it3 : Iterator :=
      { it2 with current := Bucket.advance_cursors s3.bins s3.table it2.current }
    (.ok returnVal, it3, s3)

/-- The prefix `operator++`, which returns `*this`. -/
def Iterator_inc_exec (s : HashSet T) (it : Iterator) :
    Except Error Unit × Iterator × HashSet T :=
  if it.expected_mod_count ≠ s.mod_count then (.error Error.ConcurrentModificationError, it, s)
  else if it.current.1 = -1 then (.ok (), it, s)
  else if it.can_erase = true then
    let it1 : Iterator := { it with current := Bucket.next_node it.current }
    let it2 : Iterator :=
      { it1 with current := Bucket.advance_cursors s.bins s.table it1.current }
    (.ok (), it2, s)
  else (.ok (), { it with can_erase := true }, s)

/-- The postfix `operator++(int)`, which returns `*this` at the end position and the copy
`to_return` made before the step otherwise. -/
def Iterator_post_inc_exec (s : HashSet T) (it : Iterator) :
    Except Error Iterator × Iterator × HashSet T :=
  if it.expected_mod_count ≠ s.mod_count then (.error Error.ConcurrentModificationError, it, s)
  else if it.current.1 = -1 then (.ok it, it, s)
  else
    let to_return := it
    if it.can_erase = true then
      let it1 : Iterator := { it with current := Bucket.next_node it.current }
      let it2 : Iterator :=
        { it1 with current := Bucket.advance_cursors s.bins s.table it1.current }
      (.ok to_return, it2, s)
    else (.ok to_return, { it with can_erase := true }, s)

/-- The method `operator*`: a `const` method whose body holds no assignment. -/
def Iterator_deref_exec (s : HashSet T) (it : Iterator) :
    Except Error (Option T) × Iterator × HashSet T :=
  if it.expected_mod_count ≠ s.mod_count then (.error Error.ConcurrentModificationError, it, s)
  else if it.can_erase = false ∨ it.current.1 = -1 then
    (.error Error.IteratorPositionIllegal, it, s)
  else (.ok (Bucket.node_value s.table it.current), it, s)

/-- The method `operator->`: a `const` method whose body holds no assignment. -/
def Iterator_arrow_exec (s : HashSet T) (it : Iterator) :
    Except Error (Option T) × Iterator × HashSet T :=
  if it.expected_mod_count ≠ s.mod_count then (.error Error.ConcurrentModificationError, it, s)
  else if it.can_erase = false ∨ it.current.1 = -1 then
    (.error Error.IteratorPositionIllegal, it, s)
  else (.ok (Bucket.node_value s.table it.current), it, s)

/-- The method `operator ==`: a `const` method on a `const` argument, whose body holds no
assignment to either cursor or to the table. -/
def Iterator_eq_exec (s : HashSet T) (ref_set : Nat) (it : Iterator) (rhs_ref_set : Nat)
    (rhs : Iterator) : Except Error Bool × Iterator × Iterator × HashSet T :=
  if it.expected_mod_count ≠ s.mod_count then
    (.error Error.ConcurrentModificationError, it, rhs, s)
  else if ref_set ≠ rhs_ref_set then (.error Error.ComparingDifferentIteratorsError, it, rhs, s)
  else (.ok (decide (it.current = rhs.current)), it, rhs, s)

/-- The method `operator !=`: a `const` method on a `const` argument, whose body holds no
assignment to either cursor or to the table. -/
def Iterator_ne_exec (s : HashSet T) (ref_set : Nat) (it : Iterator) (rhs_ref_set : Nat)
    (rhs : Iterator) : Except Error Bool × Iterator × Iterator × HashSet T :=
  if it.expected_mod_count ≠ s.mod_count then
    (.error Error.ConcurrentModificationError, it, rhs, s)
  else if ref_set ≠ rhs_ref_set then (.error Error.ComparingDifferentIteratorsError, it, rhs, s)
  else (.ok (decide (it.current ≠ rhs.current)), it, rhs, s)

/-- The cursor `it` is usable on `s`: its snapshot is not ahead of the mutation counter,
and if it is the counter, the position is the end position or a live node. -/
def Cursor_ok (s : HashSet T) (it : Iterator) : Prop :=
  it.expected_mod_count ≤ s.mod_count ∧
    (it.expected_mod_count = s.mod_count → Bucket.End_or_live s.table it.current)

instance instDecidableCursorOk (s : HashSet T) (it : Iterator) : Decidable (Cursor_ok s it) :=
  inferInstanceAs (Decidable (it.expected_mod_count ≤ s.mod_count ∧
    (it.expected_mod_count = s.mod_count → Bucket.End_or_live s.table it.current)))

/-- Every operation of the cursor `it`, bound to `s`, throws `ConcurrentModificationError`. -/
def fails_fast (s : HashSet T) (it : Iterator) : Prop :=
  Iterator_inc s it = .error Error.ConcurrentModificationError ∧
  Iterator_deref s it = .error Error.ConcurrentModificationError ∧
  Iterator_arrow s it = .error Error.ConcurrentModificationError ∧
  Iterator_erase s it = .error Error.ConcurrentModificationError

/-- The step from `s` to `s2` strictly increases the mutation counter, and every cursor
whose snapshot is at most the counter of `s` (every cursor created on the table up to then)
fails fast on `s2`. -/
def invalidates (s s2 : HashSet T) : Prop :=
  s.mod_count < s2.mod_count ∧
    ∀ it : Iterator, it.expected_mod_count ≤ s.mod_count → fails_fast s2 it

/-! ### Representation invariant of `HashSet` -/

/-- The live elements of the table, bin after bin. -/
def entries (s : HashSet T) : List T :=
  s.table.flatten

/-- The bin in which `hash_compress` places an element. -/
def place (code : hashfunc → T → Int) (s : HashSet T) (e : T) : Nat :=
  (hash_compress code s e).toNat

/-- The shape of the bucket array: at least one bin, an allocated array has `bins` bins,
every element lies in the bin `hash_compress` selects for it, and no element occurs twice. -/
def Shape (code : hashfunc → T → Int) (s : HashSet T) : Prop :=
  1 ≤ s.bins ∧ (s.set.isSome = true → s.table.length = s.bins) ∧
    Bucket.Placed (place code s) s.table ∧ s.entries.Nodup

/-- The representation invariant: the shape above, and `used` counts the live elements. -/
def WF (code : hashfunc → T → Int) (s : HashSet T) : Prop :=
  Shape code s ∧ s.used = (s.entries.length : Int)

instance instDecidableShape (code : hashfunc → T → Int) (s : HashSet T) :
    Decidable (Shape code s) :=
  inferInstanceAs (Decidable (1 ≤ s.bins ∧ (s.set.isSome = true → s.table.length = s.bins) ∧
    Bucket.Placed (place code s) s.table ∧ s.entries.Nodup))

instance instDecidableWF (code : hashfunc → T → Int) (s : HashSet T) :
    Decidable (WF code s) :=
  inferInstanceAs (Decidable (Shape code s ∧ s.used = (s.entries.length : Int)))

/-- The tables of the class `HashSet<T,thash>` that the public operations produce: the
results of the constructors, and of `insert`, `erase`, `clear`, `operator=` and the cursor
`erase()` (of a usable cursor) applied to such tables.  `insert_all`, `erase_all` and
`retain_all` are sequences of these calls and growth is a part of `insert`. -/
inductive Reachable (code : hashfunc → T → Int) (thash : hashfunc) : HashSet T → Prop
  | by_ctor_default (t : ℚ) (chash : hashfunc) (s : HashSet T)
      (h : HashSet.ctor_default code thash t chash = .ok s) : Reachable code thash s
  | by_ctor_bins (initial_bins : Int) (t : ℚ) (chash : hashfunc) (s : HashSet T)
      (h : HashSet.ctor_bins code thash initial_bins t chash = .ok s) : Reachable code thash s
  | by_ctor_il (il : List T) (t : ℚ) (chash : hashfunc) (s : HashSet T)
      (h : HashSet.ctor_il code thash il t chash = .ok s) : Reachable code thash s
  | by_ctor_copy (b : HashSet T) (t : ℚ) (chash : hashfunc) (a : HashSet T)
      (hb : Reachable code thash b)
      (h : HashSet.ctor_copy code thash b t chash = .ok a) : Reachable code thash a
  | by_insert (s : HashSet T) (e : T) (hs : Reachable code thash s) :
      Reachable code thash (HashSet.insert code s e).2
  | by_erase (s : HashSet T) (e : T) (hs : Reachable code thash s) :
      Reachable code thash (HashSet.erase code s e).2
  | by_clear (s : HashSet T) (hs : Reachable code thash s) :
      Reachable code thash (HashSet.clear s)
  | by_operator_assign (a b : HashSet T) (ha : Reachable code thash a)
      (hb : Reachable code thash b) :
      Reachable code thash (HashSet.operator_assign code a (.other b))
  | by_Iterator_erase (s : HashSet T) (it : Iterator) (r : Option T) (it2 : Iterator)
      (s2 : HashSet T) (hs : Reachable code thash s) (hc : HashSet.Cursor_ok s it)
      (h : HashSet.Iterator_erase s it = .ok (r, it2, s2)) : Reachable code thash s2

end HashSet

/-! ## `BSTMap` -/

/-- The tree behind a `TN*`: `nil` is `nullptr`, `node value left right` a `TN` object. -/
inductive TN (K V : Type) where
  | nil : TN K V
  | node (value : K × V) (left right : TN K V) : TN K V
  deriving DecidableEq, Repr

/-- The instance variables `map`, `used` and `mod_count` of `BSTMap<KEY,T,tlt>`.  The
instance variable `lt` is set by the constructor and not changed by `put` and `erase`; it
is the parameter `lt` of the operations below. -/
structure BSTMap (K V : Type) where
  map : TN K V
  used : Int
  mod_count : Int
  deriving DecidableEq, Repr

namespace BSTMap

variable {K V : Type} [DecidableEq K]

/-- The state that the constructor `BSTMap(clt)` leaves when it does not throw: the member
initialisers `map = nullptr`, `used = 0`, `mod_count = 0`. -/
def ctor : BSTMap K V :=
  { map := .nil, used := 0, mod_count := 0 }

def size (m : BSTMap K V) : Int :=
  m.used

/-- The helper `insert(root, key, value)`; `used` and `mod_count` are passed through, and
the result is the value returned, the tree at `root`, `used` and `mod_count`. -/
def insert (lt : K → K → Bool) (key : K) (value : V) :
    TN K V → Int → Int → V × TN K V × Int × Int
  | .nil, used, mod_count => (value, .node (key, value) .nil .nil, used + 1, mod_count + 1)
  | .node e l r, used, mod_count =>
    if e.1 = key then (e.2, .node (e.1, value) l r, used, mod_count + 1)
    else if lt e.1 key = true then
      let res := insert lt key value r used mod_count
      (res.1, .node e l res.2.1, res.2.2.1, res.2.2.2)
    else
      let res := insert lt key value l used mod_count
      (res.1, .node e res.2.1 r, res.2.2.1, res.2.2.2)

def put (lt : K → K → Bool) (m : BSTMap K V) (key : K) (value : V) : V × BSTMap K V :=
  let res := insert lt key value m.map m.used m.mod_count
  (res.1, { map := res.2.1, used := res.2.2.1, mod_count := res.2.2.2 })

/-- The helper `remove_closest(root)` on the non-null node `root` with the fields given: the
entry of the rightmost node of the tree, and the tree at `root` afterwards. -/
def remove_closest : K × V → TN K V → TN K V → (K × V) × TN K V
  | e, l, .nil => (e, l)
  | e, l, .node e2 l2 r2 =>
    let res := remove_closest e2 l2 r2
    (res.1, .node e l res.2)

/-- The helper `remove(root, key)`: the value returned and the tree at `root` afterwards,
or the `KeyError` thrown at a `nullptr`. -/
def remove (lt : K → K → Bool) (key : K) : TN K V → Except Error (V × TN K V)
  | .nil => .error Error.KeyError
  | .node e l r =>
    if key = e.1 then
      match l, r with
      | .nil, _ => .ok (e.2, r)
      | .node el ll lr, .nil => .ok (e.2, .node el ll lr)
      | .node el ll lr, .node er rl rr =>
        let res := remove_closest el ll lr
        .ok (e.2, .node res.1 res.2 (.node er rl rr))
    else if lt key e.1 = true then
      match remove lt key l with
      | .error err => .error err
      | .ok (v, l2) => .ok (v, .node e l2 r)
    else
      match remove lt key r with
      | .error err => .error err
      | .ok (v, r2) => .ok (v, .node e l r2)

/-- The method `erase` with the state it leaves: `T result = remove(map,key); --used;
++mod_count;`.  The helper `remove` throws only at a `nullptr`, before any assignment, so
the state at the throw is the state before the call. -/
def erase (lt : K → K → Bool) (m : BSTMap K V) (key : K) : Except Error V × BSTMap K V :=
  match remove lt key m.map with
  | .error err => (.error err, m)
  | .ok (v, t) => (.ok v, { map := t, used := m.used - 1, mod_count := m.mod_count + 1 })

/-- The helper `find_key(root, key)`, written iteratively in the source. -/
def find_key (lt : K → K → Bool) (key : K) : TN K V → Option (K × V)
  | .nil => none
  | .node e l r =>
    if e.1 = key then some e
    else if lt e.1 key = true then find_key lt key r
    else find_key lt key l

def has_key (lt : K → K → Bool) (m : BSTMap K V) (key : K) : Bool :=
  (find_key lt key m.map).isSome

/-- The helper `copy_to_queue(root, q)`.  The class `ArrayQueue` of `array_queue.hpp` is not
among the sources: the queue is the list of its elements from front to rear, `enqueue`
appending at the rear and `dequeue` removing the front, as in the sibling class
`LinkedQueue`. -/
def copy_to_queue : TN K V → List (K × V) → List (K × V)
  | .nil, q => q
  | .node e l r, q => copy_to_queue r (copy_to_queue l q ++ [e])

/-- The state of a `BSTMap<KEY,T,tlt>::Iterator`, without the pointer `ref_map`: the map is
passed to every operation. -/
structure Iterator (K V : Type) where
  it : List (K × V)
  expected_mod_count : Int
  can_erase : Bool

/-- The constructor `Iterator(iterate_over, from_begin)`. -/
def Iterator_ctor (m : BSTMap K V) (from_begin : Bool) : Iterator K V :=
  { it := if from_begin = true then copy_to_queue m.map [] else [],
    expected_mod_count := m.mod_count, can_erase := true }

def begin (m : BSTMap K V) : Iterator K V :=
  Iterator_ctor m true

def end_ (m : BSTMap K V) : Iterator K V :=
  Iterator_ctor m false

/-- The prefix `operator++` of a cursor bound to `m`. -/
def Iterator_inc (m : BSTMap K V) (i : Iterator K V) : Except Error (Iterator K V) :=
  if i.expected_mod_count ≠ m.mod_count then .error Error.ConcurrentModificationError
  else if i.it.length = 0 then .ok i
  else if i.can_erase = true then .ok { i with it := i.it.tail }
  else .ok { i with can_erase := true }

/-- The method `operator*` of a cursor bound to `m`: `it.peek()` is the front of the
queue. -/
def Iterator_deref (m : BSTMap K V) (i : Iterator K V) : Except Error (K × V) :=
  if i.expected_mod_count ≠ m.mod_count then .error Error.ConcurrentModificationError
  else
    match i.can_erase, i.it with
    | true, e :: _ => .ok e
    | _, _ => .error Error.IteratorPositionIllegal

/-- The method `operator !=` of the cursor `i`, bound to the map `m` at address `ref_map`,
against the cursor `rhs`, which holds the map address `rhs_ref_map`. -/
def Iterator_ne (m : BSTMap K V) (ref_map : Nat) (i : Iterator K V) (rhs_ref_map : Nat)
    (rhs : Iterator K V) : Except Error Bool :=
  if i.expected_mod_count ≠ m.mod_count then .error Error.ConcurrentModificationError
  else if ref_map ≠ rhs_ref_map then .error Error.ComparingDifferentIteratorsError
  else .ok (decide (i.it.length ≠ rhs.it.length))

/-- The loop `for (; i != m.end(); ++i) visit(*i)` on the map `m` at address `ref_map`, one
iteration per unit of fuel: `none` when the fuel runs out before the loop ends, else the
exception thrown or the entries visited, in order. -/
def range_for_loop (m : BSTMap K V) (ref_map : Nat) :
    Nat → Iterator K V → Option (Except Error (List (K × V)))
  | 0, _ => none
  | fuel + 1, i =>
    match Iterator_ne m ref_map i ref_map (end_ m) with
    | .error err => some (.error err)
    | .ok false => some (.ok [])
    | .ok true =>
      match Iterator_deref m i with
      | .error err => some (.error err)
      | .ok v =>
        match Iterator_inc m i with
        | .error err => some (.error err)
        | .ok i2 => (range_for_loop m ref_map fuel i2).map (fun r => r.map (fun l => v :: l))

/-- The loop `for (Iterator i = m.begin(); i != m.end(); ++i) visit(*i)`. -/
def range_for (m : BSTMap K V) (ref_map : Nat) (fuel : Nat) :
    Option (Except Error (List (K × V))) :=
  range_for_loop m ref_map fuel (begin m)

/-- The entries of a tree: those of the left subtree, the root, those of the right
subtree. -/
def inorder : TN K V → List (K × V)
  | .nil => []
  | .node e l r => inorder l ++ e :: inorder r

/-- The binary search tree property: at every node, every key of the left subtree is `lt`
the key of the node and the key of the node is `lt` every key of the right subtree. -/
def BST (lt : K → K → Bool) : TN K V → Prop
  | .nil => True
  | .node e l r =>
    (∀ x ∈ inorder l, lt x.1 e.1 = true) ∧ (∀ x ∈ inorder r, lt e.1 x.1 = true) ∧
      BST lt l ∧ BST lt r

/-- The maps that a sequence of `put` and `erase` calls produces from a constructed map; an
`erase` that throws leaves the map as it was. -/
inductive Reachable (lt : K → K → Bool) : BSTMap K V → Prop
  | by_ctor : Reachable lt ctor
  | by_put (m : BSTMap K V) (key : K) (value : V) (hm : Reachable lt m) :
      Reachable lt (put lt m key value).2
  | by_erase (m : BSTMap K V) (key : K) (hm : Reachable lt m) :
      Reachable lt (erase lt m key).2

end BSTMap

/-! ## `HeapPriorityQueue` -/

/-- The instance variables `pq`, `used` and `mod_count` of `HeapPriorityQueue<T,tgt>`.  The
list `pq` is the whole array allocated, so the instance variable `length` is `pq.length`.
The instance variable `gt` is set by the constructor and not changed by `enqueue` and
`dequeue`; it is the parameter `gt` of the operations below. -/
structure HeapPriorityQueue (T : Type) where
  pq : List T
  used : Nat
  mod_count : Int
  deriving DecidableEq, Repr

namespace HeapPriorityQueue

variable {T : Type} [Inhabited T]

/-- The read `pq[i]`; a slot that was never assigned holds the value of `T()`. -/
def elem (pq : List T) (i : Nat) : T :=
  pq.getD i default

def empty (q : HeapPriorityQueue T) : Bool :=
  decide (q.used = 0)

def size (q : HeapPriorityQueue T) : Nat :=
  q.used

def left_child (i : Nat) : Nat :=
  2 * i + 1

def right_child (i : Nat) : Nat :=
  2 * i + 2

/-- The expression `(i - 1) / 2` on `int`, whose division truncates: `parent(0) == 0`. -/
def parent (i : Nat) : Nat :=
  (Int.tdiv ((i : Int) - 1) 2).toNat

def is_root (used i : Nat) : Bool :=
  if used = 0 then false else decide (i = 0)

def in_heap (used i : Nat) : Bool :=
  decide (used ≠ 0 ∧ i < used)

/-- The call `std::swap(pq[i], pq[j])`. -/
def swap (pq : List T) (i j : Nat) : List T :=
  (pq.set i (elem pq j)).set j (elem pq i)

/-- The loop of `percolate_down`, one test of `in_heap(e)` per unit of fuel; `none` when
the fuel runs out. -/
def percolate_down_loop (gt : T → T → Bool) (used : Nat) :
    Nat → List T → Nat → Option (List T)
  | 0, _, _ => none
  | fuel + 1, pq, e =>
    if in_heap used e = true then
      let child :=
        if in_heap used (right_child e) = true ∧
            gt (elem pq (right_child e)) (elem pq (left_child e)) = true then right_child e
        else left_child e
      if in_heap used child = true ∧ gt (elem pq child) (elem pq e) = true then
        percolate_down_loop gt used fuel (swap pq child e) child
      else some pq
    else some pq

/-- The method `percolate_down(i)`: every iteration moves `e` to a larger index and ends
when `e` is not below `used`, so `used + 1` tests are allowed for. -/
def percolate_down (gt : T → T → Bool) (used : Nat) (pq : List T) (i : Nat) :
    Option (List T) :=
  percolate_down_loop gt used (used + 1) pq i

/-- The loop of `percolate_up(i)`, one test of its condition per unit of fuel; the test
`is_root` is on `i`, not on the loop variable `e`. -/
def percolate_up_loop (gt : T → T → Bool) (used i : Nat) :
    Nat → List T → Nat → Option (List T)
  | 0, _, _ => none
  | fuel + 1, pq, e =>
    if is_root used i = false ∧ gt (elem pq e) (elem pq (parent e)) = true then
      match percolate_down gt used (swap pq e (parent e)) e with
      | none => none
      | some pq2 => percolate_up_loop gt used i fuel pq2 (parent e)
    else some pq

/-- The method `percolate_up(i)` with `i + 1` tests allowed for. -/
def percolate_up (gt : T → T → Bool) (used : Nat) (pq : List T) (i : Nat) :
    Option (List T) :=
  percolate_up_loop gt used i (i + 1) pq i

/-- The method `heapify`: `percolate_down(i)` for `i = used-1` down to `0`. -/
def heapify (gt : T → T → Bool) (used : Nat) (pq : List T) : Option (List T) :=
  (List.range used).reverse.foldlM (fun a (i : Nat) => percolate_down gt used a i) pq

/-- The method `ensure_length(new_length)`: the array afterwards. -/
def ensure_length (q : HeapPriorityQueue T) (new_length : Nat) : List T :=
  if q.pq.length ≥ new_length then q.pq
  else
    (List.range (max new_length (2 * q.pq.length))).map
      (fun i => if i < q.used then elem q.pq i else default)

/-- The state that the constructor `HeapPriorityQueue(cgt)` leaves when it does not throw:
`length = 0`, `pq = new T[0]`. -/
def ctor : HeapPriorityQueue T :=
  { pq := [], used := 0, mod_count := 0 }

/-- The state that the constructor `HeapPriorityQueue(initial_length, cgt)` leaves when it
does not throw. -/
def ctor_length (initial_length : Int) : HeapPriorityQueue T :=
  { pq := List.replicate initial_length.toNat default, used := 0, mod_count := 0 }

/-- The state that the `initializer_list` constructor leaves when it does not throw; `none`
when `heapify` runs out of fuel. -/
def ctor_il (gt : T → T → Bool) (il : List T) : Option (HeapPriorityQueue T) :=
  (heapify gt il.length il).map (fun a => { pq := a, used := il.length, mod_count := 0 })

/-- The method `enqueue`; `none` when `percolate_up` runs out of fuel. -/
def enqueue (gt : T → T → Bool) (q : HeapPriorityQueue T) (element : T) :
    Option (Int × HeapPriorityQueue T) :=
  let pq1 := (ensure_length q (q.used + 2)).set q.used element
  let used := q.used + 1
  match percolate_up gt used pq1 (used - 1) with
  | none => none
  | some pq2 => some (1, { pq := pq2, used := used, mod_count := q.mod_count + 1 })

/-- The method `dequeue`; `none` when `percolate_down` runs out of fuel. -/
def dequeue (gt : T → T → Bool) (q : HeapPriorityQueue T) :
    Option (Except Error (T × HeapPriorityQueue T)) :=
  if q.empty = true then some (.error Error.EmptyError)
  else
    let val := elem q.pq 0
    let used := q.used - 1
    let pq1 := q.pq.set 0 (elem q.pq used)
    if decide (used = 0) = false then
      match percolate_down gt used pq1 0 with
      | none => none
      | some pq2 => some (.ok (val, { pq := pq2, used := used, mod_count := q.mod_count + 1 }))
    else some (.ok (val, { pq := pq1, used := used, mod_count := q.mod_count + 1 }))

/-- The heap ordering property on the first `used` slots: no slot `i > 0` holds a value
that is `gt` the value in slot `parent(i)`. -/
def Heap (gt : T → T → Bool) (used : Nat) (pq : List T) : Prop :=
  ∀ i, 0 < i → i < used → gt (elem pq i) (elem pq (parent i)) = false

/-- The values in the first `used` slots. -/
def contents (q : HeapPriorityQueue T) : List T :=
  q.pq.take q.used

/-- The queues that a sequence of `enqueue` and `dequeue` calls produces from a constructed
queue; a `dequeue` that throws leaves the queue as it was. -/
inductive Reachable (gt : T → T → Bool) : HeapPriorityQueue T → Prop
  | by_ctor : Reachable gt ctor
  | by_ctor_length (initial_length : Int) : Reachable gt (ctor_length initial_length)
  | by_ctor_il (il : List T) (q : HeapPriorityQueue T) (h : ctor_il gt il = some q) :
      Reachable gt q
  | by_enqueue (q : HeapPriorityQueue T) (element : T) (r : Int) (q2 : HeapPriorityQueue T)
      (hq : Reachable gt q) (h : enqueue gt q element = some (r, q2)) : Reachable gt q2
  | by_dequeue (q : HeapPriorityQueue T) (val : T) (q2 : HeapPriorityQueue T)
      (hq : Reachable gt q) (h : dequeue gt q = some (.ok (val, q2))) : Reachable gt q2

end HeapPriorityQueue

/-! ## `extended_dijkstra` -/

/-- The class `Info` of `dijkstra.hpp`; the member `from` is `from_` here. -/
structure Info where
  node : String
  cost : Int
  from_ : String
  deriving DecidableEq, Repr

namespace Info

/-- The constructor `Info()`: the member initialisers `"?"`, `INT_MAX`, `"?"`. -/
def ctor : Info :=
  { node := "?", cost := INT_MAX, from_ := "?" }

/-- The constructor `Info(a_node)`. -/
def ctor_node (a_node : String) : Info :=
  { node := a_node, cost := INT_MAX, from_ := "?" }

end Info

instance instInhabitedInfo : Inhabited Info :=
  ⟨Info.ctor⟩

def gt_info (a b : Info) : Bool :=
  decide (a.cost < b.cost)

/-- What `extended_dijkstra` reads of its argument `const DistGraph& g`, through the three
`const` methods it calls: the node names in the order in which
`for (entry : g.all_nodes())` visits them, the members of `g.out_nodes(n)` in the order in
which the range-for visits them, or the `GraphError` thrown, and `g.edge_value(a,b)`, or the
`GraphError` thrown. -/
structure DistGraph where
  all_nodes : List String
  out_nodes : String → Except Error (List String)
  edge_value : String → String → Except Error Int

namespace HashMap

variable {K V : Type} [DecidableEq K]

/-- A statement `m[key].member = ...`: the non-const `operator[]`, then the assignment
through the reference it returns, which changes the value of the node of `key` by `f`. -/
def index_assign [Inhabited V] (code : hashfunc → K → Int) (m : HashMap K V) (key : K)
    (f : V → V) : HashMap K V :=
  let m2 := (operator_index code m key).2
  match find_key code m2 key with
  | none => m2
  | some (i, e) =>
    let b := (hash_compress code m2 key).toNat
    { m2 with map := some (m2.table.set b ((m2.table.getD b []).set i (e.1, f e.2))) }

end HashMap

/-- The loop `while (answerMap.has_key(currentInfo.node) && !infoPq.empty())
currentInfo = infoPq.dequeue();`, one test per unit of fuel; `none` when the fuel runs
out. -/
def skip_answered (code : hashfunc → String → Int) (answerMap : HashMap String Info) :
    Nat → Info → HeapPriorityQueue Info → Option (Except Error (Info × HeapPriorityQueue Info))
  | 0, _, _ => none
  | fuel + 1, currentInfo, infoPq =>
    if HashMap.has_key code answerMap currentInfo.node = true ∧ infoPq.empty = false then
      match HeapPriorityQueue.dequeue gt_info infoPq with
      | none => none
      | some (.error err) => some (.error err)
      | some (.ok (next, infoPq2)) => skip_answered code answerMap fuel next infoPq2
    else some (.ok (currentInfo, infoPq))

/-- The body of the loop `for (entry : g.out_nodes(min_node))` for one `entry`, on the
state `(answerMap, infoMap, infoPq)`; `none` when the addition overflows the `int` range or
`enqueue` runs out of fuel. -/
def relax (code : hashfunc → String → Int) (g : DistGraph) (min_node : String)
    (st : HashMap String Info × HashMap String Info × HeapPriorityQueue Info)
    (entry : String) :
    Option (Except Error
      (HashMap String Info × HashMap String Info × HeapPriorityQueue Info)) :=
  if HashMap.has_key code st.1 entry = false then
    let r1 := HashMap.operator_index code st.2.1 entry
    let currentCost := r1.1.cost
    match g.edge_value min_node entry with
    | .error err => some (.error err)
    | .ok value =>
      let r2 := HashMap.operator_index code st.1 min_node
      match int_value (value + r2.1.cost) with
      | none => none
      | some edge_cost =>
        if currentCost = INT_MAX ∨ edge_cost < currentCost then
          let infoMap2 := HashMap.index_assign code r1.2 entry
            (fun i => { i with cost := edge_cost })
          let infoMap3 := HashMap.index_assign code infoMap2 entry
            (fun i => { i with from_ := min_node })
          let r3 := HashMap.operator_index code infoMap3 entry
          match HeapPriorityQueue.enqueue gt_info st.2.2 r3.1 with
          | none => none
          | some (_, infoPq2) => some (.ok (r2.2, r3.2, infoPq2))
        else some (.ok (r2.2, r1.2, st.2.2))
  else some (.ok st)

/-- The loop `for (entry : g.out_nodes(min_node))` over the entries given. -/
def relax_all (code : hashfunc → String → Int) (g : DistGraph) (min_node : String) :
    List String → HashMap String Info × HashMap String Info × HeapPriorityQueue Info →
      Option (Except Error
        (HashMap String Info × HashMap String Info × HeapPriorityQueue Info))
  | [], st => some (.ok st)
  | entry :: rest, st =>
    match relax code g min_node st entry with
    | none => none
    | some (.error err) => some (.error err)
    | some (.ok st2) => relax_all code g min_node rest st2

/-- The loop `while (!infoMap.empty())` of `extended_dijkstra`, one iteration per unit of
fuel; the result is the `answerMap` returned or the exception thrown, `none` when the fuel
runs out or an inner step has no result. -/
def dijkstra_loop (code : hashfunc → String → Int) (g : DistGraph) :
    Nat → HashMap String Info → HashMap String Info → HeapPriorityQueue Info →
      Option (Except Error (HashMap String Info))
  | 0, _, _, _ => none
  | fuel + 1, answerMap, infoMap, infoPq =>
    if infoMap.empty = true then some (.ok answerMap)
    else
      match HeapPriorityQueue.dequeue gt_info infoPq with
      | none => none
      | some (.error err) => some (.error err)
      | some (.ok (first, infoPq1)) =>
        if first.cost = INT_MAX then some (.ok answerMap)
        else
          match skip_answered code answerMap (infoPq1.used + 1) first infoPq1 with
          | none => none
          | some (.error err) => some (.error err)
          | some (.ok (currentInfo, infoPq2)) =>
            let min_node := currentInfo.node
            let answerMap2 := (HashMap.put code answerMap currentInfo.node currentInfo).2
            match HashMap.erase code infoMap currentInfo.node with
            | .error err => some (.error err)
            | .ok (_, infoMap2) =>
              match g.out_nodes min_node with
              | .error err => some (.error err)
              | .ok outs =>
                match relax_all code g min_node outs (answerMap2, infoMap2, infoPq2) with
                | none => none
                | some (.error err) => some (.error err)
                | some (.ok st) => dijkstra_loop code g fuel st.1 st.2.1 st.2.2

/-- The function `extended_dijkstra(g, start_node)`; `str_hash` is the address of the
function `str_hash`, and `CostMap answerMap(1,str_hash)` selects the constructor
`HashMap(double the_load_threshold, chash)`, the only one whose second parameter accepts a
function pointer. -/
def extended_dijkstra (code : hashfunc → String → Int) (str_hash : hashfunc) (g : DistGraph)
    (start_node : String) (fuel : Nat) : Option (Except Error (HashMap String Info)) :=
  match (HashMap.ctor_default code undefinedhash 1 str_hash :
      Except Error (HashMap String Info)),
    (HashMap.ctor_default code undefinedhash 1 str_hash :
      Except Error (HashMap String Info)) with
  | .error err, _ => some (.error err)
  | _, .error err => some (.error err)
  | .ok answerMap, .ok infoMap =>
    let infoMap1 := g.all_nodes.foldl
      (fun m n => (HashMap.put code m n (Info.ctor_node n)).2) infoMap
    let infoMap2 := HashMap.index_assign code infoMap1 start_node (fun i => { i with cost := 0 })
    let infoMap3 := HashMap.index_assign code infoMap2 start_node
      (fun i => { i with from_ := start_node })
    match (HashMap.traversal infoMap3).foldlM
        (fun pq (cE : String × Info) =>
          (HeapPriorityQueue.enqueue gt_info pq cE.2).map Prod.snd)
        (HeapPriorityQueue.ctor : HeapPriorityQueue Info) with
    | none => none
    | some infoPq => dijkstra_loop code g fuel answerMap infoMap3 infoPq

/-! ## The chains as `LN` objects

The sections on `HashMap` and `HashSet` keep of a chain the values of its live nodes.  This
section keeps every `LN` object.  A chain, as seen from an `LN*`, is the list of its nodes
in `next` order, and `[]` is `nullptr`; the node at the last position is the one whose
`next` is `nullptr`.  A node is given by its member `value`: `some v` for a node built by
`LN(v, n)`, `none` for a node built by `LN()`, which passes no value; the assignment
`*temp = *(temp->next)` copies the member with the rest of the node.  The two classes
handle their nodes with the same statements, which are followed here one by one; `key`
reads the key of a value (`value.first` in `HashMap`, the value itself in `HashSet`), and a
cursor is bound to the table passed with it. -/

namespace Nodes

/-- The instance variables of `HashMap<KEY,T,thash>` or `HashSet<T,thash>`, the bucket array
with every `LN` object of its chains. -/
structure Table (E : Type) where
  hash : hashfunc
  map : Option (List (List (Option E)))
  load_threshold : ℚ
  bins : Nat
  used : Int
  mod_count : Int
  deriving DecidableEq

variable {E K : Type} [DecidableEq K] [Inhabited E]

/-- The bucket array as read by `map[i]`; a `nullptr` array has no bins. -/
def cells (t : Table E) : List (List (Option E)) :=
  t.map.getD []

/-- The member `value` of a node as an expression reads it; in a node built by `LN()` it is
default-initialised. -/
def read (x : Option E) : E :=
  x.getD default

/-- The member `next` of the node at position `p` of the chain `c`: the next position, or
`none` for `nullptr`. -/
def next (c : List (Option E)) (p : Nat) : Option Nat :=
  if p + 1 < c.length then some (p + 1) else none

def hash_compress (code : hashfunc → K → Int) (t : Table E) (k : K) : Int :=
  let result := Int.tmod (code t.hash k) (t.bins : Int)
  if result < 0 then result * -1 else result

/-- The loop `for (temp = c; temp->next != nullptr; temp = temp->next) if (k == key(temp))
return temp;` followed by `return nullptr`: the position and the value of the node
returned.  (On `nullptr` the test `temp->next` is undefined; the model returns `none`.) -/
def find (key : E → K) (k : K) : List (Option E) → Option (Nat × E)
  | [] => none
  | [_] => none
  | x :: y :: rest =>
    if k = key (read x) then some (0, read x)
    else (find key k (y :: rest)).map (fun q => (q.1 + 1, q.2))

/-- The methods `find_key` and `find_element`. -/
def find_node (code : hashfunc → K → Int) (key : E → K) (t : Table E) (k : K) :
    Option (Nat × E) :=
  match t.map with
  | none => none
  | some a => find key k (a.getD (hash_compress code t k).toNat [])

/-- The array `new LN*[bins]` with `map[j] = new LN()` for every `j`. -/
def new_array (bins : Nat) : List (List (Option E)) :=
  List.replicate bins [none]

/-- The statement `map[index] = new LN(e, map[index])`. -/
def link_front (a : List (List (Option E))) (index : Nat) (e : E) : List (List (Option E)) :=
  a.set index (some e :: a.getD index [])

/-- The statements `to_delete = temp->next; *temp = *(temp->next); delete to_delete;` for
the node `temp` at position `p` of bin `b`: the node takes the value and the `next` of its
successor, which is deleted. -/
def splice (a : List (List (Option E))) (b p : Nat) : List (List (Option E)) :=
  a.set b ((a.getD b []).eraseIdx p)

/-- The inner loop of `ensure_load_threshold` on one old bin: while `map[i]->next` is not
`nullptr`, unlink the first node and link it in front of bin `place (node->value)` of
`tempMap`; the last node of the old chain stays behind and is deleted with the old array. -/
def relink (place : E → Nat) (tempMap : List (List (Option E))) (chain : List (Option E)) :
    List (List (Option E)) :=
  chain.dropLast.foldl
    (fun tm x => tm.set (place (read x)) (x :: tm.getD (place (read x)) [])) tempMap

def ensure_load_threshold (code : hashfunc → K → Int) (key : E → K) (t : Table E)
    (new_used : Int) : Table E :=
  let map0 : List (List (Option E)) :=
    match t.map with
    | none => new_array t.bins
    | some a => a
  if (new_used : ℚ) / (t.bins : ℚ) ≤ t.load_threshold then
    { t with map := some map0 }
  else
    let t2 : Table E := { t with bins := t.bins * 2 }
    let tempMap := map0.foldl
      (relink (fun e => (hash_compress code t2 (key e)).toNat)) (new_array t2.bins)
    { t2 with map := some tempMap }

/-- The statements `ensure_load_threshold(++used); index = hash_compress(key);
map[index] = new LN(e, map[index]);` shared by `put`, `insert` and `operator[]`. -/
def add (code : hashfunc → K → Int) (key : E → K) (t : Table E) (e : E) : Table E :=
  let t2 := ensure_load_threshold code key { t with used := t.used + 1 } (t.used + 1)
  { t2 with map := some (link_front (cells t2) (hash_compress code t2 (key e)).toNat e) }

/-- The method `HashSet::insert(e)`, and the non-const `HashMap::operator[]` with
`e = Entry(key, T())`: nothing for a value found, else `++mod_count` and the statements of
`add`. -/
def insert (code : hashfunc → K → Int) (key : E → K) (t : Table E) (e : E) : Table E :=
  match find_node code key t (key e) with
  | some _ => t
  | none => add code key { t with mod_count := t.mod_count + 1 } e

/-- The method `HashMap::put(key, value)`; for a key found, `temp->value.second = value`. -/
def put {V : Type} [Inhabited (K × V)] (code : hashfunc → K → Int) (t : Table (K × V))
    (e : K × V) : Table (K × V) :=
  let t1 : Table (K × V) := { t with mod_count := t.mod_count + 1 }
  match find_node code Prod.fst t e.1 with
  | none => add code Prod.fst t1 e
  | some (p, f) =>
    let b := (hash_compress code t1 e.1).toNat
    { t1 with map := some ((cells t1).set b (((cells t1).getD b []).set p (some (f.1, e.2)))) }

/-- The method `erase(k)` of both classes: the table it leaves (unchanged when the key is
not found and `HashMap::erase` throws or `HashSet::erase` returns 0). -/
def erase (code : hashfunc → K → Int) (key : E → K) (t : Table E) (k : K) : Table E :=
  match find_node code key t k with
  | none => t
  | some (p, _) =>
    { t with map := some (splice (cells t) (hash_compress code t k).toNat p),
             used := t.used - 1, mod_count := t.mod_count + 1 }

/-- The method `clear`: `delete_hash_table` deletes every node and the array and leaves
`map == nullptr`. -/
def clear (t : Table E) : Table E :=
  { t with map := none, mod_count := t.mod_count + 1, used := 0 }

/-- The recursion of `copy_list`: `new LN()` for the node whose `next` is `nullptr`, else
`new LN(l->value, copy_list(l->next))`.  (On `nullptr` the test `l->next` is undefined; the
model returns `nullptr`.) -/
def copy_list : List (Option E) → List (Option E)
  | [] => []
  | [_] => [none]
  | x :: y :: rest => some (read x) :: copy_list (y :: rest)

def copy_hash_table (ht : Option (List (List (Option E)))) (bins : Nat) :
    Option (List (List (Option E))) :=
  match ht with
  | none => none
  | some a => some ((List.range bins).map (fun i => copy_list (a.getD i [])))

/-- The values that `for (e : t)` visits: nothing when `empty()`, else in every bin the
values of the nodes before the last one.  (The cursor loop `range_for` below visits exactly
these values on every table that satisfies the representation invariant.) -/
def traversal (t : Table E) : List E :=
  if t.used = 0 then [] else ((cells t).map (fun c => c.dropLast.map read)).flatten

/-- The constructors `(the_load_threshold, chash)` of both classes. -/
def ctor_default (code : hashfunc → K → Int) (key : E → K) (thash : hashfunc)
    (the_load_threshold : ℚ) (chash : hashfunc) : Except Error (Table E) :=
  match HashMap.resolve_hash thash chash with
  | .error err => .error err
  | .ok hash =>
    let load_threshold := if the_load_threshold ≤ 0 then 1 else the_load_threshold
    .ok (ensure_load_threshold code key
      { hash := hash, map := none, load_threshold := load_threshold, bins := 1, used := 0,
        mod_count := 0 } 0)

/-- The constructors `(initial_bins, the_load_threshold, chash)` of both classes. -/
def ctor_bins (code : hashfunc → K → Int) (key : E → K) (thash : hashfunc)
    (initial_bins : Int) (the_load_threshold : ℚ) (chash : hashfunc) :
    Except Error (Table E) :=
  match HashMap.resolve_hash thash chash with
  | .error err => .error err
  | .ok hash =>
    let load_threshold := if the_load_threshold ≤ 0 then 1 else the_load_threshold
    let bins := if initial_bins < 1 then 1 else initial_bins.toNat
    .ok (ensure_load_threshold code key
      { hash := hash, map := none, load_threshold := load_threshold, bins := bins, used := 0,
        mod_count := 0 } 0)

/-- The constructors from an `initializer_list` and from an `Iterable`; `store` is `put` in
`HashMap` and `insert` in `HashSet`. -/
def ctor_il (store : Table E → E → Table E) (thash : hashfunc) (il : List E)
    (the_load_threshold : ℚ) (chash : hashfunc) : Except Error (Table E) :=
  match HashMap.resolve_hash thash chash with
  | .error err => .error err
  | .ok hash =>
    let load_threshold := if the_load_threshold ≤ 0 then 1 else the_load_threshold
    .ok (il.foldl store
      { hash := hash, map := none, load_threshold := load_threshold, bins := 1, used := 0,
        mod_count := 0 })

/-- The copy constructors; `fallback` is the threshold taken for an argument `<= 0`
(`to_copy.load_threshold` in `HashMap`, `1.0` in `HashSet`). -/
def ctor_copy (store : Table E → E → Table E) (thash : hashfunc) (to_copy : Table E)
    (the_load_threshold : ℚ) (chash : hashfunc) (fallback : ℚ) : Except Error (Table E) :=
  let hash0 := if thash ≠ undefinedhash then thash else chash
  let hash := if hash0 = undefinedhash then to_copy.hash else hash0
  if thash ≠ undefinedhash ∧ chash ≠ undefinedhash ∧ chash ≠ thash then
    .error Error.TemplateFunctionError
  else
    let load_threshold := if the_load_threshold ≤ 0 then fallback else the_load_threshold
    let this : Table E :=
      { hash := hash, map := none, load_threshold := load_threshold, bins := 1, used := 0,
        mod_count := 0 }
    if hash = to_copy.hash then
      .ok { this with used := to_copy.used, bins := to_copy.bins,
                      map := copy_hash_table to_copy.map to_copy.bins }
    else
      .ok ((traversal to_copy).foldl store this)

/-- The method `operator =` of both classes. -/
def operator_assign (store : Table E → E → Table E) (this : Table E) :
    Rhs (Table E) → Table E
  | .self => this
  | .other rhs =>
    let t := clear this
    let t : Table E :=
      if t.hash = rhs.hash then
        { t with map := copy_hash_table rhs.map rhs.bins, used := rhs.used, bins := rhs.bins }
      else
        (traversal rhs).foldl store { t with hash := rhs.hash }
    { t with mod_count := t.mod_count + 1 }

/-! ### The cursor on `LN` objects -/

/-- The test `current.second->next == nullptr`.  (On `nullptr` it is undefined; the model
returns `false`.) -/
def at_last (a : List (List (Option E))) (cur : Int × Option Nat) : Bool :=
  match cur.2 with
  | none => false
  | some p => (next (a.getD cur.1.toNat []) p).isNone

/-- The loop of `advance_cursors`, one iteration per unit of fuel:
`while (current.second->next == nullptr && current.first < bins)` either stops at
`(-1, nullptr)` when `current.first + 1 >= bins` or moves to `map[++current.first]`. -/
def advance_loop (bins : Nat) (a : List (List (Option E))) :
    Nat → Int × Option Nat → Int × Option Nat
  | 0, cur => cur
  | fuel + 1, cur =>
    if at_last a cur = true ∧ cur.1 < (bins : Int) then
      if cur.1 + 1 ≥ (bins : Int) then (-1, none)
      else advance_loop bins a fuel (cur.1 + 1, some 0)
    else cur

/-- The method `advance_cursors`; every iteration increases the bin index, so `bins`
iterations are enough. -/
def advance_cursors (bins : Nat) (a : List (List (Option E))) (cur : Int × Option Nat) :
    Int × Option Nat :=
  advance_loop bins a bins cur

/-- The constructor `Iterator(iterate_over, from_begin)`. -/
def Iterator_ctor (t : Table E) (from_begin : Bool) : Iterator :=
  if from_begin = true ∧ t.used ≠ 0 then
    { current := advance_cursors t.bins (cells t) (0, some 0),
      expected_mod_count := t.mod_count, can_erase := true }
  else
    { current := (-1, none), expected_mod_count := t.mod_count, can_erase := true }

def begin (t : Table E) : Iterator :=
  Iterator_ctor t true

def end_ (t : Table E) : Iterator :=
  Iterator_ctor t false

/-- The node `*(current.second)`; `none` also when the pointer is `nullptr`. -/
def node_at (a : List (List (Option E))) (cur : Int × Option Nat) : Option E :=
  match cur.2 with
  | none => none
  | some p => (a.getD cur.1.toNat []).getD p none

/-- The splice of cursor `erase()` applied to the node under the cursor. -/
def splice_at (a : List (List (Option E))) (cur : Int × Option Nat) :
    List (List (Option E)) :=
  match cur.2 with
  | none => a
  | some p => splice a cur.1.toNat p

/-- The pointer step `current.second = current.second->next`. -/
def next_node (a : List (List (Option E))) (cur : Int × Option Nat) : Int × Option Nat :=
  (cur.1, cur.2.bind (next (a.getD cur.1.toNat [])))

/-- The method `Iterator::erase()` of a cursor bound to `t`: the node erased, the cursor
and the table it leaves. -/
def Iterator_erase (t : Table E) (it : Iterator) :
    Except Error (Option E × Iterator × Table E) :=
  if it.expected_mod_count ≠ t.mod_count then .error Error.ConcurrentModificationError
  else if it.can_erase = false then .error Error.CannotEraseError
  else if it.current.1 = -1 then .error Error.CannotEraseError
  else
    let returnVal := node_at (cells t) it.current
    let t2 : Table E :=
      { t with map := some (splice_at (cells t) it.current),
               used := t.used - 1, mod_count := t.mod_count + 1 }
    .ok (returnVal,
         { current := advance_cursors t2.bins (cells t2) it.current,
           expected_mod_count := t2.mod_count, can_erase := false },
         t2)

/-- The prefix `operator++` of a cursor bound to `t`; the postfix one leaves the same
cursor. -/
def Iterator_inc (t : Table E) (it : Iterator) : Except Error Iterator :=
  if it.expected_mod_count ≠ t.mod_count then .error Error.ConcurrentModificationError
  else if it.current.1 = -1 then .ok it
  else if it.can_erase = true then
    .ok { it with
      current := advance_cursors t.bins (cells t) (next_node (cells t) it.current) }
  else .ok { it with can_erase := true }

/-- A chain of nodes that hold values, ended by one node built by `LN()`. -/
def Chain (c : List (Option E)) : Prop :=
  ∃ live : List E, c = live.map some ++ [none]

/-- The representation invariant on the `LN` objects: at least one bin, no entry counted
while the bucket array is `nullptr`, and every bin of an allocated bucket array holds a
chain ended by one node built by `LN()`. -/
def Inv (t : Table E) : Prop :=
  1 ≤ t.bins ∧ (t.map = none → t.used = 0) ∧
    ∀ a, t.map = some a → a.length = t.bins ∧ ∀ c ∈ a, Chain c

/-- The cursor position is the end position `(-1, nullptr)` or a node that has a
successor. -/
def End_or_inner (a : List (List (Option E))) (cur : Int × Option Nat) : Prop :=
  cur = (-1, none) ∨
    (0 ≤ cur.1 ∧ ∃ p, cur.2 = some p ∧ (next (a.getD cur.1.toNat []) p).isSome = true)

/-- The cursor `it` is usable on `t`: its snapshot is not ahead of the mutation counter,
and if it is the counter, the position is the end position or a node with a successor. -/
def Cursor_ok (t : Table E) (it : Iterator) : Prop :=
  it.expected_mod_count ≤ t.mod_count ∧
    (it.expected_mod_count = t.mod_count → End_or_inner (cells t) it.current)

/-- The states of a table together with a cursor made on it that the public operations
produce: the constructors, `begin()` and `end()`, `put` / `insert` (`store`), `operator[]`
(`insert` of `Entry(key, T())`), `erase`, `clear`, `operator =`, `operator ++`
and `erase()` of the cursor, and `erase()` of another cursor made on the
table.  An operation that throws changes nothing. -/
inductive Reachable (code : hashfunc → K → Int) (key : E → K)
    (store : Table E → E → Table E) (thash : hashfunc) : Table E → Iterator → Prop
  | by_ctor_default (l : ℚ) (chash : hashfunc) (t : Table E)
      (h : ctor_default code key thash l chash = .ok t) :
      Reachable code key store thash t (end_ t)
  | by_ctor_bins (ib : Int) (l : ℚ) (chash : hashfunc) (t : Table E)
      (h : ctor_bins code key thash ib l chash = .ok t) :
      Reachable code key store thash t (end_ t)
  | by_ctor_il (il : List E) (l : ℚ) (chash : hashfunc) (t : Table E)
      (h : ctor_il store thash il l chash = .ok t) :
      Reachable code key store thash t (end_ t)
  | by_ctor_copy (b : Table E) (itb : Iterator) (l : ℚ) (chash : hashfunc) (fallback : ℚ)
      (t : Table E) (hb : Reachable code key store thash b itb)
      (h : ctor_copy store thash b l chash fallback = .ok t) :
      Reachable code key store thash t (end_ t)
  | by_begin (t : Table E) (it : Iterator) (ht : Reachable code key store thash t it) :
      Reachable code key store thash t (begin t)
  | by_end (t : Table E) (it : Iterator) (ht : Reachable code key store thash t it) :
      Reachable code key store thash t (end_ t)
  | by_store (t : Table E) (it : Iterator) (e : E)
      (ht : Reachable code key store thash t it) :
      Reachable code key store thash (store t e) it
  | by_operator_index (t : Table E) (it : Iterator) (e : E)
      (ht : Reachable code key store thash t it) :
      Reachable code key store thash (insert code key t e) it
  | by_erase (t : Table E) (it : Iterator) (k : K)
      (ht : Reachable code key store thash t it) :
      Reachable code key store thash (erase code key t k) it
  | by_clear (t : Table E) (it : Iterator) (ht : Reachable code key store thash t it) :
      Reachable code key store thash (clear t) it
  | by_operator_assign (a : Table E) (ita : Iterator) (b : Table E) (itb : Iterator)
      (ha : Reachable code key store thash a ita)
      (hb : Reachable code key store thash b itb) :
      Reachable code key store thash (operator_assign store a (.other b)) ita
  | by_operator_assign_self (a : Table E) (ita : Iterator)
      (ha : Reachable code key store thash a ita) :
      Reachable code key store thash (operator_assign store a .self) ita
  | by_Iterator_inc (t : Table E) (it it2 : Iterator)
      (ht : Reachable code key store thash t it) (h : Iterator_inc t it = .ok it2) :
      Reachable code key store thash t it2
  | by_Iterator_erase (t : Table E) (it : Iterator) (r : Option E) (it2 : Iterator)
      (t2 : Table E) (ht : Reachable code key store thash t it)
      (h : Iterator_erase t it = .ok (r, it2, t2)) :
      Reachable code key store thash t2 it2
  | by_other_erase (t : Table E) (it ito : Iterator) (r : Option E) (it2 : Iterator)
      (t2 : Table E) (ht : Reachable code key store thash t it)
      (hto : Reachable code key store thash t ito)
      (h : Iterator_erase t ito = .ok (r, it2, t2)) :
      Reachable code key store thash t2 it

end Nodes

namespace Nodes

variable {E K : Type} [DecidableEq K] [Inhabited E]

/-- The method `operator*` of a cursor bound to `t`. -/
def Iterator_deref (t : Table E) (it : Iterator) : Except Error E :=
  if it.expected_mod_count ≠ t.mod_count then .error Error.ConcurrentModificationError
  else if it.can_erase = false ∨ it.current.1 = -1 then .error Error.IteratorPositionIllegal
  else .ok (read (node_at (cells t) it.current))

/-- The method `operator !=` of the cursor `it` against the cursor `rhs`, both bound to `t`
(so the test `ref_map != rhs.ref_map` fails; the `dynamic_cast` cannot yield 0). -/
def Iterator_ne (t : Table E) (it rhs : Iterator) : Except Error Bool :=
  if t.mod_count ≠ it.expected_mod_count then .error Error.ConcurrentModificationError
  else .ok (decide (it.current ≠ rhs.current))

/-- The loop `for (; i != t.end(); ++i) visit(*i)`, one iteration per unit of fuel: `none`
when the fuel runs out before the loop ends, else the exception thrown or the values
visited, in order. -/
def range_for_loop (t : Table E) : Nat → Iterator → Option (Except Error (List E))
  | 0, _ => none
  | fuel + 1, i =>
    match Iterator_ne t i (end_ t) with
    | .error err => some (.error err)
    | .ok false => some (.ok [])
    | .ok true =>
      match Iterator_deref t i with
      | .error err => some (.error err)
      | .ok v =>
        match Iterator_inc t i with
        | .error err => some (.error err)
        | .ok i2 => (range_for_loop t fuel i2).map (fun r => r.map (fun l => v :: l))

/-- The loop `for (e : t) visit(e)`, which starts at `begin()`. -/
def range_for (t : Table E) (fuel : Nat) : Option (Except Error (List E)) :=
  range_for_loop t fuel (begin t)

/-- The values of the nodes before the last one, chain by chain. -/
def live_cells (a : List (List (Option E))) : List (List E) :=
  a.map (fun c => c.dropLast.map read)

end Nodes

/-! ## Sample tables -/

namespace Sample

/-- A code memory in which every address holds the hash function `k ↦ k` on integers. -/
def code : hashfunc → Int → Int :=
  fun _ k => k

/-- The map `{0 -> 5, 1 -> 7}` in two bins. -/
def map2 : HashMap Int Int :=
  { hash := 1, map := some [[(0, 5)], [(1, 7)]], load_threshold := 1, bins := 2, used := 2,
    mod_count := 2 }

/-- The set `{0, 1}` in two bins. -/
def set2 : HashSet Int :=
  { hash := 1, set := some [[0], [1]], load_threshold := 1, bins := 2, used := 2,
    mod_count := 2 }

/-- The map `{0 -> 5, 1 -> 7}` again, in one bin and built by another hash function. -/
def map2b : HashMap Int Int :=
  { hash := 2, map := some [[(1, 7), (0, 5)]], load_threshold := 3, bins := 1, used := 2,
    mod_count := 9 }

/-- The set `{0, 1}` again, in one bin and built by another hash function. -/
def set2b : HashSet Int :=
  { hash := 2, set := some [[1, 0]], load_threshold := 3, bins := 1, used := 2,
    mod_count := 9 }

/-- The copy of `map2` made by the copy constructor with the hash function of `map2`. -/
def map2c : HashMap Int Int :=
  { hash := 1, map := some [[(0, 5)], [(1, 7)]], load_threshold := 1, bins := 2, used := 2,
    mod_count := 0 }

/-- The copy of `set2` made by the copy constructor with the hash function of `set2`. -/
def set2c : HashSet Int :=
  { hash := 1, set := some [[0], [1]], load_threshold := 1, bins := 2, used := 2,
    mod_count := 0 }

/-- The table `map2` after `erase(1)`. -/
def map2e : HashMap Int Int :=
  { hash := 1, map := some [[(0, 5)], []], load_threshold := 1, bins := 2, used := 1,
    mod_count := 3 }

/-- A code memory in which address 2 holds the constant hash function and every other
address the hash function `k ↦ k`. -/
def code2 : hashfunc → Int → Int :=
  fun h k => if h = 2 then 0 else k

/-- A code memory over strings in which every address holds the hash function
`x ↦ length(x)`, constant on strings of one length. -/
def code_len : hashfunc → String → Int :=
  fun _ x => (x.length : Int)

/-- The map built by the initializer-list constructor from the empty list with the hash
function at address 1: no bucket array is allocated yet. -/
def mapN : HashMap Int Int :=
  { hash := 1, map := none, load_threshold := 1, bins := 1, used := 0, mod_count := 0 }

/-- The set built by the initializer-list constructor from the empty list with the hash
function at address 1: no bucket array is allocated yet. -/
def setN : HashSet Int :=
  { hash := 1, set := none, load_threshold := 1, bins := 1, used := 0, mod_count := 0 }

/-- An empty map with one allocated bin. -/
def map0 : HashMap Int Int :=
  { hash := 1, map := some [[]], load_threshold := 1, bins := 1, used := 0, mod_count := 0 }

/-- An empty set with one allocated bin. -/
def set0 : HashSet Int :=
  { hash := 1, set := some [[]], load_threshold := 1, bins := 1, used := 0, mod_count := 0 }

end Sample

namespace Sample

/-- The order `a < b` on `int` keys. -/
def lt_int (a b : Int) : Bool :=
  decide (a < b)

/-- The constructed map after `put(2,20)`, `put(1,10)`, `put(3,30)` and `erase(2)`. -/
def bst3 : BSTMap Int Int :=
  (BSTMap.erase lt_int (BSTMap.put lt_int (BSTMap.put lt_int
    (BSTMap.put lt_int BSTMap.ctor 2 20).2 1 10).2 3 30).2 2).2

end Sample

namespace Sample

/-- The priority `a > b` on `int` values. -/
def gt_int (a b : Int) : Bool :=
  decide (b < a)

/-- The constructed queue after `enqueue(1)`. -/
def heap1 : HeapPriorityQueue Int :=
  { pq := [1, 0], used := 1, mod_count := 1 }

/-- The constructed queue after `enqueue(1)`, `enqueue(5)`. -/
def heap2 : HeapPriorityQueue Int :=
  { pq := [5, 1, 0, 0], used := 2, mod_count := 2 }

/-- The constructed queue after `enqueue(1)`, `enqueue(5)`, `enqueue(3)`. -/
def heap3 : HeapPriorityQueue Int :=
  { pq := [5, 1, 3, 0], used := 3, mod_count := 3 }

end Sample

namespace Sample

/-- The graph with the nodes `A`, `B`, `C`, `U` and the edges `A -> B` of value 10,
`A -> C` of value 1 and `C -> B` of value 1; no edge leads to or from `U`. -/
def graph4 : DistGraph :=
  { all_nodes := ["A", "B", "C", "U"],
    out_nodes := fun n =>
      if n = "A" then .ok ["B", "C"]
      else if n = "C" then .ok ["B"]
      else if n = "B" ∨ n = "U" then .ok []
      else .error Error.GraphError,
    edge_value := fun a b =>
      if a = "A" ∧ b = "B" then .ok 10
      else if a = "A" ∧ b = "C" then .ok 1
      else if a = "C" ∧ b = "B" then .ok 1
      else .error Error.GraphError }

end Sample

namespace Sample

/-- The `HashMap<int,int>` that the initializer-list constructor builds from the empty list
with the hash function at address 1, with its `LN` objects: no bucket array yet. -/
def nodesN : Nodes.Table (Int × Int) :=
  { hash := 1, map := none, load_threshold := 1, bins := 1, used := 0, mod_count := 0 }

/-- The map `nodesN` after `put(0, 5)` and `put(1, 7)`. -/
def nodesP : Nodes.Table (Int × Int) :=
  { hash := 1, map := some [[some (0, 5), none], [some (1, 7), none]], load_threshold := 1,
    bins := 2, used := 2, mod_count := 2 }

/-- The map `nodesP` after `erase()` of a cursor made by `begin()`. -/
def nodesE : Nodes.Table (Int × Int) :=
  { hash := 1, map := some [[none], [some (1, 7), none]], load_threshold := 1, bins := 2,
    used := 1, mod_count := 3 }

/-- The map `nodesP` after `clear()`. -/
def nodesC : Nodes.Table (Int × Int) :=
  { hash := 1, map := none, load_threshold := 1, bins := 2, used := 0, mod_count := 3 }

/-- The `HashSet<int>` that the initializer-list constructor builds from the empty list
with the hash function at address 1, with its `LN` objects: no bucket array yet. -/
def nodesS : Nodes.Table Int :=
  { hash := 1, map := none, load_threshold := 1, bins := 1, used := 0, mod_count := 0 }

/-- The set `nodesS` after `insert(0)`, `insert(1)` and `erase(1)`. -/
def nodesT : Nodes.Table Int :=
  { hash := 1, map := some [[some 0, none], [none]], load_threshold := 1, bins := 2,
    used := 1, mod_count := 3 }

end Sample

/-! ## Lemmas on bucket arrays -/

namespace Bucket

variable {E K : Type} [DecidableEq K]

theorem natAbs_tmod_natCast (a : Int) (b : Nat) : (Int.tmod a (b : Int)).natAbs = a.natAbs % b := by
  cases a with
  | ofNat n => simp [Int.tmod]; rfl
  | negSucc n =>
    simp only [Int.tmod, Int.natAbs_neg, Int.natAbs_negSucc]
    rfl

theorem find_eq_none (key : E → K) (k : K) (l : List E) :
    find key k l = none ↔ ∀ e ∈ l, key e ≠ k := by
  induction l with
  | nil => simp [find]
  | cons a l ih =>
    by_cases h : k = key a
    · simp [find, h]
    · simp [find, h, ih, Ne.symm h]

theorem find_eq_some (key : E → K) (k : K) (l : List E) (i : Nat) (e : E)
    (h : find key k l = some (i, e)) : l[i]? = some e ∧ key e = k := by
  induction l generalizing i with
  | nil => simp [find] at h
  | cons a l ih =>
    by_cases hk : k = key a
    · simp [find, hk] at h
      obtain ⟨rfl, rfl⟩ := h
      simp [hk]
    · simp only [find, hk, if_false, Option.map_eq_some'] at h
      obtain ⟨⟨j, x⟩, hj, hx⟩ := h
      simp only [Prod.mk.injEq] at hx
      obtain ⟨rfl, rfl⟩ := hx
      simpa using ih j hj

theorem getD_mem_flatten (bs : List (List E)) (i : Nat) (e : E) (h : e ∈ bs.getD i []) :
    e ∈ bs.flatten := by
  rw [List.getD_eq_getElem?_getD] at h
  cases hi : bs[i]? with
  | none => simp [hi] at h
  | some c =>
    simp [hi] at h
    exact List.mem_flatten.2 ⟨c, List.mem_iff_getElem?.2 ⟨i, hi⟩, h⟩

theorem mem_flatten_getD (bs : List (List E)) (e : E) (h : e ∈ bs.flatten) :
    ∃ i, i < bs.length ∧ e ∈ bs.getD i [] := by
  obtain ⟨c, hc, he⟩ := List.mem_flatten.1 h
  obtain ⟨i, hi, rfl⟩ := List.mem_iff_getElem.1 hc
  exact ⟨i, hi, by rw [List.getD_eq_getElem _ _ hi]; exact he⟩

theorem Placed.mem_iff {place : E → Nat} {bs : List (List E)} (hp : Placed place bs) (e : E) :
    e ∈ bs.flatten ↔ e ∈ bs.getD (place e) [] := by
  constructor
  · intro h
    obtain ⟨i, hi, he⟩ := mem_flatten_getD bs e h
    rw [hp i hi e he]; exact he
  · exact getD_mem_flatten bs _ e

/-- The flattened table around bin `b`. -/
theorem flatten_ctx (bs : List (List E)) (b : Nat) (hb : b < bs.length) :
    ∃ A B, bs.flatten = A ++ bs.getD b [] ++ B ∧
      ∀ c, (bs.set b c).flatten = A ++ c ++ B := by
  refine ⟨(bs.take b).flatten, (bs.drop (b + 1)).flatten, ?_, ?_⟩
  · have h : bs = bs.take b ++ bs[b] :: bs.drop (b + 1) := by
      rw [List.getElem_cons_drop, List.take_append_drop]
    have h2 : bs.flatten = (bs.take b ++ bs[b] :: bs.drop (b + 1)).flatten :=
      congrArg List.flatten h
    rw [List.flatten_append, List.flatten_cons, ← List.append_assoc] at h2
    rw [List.getD_eq_getElem _ _ hb]
    exact h2
  · intro c
    rw [List.set_eq_take_append_cons_drop, if_pos hb]
    simp

/-- The flattened table around the node at position `i` of bin `b`. -/
theorem node_ctx (bs : List (List E)) (b i : Nat) (e : E) (hb : b < bs.length)
    (hi : (bs.getD b [])[i]? = some e) :
    ∃ A B, bs.flatten = A ++ e :: B ∧ (splice bs b i).flatten = A ++ B ∧
      ∀ x, (bs.set b ((bs.getD b []).set i x)).flatten = A ++ x :: B := by
  obtain ⟨A, B, h1, h2⟩ := flatten_ctx bs b hb
  have hlt : i < (bs.getD b []).length := (List.getElem?_eq_some_iff.1 hi).1
  have hget : (bs.getD b [])[i] = e := (List.getElem?_eq_some_iff.1 hi).2
  refine ⟨A ++ (bs.getD b []).take i, (bs.getD b []).drop (i + 1) ++ B, ?_, ?_, ?_⟩
  · have h : bs.getD b [] = (bs.getD b []).take i ++ e :: (bs.getD b []).drop (i + 1) := by
      rw [← hget, List.getElem_cons_drop, List.take_append_drop]
    rw [h1]
    have h2 : A ++ bs.getD b [] ++ B
        = A ++ ((bs.getD b []).take i ++ e :: (bs.getD b []).drop (i + 1)) ++ B :=
      congrArg (fun c => A ++ c ++ B) h
    rw [h2]
    simp only [List.append_assoc, List.cons_append]
  · rw [splice, h2, List.eraseIdx_eq_take_drop_succ]; simp
  · intro x
    rw [h2, List.set_eq_take_append_cons_drop, if_pos hlt]; simp

theorem length_push_front (bs : List (List E)) (i : Nat) (e : E) :
    (push_front bs i e).length = bs.length := by
  simp [push_front]

theorem push_front_perm (bs : List (List E)) (i : Nat) (e : E) (hi : i < bs.length) :
    (push_front bs i e).flatten.Perm (e :: bs.flatten) := by
  obtain ⟨A, B, h1, h2⟩ := flatten_ctx bs i hi
  rw [push_front, h2, h1]
  simp only [List.append_assoc, List.cons_append]
  exact List.perm_middle

theorem getD_set (bs : List (List E)) (b j : Nat) (c : List E) (hb : b < bs.length) :
    (bs.set b c).getD j [] = if b = j then c else bs.getD j [] := by
  simp only [List.getD_eq_getElem?_getD, List.getElem?_set, hb, if_true]
  split <;> simp

theorem Placed.set {place : E → Nat} {bs : List (List E)} (hp : Placed place bs) (b : Nat)
    (c : List E) (hc : ∀ e ∈ c, place e = b) : Placed place (bs.set b c) := by
  intro i hi e he
  rw [List.length_set] at hi
  by_cases hb : b < bs.length
  · rw [getD_set bs b i c hb] at he
    split at he
    · subst_vars; exact hc e he
    · exact hp i hi e he
  · rw [List.set_eq_of_length_le (by omega)] at he
    exact hp i hi e he

theorem Placed.push_front {place : E → Nat} {bs : List (List E)} (hp : Placed place bs)
    (e : E) (he : place e < bs.length) : Placed place (push_front bs (place e) e) := by
  apply hp.set
  intro x hx
  rcases List.mem_cons.1 hx with rfl | hx
  · rfl
  · exact hp _ he x hx

theorem Placed.fresh (place : E → Nat) (n : Nat) : Placed place (fresh n : List (List E)) := by
  intro i hi e he
  simp [Bucket.fresh, List.getD_eq_getElem?_getD, List.getElem?_replicate] at he
  split at he <;> simp at he

theorem relink_spec (place : E → Nat) (chain : List E) (tm : List (List E))
    (hpl : ∀ e ∈ chain, place e < tm.length) (hp : Placed place tm) :
    (relink place tm chain).length = tm.length ∧ Placed place (relink place tm chain) ∧
      (relink place tm chain).flatten.Perm (chain ++ tm.flatten) := by
  induction chain generalizing tm with
  | nil => simp [relink, hp]
  | cons a l ih =>
    have ha : place a < tm.length := hpl a (List.mem_cons_self _ _)
    have := ih (push_front tm (place a) a)
      (fun e he => by rw [length_push_front]; exact hpl e (List.mem_cons_of_mem _ he))
      (hp.push_front a ha)
    obtain ⟨h1, h2, h3⟩ := this
    refine ⟨?_, ?_, ?_⟩
    · simpa [relink, length_push_front] using h1
    · simpa [relink] using h2
    · have h4 : (relink place tm (a :: l)) = relink place (push_front tm (place a) a) l := by
        simp [relink]
      rw [h4]
      refine h3.trans ?_
      refine ((push_front_perm tm (place a) a ha).append_left l).trans ?_
      simp only [List.cons_append]
      exact List.perm_middle

theorem rehash_loop_spec (place : E → Nat) (old : List (List E)) (tm : List (List E))
    (hpl : ∀ e ∈ old.flatten, place e < tm.length) (hp : Placed place tm) :
    (old.foldl (relink place) tm).length = tm.length ∧
      Placed place (old.foldl (relink place) tm) ∧
      (old.foldl (relink place) tm).flatten.Perm (old.flatten ++ tm.flatten) := by
  induction old generalizing tm with
  | nil => simp [hp]
  | cons c old ih =>
    obtain ⟨h1, h2, h3⟩ := relink_spec place c tm
      (fun e he => hpl e (by simp [he])) hp
    obtain ⟨g1, g2, g3⟩ := ih (relink place tm c)
      (fun e he => by rw [h1]; exact hpl e (by simp [he])) h2
    refine ⟨by simpa [h1] using g1, by simpa using g2, ?_⟩
    simp only [List.foldl_cons, List.flatten_cons]
    refine g3.trans ?_
    refine (h3.append_left old.flatten).trans ?_
    simp only [List.append_assoc]
    rw [← List.append_assoc, ← List.append_assoc]
    exact List.Perm.append_right _ List.perm_append_comm

theorem rehash_spec (place : E → Nat) (old : List (List E)) (n : Nat)
    (hpl : ∀ e ∈ old.flatten, place e < n) :
    (rehash place old n).length = n ∧ Placed place (rehash place old n) ∧
      (rehash place old n).flatten.Perm old.flatten := by
  have := rehash_loop_spec place old (fresh n) (by simpa [fresh] using hpl) (Placed.fresh place n)
  simpa [rehash, fresh] using this

theorem copy_list_eq (l : List E) : copy_list l = l := by
  induction l with
  | nil => rfl
  | cons a l ih => simp [copy_list, ih]

theorem copy_hash_table_eq (bs : List (List E)) :
    copy_hash_table (some bs) bs.length = some bs := by
  simp only [copy_hash_table, copy_list_eq, Option.some.injEq]
  apply List.ext_getElem
  · simp
  · intro i h1 h2
    simp [List.getElem?_eq_getElem h2]

end Bucket

/-! ## Lemmas on `HashMap` -/

namespace HashMap

variable {K V : Type} [DecidableEq K]

theorem hash_compress_eq (code : hashfunc → K → Int) (m : HashMap K V) (k : K) :
    hash_compress code m k = (((code m.hash k).natAbs % m.bins : Nat) : Int) := by
  unfold hash_compress
  rw [← Bucket.natAbs_tmod_natCast]
  simp only
  split
  · omega
  · omega

theorem hash_compress_lt (code : hashfunc → K → Int) (m : HashMap K V) (k : K)
    (h : 1 ≤ m.bins) : (hash_compress code m k).toNat < m.bins := by
  rw [hash_compress_eq]
  simp only [Int.toNat_ofNat]
  exact Nat.mod_lt _ h

theorem place_congr (code : hashfunc → K → Int) (m m2 : HashMap K V) (hh : m2.hash = m.hash)
    (hb : m2.bins = m.bins) : place code m2 = place code m := by
  funext e
  simp [place, hash_compress, hh, hb]

theorem hash_compress_congr (code : hashfunc → K → Int) (m m2 : HashMap K V)
    (hh : m2.hash = m.hash) (hb : m2.bins = m.bins) (k : K) :
    hash_compress code m2 k = hash_compress code m k := by
  simp [hash_compress, hh, hb]

theorem table_of_map {m : HashMap K V} {bs : List (List (K × V))} (h : m.map = some bs) :
    m.table = bs := by
  simp [table, h]

theorem find_key_eq_find (code : hashfunc → K → Int) (m : HashMap K V) (k : K) :
    find_key code m k
      = Bucket.find Prod.fst k (m.table.getD (hash_compress code m k).toNat []) := by
  unfold find_key table
  cases m.map with
  | none => simp [Bucket.find]
  | some bs => simp

theorem find_key_eq_none (code : hashfunc → K → Int) (m : HashMap K V) (hs : Shape code m)
    (k : K) : find_key code m k = none ↔ ∀ e ∈ m.entries, e.1 ≠ k := by
  rw [find_key_eq_find, Bucket.find_eq_none]
  obtain ⟨_, _, hp, _⟩ := hs
  constructor
  · intro h e he hk
    have h2 := (hp.mem_iff e).1 he
    have : place code m e = (hash_compress code m k).toNat := by simp [place, hk]
    rw [this] at h2
    exact h e h2 hk
  · intro h e he
    exact h e (Bucket.getD_mem_flatten _ _ e he)

theorem find_key_eq_some (code : hashfunc → K → Int) (m : HashMap K V) (k : K) (i : Nat)
    (e : K × V) (h : find_key code m k = some (i, e)) :
    (m.table.getD (hash_compress code m k).toNat [])[i]? = some e ∧ e.1 = k ∧
      (hash_compress code m k).toNat < m.table.length ∧ e ∈ m.entries := by
  rw [find_key_eq_find] at h
  obtain ⟨h1, h2⟩ := Bucket.find_eq_some _ _ _ _ _ h
  have hmem : e ∈ m.table.getD (hash_compress code m k).toNat [] :=
    List.mem_iff_getElem?.2 ⟨i, h1⟩
  refine ⟨h1, h2, ?_, Bucket.getD_mem_flatten _ _ e hmem⟩
  by_contra hlt
  rw [List.getD_eq_default _ _ (by omega)] at hmem
  simp at hmem

theorem find_key_of_mem (code : hashfunc → K → Int) (m : HashMap K V) (hs : Shape code m)
    (e : K × V) (he : e ∈ m.entries) : ∃ i, find_key code m e.1 = some (i, e) := by
  cases hf : find_key code m e.1 with
  | none => exact absurd rfl ((find_key_eq_none code m hs e.1).1 hf e he)
  | some p =>
    obtain ⟨i, x⟩ := p
    obtain ⟨_, hk, _, hx⟩ := find_key_eq_some code m e.1 i x hf
    have := List.inj_on_of_nodup_map hs.2.2.2 hx he hk
    subst this
    exact ⟨i, rfl⟩

theorem get?_eq_some (code : hashfunc → K → Int) (m : HashMap K V) (hs : Shape code m)
    (k : K) (v : V) : get? code m k = some v ↔ (k, v) ∈ m.entries := by
  constructor
  · intro h
    simp only [get?, Option.map_eq_some'] at h
    obtain ⟨⟨i, e⟩, hf, rfl⟩ := h
    obtain ⟨_, hk, _, hx⟩ := find_key_eq_some code m k i e hf
    subst hk
    exact hx
  · intro h
    obtain ⟨i, hi⟩ := find_key_of_mem code m hs (k, v) h
    simp [get?, hi]

theorem get?_eq_none (code : hashfunc → K → Int) (m : HashMap K V) (hs : Shape code m)
    (k : K) : get? code m k = none ↔ ∀ e ∈ m.entries, e.1 ≠ k := by
  rw [← find_key_eq_none code m hs k]
  simp [get?]

theorem has_key_eq (code : hashfunc → K → Int) (m : HashMap K V) (k : K) :
    has_key code m k = (get? code m k).isSome := by
  simp [has_key, get?]

theorem ensure_fields (code : hashfunc → K → Int) (m : HashMap K V) (n : Int) :
    (ensure_load_threshold code m n).hash = m.hash ∧
    (ensure_load_threshold code m n).used = m.used ∧
    (ensure_load_threshold code m n).mod_count = m.mod_count ∧
    (ensure_load_threshold code m n).load_threshold = m.load_threshold ∧
    (ensure_load_threshold code m n).map.isSome = true := by
  unfold ensure_load_threshold
  simp only
  split <;> simp

theorem ensure_bins (code : hashfunc → K → Int) (m : HashMap K V) (n : Int) :
    (ensure_load_threshold code m n).bins
      = if (n : ℚ) / (m.bins : ℚ) ≤ m.load_threshold then m.bins else m.bins * 2 := by
  unfold ensure_load_threshold
  simp only
  split <;> simp

theorem ensure_shape (code : hashfunc → K → Int) (m : HashMap K V) (n : Int)
    (hs : Shape code m) :
    Shape code (ensure_load_threshold code m n) ∧
      (ensure_load_threshold code m n).entries.Perm m.entries := by
  obtain ⟨hb, hl, hp, hn⟩ := hs
  unfold ensure_load_threshold
  simp only
  split
  · -- no growth
    cases hm : m.map with
    | none =>
      have he : m.entries = [] := by simp [entries, table, hm]
      refine ⟨⟨hb, ?_, ?_, ?_⟩, ?_⟩
      · simp [table, Bucket.fresh]
      · simpa [table] using Bucket.Placed.fresh _ _
      · simp [entries, table, Bucket.fresh]
      · simp [entries, table, Bucket.fresh, hm]
    | some bs =>
      have hm2 : ({ m with map := some bs } : HashMap K V) = m := by
        cases m; simp_all
      simp only [hm2]
      exact ⟨⟨hb, hl, hp, hn⟩, List.Perm.refl _⟩
  · -- growth
    have hflat : (match m.map with
        | none => (Bucket.fresh m.bins : List (List (K × V)))
        | some bs => bs).flatten = m.entries := by
      cases hm : m.map with
      | none => simp [entries, table, hm, Bucket.fresh]
      | some bs => simp [entries, table, hm]
    have hspec := Bucket.rehash_spec
      (fun e : K × V => (hash_compress code ({ m with bins := m.bins * 2 } : HashMap K V) e.1).toNat)
      (match m.map with
        | none => (Bucket.fresh m.bins : List (List (K × V)))
        | some bs => bs) (m.bins * 2)
      (fun e _ => hash_compress_lt code _ e.1 (by show 1 ≤ m.bins * 2; omega))
    obtain ⟨h1, h2, h3⟩ := hspec
    rw [hflat] at h3
    refine ⟨⟨by show 1 ≤ m.bins * 2; omega, ?_, ?_, ?_⟩, ?_⟩
    · intro _; simpa [table] using h1
    · simpa [table, place] using h2
    · have := (h3.map Prod.fst).nodup_iff.2 hn
      simpa [entries, table] using this
    · simpa [entries, table] using h3

theorem Shape.congr {code : hashfunc → K → Int} {m m2 : HashMap K V} (hs : Shape code m)
    (hh : m2.hash = m.hash) (hb : m2.bins = m.bins) (hm : m2.map = m.map) : Shape code m2 := by
  unfold Shape at *
  rw [place_congr code m m2 hh hb]
  simpa [entries, table, hm, hb] using hs

theorem map_isSome_of_lt {m : HashMap K V} {b : Nat} (h : b < m.table.length) :
    m.map.isSome = true := by
  cases hm : m.map with
  | none => simp [table, hm] at h
  | some bs => rfl

theorem put_found_eq (code : hashfunc → K → Int) (m : HashMap K V) (k : K) (v : V)
    (i : Nat) (e : K × V) (hf : find_key code m k = some (i, e)) :
    put code m k v = (e.2, { m with
      mod_count := m.mod_count + 1,
      map := some (m.table.set (hash_compress code m k).toNat
        ((m.table.getD (hash_compress code m k).toNat []).set i (e.1, v))) }) := by
  unfold put
  rw [hf]
  rfl

theorem erase_found_eq (code : hashfunc → K → Int) (m : HashMap K V) (k : K)
    (i : Nat) (e : K × V) (hf : find_key code m k = some (i, e)) :
    erase code m k = .ok (e.2, { m with
      map := some (Bucket.splice m.table (hash_compress code m k).toNat i),
      used := m.used - 1, mod_count := m.mod_count + 1 }) := by
  unfold erase
  rw [hf]

theorem put_new (code : hashfunc → K → Int) (m : HashMap K V) (hw : WF code m) (k : K) (v : V)
    (hf : find_key code m k = none) :
    (put code m k v).1 = v ∧ WF code (put code m k v).2 ∧
      (put code m k v).2.entries.Perm ((k, v) :: m.entries) ∧
      (put code m k v).2.used = m.used + 1 ∧
      (put code m k v).2.mod_count = m.mod_count + 1 ∧
      (put code m k v).2.hash = m.hash ∧
      (put code m k v).2.load_threshold = m.load_threshold ∧
      (put code m k v).2.bins
        = (ensure_load_threshold code m (m.used + 1)).bins := by
  obtain ⟨hs, hu⟩ := hw
  have hs1 : Shape code ({ m with mod_count := m.mod_count + 1, used := m.used + 1 } : HashMap K V) :=
    hs.congr rfl rfl rfl
  obtain ⟨hs2, hperm⟩ := ensure_shape code _ (m.used + 1) hs1
  obtain ⟨f1, f2, f3, f4, f5⟩ := ensure_fields code
    ({ m with mod_count := m.mod_count + 1, used := m.used + 1 } : HashMap K V) (m.used + 1)
  have fb := ensure_bins code
    ({ m with mod_count := m.mod_count + 1, used := m.used + 1 } : HashMap K V) (m.used + 1)
  have fb0 := ensure_bins code m (m.used + 1)
  unfold put
  rw [hf]
  simp only
  generalize ensure_load_threshold code
    ({ m with mod_count := m.mod_count + 1, used := m.used + 1 } : HashMap K V) (m.used + 1) = m2
    at hs2 hperm f1 f2 f3 f4 f5 fb
  obtain ⟨hb2, hl2, hp2, hn2⟩ := hs2
  have hidx : (hash_compress code m2 k).toNat < m2.table.length := by
    rw [hl2 f5]; exact hash_compress_lt code m2 k hb2
  have hperm2 := Bucket.push_front_perm m2.table _ (k, v) hidx
  have hpermAll : (Bucket.push_front m2.table (hash_compress code m2 k).toNat (k, v)).flatten.Perm
      ((k, v) :: m.entries) := hperm2.trans (List.Perm.cons _ hperm)
  have hknew : k ∉ m.entries.map Prod.fst := by
    intro hk
    obtain ⟨e, he, hek⟩ := List.mem_map.1 hk
    exact (find_key_eq_none code m hs k).1 hf e he hek
  refine ⟨trivial, ⟨⟨hb2, ?_, ?_, ?_⟩, ?_⟩, ?_, ?_, ?_, ?_, ?_, ?_⟩
  · intro _
    simp only [table, Option.getD_some, Bucket.length_push_front]
    exact hl2 f5
  · have := hp2.push_front (k, v) hidx
    simpa [table, place] using this
  · have h3 := (hpermAll.map Prod.fst).nodup_iff.2
      (by simpa using ⟨by simpa using hknew, hs.2.2.2⟩)
    simpa [entries, table] using h3
  · have := hpermAll.length_eq
    simp only [entries, table, Option.getD_some] at this ⊢
    rw [this, f2]
    simp [hu, entries, table]
  · simpa [entries, table] using hpermAll
  · simpa using f2
  · simpa using f3
  · simpa using f1
  · simpa using f4
  · simp only [fb, fb0]

theorem put_found (code : hashfunc → K → Int) (m : HashMap K V) (hw : WF code m) (k : K) (v : V)
    (i : Nat) (e : K × V) (hf : find_key code m k = some (i, e)) :
    (put code m k v).1 = e.2 ∧ WF code (put code m k v).2 ∧
      (∃ A B, m.entries = A ++ e :: B ∧ (put code m k v).2.entries = A ++ (k, v) :: B) ∧
      (put code m k v).2.used = m.used ∧
      (put code m k v).2.mod_count = m.mod_count + 1 ∧
      (put code m k v).2.hash = m.hash ∧
      (put code m k v).2.load_threshold = m.load_threshold ∧
      (put code m k v).2.bins = m.bins := by
  obtain ⟨⟨hb, hl, hp, hn⟩, hu⟩ := hw
  obtain ⟨h1, hk, hlt, hmem⟩ := find_key_eq_some code m k i e hf
  obtain ⟨A, B, hA, _, hset⟩ := Bucket.node_ctx m.table _ i e hlt h1
  have hsome := map_isSome_of_lt hlt
  rw [put_found_eq code m k v i e hf]
  subst hk
  have hent : m.entries = A ++ e :: B := hA
  refine ⟨rfl, ⟨⟨hb, ?_, ?_, ?_⟩, ?_⟩, ⟨A, B, hA, hset _⟩, rfl, rfl, rfl, rfl, rfl⟩
  · intro _
    show (m.table.set _ _).length = m.bins
    rw [List.length_set]
    exact hl hsome
  · exact hp.set (hash_compress code m e.1).toNat
      ((m.table.getD (hash_compress code m e.1).toNat []).set i (e.1, v)) (by
        intro x hx
        rcases List.mem_or_eq_of_mem_set hx with hx | rfl
        · exact hp _ hlt x hx
        · rfl)
  · have h2 : (A ++ (e.1, v) :: B).map Prod.fst = (A ++ e :: B).map Prod.fst := by simp
    show ((m.table.set _ _).flatten.map Prod.fst).Nodup
    rw [hset, h2, ← hent]
    exact hn
  · show m.used = ((m.table.set _ _).flatten.length : Int)
    rw [hset, hu, hent]
    simp

theorem erase_found (code : hashfunc → K → Int) (m : HashMap K V) (hw : WF code m) (k : K)
    (i : Nat) (e : K × V) (hf : find_key code m k = some (i, e)) :
    ∃ m2, erase code m k = .ok (e.2, m2) ∧ WF code m2 ∧
      (∃ A B, m.entries = A ++ e :: B ∧ m2.entries = A ++ B) ∧
      m2.used = m.used - 1 ∧ m2.mod_count = m.mod_count + 1 ∧ m2.hash = m.hash ∧
      m2.load_threshold = m.load_threshold ∧ m2.bins = m.bins := by
  obtain ⟨⟨hb, hl, hp, hn⟩, hu⟩ := hw
  obtain ⟨h1, hk, hlt, hmem⟩ := find_key_eq_some code m k i e hf
  obtain ⟨A, B, hA, hsp, _⟩ := Bucket.node_ctx m.table _ i e hlt h1
  have hsome := map_isSome_of_lt hlt
  have hent : m.entries = A ++ e :: B := hA
  refine ⟨_, erase_found_eq code m k i e hf, ⟨⟨hb, ?_, ?_, ?_⟩, ?_⟩, ⟨A, B, hA, hsp⟩,
    rfl, rfl, rfl, rfl, rfl⟩
  · intro _
    show (Bucket.splice m.table _ _).length = m.bins
    rw [Bucket.splice, List.length_set]
    exact hl hsome
  · exact hp.set (hash_compress code m k).toNat
      ((m.table.getD (hash_compress code m k).toNat []).eraseIdx i) (by
        intro x hx
        exact hp _ hlt x ((List.eraseIdx_sublist _ _).subset hx))
  · show ((Bucket.splice m.table _ _).flatten.map Prod.fst).Nodup
    rw [hsp]
    rw [hent] at hn
    have hsub : (A ++ B).Sublist (A ++ e :: B) :=
      (List.sublist_cons_self e B).append_left A
    exact hn.sublist (hsub.map Prod.fst)
  · show m.used - 1 = ((Bucket.splice m.table _ _).flatten.length : Int)
    rw [hsp, hu, hent]
    simp only [List.length_append, List.length_cons]
    push_cast
    omega

theorem find_key_isSome_of_mem (code : hashfunc → K → Int) (m : HashMap K V)
    (hs : Shape code m) (k : K) (v : V) (h : (k, v) ∈ m.entries) :
    has_key code m k = true ∧ operator_index_const code m k = .ok v := by
  obtain ⟨i, hi⟩ := find_key_of_mem code m hs (k, v) h
  simp only at hi
  simp [has_key, operator_index_const, hi]

theorem operator_index_const_eq (code : hashfunc → K → Int) (m : HashMap K V) (k : K) :
    operator_index_const code m k
      = match get? code m k with
        | some v => .ok v
        | none => .error Error.KeyError := by
  unfold operator_index_const get?
  cases find_key code m k with
  | none => rfl
  | some p => rfl

/-- The effect of `put` on the invariant and on the stored values. -/
theorem put_spec (code : hashfunc → K → Int) (m : HashMap K V) (hw : WF code m) (k : K) (v : V) :
    WF code (put code m k v).2 ∧
      (∀ k2, get? code (put code m k v).2 k2 = if k2 = k then some v else get? code m k2) ∧
      (put code m k v).2.mod_count = m.mod_count + 1 ∧
      (put code m k v).2.hash = m.hash ∧
      (put code m k v).2.load_threshold = m.load_threshold := by
  cases hf : find_key code m k with
  | none =>
    obtain ⟨_, hw2, hperm, _, hmc, hh, hl, _⟩ := put_new code m hw k v hf
    refine ⟨hw2, ?_, hmc, hh, hl⟩
    intro k2
    apply Option.ext
    intro v2
    simp only [Option.mem_def]
    rw [get?_eq_some code _ hw2.1, hperm.mem_iff]
    by_cases hk : k2 = k
    · subst hk
      simp only [if_true, List.mem_cons, Prod.mk.injEq, true_and, Option.some.injEq]
      constructor
      · rintro (h | h)
        · exact h.symm
        · exact absurd rfl ((find_key_eq_none code m hw.1 k2).1 hf _ h)
      · intro h; exact Or.inl h.symm
    · simp only [hk, if_false, List.mem_cons, Prod.mk.injEq, false_and, false_or]
      exact (get?_eq_some code m hw.1 k2 v2).symm
  | some p =>
    obtain ⟨i, e⟩ := p
    obtain ⟨_, hw2, ⟨A, B, hA, hB⟩, _, hmc, hh, hl, _⟩ := put_found code m hw k v i e hf
    obtain ⟨_, hek, _, _⟩ := find_key_eq_some code m k i e hf
    refine ⟨hw2, ?_, hmc, hh, hl⟩
    intro k2
    apply Option.ext
    intro v2
    simp only [Option.mem_def]
    rw [get?_eq_some code _ hw2.1, hB]
    have hn := hw.1.2.2.2
    rw [hA] at hn
    by_cases hk : k2 = k
    · subst hk
      simp only [if_true, List.mem_append, List.mem_cons, Prod.mk.injEq, true_and,
        Option.some.injEq]
      constructor
      · rintro (h | h | h)
        · exfalso
          have : k2 ∈ (A.map Prod.fst) := List.mem_map.2 ⟨_, h, rfl⟩
          simp only [List.map_append, List.map_cons, hek] at hn
          exact (List.nodup_append.1 hn).2.2 this (List.mem_cons_self _ _)
        · exact h.symm
        · exfalso
          have : k2 ∈ (B.map Prod.fst) := List.mem_map.2 ⟨_, h, rfl⟩
          simp only [List.map_append, List.map_cons, hek] at hn
          exact (List.nodup_cons.1 (List.nodup_append.1 hn).2.1).1 this
      · intro h; exact Or.inr (Or.inl h.symm)
    · rw [if_neg hk, get?_eq_some code m hw.1, hA]
      simp only [List.mem_append, List.mem_cons, Prod.mk.injEq, hk, false_and, false_or]
      constructor
      · rintro (h | h)
        · exact Or.inl h
        · exact Or.inr (Or.inr h)
      · rintro (h | h | h)
        · exact Or.inl h
        · exfalso; rw [← h] at hek; exact hk hek
        · exact Or.inr h

/-- The effect of a successful `erase` on the invariant and on the stored values. -/
theorem erase_spec (code : hashfunc → K → Int) (m : HashMap K V) (hw : WF code m) (k : K)
    (v : V) (hv : get? code m k = some v) :
    ∃ m2, erase code m k = .ok (v, m2) ∧ WF code m2 ∧
      (∀ k2, get? code m2 k2 = if k2 = k then none else get? code m k2) ∧
      m2.used = m.used - 1 ∧ m2.mod_count = m.mod_count + 1 ∧ m2.hash = m.hash ∧
      m2.load_threshold = m.load_threshold ∧ m2.bins = m.bins := by
  simp only [get?, Option.map_eq_some'] at hv
  obtain ⟨⟨i, e⟩, hf, rfl⟩ := hv
  obtain ⟨m2, he, hw2, ⟨A, B, hA, hB⟩, hu, hmc, hh, hl, hbins⟩ := erase_found code m hw k i e hf
  obtain ⟨_, hek, _, _⟩ := find_key_eq_some code m k i e hf
  refine ⟨m2, he, hw2, ?_, hu, hmc, hh, hl, hbins⟩
  intro k2
  have hn := hw.1.2.2.2
  rw [hA] at hn
  simp only [List.map_append, List.map_cons, hek] at hn
  apply Option.ext
  intro v2
  simp only [Option.mem_def]
  rw [get?_eq_some code _ hw2.1, hB]
  by_cases hk : k2 = k
  · subst hk
    simp only [if_true, List.mem_append]
    constructor
    · rintro (h | h)
      · exfalso
        have : k2 ∈ (A.map Prod.fst) := List.mem_map.2 ⟨_, h, rfl⟩
        exact (List.nodup_append.1 hn).2.2 this (List.mem_cons_self _ _)
      · exfalso
        have : k2 ∈ (B.map Prod.fst) := List.mem_map.2 ⟨_, h, rfl⟩
        exact (List.nodup_cons.1 (List.nodup_append.1 hn).2.1).1 this
    · intro h; cases h
  · rw [if_neg hk, get?_eq_some code m hw.1, hA]
    simp only [List.mem_append, List.mem_cons]
    constructor
    · rintro (h | h)
      · exact Or.inl h
      · exact Or.inr (Or.inr h)
    · rintro (h | h | h)
      · exact Or.inl h
      · exfalso; rw [← h] at hek; exact hk hek
      · exact Or.inr h

end HashMap

/-! ## Lemmas on `HashSet` -/

namespace HashSet

variable {T : Type} [DecidableEq T]

theorem set_hash_compress_eq (code : hashfunc → T → Int) (s : HashSet T) (k : T) :
    hash_compress code s k = (((code s.hash k).natAbs % s.bins : Nat) : Int) := by
  unfold hash_compress
  rw [← Bucket.natAbs_tmod_natCast]
  simp only
  split
  · omega
  · omega

theorem set_hash_compress_lt (code : hashfunc → T → Int) (s : HashSet T) (k : T)
    (h : 1 ≤ s.bins) : (hash_compress code s k).toNat < s.bins := by
  rw [set_hash_compress_eq]
  simp only [Int.toNat_ofNat]
  exact Nat.mod_lt _ h

theorem set_place_congr (code : hashfunc → T → Int) (s s2 : HashSet T) (hh : s2.hash = s.hash)
    (hb : s2.bins = s.bins) : place code s2 = place code s := by
  funext e
  simp [place, hash_compress, hh, hb]

theorem find_element_eq_find (code : hashfunc → T → Int) (s : HashSet T) (k : T) :
    find_element code s k
      = Bucket.find id k (s.table.getD (hash_compress code s k).toNat []) := by
  unfold find_element table
  cases s.set with
  | none => simp [Bucket.find]
  | some bs => simp

theorem find_element_eq_none (code : hashfunc → T → Int) (s : HashSet T) (hs : Shape code s)
    (k : T) : find_element code s k = none ↔ k ∉ s.entries := by
  rw [find_element_eq_find, Bucket.find_eq_none]
  obtain ⟨_, _, hp, _⟩ := hs
  constructor
  · intro h he
    have h2 := (hp.mem_iff k).1 he
    exact h k h2 rfl
  · intro h e he hk
    simp only [id] at hk
    subst hk
    exact h (Bucket.getD_mem_flatten _ _ e he)

theorem find_element_eq_some (code : hashfunc → T → Int) (s : HashSet T) (k : T) (i : Nat)
    (e : T) (h : find_element code s k = some (i, e)) :
    (s.table.getD (hash_compress code s k).toNat [])[i]? = some e ∧ e = k ∧
      (hash_compress code s k).toNat < s.table.length ∧ e ∈ s.entries := by
  rw [find_element_eq_find] at h
  obtain ⟨h1, h2⟩ := Bucket.find_eq_some _ _ _ _ _ h
  have hmem : e ∈ s.table.getD (hash_compress code s k).toNat [] :=
    List.mem_iff_getElem?.2 ⟨i, h1⟩
  refine ⟨h1, h2, ?_, Bucket.getD_mem_flatten _ _ e hmem⟩
  by_contra hlt
  rw [List.getD_eq_default _ _ (by omega)] at hmem
  simp at hmem

theorem contains_iff (code : hashfunc → T → Int) (s : HashSet T) (hs : Shape code s) (k : T) :
    contains code s k = true ↔ k ∈ s.entries := by
  unfold contains
  rw [← not_iff_not, ← find_element_eq_none code s hs k]
  cases find_element code s k <;> simp

theorem set_ensure_fields (code : hashfunc → T → Int) (s : HashSet T) (n : Int) :
    (ensure_load_threshold code s n).hash = s.hash ∧
    (ensure_load_threshold code s n).used = s.used ∧
    (ensure_load_threshold code s n).mod_count = s.mod_count ∧
    (ensure_load_threshold code s n).load_threshold = s.load_threshold ∧
    (ensure_load_threshold code s n).set.isSome = true := by
  unfold ensure_load_threshold
  simp only
  split <;> simp

theorem set_ensure_bins (code : hashfunc → T → Int) (s : HashSet T) (n : Int) :
    (ensure_load_threshold code s n).bins
      = if (n : ℚ) / (s.bins : ℚ) ≤ s.load_threshold then s.bins else s.bins * 2 := by
  unfold ensure_load_threshold
  simp only
  split <;> simp

theorem set_ensure_shape (code : hashfunc → T → Int) (s : HashSet T) (n : Int)
    (hs : Shape code s) :
    Shape code (ensure_load_threshold code s n) ∧
      (ensure_load_threshold code s n).entries.Perm s.entries := by
  obtain ⟨hb, hl, hp, hn⟩ := hs
  unfold ensure_load_threshold
  simp only
  split
  · cases hm : s.set with
    | none =>
      have he : s.entries = [] := by simp [entries, table, hm]
      refine ⟨⟨hb, ?_, ?_, ?_⟩, ?_⟩
      · simp [table, Bucket.fresh]
      · simpa [table] using Bucket.Placed.fresh _ _
      · simp [entries, table, Bucket.fresh]
      · simp [entries, table, Bucket.fresh, hm]
    | some bs =>
      have hm2 : ({ s with set := some bs } : HashSet T) = s := by
        cases s; simp_all
      simp only [hm2]
      exact ⟨⟨hb, hl, hp, hn⟩, List.Perm.refl _⟩
  · have hflat : (match s.set with
        | none => (Bucket.fresh s.bins : List (List T))
        | some bs => bs).flatten = s.entries := by
      cases hm : s.set with
      | none => simp [entries, table, hm, Bucket.fresh]
      | some bs => simp [entries, table, hm]
    have hspec := Bucket.rehash_spec
      (fun e : T => (hash_compress code ({ s with bins := s.bins * 2 } : HashSet T) e).toNat)
      (match s.set with
        | none => (Bucket.fresh s.bins : List (List T))
        | some bs => bs) (s.bins * 2)
      (fun e _ => set_hash_compress_lt code _ e (by show 1 ≤ s.bins * 2; omega))
    obtain ⟨h1, h2, h3⟩ := hspec
    rw [hflat] at h3
    refine ⟨⟨by show 1 ≤ s.bins * 2; omega, ?_, ?_, ?_⟩, ?_⟩
    · intro _; simpa [table] using h1
    · simpa [table, place] using h2
    · have := h3.nodup_iff.2 hn
      simpa [entries, table] using this
    · simpa [entries, table] using h3

theorem Shape.set_congr {code : hashfunc → T → Int} {s s2 : HashSet T} (hs : Shape code s)
    (hh : s2.hash = s.hash) (hb : s2.bins = s.bins) (hm : s2.set = s.set) : Shape code s2 := by
  unfold Shape at *
  rw [set_place_congr code s s2 hh hb]
  simpa [entries, table, hm, hb] using hs

theorem set_isSome_of_lt {s : HashSet T} {b : Nat} (h : b < s.table.length) :
    s.set.isSome = true := by
  cases hm : s.set with
  | none => simp [table, hm] at h
  | some bs => rfl

theorem insert_found (code : hashfunc → T → Int) (s : HashSet T) (e : T)
    (hf : (find_element code s e).isSome = true) : insert code s e = (0, s) := by
  unfold insert
  cases h : find_element code s e with
  | none => simp [h] at hf
  | some p => rfl

theorem erase_absent (code : hashfunc → T → Int) (s : HashSet T) (e : T)
    (hf : find_element code s e = none) : erase code s e = (0, s) := by
  unfold erase
  rw [hf]

theorem insert_new (code : hashfunc → T → Int) (s : HashSet T) (hw : WF code s) (k : T)
    (hf : find_element code s k = none) :
    (insert code s k).1 = 1 ∧ WF code (insert code s k).2 ∧
      (insert code s k).2.entries.Perm (k :: s.entries) ∧
      (insert code s k).2.used = s.used + 1 ∧
      (insert code s k).2.mod_count = s.mod_count + 1 ∧
      (insert code s k).2.hash = s.hash ∧
      (insert code s k).2.load_threshold = s.load_threshold ∧
      (insert code s k).2.bins = (ensure_load_threshold code s (s.used + 1)).bins := by
  obtain ⟨hs, hu⟩ := hw
  have hs1 : Shape code ({ s with mod_count := s.mod_count + 1, used := s.used + 1 } : HashSet T) :=
    hs.set_congr rfl rfl rfl
  obtain ⟨hs2, hperm⟩ := set_ensure_shape code _ (s.used + 1) hs1
  obtain ⟨f1, f2, f3, f4, f5⟩ := set_ensure_fields code
    ({ s with mod_count := s.mod_count + 1, used := s.used + 1 } : HashSet T) (s.used + 1)
  have fb := set_ensure_bins code
    ({ s with mod_count := s.mod_count + 1, used := s.used + 1 } : HashSet T) (s.used + 1)
  have fb0 := set_ensure_bins code s (s.used + 1)
  unfold insert
  rw [hf]
  simp only
  generalize ensure_load_threshold code
    ({ s with mod_count := s.mod_count + 1, used := s.used + 1 } : HashSet T) (s.used + 1) = s2
    at hs2 hperm f1 f2 f3 f4 f5 fb
  obtain ⟨hb2, hl2, hp2, hn2⟩ := hs2
  have hidx : (hash_compress code s2 k).toNat < s2.table.length := by
    rw [hl2 f5]; exact set_hash_compress_lt code s2 k hb2
  have hperm2 := Bucket.push_front_perm s2.table _ k hidx
  have hpermAll : (Bucket.push_front s2.table (hash_compress code s2 k).toNat k).flatten.Perm
      (k :: s.entries) := hperm2.trans (List.Perm.cons _ hperm)
  have hknew : k ∉ s.entries := (find_element_eq_none code s hs k).1 hf
  refine ⟨trivial, ⟨⟨hb2, ?_, ?_, ?_⟩, ?_⟩, ?_, ?_, ?_, ?_, ?_, ?_⟩
  · intro _
    simp only [table, Option.getD_some, Bucket.length_push_front]
    exact hl2 f5
  · have := hp2.push_front k hidx
    simpa [table, place] using this
  · have h3 := hpermAll.nodup_iff.2 (List.nodup_cons.2 ⟨hknew, hs.2.2.2⟩)
    simpa [entries, table] using h3
  · have := hpermAll.length_eq
    simp only [entries, table, Option.getD_some] at this ⊢
    rw [this, f2]
    simp [hu, entries, table]
  · simpa [entries, table] using hpermAll
  · simpa using f2
  · simpa using f3
  · simpa using f1
  · simpa using f4
  · simp only [fb, fb0]

theorem set_erase_found_eq (code : hashfunc → T → Int) (s : HashSet T) (k : T)
    (i : Nat) (e : T) (hf : find_element code s k = some (i, e)) :
    erase code s k = (1, { s with
      set := some (Bucket.splice s.table (hash_compress code s k).toNat i),
      used := s.used - 1, mod_count := s.mod_count + 1 }) := by
  unfold erase
  rw [hf]

theorem set_erase_found (code : hashfunc → T → Int) (s : HashSet T) (hw : WF code s) (k : T)
    (i : Nat) (e : T) (hf : find_element code s k = some (i, e)) :
    (erase code s k).1 = 1 ∧ WF code (erase code s k).2 ∧
      (∃ A B, s.entries = A ++ e :: B ∧ (erase code s k).2.entries = A ++ B) ∧
      (erase code s k).2.used = s.used - 1 ∧
      (erase code s k).2.mod_count = s.mod_count + 1 ∧
      (erase code s k).2.hash = s.hash ∧
      (erase code s k).2.load_threshold = s.load_threshold ∧
      (erase code s k).2.bins = s.bins := by
  obtain ⟨⟨hb, hl, hp, hn⟩, hu⟩ := hw
  obtain ⟨h1, hk, hlt, hmem⟩ := find_element_eq_some code s k i e hf
  obtain ⟨A, B, hA, hsp, _⟩ := Bucket.node_ctx s.table _ i e hlt h1
  have hsome := set_isSome_of_lt hlt
  have hent : s.entries = A ++ e :: B := hA
  rw [set_erase_found_eq code s k i e hf]
  refine ⟨rfl, ⟨⟨hb, ?_, ?_, ?_⟩, ?_⟩, ⟨A, B, hA, hsp⟩, rfl, rfl, rfl, rfl, rfl⟩
  · intro _
    show (Bucket.splice s.table _ _).length = s.bins
    rw [Bucket.splice, List.length_set]
    exact hl hsome
  · exact hp.set (hash_compress code s k).toNat
      ((s.table.getD (hash_compress code s k).toNat []).eraseIdx i) (by
        intro x hx
        exact hp _ hlt x ((List.eraseIdx_sublist _ _).subset hx))
  · show (Bucket.splice s.table _ _).flatten.Nodup
    rw [hsp]
    rw [hent] at hn
    exact hn.sublist ((List.sublist_cons_self e B).append_left A)
  · show s.used - 1 = ((Bucket.splice s.table _ _).flatten.length : Int)
    rw [hsp, hu, hent]
    simp only [List.length_append, List.length_cons]
    push_cast
    omega

/-- The effect of `insert` on the invariant and on membership. -/
theorem insert_spec (code : hashfunc → T → Int) (s : HashSet T) (hw : WF code s) (k : T) :
    WF code (insert code s k).2 ∧
      (∀ x, x ∈ (insert code s k).2.entries ↔ x = k ∨ x ∈ s.entries) ∧
      (insert code s k).2.hash = s.hash ∧
      (insert code s k).2.load_threshold = s.load_threshold := by
  cases hf : find_element code s k with
  | none =>
    obtain ⟨_, hw2, hperm, _, _, hh, hl, _⟩ := insert_new code s hw k hf
    refine ⟨hw2, ?_, hh, hl⟩
    intro x
    rw [hperm.mem_iff, List.mem_cons]
  | some p =>
    obtain ⟨i, e⟩ := p
    obtain ⟨_, hek, _, hmem⟩ := find_element_eq_some code s k i e hf
    rw [insert_found code s k (by simp [hf])]
    refine ⟨hw, ?_, rfl, rfl⟩
    intro x
    subst hek
    constructor
    · exact Or.inr
    · rintro (rfl | h)
      · exact hmem
      · exact h

/-- The effect of `erase` on the invariant and on membership. -/
theorem set_erase_spec (code : hashfunc → T → Int) (s : HashSet T) (hw : WF code s) (k : T) :
    WF code (erase code s k).2 ∧
      (∀ x, x ∈ (erase code s k).2.entries ↔ x ≠ k ∧ x ∈ s.entries) ∧
      (erase code s k).2.hash = s.hash ∧
      (erase code s k).2.load_threshold = s.load_threshold ∧
      (erase code s k).2.bins = s.bins := by
  cases hf : find_element code s k with
  | none =>
    rw [erase_absent code s k hf]
    refine ⟨hw, ?_, rfl, rfl, rfl⟩
    intro x
    have hk := (find_element_eq_none code s hw.1 k).1 hf
    constructor
    · intro h
      exact ⟨fun hx => hk (hx ▸ h), h⟩
    · exact fun h => h.2
  | some p =>
    obtain ⟨i, e⟩ := p
    obtain ⟨_, hw2, ⟨A, B, hA, hB⟩, _, _, hh, hl, hbins⟩ := set_erase_found code s hw k i e hf
    obtain ⟨_, hek, _, _⟩ := find_element_eq_some code s k i e hf
    refine ⟨hw2, ?_, hh, hl, hbins⟩
    intro x
    have hn := hw.1.2.2.2
    rw [hA] at hn
    rw [hB, hA]
    subst hek
    have hnA : e ∉ A := fun h => (List.nodup_append.1 hn).2.2 h (List.mem_cons_self _ _)
    have hnB : e ∉ B := (List.nodup_cons.1 (List.nodup_append.1 hn).2.1).1
    simp only [List.mem_append, List.mem_cons]
    constructor
    · rintro (h | h)
      · exact ⟨fun hx => hnA (hx ▸ h), Or.inl h⟩
      · exact ⟨fun hx => hnB (hx ▸ h), Or.inr (Or.inr h)⟩
    · rintro ⟨hx, h | h | h⟩
      · exact Or.inl h
      · exact absurd h hx
      · exact Or.inr h

end HashSet

namespace HashMap

variable {K V : Type} [DecidableEq K]

theorem mem_keys_iff (code : hashfunc → K → Int) (m : HashMap K V) (hs : Shape code m) (k : K) :
    k ∈ m.entries.map Prod.fst ↔ has_key code m k = true := by
  rw [has_key_eq, Option.isSome_iff_exists]
  constructor
  · intro h
    obtain ⟨e, he, rfl⟩ := List.mem_map.1 h
    exact ⟨e.2, (get?_eq_some code m hs e.1 e.2).2 he⟩
  · rintro ⟨v, hv⟩
    exact List.mem_map.2 ⟨(k, v), (get?_eq_some code m hs k v).1 hv, rfl⟩

theorem has_key_put (code : hashfunc → K → Int) (m : HashMap K V) (hw : WF code m) (k : K)
    (v : V) (k2 : K) :
    has_key code (put code m k v).2 k2 = true ↔ k2 = k ∨ has_key code m k2 = true := by
  rw [has_key_eq, has_key_eq, (put_spec code m hw k v).2.1 k2]
  by_cases h : k2 = k <;> simp [h]

/-- A sequence of `put` calls, one per entry of the list. -/
theorem foldl_put_spec (code : hashfunc → K → Int) (kvs : List (K × V)) (m : HashMap K V)
    (hw : WF code m) :
    WF code (kvs.foldl (fun t e => (put code t e.1 e.2).2) m) ∧
      ∀ k, has_key code (kvs.foldl (fun t e => (put code t e.1 e.2).2) m) k = true ↔
        has_key code m k = true ∨ k ∈ kvs.map Prod.fst := by
  induction kvs generalizing m with
  | nil => simp [hw]
  | cons e kvs ih =>
    obtain ⟨h1, h2⟩ := ih (put code m e.1 e.2).2 (put_spec code m hw e.1 e.2).1
    refine ⟨h1, ?_⟩
    intro k
    simp only [List.foldl_cons, List.map_cons, List.mem_cons]
    rw [h2 k, has_key_put code m hw]
    tauto

theorem size_eq_card (code : hashfunc → K → Int) (m : HashMap K V) (hw : WF code m) :
    m.size = ((m.entries.map Prod.fst).toFinset.card : Int) := by
  rw [List.toFinset_card_of_nodup hw.1.2.2.2, List.length_map]
  exact hw.2

theorem entries_eq_nil_of_used (code : hashfunc → K → Int) (m : HashMap K V) (hw : WF code m)
    (h0 : m.used = 0) : m.entries = [] := by
  have := hw.2
  rw [h0] at this
  exact List.length_eq_zero.1 (by exact_mod_cast this.symm)

/-- A table with a `nullptr` bucket array and no entry, as the constructors start from. -/
theorem WF_initial (code : hashfunc → K → Int) (hash : hashfunc) (t : ℚ) (bins : Nat)
    (mc : Int) (hb : 1 ≤ bins) :
    WF code ({ hash := hash, map := none, load_threshold := t, bins := bins, used := 0,
               mod_count := mc } : HashMap K V) := by
  refine ⟨⟨hb, by simp, ?_, by simp [entries, table]⟩, by simp [entries, table]⟩
  intro i hi
  simp [table] at hi

theorem ensure_WF (code : hashfunc → K → Int) (m : HashMap K V) (n : Int) (hw : WF code m) :
    WF code (ensure_load_threshold code m n) := by
  obtain ⟨hs, hp⟩ := ensure_shape code m n hw.1
  refine ⟨hs, ?_⟩
  rw [(ensure_fields code m n).2.1, hp.length_eq]
  exact hw.2

/-- The table built by the constructor `HashMap(int initial_bins, double, chash)`. -/
theorem ctor_bins_spec (code : hashfunc → K → Int) (thash : hashfunc) (initial_bins : Int)
    (t : ℚ) (chash : hashfunc) (m : HashMap K V)
    (h : ctor_bins code thash initial_bins t chash = .ok m) :
    WF code m ∧ m.used = 0 ∧ m.mod_count = 0 ∧
      m.bins = (if initial_bins < 1 then 1 else initial_bins.toNat) ∧
      m.load_threshold = (if t ≤ 0 then 1 else t) ∧ 0 < m.load_threshold := by
  unfold ctor_bins at h
  cases hr : resolve_hash thash chash with
  | error err => simp [hr] at h
  | ok hash =>
    simp only [hr, Except.ok.injEq] at h
    have hb : 1 ≤ (if initial_bins < 1 then 1 else initial_bins.toNat) := by
      split <;> omega
    have hpos : (0 : ℚ) < (if t ≤ 0 then 1 else t) := by
      split
      · norm_num
      · linarith
    have hw := @WF_initial K V _ code hash (if t ≤ 0 then 1 else t)
      (if initial_bins < 1 then 1 else initial_bins.toNat) 0 hb
    have hbins := ensure_bins code
      ({ hash := hash, map := none, load_threshold := (if t ≤ 0 then 1 else t),
         bins := (if initial_bins < 1 then 1 else initial_bins.toNat), used := 0,
         mod_count := 0 } : HashMap K V) 0
    have hle : ((0 : Int) : ℚ) / (((if initial_bins < 1 then 1 else initial_bins.toNat : Nat)) : ℚ)
        ≤ (if t ≤ 0 then 1 else t) := by
      simp only [Int.cast_zero, zero_div]
      exact le_of_lt hpos
    rw [if_pos hle] at hbins
    have hens := ensure_WF code _ 0 hw
    have hfs := ensure_fields code
      ({ hash := hash, map := none, load_threshold := (if t ≤ 0 then 1 else t),
         bins := (if initial_bins < 1 then 1 else initial_bins.toNat), used := 0,
         mod_count := 0 } : HashMap K V) 0
    subst h
    exact ⟨hens, hfs.2.1, hfs.2.2.1, hbins, hfs.2.2.2.1, by rw [hfs.2.2.2.1]; exact hpos⟩

end HashMap

namespace HashSet

variable {T : Type} [DecidableEq T]

theorem foldl_insert_spec (code : hashfunc → T → Int) (es : List T) (s : HashSet T)
    (hw : WF code s) :
    WF code (es.foldl (fun t e => (insert code t e).2) s) ∧
      ∀ x, x ∈ (es.foldl (fun t e => (insert code t e).2) s).entries ↔
        x ∈ s.entries ∨ x ∈ es := by
  induction es generalizing s with
  | nil => simp [hw]
  | cons e es ih =>
    obtain ⟨h1, h2⟩ := ih (insert code s e).2 (insert_spec code s hw e).1
    refine ⟨h1, ?_⟩
    intro x
    simp only [List.foldl_cons, List.mem_cons]
    rw [h2 x, (insert_spec code s hw e).2.1 x]
    tauto

theorem set_entries_eq_nil_of_used (code : hashfunc → T → Int) (s : HashSet T) (hw : WF code s)
    (h0 : s.used = 0) : s.entries = [] := by
  have := hw.2
  rw [h0] at this
  exact List.length_eq_zero.1 (by exact_mod_cast this.symm)

/-- A table with a `nullptr` bucket array and no element, as the constructors start from. -/
theorem set_WF_initial (code : hashfunc → T → Int) (hash : hashfunc) (t : ℚ) (bins : Nat)
    (mc : Int) (hb : 1 ≤ bins) :
    WF code ({ hash := hash, set := none, load_threshold := t, bins := bins, used := 0,
               mod_count := mc } : HashSet T) := by
  refine ⟨⟨hb, by simp, ?_, by simp [entries, table]⟩, by simp [entries, table]⟩
  intro i hi
  simp [table] at hi

theorem set_ensure_WF (code : hashfunc → T → Int) (s : HashSet T) (n : Int) (hw : WF code s) :
    WF code (ensure_load_threshold code s n) := by
  obtain ⟨hs, hp⟩ := set_ensure_shape code s n hw.1
  refine ⟨hs, ?_⟩
  rw [(set_ensure_fields code s n).2.1, hp.length_eq]
  exact hw.2

/-- The table built by the constructor `HashSet(int initial_bins, double, chash)`. -/
theorem set_ctor_bins_spec (code : hashfunc → T → Int) (thash : hashfunc) (initial_bins : Int)
    (t : ℚ) (chash : hashfunc) (s : HashSet T)
    (h : ctor_bins code thash initial_bins t chash = .ok s) :
    WF code s ∧ s.used = 0 ∧ s.mod_count = 0 ∧
      s.bins = (if initial_bins < 1 then 1 else initial_bins.toNat) ∧
      s.load_threshold = (if t ≤ 0 then 1 else t) ∧ 0 < s.load_threshold := by
  unfold ctor_bins at h
  cases hr : resolve_hash thash chash with
  | error err => simp [hr] at h
  | ok hash =>
    simp only [hr, Except.ok.injEq] at h
    have hb : 1 ≤ (if initial_bins < 1 then 1 else initial_bins.toNat) := by
      split <;> omega
    have hpos : (0 : ℚ) < (if t ≤ 0 then 1 else t) := by
      split
      · norm_num
      · linarith
    have hw := @set_WF_initial T _ code hash (if t ≤ 0 then 1 else t)
      (if initial_bins < 1 then 1 else initial_bins.toNat) 0 hb
    have hbins := set_ensure_bins code
      ({ hash := hash, set := none, load_threshold := (if t ≤ 0 then 1 else t),
         bins := (if initial_bins < 1 then 1 else initial_bins.toNat), used := 0,
         mod_count := 0 } : HashSet T) 0
    have hle : ((0 : Int) : ℚ) / (((if initial_bins < 1 then 1 else initial_bins.toNat : Nat)) : ℚ)
        ≤ (if t ≤ 0 then 1 else t) := by
      simp only [Int.cast_zero, zero_div]
      exact le_of_lt hpos
    rw [if_pos hle] at hbins
    have hens := set_ensure_WF code _ 0 hw
    have hfs := set_ensure_fields code
      ({ hash := hash, set := none, load_threshold := (if t ≤ 0 then 1 else t),
         bins := (if initial_bins < 1 then 1 else initial_bins.toNat), used := 0,
         mod_count := 0 } : HashSet T) 0
    subst h
    exact ⟨hens, hfs.2.1, hfs.2.2.1, hbins, hfs.2.2.2.1, by rw [hfs.2.2.2.1]; exact hpos⟩

/-- With a threshold of at least 1 the load bound survives an `insert`. -/
theorem load_le_insert (code : hashfunc → T → Int) (s : HashSet T) (hw : WF code s) (e : T)
    (ht : 1 ≤ s.load_threshold)
    (hl : (s.used : ℚ) / (s.bins : ℚ) ≤ s.load_threshold) :
    ((insert code s e).2.used : ℚ) / ((insert code s e).2.bins : ℚ)
      ≤ (insert code s e).2.load_threshold := by
  cases hf : find_element code s e with
  | some p => rw [insert_found code s e (by simp [hf])]; exact hl
  | none =>
    obtain ⟨_, _, _, hu, _, _, hlt, hb⟩ := insert_new code s hw e hf
    rw [hu, hlt, hb, set_ensure_bins]
    have hbpos : (0 : ℚ) < (s.bins : ℚ) := by exact_mod_cast hw.1.1
    split
    · assumption
    · push_cast
      rw [div_le_iff₀ (by positivity)]
      rw [div_le_iff₀ hbpos] at hl
      have : (1 : ℚ) ≤ s.load_threshold * (s.bins : ℚ) := by
        have h1 : (1 : ℚ) ≤ (s.bins : ℚ) := by exact_mod_cast hw.1.1
        nlinarith
      nlinarith

end HashSet

namespace HashMap
variable {K V : Type} [DecidableEq K]

/-- With a threshold of at least 1 the load bound survives a `put`. -/
theorem load_le_put (code : hashfunc → K → Int) (m : HashMap K V) (hw : WF code m) (k : K)
    (v : V) (ht : 1 ≤ m.load_threshold)
    (hl : (m.used : ℚ) / (m.bins : ℚ) ≤ m.load_threshold) :
    ((put code m k v).2.used : ℚ) / ((put code m k v).2.bins : ℚ)
      ≤ (put code m k v).2.load_threshold := by
  cases hf : find_key code m k with
  | some p =>
    obtain ⟨i, e⟩ := p
    obtain ⟨_, _, _, hu, _, _, hlt, hb⟩ := put_found code m hw k v i e hf
    rw [hu, hlt, hb]; exact hl
  | none =>
    obtain ⟨_, _, _, hu, _, _, hlt, hb⟩ := put_new code m hw k v hf
    rw [hu, hlt, hb, ensure_bins]
    have hbpos : (0 : ℚ) < (m.bins : ℚ) := by exact_mod_cast hw.1.1
    split
    · assumption
    · push_cast
      rw [div_le_iff₀ (by positivity)]
      rw [div_le_iff₀ hbpos] at hl
      have : (1 : ℚ) ≤ m.load_threshold * (m.bins : ℚ) := by
        have h1 : (1 : ℚ) ≤ (m.bins : ℚ) := by exact_mod_cast hw.1.1
        nlinarith
      nlinarith

end HashMap

namespace Bucket
variable {E : Type}

/-- Two duplicate-free lists of the same length, one contained in the other, have the same
members. -/
theorem mem_iff_of_subset_of_length [DecidableEq E] (l1 l2 : List E) (h1 : l1.Nodup)
    (hsub : ∀ e ∈ l1, e ∈ l2) (hlen : l2.length ≤ l1.length) (e : E) : e ∈ l1 ↔ e ∈ l2 :=
  ((List.subperm_of_subset h1 hsub).perm_of_length_le hlen).mem_iff

end Bucket

namespace HashMap
variable {K V : Type} [DecidableEq K]

theorem traversal_eq_entries (code : hashfunc → K → Int) (m : HashMap K V) (hw : WF code m) :
    m.traversal = m.entries := by
  unfold traversal
  split
  · rename_i h0
    exact (entries_eq_nil_of_used code m hw h0).symm
  · rfl

theorem entries_nodup (code : hashfunc → K → Int) (m : HashMap K V) (hs : Shape code m) :
    m.entries.Nodup :=
  List.Nodup.of_map _ hs.2.2.2

theorem operator_eq_other [DecidableEq V] (code : hashfunc → K → Int) (a b : HashMap K V)
    (ha : WF code a) (hb : WF code b) :
    operator_eq code a (.other b) = true ↔
      a.used = b.used ∧ ∀ e ∈ b.entries, e ∈ a.entries := by
  unfold operator_eq
  simp only
  rw [traversal_eq_entries code b hb]
  by_cases hu : a.used = b.used
  · simp only [hu, ne_eq, not_true_eq_false, if_false, List.all_eq_true, true_and]
    refine forall₂_congr fun e _ => ?_
    rw [← get?_eq_some code a ha.1 e.1 e.2]
    unfold get?
    cases find_key code a e.1 with
    | none => simp
    | some p => simp
  · simp [hu]

theorem get?_congr_of_mem (code : hashfunc → K → Int) (a b : HashMap K V)
    (ha : Shape code a) (hb : Shape code b) (h : ∀ e, e ∈ a.entries ↔ e ∈ b.entries) (k : K) :
    get? code a k = get? code b k := by
  apply Option.ext
  intro v
  simp only [Option.mem_def]
  rw [get?_eq_some code a ha, get?_eq_some code b hb, h]

theorem content_eq_iff (code : hashfunc → K → Int) (a b : HashMap K V)
    (ha : WF code a) (hb : WF code b) :
    (a.used = b.used ∧ ∀ e ∈ b.entries, e ∈ a.entries) ↔
      ∀ k, get? code a k = get? code b k := by
  classical
  constructor
  · rintro ⟨hu, hsub⟩
    have hlen : a.entries.length ≤ b.entries.length := by
      have h1 := ha.2
      have h2 := hb.2
      rw [hu, h2] at h1
      exact_mod_cast h1.symm.le
    have := Bucket.mem_iff_of_subset_of_length b.entries a.entries
      (entries_nodup code b hb.1) hsub hlen
    exact get?_congr_of_mem code a b ha.1 hb.1 (fun e => (this e).symm)
  · intro h
    have hmem : ∀ e, e ∈ a.entries ↔ e ∈ b.entries := by
      intro e
      rw [← get?_eq_some code a ha.1 e.1 e.2, ← get?_eq_some code b hb.1 e.1 e.2, h]
    refine ⟨?_, fun e he => (hmem e).2 he⟩
    have hperm : a.entries.Perm b.entries :=
      (List.perm_ext_iff_of_nodup (entries_nodup code a ha.1) (entries_nodup code b hb.1)).2 hmem
    rw [ha.2, hb.2, hperm.length_eq]

end HashMap

namespace HashSet
variable {T : Type} [DecidableEq T]

theorem set_traversal_eq_entries (code : hashfunc → T → Int) (s : HashSet T) (hw : WF code s) :
    s.traversal = s.entries := by
  unfold traversal
  split
  · rename_i h0
    exact (set_entries_eq_nil_of_used code s hw h0).symm
  · rfl

theorem set_operator_eq_other (code : hashfunc → T → Int) (a b : HashSet T)
    (ha : WF code a) (hb : WF code b) :
    operator_eq code a (.other b) = true ↔
      a.used = b.used ∧ ∀ e ∈ b.entries, e ∈ a.entries := by
  unfold operator_eq
  simp only
  rw [set_traversal_eq_entries code b hb]
  by_cases hu : a.used = b.used
  · simp only [hu, ne_eq, not_true_eq_false, if_false, List.all_eq_true, true_and]
    refine forall₂_congr fun e _ => ?_
    exact contains_iff code a ha.1 e
  · simp [hu]

theorem set_content_eq_iff (code : hashfunc → T → Int) (a b : HashSet T)
    (ha : WF code a) (hb : WF code b) :
    (a.used = b.used ∧ ∀ e ∈ b.entries, e ∈ a.entries) ↔
      ∀ e, contains code a e = contains code b e := by
  constructor
  · rintro ⟨hu, hsub⟩
    have hlen : a.entries.length ≤ b.entries.length := by
      have h1 := ha.2
      have h2 := hb.2
      rw [hu, h2] at h1
      exact_mod_cast h1.symm.le
    have := Bucket.mem_iff_of_subset_of_length b.entries a.entries hb.1.2.2.2 hsub hlen
    intro e
    rw [Bool.eq_iff_iff, contains_iff code a ha.1, contains_iff code b hb.1]
    exact (this e).symm
  · intro h
    have hmem : ∀ e, e ∈ a.entries ↔ e ∈ b.entries := by
      intro e
      rw [← contains_iff code a ha.1, ← contains_iff code b hb.1, h]
    refine ⟨?_, fun e he => (hmem e).2 he⟩
    have hperm : a.entries.Perm b.entries :=
      (List.perm_ext_iff_of_nodup ha.1.2.2.2 hb.1.2.2.2).2 hmem
    rw [ha.2, hb.2, hperm.length_eq]

end HashSet

namespace HashMap
variable {K V : Type} [DecidableEq K]

/-- The same sequence of `put` calls on two tables with the same content leaves them with
the same content. -/
theorem foldl_put_congr (code : hashfunc → K → Int) (kvs : List (K × V)) (a b : HashMap K V)
    (ha : WF code a) (hb : WF code b) (h : ∀ k, get? code a k = get? code b k) :
    ∀ k, get? code (kvs.foldl (fun t e => (put code t e.1 e.2).2) a) k
      = get? code (kvs.foldl (fun t e => (put code t e.1 e.2).2) b) k := by
  induction kvs generalizing a b with
  | nil => simpa using h
  | cons e kvs ih =>
    obtain ⟨ha2, hga, _⟩ := put_spec code a ha e.1 e.2
    obtain ⟨hb2, hgb, _⟩ := put_spec code b hb e.1 e.2
    simp only [List.foldl_cons]
    apply ih _ _ ha2 hb2
    intro k
    rw [hga, hgb, h]

theorem get?_of_used_zero (code : hashfunc → K → Int) (m : HashMap K V) (hw : WF code m)
    (h0 : m.used = 0) (k : K) : get? code m k = none := by
  rw [get?_eq_none code m hw.1, entries_eq_nil_of_used code m hw h0]
  simp

theorem put_all_snd (code : hashfunc → K → Int) (l : List (K × V)) (m : HashMap K V) (c : Int) :
    (l.foldl (fun acc e => (acc.1 + 1, (put code acc.2 e.1 e.2).2)) (c, m)).2
      = l.foldl (fun t e => (put code t e.1 e.2).2) m := by
  induction l generalizing m c with
  | nil => rfl
  | cons e l ih => simp only [List.foldl_cons]; exact ih _ _

/-- The values stored after a sequence of `put` calls with pairwise distinct keys. -/
theorem foldl_put_get? (code : hashfunc → K → Int) (kvs : List (K × V)) (m : HashMap K V)
    (hw : WF code m) (hn : (kvs.map Prod.fst).Nodup) (k : K) (v : V) :
    get? code (kvs.foldl (fun t e => (put code t e.1 e.2).2) m) k = some v ↔
      (k, v) ∈ kvs ∨ (k ∉ kvs.map Prod.fst ∧ get? code m k = some v) := by
  induction kvs generalizing m with
  | nil => simp
  | cons e kvs ih =>
    obtain ⟨hw2, hget, _⟩ := put_spec code m hw e.1 e.2
    simp only [List.map_cons, List.nodup_cons] at hn
    simp only [List.foldl_cons]
    rw [ih _ hw2 hn.2, hget]
    by_cases hk : k = e.1
    · subst hk
      have hnot : (e.1, v) ∉ kvs := fun h => hn.1 (List.mem_map.2 ⟨_, h, rfl⟩)
      simp only [if_true, Option.some.injEq, List.mem_cons, List.map_cons, true_or,
        not_true_eq_false, false_and, or_false, hnot, false_or]
      constructor
      · rintro ⟨_, h⟩
        exact Prod.ext rfl h.symm
      · intro h
        exact ⟨hn.1, by rw [← h]⟩
    · have hne : (k, v) ≠ e := fun h => hk (by rw [← h])
      have hne2 : ¬ (k, v) = e := hne
      simp [hk, hne2]

theorem foldl_put_hash (code : hashfunc → K → Int) (kvs : List (K × V)) (m : HashMap K V)
    (hw : WF code m) : (kvs.foldl (fun t e => (put code t e.1 e.2).2) m).hash = m.hash := by
  induction kvs generalizing m with
  | nil => rfl
  | cons e kvs ih =>
    obtain ⟨hw2, _, _, hh, _⟩ := put_spec code m hw e.1 e.2
    simp only [List.foldl_cons]
    rw [ih _ hw2, hh]

theorem foldl_put_traversal (code : hashfunc → K → Int) (m b : HashMap K V)
    (hw : WF code m) (h0 : m.used = 0) (hb : WF code b) :
    WF code ((traversal b).foldl (fun t e => (put code t e.1 e.2).2) m) ∧
      ∀ k, get? code ((traversal b).foldl (fun t e => (put code t e.1 e.2).2) m) k
        = get? code b k := by
  refine ⟨(foldl_put_spec code _ m hw).1, ?_⟩
  intro k
  apply Option.ext
  intro v
  simp only [Option.mem_def]
  rw [traversal_eq_entries code b hb, foldl_put_get? code _ m hw hb.1.2.2.2,
    get?_of_used_zero code m hw h0, get?_eq_some code b hb.1]
  simp

theorem copy_hash_table_map (code : hashfunc → K → Int) (b : HashMap K V) (hb : WF code b) :
    Bucket.copy_hash_table b.map b.bins = b.map := by
  cases hm : b.map with
  | none => rfl
  | some bs =>
    have hl := hb.1.2.1 (by simp [hm])
    rw [table_of_map hm] at hl
    rw [← hl]
    exact Bucket.copy_hash_table_eq bs

/-- A table that takes over the bucket array, bin count and entry count of a well-formed
table working with the same hash function is well formed. -/
theorem WF_of_same_layout (code : hashfunc → K → Int) (a b : HashMap K V) (hb : WF code b)
    (hh : a.hash = b.hash) (hbins : a.bins = b.bins) (hm : a.map = b.map)
    (hu : a.used = b.used) : WF code a := by
  refine ⟨hb.1.congr hh hbins hm, ?_⟩
  rw [hu, hb.2]
  simp [entries, table, hm]

theorem operator_eq_of_get? [DecidableEq V] (code : hashfunc → K → Int) (a b : HashMap K V)
    (ha : WF code a) (hb : WF code b) (h : ∀ k, get? code a k = get? code b k) :
    operator_eq code a (.other b) = true ∧ a.size = b.size :=
  ⟨((operator_eq_other code a b ha hb).trans (content_eq_iff code a b ha hb)).2 h,
   ((content_eq_iff code a b ha hb).2 h).1⟩

theorem ctor_copy_spec [DecidableEq V] (code : hashfunc → K → Int) (thash chash : hashfunc)
    (t : ℚ) (a b : HashMap K V) (hb : WF code b)
    (h : ctor_copy code thash b t chash = .ok a) :
    WF code a ∧ operator_eq code a (.other b) = true ∧ a.size = b.size ∧
      (a.hash = b.hash → a.bins = b.bins ∧ a.map = b.map) := by
  unfold ctor_copy at h
  simp only at h
  generalize (if (if thash ≠ undefinedhash then thash else chash) = undefinedhash then b.hash
    else if thash ≠ undefinedhash then thash else chash) = hash at h
  by_cases herr : thash ≠ undefinedhash ∧ chash ≠ undefinedhash ∧ chash ≠ thash
  · rw [if_pos herr] at h
    cases h
  · rw [if_neg herr] at h
    by_cases hh : hash = b.hash
    · rw [if_pos hh] at h
      simp only [Except.ok.injEq] at h
      have hm : a.map = b.map := by rw [← h]; exact copy_hash_table_map code b hb
      have hbins : a.bins = b.bins := by rw [← h]
      have hwa : WF code a :=
        WF_of_same_layout code a b hb (by rw [← h]; exact hh) hbins hm (by rw [← h])
      have hg := get?_congr_of_mem code a b hwa.1 hb.1 (fun e => by
        simp only [entries, table, hm])
      obtain ⟨h1, h2⟩ := operator_eq_of_get? code a b hwa hb hg
      exact ⟨hwa, h1, h2, fun _ => ⟨hbins, hm⟩⟩
    · rw [if_neg hh] at h
      simp only [Except.ok.injEq] at h
      subst h
      have hw0 := @WF_initial K V _ code hash (if t ≤ 0 then b.load_threshold else t) 1 0
        (le_refl 1)
      obtain ⟨hwa, hg⟩ := foldl_put_traversal code _ b hw0 rfl hb
      obtain ⟨h1, h2⟩ := operator_eq_of_get? code _ b hwa hb hg
      refine ⟨hwa, h1, h2, ?_⟩
      intro hcontra
      exact absurd ((foldl_put_hash code _ _ hw0).symm.trans hcontra) hh

theorem foldl_put_mod_count (code : hashfunc → K → Int) (kvs : List (K × V)) (m : HashMap K V)
    (hw : WF code m) :
    (kvs.foldl (fun t e => (put code t e.1 e.2).2) m).mod_count
      = m.mod_count + (kvs.length : Int) := by
  induction kvs generalizing m with
  | nil => simp
  | cons e kvs ih =>
    obtain ⟨hw2, _, hmc, _⟩ := put_spec code m hw e.1 e.2
    simp only [List.foldl_cons, List.length_cons]
    rw [ih _ hw2, hmc]
    push_cast
    ring

theorem WF_mod_count (code : hashfunc → K → Int) (m : HashMap K V) (hw : WF code m) (c : Int) :
    WF code ({ m with mod_count := c } : HashMap K V) :=
  ⟨hw.1.congr rfl rfl rfl, hw.2⟩

theorem operator_assign_same (code : hashfunc → K → Int) (a b : HashMap K V)
    (hh : a.hash = b.hash) :
    operator_assign code a (.other b)
      = { hash := a.hash, map := Bucket.copy_hash_table b.map b.bins,
          load_threshold := a.load_threshold, bins := b.bins, used := b.used,
          mod_count := a.mod_count + 1 + 1 } := by
  unfold operator_assign
  simp only
  rw [if_pos (show (clear a).hash = b.hash from hh)]
  rfl

theorem operator_assign_diff (code : hashfunc → K → Int) (a b : HashMap K V)
    (hh : ¬ a.hash = b.hash) :
    operator_assign code a (.other b)
      = { ((traversal b).foldl (fun t e => (put code t e.1 e.2).2)
            ({ hash := b.hash, map := none, load_threshold := a.load_threshold,
               bins := a.bins, used := 0, mod_count := a.mod_count + 1 } : HashMap K V)) with
          mod_count := ((traversal b).foldl (fun t e => (put code t e.1 e.2).2)
            ({ hash := b.hash, map := none, load_threshold := a.load_threshold,
               bins := a.bins, used := 0, mod_count := a.mod_count + 1 } : HashMap K V)).mod_count
              + 1 } := by
  unfold operator_assign
  simp only
  rw [if_neg (show ¬ (clear a).hash = b.hash from hh)]
  unfold put_all
  rw [put_all_snd]
  rfl

theorem operator_assign_spec [DecidableEq V] (code : hashfunc → K → Int) (a b : HashMap K V)
    (ha : WF code a) (hb : WF code b) :
    WF code (operator_assign code a (.other b)) ∧
      operator_eq code (operator_assign code a (.other b)) (.other b) = true ∧
      (operator_assign code a (.other b)).size = b.size ∧
      (a.hash = b.hash → (operator_assign code a (.other b)).bins = b.bins ∧
        (operator_assign code a (.other b)).map = b.map) ∧
      (operator_assign code a (.other b)).hash = b.hash ∧
      a.mod_count + 2 ≤ (operator_assign code a (.other b)).mod_count := by
  by_cases hh : a.hash = b.hash
  · rw [operator_assign_same code a b hh]
    have hm := copy_hash_table_map code b hb
    have hwa : WF code
        ({ hash := a.hash, map := Bucket.copy_hash_table b.map b.bins,
           load_threshold := a.load_threshold, bins := b.bins, used := b.used,
           mod_count := a.mod_count + 1 + 1 } : HashMap K V) :=
      WF_of_same_layout code _ b hb hh rfl hm rfl
    have hg := get?_congr_of_mem code _ b hwa.1 hb.1 (fun e => by
      simp only [entries, table, hm])
    obtain ⟨h1, h2⟩ := operator_eq_of_get? code _ b hwa hb hg
    refine ⟨hwa, h1, h2, fun _ => ⟨rfl, hm⟩, hh, ?_⟩
    show a.mod_count + 2 ≤ a.mod_count + 1 + 1
    omega
  · rw [operator_assign_diff code a b hh]
    have hw0 := @WF_initial K V _ code b.hash a.load_threshold a.bins (a.mod_count + 1) ha.1.1
    obtain ⟨hwf, hg⟩ := foldl_put_traversal code _ b hw0 rfl hb
    have hwa := WF_mod_count code _ hwf
      (((traversal b).foldl (fun t e => (put code t e.1 e.2).2)
        ({ hash := b.hash, map := none, load_threshold := a.load_threshold,
           bins := a.bins, used := 0, mod_count := a.mod_count + 1 } : HashMap K V)).mod_count + 1)
    obtain ⟨h1, h2⟩ := operator_eq_of_get? code _ b hwa hb hg
    refine ⟨hwa, h1, h2, fun h => absurd h hh, foldl_put_hash code _ _ hw0, ?_⟩
    show a.mod_count + 2 ≤ ((traversal b).foldl (fun t e => (put code t e.1 e.2).2)
        ({ hash := b.hash, map := none, load_threshold := a.load_threshold,
           bins := a.bins, used := 0, mod_count := a.mod_count + 1 } : HashMap K V)).mod_count + 1
    rw [foldl_put_mod_count code _ _ hw0]
    show a.mod_count + 2 ≤ a.mod_count + 1 + _ + 1
    have : (0 : Int) ≤ ((traversal b).length : Int) := Int.natCast_nonneg _
    omega

end HashMap

namespace HashSet
variable {T : Type} [DecidableEq T]

theorem insert_all_snd (code : hashfunc → T → Int) (l : List T) (s : HashSet T) (c : Int) :
    (l.foldl (fun acc e => (acc.1 + (insert code acc.2 e).1, (insert code acc.2 e).2)) (c, s)).2
      = l.foldl (fun t e => (insert code t e).2) s := by
  induction l generalizing s c with
  | nil => rfl
  | cons e l ih => simp only [List.foldl_cons]; exact ih _ _

theorem foldl_insert_hash (code : hashfunc → T → Int) (es : List T) (s : HashSet T)
    (hw : WF code s) : (es.foldl (fun t e => (insert code t e).2) s).hash = s.hash := by
  induction es generalizing s with
  | nil => rfl
  | cons e es ih =>
    obtain ⟨hw2, _, hh, _⟩ := insert_spec code s hw e
    simp only [List.foldl_cons]
    rw [ih _ hw2, hh]

theorem insert_mod_count_le (code : hashfunc → T → Int) (s : HashSet T) (e : T) :
    s.mod_count ≤ (insert code s e).2.mod_count := by
  unfold insert
  cases find_element code s e with
  | some p => exact le_refl _
  | none =>
    simp only
    show s.mod_count ≤ (ensure_load_threshold code _ _).mod_count
    rw [(set_ensure_fields code _ _).2.2.1]
    show s.mod_count ≤ s.mod_count + 1
    omega

theorem foldl_insert_mod_count (code : hashfunc → T → Int) (es : List T) (s : HashSet T) :
    s.mod_count ≤ (es.foldl (fun t e => (insert code t e).2) s).mod_count := by
  induction es generalizing s with
  | nil => exact le_refl _
  | cons e es ih =>
    simp only [List.foldl_cons]
    exact le_trans (insert_mod_count_le code s e) (ih _)

theorem foldl_insert_traversal (code : hashfunc → T → Int) (s b : HashSet T)
    (hw : WF code s) (h0 : s.used = 0) (hb : WF code b) :
    WF code ((traversal b).foldl (fun t e => (insert code t e).2) s) ∧
      ∀ e, e ∈ ((traversal b).foldl (fun t e => (insert code t e).2) s).entries
        ↔ e ∈ b.entries := by
  obtain ⟨h1, h2⟩ := foldl_insert_spec code (traversal b) s hw
  refine ⟨h1, ?_⟩
  intro e
  rw [h2, set_entries_eq_nil_of_used code s hw h0, set_traversal_eq_entries code b hb]
  simp

theorem copy_hash_table_set (code : hashfunc → T → Int) (b : HashSet T) (hb : WF code b) :
    Bucket.copy_hash_table b.set b.bins = b.set := by
  cases hm : b.set with
  | none => rfl
  | some bs =>
    have hl := hb.1.2.1 (by simp [hm])
    have ht : b.table = bs := by simp [table, hm]
    rw [ht] at hl
    rw [← hl]
    exact Bucket.copy_hash_table_eq bs

theorem set_WF_of_same_layout (code : hashfunc → T → Int) (a b : HashSet T) (hb : WF code b)
    (hh : a.hash = b.hash) (hbins : a.bins = b.bins) (hm : a.set = b.set)
    (hu : a.used = b.used) : WF code a := by
  refine ⟨hb.1.set_congr hh hbins hm, ?_⟩
  rw [hu, hb.2]
  simp [entries, table, hm]

theorem operator_eq_of_mem (code : hashfunc → T → Int) (a b : HashSet T)
    (ha : WF code a) (hb : WF code b) (h : ∀ e, e ∈ a.entries ↔ e ∈ b.entries) :
    operator_eq code a (.other b) = true ∧ a.size = b.size := by
  have hc : ∀ e, contains code a e = contains code b e := by
    intro e
    rw [Bool.eq_iff_iff, contains_iff code a ha.1, contains_iff code b hb.1, h]
  exact ⟨((set_operator_eq_other code a b ha hb).trans (set_content_eq_iff code a b ha hb)).2 hc,
   ((set_content_eq_iff code a b ha hb).2 hc).1⟩

theorem set_WF_mod_count (code : hashfunc → T → Int) (s : HashSet T) (hw : WF code s) (c : Int) :
    WF code ({ s with mod_count := c } : HashSet T) :=
  ⟨hw.1.set_congr rfl rfl rfl, hw.2⟩

theorem set_ctor_copy_spec (code : hashfunc → T → Int) (thash chash : hashfunc)
    (t : ℚ) (a b : HashSet T) (hb : WF code b)
    (h : ctor_copy code thash b t chash = .ok a) :
    WF code a ∧ operator_eq code a (.other b) = true ∧ a.size = b.size ∧
      (a.hash = b.hash → a.bins = b.bins ∧ a.set = b.set) := by
  unfold ctor_copy at h
  simp only at h
  generalize (if (if thash ≠ undefinedhash then thash else chash) = undefinedhash then b.hash
    else if thash ≠ undefinedhash then thash else chash) = hash at h
  by_cases herr : thash ≠ undefinedhash ∧ chash ≠ undefinedhash ∧ thash ≠ chash
  · rw [if_pos herr] at h
    cases h
  · rw [if_neg herr] at h
    by_cases hh : hash = b.hash
    · rw [if_pos hh] at h
      simp only [Except.ok.injEq] at h
      have hm : a.set = b.set := by rw [← h]; exact copy_hash_table_set code b hb
      have hbins : a.bins = b.bins := by rw [← h]
      have hwa : WF code a :=
        set_WF_of_same_layout code a b hb (by rw [← h]; exact hh) hbins hm (by rw [← h])
      obtain ⟨h1, h2⟩ := operator_eq_of_mem code a b hwa hb (fun e => by
        simp only [entries, table, hm])
      exact ⟨hwa, h1, h2, fun _ => ⟨hbins, hm⟩⟩
    · rw [if_neg hh] at h
      simp only [Except.ok.injEq] at h
      subst h
      have hw0 := @set_WF_initial T _ code hash (if t ≤ 0 then 1 else t) 1 0 (le_refl 1)
      obtain ⟨hwa, hg⟩ := foldl_insert_traversal code _ b hw0 rfl hb
      obtain ⟨h1, h2⟩ := operator_eq_of_mem code _ b hwa hb hg
      refine ⟨hwa, h1, h2, ?_⟩
      intro hcontra
      exact absurd ((foldl_insert_hash code _ _ hw0).symm.trans hcontra) hh

theorem set_operator_assign_same (code : hashfunc → T → Int) (a b : HashSet T)
    (hh : a.hash = b.hash) :
    operator_assign code a (.other b)
      = { hash := a.hash, set := Bucket.copy_hash_table b.set b.bins,
          load_threshold := a.load_threshold, bins := b.bins, used := b.used,
          mod_count := a.mod_count + 1 + 1 } := by
  unfold operator_assign
  simp only
  rw [if_pos (show (clear a).hash = b.hash from hh)]
  rfl

theorem set_operator_assign_diff (code : hashfunc → T → Int) (a b : HashSet T)
    (hh : ¬ a.hash = b.hash) :
    operator_assign code a (.other b)
      = { ((traversal b).foldl (fun t e => (insert code t e).2)
            ({ hash := b.hash, set := none, load_threshold := a.load_threshold,
               bins := a.bins, used := 0, mod_count := a.mod_count + 1 } : HashSet T)) with
          mod_count := ((traversal b).foldl (fun t e => (insert code t e).2)
            ({ hash := b.hash, set := none, load_threshold := a.load_threshold,
               bins := a.bins, used := 0, mod_count := a.mod_count + 1 } : HashSet T)).mod_count
              + 1 } := by
  unfold operator_assign
  simp only
  rw [if_neg (show ¬ (clear a).hash = b.hash from hh)]
  unfold insert_all
  rw [insert_all_snd]
  rfl

theorem set_operator_assign_spec (code : hashfunc → T → Int) (a b : HashSet T)
    (ha : WF code a) (hb : WF code b) :
    WF code (operator_assign code a (.other b)) ∧
      operator_eq code (operator_assign code a (.other b)) (.other b) = true ∧
      (operator_assign code a (.other b)).size = b.size ∧
      (a.hash = b.hash → (operator_assign code a (.other b)).bins = b.bins ∧
        (operator_assign code a (.other b)).set = b.set) ∧
      (operator_assign code a (.other b)).hash = b.hash ∧
      a.mod_count + 2 ≤ (operator_assign code a (.other b)).mod_count := by
  by_cases hh : a.hash = b.hash
  · rw [set_operator_assign_same code a b hh]
    have hm := copy_hash_table_set code b hb
    have hwa : WF code
        ({ hash := a.hash, set := Bucket.copy_hash_table b.set b.bins,
           load_threshold := a.load_threshold, bins := b.bins, used := b.used,
           mod_count := a.mod_count + 1 + 1 } : HashSet T) :=
      set_WF_of_same_layout code _ b hb hh rfl hm rfl
    obtain ⟨h1, h2⟩ := operator_eq_of_mem code _ b hwa hb (fun e => by
      simp only [entries, table, hm])
    refine ⟨hwa, h1, h2, fun _ => ⟨rfl, hm⟩, hh, ?_⟩
    show a.mod_count + 2 ≤ a.mod_count + 1 + 1
    omega
  · rw [set_operator_assign_diff code a b hh]
    have hw0 := @set_WF_initial T _ code b.hash a.load_threshold a.bins (a.mod_count + 1) ha.1.1
    obtain ⟨hwf, hg⟩ := foldl_insert_traversal code _ b hw0 rfl hb
    have hwa := set_WF_mod_count code _ hwf
      (((traversal b).foldl (fun t e => (insert code t e).2)
        ({ hash := b.hash, set := none, load_threshold := a.load_threshold,
           bins := a.bins, used := 0, mod_count := a.mod_count + 1 } : HashSet T)).mod_count + 1)
    obtain ⟨h1, h2⟩ := operator_eq_of_mem code _ b hwa hb hg
    refine ⟨hwa, h1, h2, fun h => absurd h hh, foldl_insert_hash code _ _ hw0, ?_⟩
    show a.mod_count + 2 ≤ ((traversal b).foldl (fun t e => (insert code t e).2)
        ({ hash := b.hash, set := none, load_threshold := a.load_threshold,
           bins := a.bins, used := 0, mod_count := a.mod_count + 1 } : HashSet T)).mod_count + 1
    have := foldl_insert_mod_count code (traversal b)
      ({ hash := b.hash, set := none, load_threshold := a.load_threshold,
         bins := a.bins, used := 0, mod_count := a.mod_count + 1 } : HashSet T)
    have h3 :
        ({ hash := b.hash, set := none, load_threshold := a.load_threshold,
           bins := a.bins, used := 0, mod_count := a.mod_count + 1 } : HashSet T).mod_count
         = a.mod_count + 1 := rfl
    omega

end HashSet

namespace HashMap
variable {K V : Type} [DecidableEq K]

theorem fails_fast_of_ne (m : HashMap K V) (it : Iterator)
    (h : it.expected_mod_count ≠ m.mod_count) : fails_fast m it := by
  unfold fails_fast Iterator_inc Iterator_deref Iterator_arrow Iterator_erase
  simp [h]

theorem invalidates_of_lt (m m2 : HashMap K V) (h : m.mod_count < m2.mod_count) :
    invalidates m m2 :=
  ⟨h, fun it hit => fails_fast_of_ne m2 it (by omega)⟩

theorem put_mod_count (code : hashfunc → K → Int) (m : HashMap K V) (k : K) (v : V) :
    (put code m k v).2.mod_count = m.mod_count + 1 := by
  unfold put
  cases find_key code m k with
  | none =>
    simp only
    exact (ensure_fields code _ _).2.2.1
  | some p => rfl

theorem erase_mod_count (code : hashfunc → K → Int) (m m2 : HashMap K V) (k : K) (r : V)
    (h : erase code m k = .ok (r, m2)) : m2.mod_count = m.mod_count + 1 := by
  unfold erase at h
  cases hf : find_key code m k with
  | none => simp [hf] at h
  | some p =>
    simp only [hf, Except.ok.injEq, Prod.mk.injEq] at h
    rw [← h.2]

theorem operator_index_mod_count [Inhabited V] (code : hashfunc → K → Int) (m : HashMap K V)
    (k : K) :
    (operator_index code m k).2.mod_count
      = if has_key code m k = true then m.mod_count else m.mod_count + 1 := by
  unfold operator_index has_key
  cases find_key code m k with
  | none =>
    simp only [Option.isSome_none, Bool.false_eq_true, if_false]
    exact (ensure_fields code _ _).2.2.1
  | some p => rfl

theorem foldl_put_mod_count_eq (code : hashfunc → K → Int) (kvs : List (K × V))
    (m : HashMap K V) :
    (kvs.foldl (fun t e => (put code t e.1 e.2).2) m).mod_count
      = m.mod_count + (kvs.length : Int) := by
  induction kvs generalizing m with
  | nil => simp
  | cons e kvs ih =>
    simp only [List.foldl_cons, List.length_cons]
    rw [ih, put_mod_count]
    push_cast
    ring

theorem operator_assign_mod_count (code : hashfunc → K → Int) (a b : HashMap K V) :
    a.mod_count + 2 ≤ (operator_assign code a (.other b)).mod_count := by
  by_cases hh : a.hash = b.hash
  · rw [operator_assign_same code a b hh]
    show a.mod_count + 2 ≤ a.mod_count + 1 + 1
    omega
  · rw [operator_assign_diff code a b hh]
    show a.mod_count + 2 ≤ ((traversal b).foldl (fun t e => (put code t e.1 e.2).2)
        ({ hash := b.hash, map := none, load_threshold := a.load_threshold,
           bins := a.bins, used := 0, mod_count := a.mod_count + 1 } : HashMap K V)).mod_count + 1
    rw [foldl_put_mod_count_eq]
    show a.mod_count + 2 ≤ a.mod_count + 1 + _ + 1
    have : (0 : Int) ≤ ((traversal b).length : Int) := Int.natCast_nonneg _
    omega

end HashMap

namespace HashSet
variable {T : Type} [DecidableEq T]

theorem set_fails_fast_of_ne (s : HashSet T) (it : Iterator)
    (h : it.expected_mod_count ≠ s.mod_count) : fails_fast s it := by
  unfold fails_fast Iterator_inc Iterator_deref Iterator_arrow Iterator_erase
  simp [h]

theorem set_invalidates_of_lt (s s2 : HashSet T) (h : s.mod_count < s2.mod_count) :
    invalidates s s2 :=
  ⟨h, fun it hit => set_fails_fast_of_ne s2 it (by omega)⟩

theorem insert_mod_count (code : hashfunc → T → Int) (s : HashSet T) (e : T) :
    (insert code s e).2.mod_count
      = if contains code s e = true then s.mod_count else s.mod_count + 1 := by
  unfold insert contains
  cases find_element code s e with
  | none =>
    simp only [Option.isSome_none, Bool.false_eq_true, if_false]
    exact (set_ensure_fields code _ _).2.2.1
  | some p => rfl

theorem set_erase_mod_count (code : hashfunc → T → Int) (s : HashSet T) (e : T) :
    (erase code s e).2.mod_count
      = if contains code s e = true then s.mod_count + 1 else s.mod_count := by
  unfold erase contains
  cases find_element code s e with
  | none => rfl
  | some p => rfl

theorem set_operator_assign_mod_count (code : hashfunc → T → Int) (a b : HashSet T) :
    a.mod_count + 2 ≤ (operator_assign code a (.other b)).mod_count := by
  by_cases hh : a.hash = b.hash
  · rw [set_operator_assign_same code a b hh]
    show a.mod_count + 2 ≤ a.mod_count + 1 + 1
    omega
  · rw [set_operator_assign_diff code a b hh]
    show a.mod_count + 2 ≤ ((traversal b).foldl (fun t e => (insert code t e).2)
        ({ hash := b.hash, set := none, load_threshold := a.load_threshold,
           bins := a.bins, used := 0, mod_count := a.mod_count + 1 } : HashSet T)).mod_count + 1
    have := foldl_insert_mod_count code (traversal b)
      ({ hash := b.hash, set := none, load_threshold := a.load_threshold,
         bins := a.bins, used := 0, mod_count := a.mod_count + 1 } : HashSet T)
    have h3 :
        ({ hash := b.hash, set := none, load_threshold := a.load_threshold,
           bins := a.bins, used := 0, mod_count := a.mod_count + 1 } : HashSet T).mod_count
         = a.mod_count + 1 := rfl
    omega

end HashSet

namespace Bucket
variable {E : Type}

/-- A cursor that reads a value lies on a node of an existing bin. -/
theorem node_value_eq_some (bs : List (List E)) (cur : Int × Option Nat) (e : E)
    (h : node_value bs cur = some e) :
    ∃ i, cur.2 = some i ∧ (bs.getD cur.1.toNat [])[i]? = some e ∧ cur.1.toNat < bs.length := by
  unfold node_value at h
  cases hc : cur.2 with
  | none => simp [hc] at h
  | some i =>
    simp only [hc] at h
    refine ⟨i, rfl, h, ?_⟩
    by_contra hlt
    rw [List.getD_eq_default _ _ (by omega)] at h
    simp at h

end Bucket

namespace HashMap
variable {K V : Type} [DecidableEq K]

/-- The splice of the node at position `i` of bin `b`, with the counters updated as `erase`
and cursor `erase()` do. -/
theorem splice_WF (code : hashfunc → K → Int) (m : HashMap K V) (hw : WF code m) (b i : Nat)
    (e : K × V) (hlt : b < m.table.length) (h1 : (m.table.getD b [])[i]? = some e) (c : Int) :
    WF code ({ m with map := some (Bucket.splice m.table b i), used := m.used - 1,
                      mod_count := c } : HashMap K V) ∧
      ∃ A B, m.entries = A ++ e :: B ∧
        ({ m with map := some (Bucket.splice m.table b i), used := m.used - 1,
                  mod_count := c } : HashMap K V).entries = A ++ B := by
  obtain ⟨⟨hb, hl, hp, hn⟩, hu⟩ := hw
  obtain ⟨A, B, hA, hsp, _⟩ := Bucket.node_ctx m.table b i e hlt h1
  have hsome := map_isSome_of_lt hlt
  have hent : m.entries = A ++ e :: B := hA
  refine ⟨⟨⟨hb, ?_, ?_, ?_⟩, ?_⟩, ⟨A, B, hA, hsp⟩⟩
  · intro _
    show (Bucket.splice m.table _ _).length = m.bins
    rw [Bucket.splice, List.length_set]
    exact hl hsome
  · exact hp.set b ((m.table.getD b []).eraseIdx i) (by
      intro x hx
      exact hp _ hlt x ((List.eraseIdx_sublist _ _).subset hx))
  · show ((Bucket.splice m.table _ _).flatten.map Prod.fst).Nodup
    rw [hsp]
    rw [hent] at hn
    have hsub : (A ++ B).Sublist (A ++ e :: B) :=
      (List.sublist_cons_self e B).append_left A
    exact hn.sublist (hsub.map Prod.fst)
  · show m.used - 1 = ((Bucket.splice m.table _ _).flatten.length : Int)
    rw [hsp, hu, hent]
    simp only [List.length_append, List.length_cons]
    push_cast
    omega

/-- The values stored once the entry `e` has been taken out of a well-formed table. -/
theorem get?_removed (code : hashfunc → K → Int) (m m2 : HashMap K V) (hw : WF code m)
    (hw2 : WF code m2) (e : K × V) (A B : List (K × V)) (hA : m.entries = A ++ e :: B)
    (hB : m2.entries = A ++ B) (k2 : K) :
    get? code m2 k2 = if k2 = e.1 then none else get? code m k2 := by
  have hn := hw.1.2.2.2
  rw [hA] at hn
  simp only [List.map_append, List.map_cons] at hn
  apply Option.ext
  intro v2
  simp only [Option.mem_def]
  rw [get?_eq_some code _ hw2.1, hB]
  by_cases hk : k2 = e.1
  · subst hk
    simp only [if_true, List.mem_append]
    constructor
    · rintro (h | h)
      · exfalso
        have : e.1 ∈ (A.map Prod.fst) := List.mem_map.2 ⟨_, h, rfl⟩
        exact (List.nodup_append.1 hn).2.2 this (List.mem_cons_self _ _)
      · exfalso
        have : e.1 ∈ (B.map Prod.fst) := List.mem_map.2 ⟨_, h, rfl⟩
        exact (List.nodup_cons.1 (List.nodup_append.1 hn).2.1).1 this
    · intro h; cases h
  · rw [if_neg hk, get?_eq_some code m hw.1, hA]
    simp only [List.mem_append, List.mem_cons]
    constructor
    · rintro (h | h)
      · exact Or.inl h
      · exact Or.inr (Or.inr h)
    · rintro (h | h | h)
      · exact Or.inl h
      · exfalso; rw [← h] at hk; exact hk rfl
      · exact Or.inr h

/-- The effect of cursor `erase()` on a cursor that is not stale, may erase, and lies on the
live entry `e`. -/
theorem Iterator_erase_spec (code : hashfunc → K → Int) (m : HashMap K V) (hw : WF code m)
    (it : Iterator) (e : K × V) (hs : it.expected_mod_count = m.mod_count)
    (hc : it.can_erase = true) (h0 : 0 ≤ it.current.1)
    (he : Bucket.node_value m.table it.current = some e) :
    ∃ it2 m2, Iterator_erase m it = .ok (some e, it2, m2) ∧ WF code m2 ∧
      (∀ k2, get? code m2 k2 = if k2 = e.1 then none else get? code m k2) ∧
      m2.used = m.used - 1 ∧ m2.mod_count = m.mod_count + 1 ∧
      it2.expected_mod_count = m2.mod_count ∧ it2.can_erase = false ∧
      m2.bins = m.bins ∧ m2.hash = m.hash := by
  obtain ⟨i, hi, hget, hlt⟩ := Bucket.node_value_eq_some _ _ _ he
  have hne : ¬ it.current.1 = -1 := by omega
  have hsp : Bucket.splice_at m.table it.current
      = Bucket.splice m.table it.current.1.toNat i := by
    simp [Bucket.splice_at, hi]
  obtain ⟨hw2, A, B, hA, hB⟩ := splice_WF code m hw _ i e hlt hget (m.mod_count + 1)
  refine ⟨⟨Bucket.advance_cursors m.bins (Bucket.splice m.table it.current.1.toNat i) it.current,
    m.mod_count + 1, false⟩, _, ?_, hw2, get?_removed code m _ hw hw2 e A B hA hB,
    rfl, rfl, rfl, rfl, rfl, rfl⟩
  unfold Iterator_erase
  rw [if_neg (by simpa using hs), if_neg (by simp [hc]), if_neg hne]
  simp only [he, hsp]
  rfl

end HashMap

namespace HashSet
variable {T : Type} [DecidableEq T]

/-- The splice of the node at position `i` of bin `b`, with the counters updated as `erase`
and cursor `erase()` do. -/
theorem set_splice_WF (code : hashfunc → T → Int) (s : HashSet T) (hw : WF code s) (b i : Nat)
    (e : T) (hlt : b < s.table.length) (h1 : (s.table.getD b [])[i]? = some e) (c : Int) :
    WF code ({ s with set := some (Bucket.splice s.table b i), used := s.used - 1,
                      mod_count := c } : HashSet T) ∧
      ∃ A B, s.entries = A ++ e :: B ∧
        ({ s with set := some (Bucket.splice s.table b i), used := s.used - 1,
                  mod_count := c } : HashSet T).entries = A ++ B := by
  obtain ⟨⟨hb, hl, hp, hn⟩, hu⟩ := hw
  obtain ⟨A, B, hA, hsp, _⟩ := Bucket.node_ctx s.table b i e hlt h1
  have hsome := set_isSome_of_lt hlt
  have hent : s.entries = A ++ e :: B := hA
  refine ⟨⟨⟨hb, ?_, ?_, ?_⟩, ?_⟩, ⟨A, B, hA, hsp⟩⟩
  · intro _
    show (Bucket.splice s.table _ _).length = s.bins
    rw [Bucket.splice, List.length_set]
    exact hl hsome
  · exact hp.set b ((s.table.getD b []).eraseIdx i) (by
      intro x hx
      exact hp _ hlt x ((List.eraseIdx_sublist _ _).subset hx))
  · show (Bucket.splice s.table _ _).flatten.Nodup
    rw [hsp]
    rw [hent] at hn
    exact hn.sublist ((List.sublist_cons_self e B).append_left A)
  · show s.used - 1 = ((Bucket.splice s.table _ _).flatten.length : Int)
    rw [hsp, hu, hent]
    simp only [List.length_append, List.length_cons]
    push_cast
    omega

/-- The effect of cursor `erase()` on a cursor that is not stale, may erase, and lies on the
live element `e`. -/
theorem set_Iterator_erase_spec (code : hashfunc → T → Int) (s : HashSet T) (hw : WF code s)
    (it : Iterator) (e : T) (hs : it.expected_mod_count = s.mod_count)
    (hc : it.can_erase = true) (h0 : 0 ≤ it.current.1)
    (he : Bucket.node_value s.table it.current = some e) :
    ∃ it2 s2, Iterator_erase s it = .ok (some e, it2, s2) ∧ WF code s2 ∧
      (∀ x, contains code s2 x = (decide (x ≠ e) && contains code s x)) ∧
      s2.used = s.used - 1 ∧ s2.mod_count = s.mod_count + 1 ∧
      it2.expected_mod_count = s2.mod_count ∧ it2.can_erase = false ∧
      s2.bins = s.bins ∧ s2.hash = s.hash := by
  obtain ⟨i, hi, hget, hlt⟩ := Bucket.node_value_eq_some _ _ _ he
  have hne : ¬ it.current.1 = -1 := by omega
  have hsp : Bucket.splice_at s.table it.current
      = Bucket.splice s.table it.current.1.toNat i := by
    simp [Bucket.splice_at, hi]
  obtain ⟨hw2, A, B, hA, hB⟩ := set_splice_WF code s hw _ i e hlt hget (s.mod_count + 1)
  refine ⟨⟨Bucket.advance_cursors s.bins (Bucket.splice s.table it.current.1.toNat i) it.current,
    s.mod_count + 1, false⟩, _, ?_, hw2, ?_, rfl, rfl, rfl, rfl, rfl, rfl⟩
  · unfold Iterator_erase
    rw [if_neg (by simpa using hs), if_neg (by simp [hc]), if_neg hne]
    simp only [he, hsp]
    rfl
  · intro x
    have hn := hw.1.2.2.2
    rw [hA] at hn
    have hnA : e ∉ A := fun h => (List.nodup_append.1 hn).2.2 h (List.mem_cons_self _ _)
    have hnB : e ∉ B := (List.nodup_cons.1 (List.nodup_append.1 hn).2.1).1
    rw [Bool.eq_iff_iff, contains_iff code _ hw2.1, hB]
    simp only [Bool.and_eq_true, decide_eq_true_eq]
    rw [contains_iff code s hw.1, hA]
    simp only [List.mem_append, List.mem_cons]
    constructor
    · rintro (h | h)
      · exact ⟨fun hx => hnA (hx ▸ h), Or.inl h⟩
      · exact ⟨fun hx => hnB (hx ▸ h), Or.inr (Or.inr h)⟩
    · rintro ⟨hx, h | h | h⟩
      · exact Or.inl h
      · exact absurd h hx
      · exact Or.inr h

end HashSet

namespace HashMap
variable {K V : Type} [DecidableEq K]

/-- A cursor whose snapshot is the counter of the table advances, and what it then reads is
not a `ConcurrentModificationError`. -/
theorem inc_deref_of_fresh (m : HashMap K V) (it : Iterator)
    (hs : it.expected_mod_count = m.mod_count) :
    ∃ it3, Iterator_inc m it = .ok it3 ∧ it3.expected_mod_count = m.mod_count ∧
      Iterator_deref m it3 ≠ .error Error.ConcurrentModificationError ∧
      Iterator_arrow m it3 ≠ .error Error.ConcurrentModificationError := by
  have key : ∀ it3 : Iterator, it3.expected_mod_count = m.mod_count →
      Iterator_deref m it3 ≠ .error Error.ConcurrentModificationError ∧
      Iterator_arrow m it3 ≠ .error Error.ConcurrentModificationError := by
    intro it3 h3
    unfold Iterator_deref Iterator_arrow
    rw [if_neg (by simpa using h3)]
    constructor <;> split <;> simp
  unfold Iterator_inc
  rw [if_neg (by simpa using hs)]
  split
  · exact ⟨it, rfl, hs, key it hs⟩
  · split
    · exact ⟨_, rfl, hs, key _ hs⟩
    · exact ⟨_, rfl, hs, key _ hs⟩

end HashMap

namespace HashSet
variable {T : Type} [DecidableEq T]

/-- A cursor whose snapshot is the counter of the table advances, and what it then reads is
not a `ConcurrentModificationError`. -/
theorem set_inc_deref_of_fresh (s : HashSet T) (it : Iterator)
    (hs : it.expected_mod_count = s.mod_count) :
    ∃ it3, Iterator_inc s it = .ok it3 ∧ it3.expected_mod_count = s.mod_count ∧
      Iterator_deref s it3 ≠ .error Error.ConcurrentModificationError ∧
      Iterator_arrow s it3 ≠ .error Error.ConcurrentModificationError := by
  have key : ∀ it3 : Iterator, it3.expected_mod_count = s.mod_count →
      Iterator_deref s it3 ≠ .error Error.ConcurrentModificationError ∧
      Iterator_arrow s it3 ≠ .error Error.ConcurrentModificationError := by
    intro it3 h3
    unfold Iterator_deref Iterator_arrow
    rw [if_neg (by simpa using h3)]
    constructor <;> split <;> simp
  unfold Iterator_inc
  rw [if_neg (by simpa using hs)]
  split
  · exact ⟨it, rfl, hs, key it hs⟩
  · split
    · exact ⟨_, rfl, hs, key _ hs⟩
    · exact ⟨_, rfl, hs, key _ hs⟩

end HashSet

namespace HashMap

variable {K V : Type} [DecidableEq K]

theorem ctor_default_eq (code : hashfunc → K → Int) (thash chash : hashfunc) (t : ℚ) :
    (ctor_default code thash t chash : Except Error (HashMap K V))
      = ctor_bins code thash 1 t chash := rfl

/-- The table built by the default constructor is well formed and empty. -/
theorem ctor_default_WF (code : hashfunc → K → Int) (thash chash : hashfunc) (t : ℚ)
    (m : HashMap K V) (h : ctor_default code thash t chash = .ok m) :
    WF code m ∧ m.used = 0 := by
  rw [ctor_default_eq] at h
  obtain ⟨h1, h2, _⟩ := ctor_bins_spec code thash 1 t chash m h
  exact ⟨h1, h2⟩

/-- The table built from an initializer list or an iterable is well formed. -/
theorem ctor_il_WF (code : hashfunc → K → Int) (thash chash : hashfunc) (t : ℚ)
    (il : List (K × V)) (m : HashMap K V) (h : ctor_il code thash il t chash = .ok m) :
    WF code m := by
  unfold ctor_il at h
  cases hr : resolve_hash thash chash with
  | error err => simp [hr] at h
  | ok hash =>
    simp only [hr, Except.ok.injEq] at h
    rw [← h]
    exact (foldl_put_spec code il _ (WF_initial code hash _ 1 0 (le_refl 1))).1

theorem clear_WF (code : hashfunc → K → Int) (m : HashMap K V) (hw : WF code m) :
    WF code (clear m) :=
  WF_initial code m.hash m.load_threshold m.bins (m.mod_count + 1) hw.1.1

theorem operator_index_WF [Inhabited V] (code : hashfunc → K → Int) (m : HashMap K V)
    (hw : WF code m) (k : K) : WF code (operator_index code m k).2 := by
  cases hf : find_key code m k with
  | none =>
    have h : (operator_index code m k).2 = (put code m k default).2 := by
      unfold operator_index put
      rw [hf]
    rw [h]
    exact (put_spec code m hw k default).1
  | some p =>
    have h : (operator_index code m k).2 = m := by
      unfold operator_index
      rw [hf]
    rw [h]
    exact hw

end HashMap

namespace HashSet

variable {T : Type} [DecidableEq T]

theorem set_ctor_default_eq (code : hashfunc → T → Int) (thash chash : hashfunc) (t : ℚ) :
    (ctor_default code thash t chash : Except Error (HashSet T))
      = ctor_bins code thash 1 t chash := rfl

/-- The table built by the default constructor is well formed and empty. -/
theorem set_ctor_default_WF (code : hashfunc → T → Int) (thash chash : hashfunc) (t : ℚ)
    (s : HashSet T) (h : ctor_default code thash t chash = .ok s) :
    WF code s ∧ s.used = 0 := by
  rw [set_ctor_default_eq] at h
  obtain ⟨h1, h2, _⟩ := set_ctor_bins_spec code thash 1 t chash s h
  exact ⟨h1, h2⟩

/-- The table built from an initializer list or an iterable is well formed. -/
theorem set_ctor_il_WF (code : hashfunc → T → Int) (thash chash : hashfunc) (t : ℚ)
    (il : List T) (s : HashSet T) (h : ctor_il code thash il t chash = .ok s) :
    WF code s := by
  unfold ctor_il at h
  cases hr : resolve_hash thash chash with
  | error err => simp [hr] at h
  | ok hash =>
    simp only [hr, Except.ok.injEq] at h
    rw [← h]
    exact (foldl_insert_spec code il _ (set_WF_initial code hash _ 1 0 (le_refl 1))).1

theorem set_clear_WF (code : hashfunc → T → Int) (s : HashSet T) (hw : WF code s) :
    WF code (clear s) :=
  set_WF_initial code s.hash s.load_threshold s.bins (s.mod_count + 1) hw.1.1

end HashSet

namespace HashMap

variable {K V : Type} [DecidableEq K]

/-- The three outcomes of cursor `erase()`, in the order of its tests. -/
theorem Iterator_erase_cases (m : HashMap K V) (it : Iterator) :
    (it.expected_mod_count ≠ m.mod_count →
      Iterator_erase m it = .error Error.ConcurrentModificationError) ∧
    (it.expected_mod_count = m.mod_count → (it.current.1 = -1 ∨ it.can_erase = false) →
      Iterator_erase m it = .error Error.CannotEraseError) ∧
    (it.expected_mod_count = m.mod_count → it.current.1 ≠ -1 → it.can_erase = true →
      ∃ r it2 m2, Iterator_erase m it = .ok (r, it2, m2)) := by
  refine ⟨?_, ?_, ?_⟩
  · intro h
    unfold Iterator_erase
    rw [if_pos h]
  · intro h hc
    unfold Iterator_erase
    rw [if_neg (by simpa using h)]
    by_cases hce : it.can_erase = false
    · rw [if_pos hce]
    · rw [if_neg hce]
      rcases hc with hc | hc
      · rw [if_pos hc]
      · exact absurd hc hce
  · intro h h1 h2
    unfold Iterator_erase
    rw [if_neg (by simpa using h), if_neg (by simp [h2]), if_neg h1]
    exact ⟨_, _, _, rfl⟩

/-- The cursor left by a successful `erase()` cannot erase again. -/
theorem Iterator_erase_twice (m m2 : HashMap K V) (it it2 : Iterator) (r : Option (K × V))
    (h : Iterator_erase m it = .ok (r, it2, m2)) :
    Iterator_erase m2 it2 = .error Error.CannotEraseError := by
  unfold Iterator_erase at h
  split at h
  · cases h
  · split at h
    · cases h
    · split at h
      · cases h
      · simp only [Except.ok.injEq, Prod.mk.injEq] at h
        obtain ⟨_, h2, h3⟩ := h
        subst h2 h3
        unfold Iterator_erase
        simp

end HashMap

namespace HashSet

variable {T : Type} [DecidableEq T]

/-- The three outcomes of cursor `erase()`, in the order of its tests. -/
theorem set_Iterator_erase_cases (s : HashSet T) (it : Iterator) :
    (it.expected_mod_count ≠ s.mod_count →
      Iterator_erase s it = .error Error.ConcurrentModificationError) ∧
    (it.expected_mod_count = s.mod_count → (it.current.1 = -1 ∨ it.can_erase = false) →
      Iterator_erase s it = .error Error.CannotEraseError) ∧
    (it.expected_mod_count = s.mod_count → it.current.1 ≠ -1 → it.can_erase = true →
      ∃ r it2 s2, Iterator_erase s it = .ok (r, it2, s2)) := by
  refine ⟨?_, ?_, ?_⟩
  · intro h
    unfold Iterator_erase
    rw [if_pos h]
  · intro h hc
    unfold Iterator_erase
    rw [if_neg (by simpa using h)]
    by_cases hce : it.can_erase = false
    · rw [if_pos hce]
    · rw [if_neg hce]
      rcases hc with hc | hc
      · rw [if_pos hc]
      · exact absurd hc hce
  · intro h h1 h2
    unfold Iterator_erase
    rw [if_neg (by simpa using h), if_neg (by simp [h2]), if_neg h1]
    exact ⟨_, _, _, rfl⟩

/-- The cursor left by a successful `erase()` cannot erase again. -/
theorem set_Iterator_erase_twice (s s2 : HashSet T) (it it2 : Iterator) (r : Option T)
    (h : Iterator_erase s it = .ok (r, it2, s2)) :
    Iterator_erase s2 it2 = .error Error.CannotEraseError := by
  unfold Iterator_erase at h
  split at h
  · cases h
  · split at h
    · cases h
    · split at h
      · cases h
      · simp only [Except.ok.injEq, Prod.mk.injEq] at h
        obtain ⟨_, h2, h3⟩ := h
        subst h2 h3
        unfold Iterator_erase
        simp

end HashSet

namespace HashMap

variable {K V : Type} [DecidableEq K]

theorem erase_eq_error_iff (code : hashfunc → K → Int) (m : HashMap K V) (k : K) :
    erase code m k = .error Error.KeyError ↔ has_key code m k = false := by
  unfold erase has_key
  cases find_key code m k with
  | none => simp
  | some p => simp

theorem erase_ok_of_has_key (code : hashfunc → K → Int) (m : HashMap K V) (k : K)
    (h : has_key code m k = true) : ∃ r m2, erase code m k = .ok (r, m2) := by
  unfold has_key at h
  unfold erase
  cases hf : find_key code m k with
  | none => simp [hf] at h
  | some p => exact ⟨_, _, rfl⟩

end HashMap

namespace HashSet

variable {T : Type} [DecidableEq T]

theorem erase_fst (code : hashfunc → T → Int) (s : HashSet T) (e : T) :
    (erase code s e).1 = if contains code s e = true then 1 else 0 := by
  unfold erase contains
  cases find_element code s e with
  | none => rfl
  | some p => rfl

end HashSet

namespace HashMap

variable {K V : Type} [DecidableEq K]

theorem resolve_hash_eq (thash chash : hashfunc) :
    resolve_hash thash chash
      = if ambiguous_or_missing thash chash then .error Error.TemplateFunctionError
        else .ok (if thash ≠ undefinedhash then thash else chash) := by
  unfold resolve_hash ambiguous_or_missing
  by_cases h1 : thash = undefinedhash <;> by_cases h2 : chash = undefinedhash <;>
    by_cases h3 : thash = chash <;> simp_all

theorem ctor_bins_eq (code : hashfunc → K → Int) (thash chash : hashfunc)
    (initial_bins : Int) (t : ℚ) :
    ((ctor_bins code thash initial_bins t chash : Except Error (HashMap K V))
          = .error Error.TemplateFunctionError ↔ ambiguous_or_missing thash chash) ∧
      (¬ ambiguous_or_missing thash chash →
        ∃ m : HashMap K V, ctor_bins code thash initial_bins t chash = .ok m ∧
          m.hash = if thash ≠ undefinedhash then thash else chash) := by
  unfold ctor_bins
  rw [resolve_hash_eq]
  by_cases h : ambiguous_or_missing thash chash
  · simp [h]
  · simp only [h, if_false, false_iff, not_false_eq_true, true_implies]
    exact ⟨by simp, _, rfl, (ensure_fields code _ 0).1⟩

theorem ctor_il_eq (code : hashfunc → K → Int) (thash chash : hashfunc)
    (il : List (K × V)) (t : ℚ) :
    (ctor_il code thash il t chash = .error Error.TemplateFunctionError ↔
        ambiguous_or_missing thash chash) ∧
      (¬ ambiguous_or_missing thash chash →
        ∃ m : HashMap K V, ctor_il code thash il t chash = .ok m ∧
          m.hash = if thash ≠ undefinedhash then thash else chash) := by
  unfold ctor_il
  rw [resolve_hash_eq]
  by_cases h : ambiguous_or_missing thash chash
  · simp [h]
  · simp only [h, if_false, false_iff, not_false_eq_true, true_implies]
    exact ⟨by simp, _, rfl, foldl_put_hash code il _ (WF_initial code _ _ 1 0 (le_refl 1))⟩

end HashMap

namespace HashSet

variable {T : Type} [DecidableEq T]

theorem set_resolve_hash_eq (thash chash : hashfunc) :
    resolve_hash thash chash
      = if ambiguous_or_missing thash chash then .error Error.TemplateFunctionError
        else .ok (if thash ≠ undefinedhash then thash else chash) := by
  unfold resolve_hash ambiguous_or_missing
  by_cases h1 : thash = undefinedhash <;> by_cases h2 : chash = undefinedhash <;>
    by_cases h3 : thash = chash <;> simp_all

theorem set_ctor_bins_eq (code : hashfunc → T → Int) (thash chash : hashfunc)
    (initial_bins : Int) (t : ℚ) :
    ((ctor_bins code thash initial_bins t chash : Except Error (HashSet T))
          = .error Error.TemplateFunctionError ↔ ambiguous_or_missing thash chash) ∧
      (¬ ambiguous_or_missing thash chash →
        ∃ s : HashSet T, ctor_bins code thash initial_bins t chash = .ok s ∧
          s.hash = if thash ≠ undefinedhash then thash else chash) := by
  unfold ctor_bins
  rw [set_resolve_hash_eq]
  by_cases h : ambiguous_or_missing thash chash
  · simp [h]
  · simp only [h, if_false, false_iff, not_false_eq_true, true_implies]
    exact ⟨by simp, _, rfl, (set_ensure_fields code _ 0).1⟩

theorem set_ctor_il_eq (code : hashfunc → T → Int) (thash chash : hashfunc)
    (il : List T) (t : ℚ) :
    (ctor_il code thash il t chash = .error Error.TemplateFunctionError ↔
        ambiguous_or_missing thash chash) ∧
      (¬ ambiguous_or_missing thash chash →
        ∃ s : HashSet T, ctor_il code thash il t chash = .ok s ∧
          s.hash = if thash ≠ undefinedhash then thash else chash) := by
  unfold ctor_il
  rw [set_resolve_hash_eq]
  by_cases h : ambiguous_or_missing thash chash
  · simp [h]
  · simp only [h, if_false, false_iff, not_false_eq_true, true_implies]
    exact ⟨by simp, _, rfl,
      foldl_insert_hash code il _ (set_WF_initial code _ _ 1 0 (le_refl 1))⟩

end HashSet

namespace HashMap

variable {K V : Type} [DecidableEq K]

/-- The copy constructor throws exactly when `thash` and `chash` are both defined and
differ; otherwise the copy works with `thash`, else `chash`, else the hash function of the
table copied. -/
theorem ctor_copy_cases (code : hashfunc → K → Int) (thash chash : hashfunc) (t : ℚ)
    (b : HashMap K V) :
    (thash ≠ undefinedhash ∧ chash ≠ undefinedhash ∧ chash ≠ thash →
      ctor_copy code thash b t chash = .error Error.TemplateFunctionError) ∧
    (¬ (thash ≠ undefinedhash ∧ chash ≠ undefinedhash ∧ chash ≠ thash) →
      ∃ a, ctor_copy code thash b t chash = .ok a ∧
        a.hash = if (if thash ≠ undefinedhash then thash else chash) = undefinedhash
          then b.hash else if thash ≠ undefinedhash then thash else chash) := by
  unfold ctor_copy
  simp only
  generalize (if (if thash ≠ undefinedhash then thash else chash) = undefinedhash then b.hash
    else if thash ≠ undefinedhash then thash else chash) = hash
  constructor
  · intro h
    rw [if_pos h]
  · intro h
    rw [if_neg h]
    by_cases hh : hash = b.hash
    · rw [if_pos hh]
      exact ⟨_, rfl, rfl⟩
    · rw [if_neg hh]
      exact ⟨_, rfl, foldl_put_hash code _ _ (WF_initial code hash _ 1 0 (le_refl 1))⟩

end HashMap

namespace HashSet

variable {T : Type} [DecidableEq T]

/-- The copy constructor throws exactly when `thash` and `chash` are both defined and
differ; otherwise the copy works with `thash`, else `chash`, else the hash function of the
table copied. -/
theorem set_ctor_copy_cases (code : hashfunc → T → Int) (thash chash : hashfunc) (t : ℚ)
    (b : HashSet T) :
    (thash ≠ undefinedhash ∧ chash ≠ undefinedhash ∧ thash ≠ chash →
      ctor_copy code thash b t chash = .error Error.TemplateFunctionError) ∧
    (¬ (thash ≠ undefinedhash ∧ chash ≠ undefinedhash ∧ thash ≠ chash) →
      ∃ a, ctor_copy code thash b t chash = .ok a ∧
        a.hash = if (if thash ≠ undefinedhash then thash else chash) = undefinedhash
          then b.hash else if thash ≠ undefinedhash then thash else chash) := by
  unfold ctor_copy
  simp only
  generalize (if (if thash ≠ undefinedhash then thash else chash) = undefinedhash then b.hash
    else if thash ≠ undefinedhash then thash else chash) = hash
  constructor
  · intro h
    rw [if_pos h]
  · intro h
    rw [if_neg h]
    by_cases hh : hash = b.hash
    · rw [if_pos hh]
      exact ⟨_, rfl, rfl⟩
    · rw [if_neg hh]
      exact ⟨_, rfl, foldl_insert_hash code _ _ (set_WF_initial code hash _ 1 0 (le_refl 1))⟩

end HashSet

namespace Bucket

variable {E : Type}

theorem ahead_zero (bs : List (List E)) : ahead bs 0 0 = bs.flatten := by
  unfold ahead
  cases bs with
  | nil => simp
  | cons c rest => simp

theorem ahead_trailer (bs : List (List E)) (b : Nat) :
    ahead bs b (bs.getD b []).length = ahead bs (b + 1) 0 := by
  unfold ahead
  simp only [List.drop_length, List.nil_append, List.drop_zero]
  by_cases hb : b + 1 < bs.length
  · rw [List.drop_eq_getElem_cons hb, List.flatten_cons, List.getD_eq_getElem _ _ hb]
  · rw [List.drop_of_length_le (by omega), List.drop_of_length_le (by omega),
      List.getD_eq_default _ _ (by omega)]
    simp

theorem ahead_last (bs : List (List E)) (b : Nat) (hb : bs.length ≤ b + 1) :
    ahead bs b (bs.getD b []).length = [] := by
  unfold ahead
  rw [List.drop_of_length_le hb]
  simp

theorem ahead_live (bs : List (List E)) (b i : Nat) (h : i < (bs.getD b []).length) :
    ahead bs b i = (bs.getD b []).get ⟨i, h⟩ :: ahead bs b (i + 1) := by
  unfold ahead
  rw [List.drop_eq_getElem_cons h]
  rfl

/-- The loop of `advance_cursors`, started on a node or the trailer of bin `b` with enough
fuel to reach the last bin, stops at the end position when no value lies ahead, and
otherwise on the first live node at or after its starting point. -/
theorem advance_loop_spec (bins : Nat) (bs : List (List E)) (hlen : bs.length = bins) :
    ∀ (fuel b i : Nat), b < bins → i ≤ (bs.getD b []).length → bins ≤ fuel + b →
      (advance_loop bins bs fuel ((b : Int), some i) = (-1, none) ∧ ahead bs b i = []) ∨
      (∃ b2 i2 : Nat, advance_loop bins bs fuel ((b : Int), some i) = ((b2 : Int), some i2) ∧
        b2 < bins ∧ i2 < (bs.getD b2 []).length ∧ ahead bs b2 i2 = ahead bs b i) := by
  intro fuel
  induction fuel with
  | zero =>
    intro b i hb _ hf
    omega
  | succ fuel ih =>
    intro b i hb hi hf
    unfold advance_loop
    by_cases hlt : i < (bs.getD b []).length
    · right
      refine ⟨b, i, ?_, hb, hlt, rfl⟩
      rw [if_neg]
      rintro ⟨h, -⟩
      simp only [at_trailer, decide_eq_true_eq, Int.toNat_ofNat] at h
      omega
    · have hie : i = (bs.getD b []).length := by omega
      have hcond : at_trailer bs ((b : Int), some i) = true ∧ ((b : Int), some i).1 < (bins : Int) := by
        refine ⟨?_, by simpa using hb⟩
        simp only [at_trailer, decide_eq_true_eq, Int.toNat_ofNat]
        omega
      rw [if_pos hcond]
      by_cases hb1 : b + 1 < bins
      · rw [if_neg (by simp only [ge_iff_le, not_le]; exact_mod_cast hb1)]
        have hcast : ((b : Int) + 1, some 0) = (((b + 1 : Nat) : Int), some 0) := by simp
        simp only []
        rw [hcast, hie, ahead_trailer]
        exact ih (b + 1) 0 hb1 (Nat.zero_le _) (by omega)
      · left
        rw [if_pos (by simp only [ge_iff_le]; exact_mod_cast (by omega : bins ≤ b + 1))]
        refine ⟨rfl, ?_⟩
        rw [hie]
        exact ahead_last bs b (by omega)

theorem advance_cursors_spec (bins : Nat) (bs : List (List E)) (hlen : bs.length = bins)
    (b i : Nat) (hb : b < bins) (hi : i ≤ (bs.getD b []).length) :
    (advance_cursors bins bs ((b : Int), some i) = (-1, none) ∧ ahead bs b i = []) ∨
    (∃ b2 i2 : Nat, advance_cursors bins bs ((b : Int), some i) = ((b2 : Int), some i2) ∧
      b2 < bins ∧ i2 < (bs.getD b2 []).length ∧ ahead bs b2 i2 = ahead bs b i) :=
  advance_loop_spec bins bs hlen bins b i hb hi (by omega)

theorem node_value_live (bs : List (List E)) (b i : Nat) (h : i < (bs.getD b []).length) :
    node_value bs ((b : Int), some i) = some ((bs.getD b []).get ⟨i, h⟩) := by
  simp [node_value, List.getElem?_eq_getElem h]

end Bucket

namespace Bucket

variable {E : Type}

theorem advance_end_or_live (bins : Nat) (bs : List (List E)) (hlen : bs.length = bins)
    (b i : Nat) (hb : b < bins) (hi : i ≤ (bs.getD b []).length) :
    End_or_live bs (advance_cursors bins bs ((b : Int), some i)) := by
  rcases advance_cursors_spec bins bs hlen b i hb hi with ⟨h, -⟩ | ⟨b2, i2, h, -, hi2, -⟩
  · exact Or.inl h
  · right
    rw [h, node_value_live bs b2 i2 hi2]
    exact ⟨Int.natCast_nonneg b2, rfl⟩

theorem live_cases (bs : List (List E)) (cur : Int × Option Nat) (h : End_or_live bs cur)
    (hne : cur.1 ≠ -1) :
    ∃ b i : Nat, cur = ((b : Int), some i) ∧ b < bs.length ∧ i < (bs.getD b []).length := by
  rcases h with h | ⟨h0, hv⟩
  · rw [h] at hne
    exact absurd rfl hne
  · obtain ⟨e, he⟩ := Option.isSome_iff_exists.1 hv
    obtain ⟨i, hi, hget, hlt⟩ := node_value_eq_some bs cur e he
    refine ⟨cur.1.toNat, i, ?_, hlt, ?_⟩
    · rw [Int.toNat_of_nonneg h0, ← hi]
    · exact (List.getElem?_eq_some_iff.1 hget).1

theorem splice_at_live (bs : List (List E)) (b i : Nat) (hb : b < bs.length)
    (hi : i < (bs.getD b []).length) :
    (splice_at bs ((b : Int), some i)).length = bs.length ∧
      i ≤ ((splice_at bs ((b : Int), some i)).getD b []).length := by
  simp only [splice_at, splice, Int.toNat_ofNat, List.length_set, true_and]
  rw [List.getD_eq_getElem _ _ (by simpa using hb), List.getElem_set_self,
    List.length_eraseIdx, if_pos hi]
  omega

end Bucket

namespace HashMap

variable {K V : Type} [DecidableEq K]

theorem table_length (code : hashfunc → K → Int) (m : HashMap K V) (hs : Shape code m)
    (b : Nat) (hb : b < m.table.length) : m.table.length = m.bins :=
  hs.2.1 (map_isSome_of_lt hb)

/-- The begin cursor of a well-formed table is fresh and lies on the first live node in
bin order, or is the end cursor when the table holds nothing. -/
theorem begin_cases (code : hashfunc → K → Int) (m : HashMap K V) (hw : WF code m) :
    (begin m).expected_mod_count = m.mod_count ∧ (begin m).can_erase = true ∧
      (((begin m).current = (-1, none) ∧ m.entries = []) ∨
        ∃ b i : Nat, (begin m).current = ((b : Int), some i) ∧ b < m.bins ∧
          m.table.length = m.bins ∧ i < (m.table.getD b []).length ∧
          Bucket.ahead m.table b i = m.entries) := by
  unfold begin Iterator_ctor
  by_cases h0 : m.used = 0
  · rw [if_neg (by simp [empty, h0])]
    exact ⟨rfl, rfl, Or.inl ⟨rfl, entries_eq_nil_of_used code m hw h0⟩⟩
  · rw [if_pos (by simp [empty, h0])]
    refine ⟨rfl, rfl, ?_⟩
    have hne : m.entries ≠ [] := by
      intro h
      have := hw.2
      rw [h] at this
      exact h0 (by simpa using this)
    have hpos : 0 < m.table.length := by
      rcases Nat.eq_zero_or_pos m.table.length with h | h
      · exact absurd (by simp [entries, List.length_eq_zero.1 h]) hne
      · exact h
    have hlen := table_length code m hw.1 0 hpos
    rcases Bucket.advance_cursors_spec m.bins m.table hlen 0 0 (by omega) (Nat.zero_le _) with
      ⟨-, h⟩ | ⟨b2, i2, h, hb2, hi2, ha⟩
    · rw [Bucket.ahead_zero] at h
      exact absurd h hne
    · right
      refine ⟨b2, i2, ?_, hb2, hlen, hi2, ?_⟩
      · simpa using h
      · rw [ha, Bucket.ahead_zero]
        rfl

theorem end_cases (m : HashMap K V) :
    (end_ m).expected_mod_count = m.mod_count ∧ (end_ m).can_erase = true ∧
      (end_ m).current = (-1, none) := by
  simp [end_, Iterator_ctor]

theorem range_for_loop_end (m : HashMap K V) (ref_map : Nat) (fuel : Nat) (it : Iterator)
    (hs : it.expected_mod_count = m.mod_count) (hc : it.current = (-1, none)) :
    range_for_loop m ref_map (fuel + 1) it = some (.ok []) := by
  unfold range_for_loop
  simp [Iterator_ne, hs, hc, (end_cases m).2.2]

/-- The loop from a fresh cursor on a live node visits the values ahead of it, in order,
and ends, given one unit of fuel per value and one for the last test. -/
theorem range_for_loop_live (m : HashMap K V) (ref_map : Nat)
    (hlen : m.table.length = m.bins) :
    ∀ (fuel : Nat) (it : Iterator) (b i : Nat), it.expected_mod_count = m.mod_count →
      it.can_erase = true → it.current = ((b : Int), some i) → b < m.bins →
      i < (m.table.getD b []).length → (Bucket.ahead m.table b i).length + 1 ≤ fuel →
      range_for_loop m ref_map fuel it = some (.ok ((Bucket.ahead m.table b i).map some)) := by
  intro fuel
  induction fuel with
  | zero =>
    intro it b i _ _ _ _ _ hf
    omega
  | succ fuel ih =>
    intro it b i hs hc hcur hb hi hf
    have hne : it.current ≠ (end_ m).current := by
      rw [hcur, (end_cases m).2.2]
      intro h
      have := congrArg Prod.snd h
      simp at this
    have hb1 : ¬ it.current.1 = -1 := by
      rw [hcur]
      simp only
      omega
    rw [Bucket.ahead_live m.table b i hi] at hf ⊢
    unfold range_for_loop
    simp only [Iterator_ne, hs, ne_eq, not_true_eq_false, if_false, hne, not_false_eq_true,
      decide_True, Iterator_deref, hc, hb1, Bool.true_eq_false, or_self, Iterator_inc, if_true]
    rw [hcur, Bucket.node_value_live m.table b i hi]
    simp only [Bucket.next_node, Option.map_some']
    rcases Bucket.advance_cursors_spec m.bins m.table hlen b (i + 1) hb (by omega) with
      ⟨h, ha⟩ | ⟨b2, i2, h, hb2, hi2, ha⟩
    · rw [ha] at hf ⊢
      obtain ⟨f2, rfl⟩ : ∃ f2, fuel = f2 + 1 := ⟨fuel - 1, by simp at hf; omega⟩
      rw [h, range_for_loop_end m ref_map f2 ⟨(-1, none), m.mod_count, true⟩ rfl rfl]
      rfl
    · rw [← ha] at hf ⊢
      rw [h, ih ⟨((b2 : Int), some i2), m.mod_count, true⟩ b2 i2 rfl rfl rfl hb2 hi2
        (by simpa using hf)]
      rfl

/-- The cursor loop from `begin()` to `end()` on a well-formed table ends and visits the
live entries in bin order, each chain from its head to its trailer. -/
theorem range_for_spec (code : hashfunc → K → Int) (m : HashMap K V) (hw : WF code m)
    (ref_map fuel : Nat) (hf : m.entries.length + 1 ≤ fuel) :
    range_for m ref_map fuel = some (.ok (m.entries.map some)) := by
  unfold range_for
  obtain ⟨hs, hc, ⟨hcur, he⟩ | ⟨b, i, hcur, hb, hlen, hi, ha⟩⟩ := begin_cases code m hw
  · obtain ⟨f2, rfl⟩ : ∃ f2, fuel = f2 + 1 := ⟨fuel - 1, by omega⟩
    rw [range_for_loop_end m ref_map f2 _ hs hcur, he]
    rfl
  · rw [← ha] at hf ⊢
    exact range_for_loop_live m ref_map hlen fuel _ b i hs hc hcur hb hi hf

theorem begin_eq_end (code : hashfunc → K → Int) (m : HashMap K V) (hw : WF code m)
    (ref_map : Nat) :
    Iterator_eq m ref_map (begin m) ref_map (end_ m) = .ok m.empty ∧
      Iterator_ne m ref_map (begin m) ref_map (end_ m) = .ok (!m.empty) := by
  obtain ⟨hs, hc, ⟨hcur, he⟩ | ⟨b, i, hcur, hb, hlen, hi, ha⟩⟩ := begin_cases code m hw
  · have h0 : m.used = 0 := by
      have := hw.2
      rw [he] at this
      simpa using this
    simp [Iterator_eq, Iterator_ne, hs, hcur, (end_cases m).2.2, empty, h0]
  · have h0 : ¬ m.used = 0 := by
      intro h
      have he := entries_eq_nil_of_used code m hw h
      rw [← ha, Bucket.ahead_live m.table b i hi] at he
      cases he
    simp [Iterator_eq, Iterator_ne, hs, hcur, (end_cases m).2.2, empty, h0]

end HashMap

namespace HashSet

variable {T : Type} [DecidableEq T]

theorem set_table_length (code : hashfunc → T → Int) (s : HashSet T) (hs : Shape code s)
    (b : Nat) (hb : b < s.table.length) : s.table.length = s.bins :=
  hs.2.1 (set_isSome_of_lt hb)

/-- The begin cursor of a well-formed table is fresh and lies on the first live node in
bin order, or is the end cursor when the table holds nothing. -/
theorem set_begin_cases (code : hashfunc → T → Int) (s : HashSet T) (hw : WF code s) :
    (begin s).expected_mod_count = s.mod_count ∧ (begin s).can_erase = true ∧
      (((begin s).current = (-1, none) ∧ s.entries = []) ∨
        ∃ b i : Nat, (begin s).current = ((b : Int), some i) ∧ b < s.bins ∧
          s.table.length = s.bins ∧ i < (s.table.getD b []).length ∧
          Bucket.ahead s.table b i = s.entries) := by
  unfold begin Iterator_ctor
  by_cases h0 : s.used = 0
  · rw [if_neg (by simp [empty, h0])]
    exact ⟨rfl, rfl, Or.inl ⟨rfl, set_entries_eq_nil_of_used code s hw h0⟩⟩
  · rw [if_pos (by simp [empty, h0])]
    refine ⟨rfl, rfl, ?_⟩
    have hne : s.entries ≠ [] := by
      intro h
      have := hw.2
      rw [h] at this
      exact h0 (by simpa using this)
    have hpos : 0 < s.table.length := by
      rcases Nat.eq_zero_or_pos s.table.length with h | h
      · exact absurd (by simp [entries, List.length_eq_zero.1 h]) hne
      · exact h
    have hlen := set_table_length code s hw.1 0 hpos
    rcases Bucket.advance_cursors_spec s.bins s.table hlen 0 0 (by omega) (Nat.zero_le _) with
      ⟨-, h⟩ | ⟨b2, i2, h, hb2, hi2, ha⟩
    · rw [Bucket.ahead_zero] at h
      exact absurd h hne
    · right
      refine ⟨b2, i2, ?_, hb2, hlen, hi2, ?_⟩
      · simpa using h
      · rw [ha, Bucket.ahead_zero]
        rfl

theorem set_end_cases (s : HashSet T) :
    (end_ s).expected_mod_count = s.mod_count ∧ (end_ s).can_erase = true ∧
      (end_ s).current = (-1, none) := by
  simp [end_, Iterator_ctor]

theorem set_range_for_loop_end (s : HashSet T) (ref_set : Nat) (fuel : Nat) (it : Iterator)
    (hs : it.expected_mod_count = s.mod_count) (hc : it.current = (-1, none)) :
    range_for_loop s ref_set (fuel + 1) it = some (.ok []) := by
  unfold range_for_loop
  simp [Iterator_ne, hs, hc, (set_end_cases s).2.2]

/-- The loop from a fresh cursor on a live node visits the values ahead of it, in order,
and ends, given one unit of fuel per value and one for the last test. -/
theorem set_range_for_loop_live (s : HashSet T) (ref_set : Nat)
    (hlen : s.table.length = s.bins) :
    ∀ (fuel : Nat) (it : Iterator) (b i : Nat), it.expected_mod_count = s.mod_count →
      it.can_erase = true → it.current = ((b : Int), some i) → b < s.bins →
      i < (s.table.getD b []).length → (Bucket.ahead s.table b i).length + 1 ≤ fuel →
      range_for_loop s ref_set fuel it = some (.ok ((Bucket.ahead s.table b i).map some)) := by
  intro fuel
  induction fuel with
  | zero =>
    intro it b i _ _ _ _ _ hf
    omega
  | succ fuel ih =>
    intro it b i hs hc hcur hb hi hf
    have hne : it.current ≠ (end_ s).current := by
      rw [hcur, (set_end_cases s).2.2]
      intro h
      have := congrArg Prod.snd h
      simp at this
    have hb1 : ¬ it.current.1 = -1 := by
      rw [hcur]
      simp only
      omega
    rw [Bucket.ahead_live s.table b i hi] at hf ⊢
    unfold range_for_loop
    simp only [Iterator_ne, hs, ne_eq, not_true_eq_false, if_false, hne, not_false_eq_true,
      decide_True, Iterator_deref, hc, hb1, Bool.true_eq_false, or_self, Iterator_inc, if_true]
    rw [hcur, Bucket.node_value_live s.table b i hi]
    simp only [Bucket.next_node, Option.map_some']
    rcases Bucket.advance_cursors_spec s.bins s.table hlen b (i + 1) hb (by omega) with
      ⟨h, ha⟩ | ⟨b2, i2, h, hb2, hi2, ha⟩
    · rw [ha] at hf ⊢
      obtain ⟨f2, rfl⟩ : ∃ f2, fuel = f2 + 1 := ⟨fuel - 1, by simp at hf; omega⟩
      rw [h, set_range_for_loop_end s ref_set f2 ⟨(-1, none), s.mod_count, true⟩ rfl rfl]
      rfl
    · rw [← ha] at hf ⊢
      rw [h, ih ⟨((b2 : Int), some i2), s.mod_count, true⟩ b2 i2 rfl rfl rfl hb2 hi2
        (by simpa using hf)]
      rfl

/-- The cursor loop from `begin()` to `end()` on a well-formed table ends and visits the
live entries in bin order, each chain from its head to its trailer. -/
theorem set_range_for_spec (code : hashfunc → T → Int) (s : HashSet T) (hw : WF code s)
    (ref_set fuel : Nat) (hf : s.entries.length + 1 ≤ fuel) :
    range_for s ref_set fuel = some (.ok (s.entries.map some)) := by
  unfold range_for
  obtain ⟨hs, hc, ⟨hcur, he⟩ | ⟨b, i, hcur, hb, hlen, hi, ha⟩⟩ := set_begin_cases code s hw
  · obtain ⟨f2, rfl⟩ : ∃ f2, fuel = f2 + 1 := ⟨fuel - 1, by omega⟩
    rw [set_range_for_loop_end s ref_set f2 _ hs hcur, he]
    rfl
  · rw [← ha] at hf ⊢
    exact set_range_for_loop_live s ref_set hlen fuel _ b i hs hc hcur hb hi hf

theorem set_begin_eq_end (code : hashfunc → T → Int) (s : HashSet T) (hw : WF code s)
    (ref_set : Nat) :
    Iterator_eq s ref_set (begin s) ref_set (end_ s) = .ok s.empty ∧
      Iterator_ne s ref_set (begin s) ref_set (end_ s) = .ok (!s.empty) := by
  obtain ⟨hs, hc, ⟨hcur, he⟩ | ⟨b, i, hcur, hb, hlen, hi, ha⟩⟩ := set_begin_cases code s hw
  · have h0 : s.used = 0 := by
      have := hw.2
      rw [he] at this
      simpa using this
    simp [Iterator_eq, Iterator_ne, hs, hcur, (set_end_cases s).2.2, empty, h0]
  · have h0 : ¬ s.used = 0 := by
      intro h
      have he := set_entries_eq_nil_of_used code s hw h
      rw [← ha, Bucket.ahead_live s.table b i hi] at he
      cases he
    simp [Iterator_eq, Iterator_ne, hs, hcur, (set_end_cases s).2.2, empty, h0]

end HashSet

namespace HashMap

variable {K V : Type} [DecidableEq K]

theorem Cursor_ok_begin (code : hashfunc → K → Int) (m : HashMap K V) (hw : WF code m) :
    Cursor_ok m (begin m) := by
  obtain ⟨hs, -, ⟨hcur, -⟩ | ⟨b, i, hcur, -, -, hi, -⟩⟩ := begin_cases code m hw
  · exact ⟨le_of_eq hs, fun _ => Or.inl hcur⟩
  · refine ⟨le_of_eq hs, fun _ => Or.inr ?_⟩
    rw [hcur, Bucket.node_value_live m.table b i hi]
    exact ⟨Int.natCast_nonneg b, rfl⟩

/-- A usable cursor that is fresh, not in the erased sub-state and not at the end lies on
a live node, whose entry `*` and `->` return. -/
theorem deref_live (m : HashMap K V) (it : Iterator) (hok : Cursor_ok m it)
    (hs : it.expected_mod_count = m.mod_count) (hc : it.can_erase = true)
    (he : it.current.1 ≠ -1) :
    ∃ e, e ∈ m.entries ∧ Iterator_deref m it = .ok (some e) ∧
      Iterator_arrow m it = .ok (some e) := by
  obtain ⟨b, i, hcur, hb, hi⟩ := Bucket.live_cases m.table it.current (hok.2 hs) he
  refine ⟨(m.table.getD b []).get ⟨i, hi⟩,
    Bucket.getD_mem_flatten m.table b _ (List.get_mem _ _ _), ?_, ?_⟩
  · unfold Iterator_deref
    rw [if_neg (by simpa using hs), if_neg (by simp [hc, he]), hcur,
      Bucket.node_value_live m.table b i hi]
  · unfold Iterator_arrow
    rw [if_neg (by simpa using hs), if_neg (by simp [hc, he]), hcur,
      Bucket.node_value_live m.table b i hi]

/-- The cursor `erase()` leaves a usable cursor usable on the table it has changed. -/
theorem Cursor_ok_erase (code : hashfunc → K → Int) (m : HashMap K V) (hw : WF code m)
    (it it2 : Iterator) (r : Option (K × V)) (m2 : HashMap K V) (hok : Cursor_ok m it)
    (h : Iterator_erase m it = .ok (r, it2, m2)) : WF code m2 ∧ Cursor_ok m2 it2 := by
  have hwf : WF code m2 := by
    obtain ⟨h1, h2, h3⟩ := Iterator_erase_cases m it
    by_cases hs : it.expected_mod_count = m.mod_count
    · by_cases he : it.current.1 = -1 ∨ it.can_erase = false
      · rw [h2 hs he] at h
        cases h
      · obtain ⟨e, -, hd, -⟩ := deref_live m it hok hs (by simpa using fun h => he (Or.inr h))
          (fun h => he (Or.inl h))
        unfold Iterator_deref at hd
        rw [if_neg (by simpa using hs), if_neg (by
          intro hc
          exact he hc.symm)] at hd
        have h0 : 0 ≤ it.current.1 := by
          rcases hok.2 hs with h | h
          · rw [h] at he
            exact absurd (Or.inl rfl) he
          · exact h.1
        obtain ⟨it3, m3, h4, hw3, -⟩ := Iterator_erase_spec code m hw it e hs
          (by simpa using fun h => he (Or.inr h)) h0 (by simpa using hd)
        rw [h] at h4
        cases h4
        exact hw3
    · rw [h1 hs] at h
      cases h
  refine ⟨hwf, ?_⟩
  unfold Iterator_erase at h
  by_cases hs : it.expected_mod_count = m.mod_count
  · rw [if_neg (by simpa using hs)] at h
    by_cases hc : it.can_erase = false
    · rw [if_pos hc] at h
      cases h
    · rw [if_neg hc] at h
      by_cases he : it.current.1 = -1
      · rw [if_pos he] at h
        cases h
      · rw [if_neg he] at h
        simp only [Except.ok.injEq, Prod.mk.injEq] at h
        obtain ⟨-, rfl, rfl⟩ := h
        refine ⟨le_of_eq rfl, fun _ => ?_⟩
        obtain ⟨b, i, hcur, hb, hi⟩ := Bucket.live_cases m.table it.current (hok.2 hs) he
        have hlen := table_length code m hw.1 b hb
        obtain ⟨h1, h2⟩ := Bucket.splice_at_live m.table b i hb hi
        simp only [table, Option.getD_some]
        rw [hcur]
        exact Bucket.advance_end_or_live m.bins _ (h1.trans hlen) b i (by omega) h2
  · rw [if_pos hs] at h
    cases h

end HashMap

namespace HashSet

variable {T : Type} [DecidableEq T]

/-- A usable cursor that is fresh, not in the erased sub-state and not at the end lies on
a live node, whose entry `*` and `->` return. -/
theorem set_deref_live (s : HashSet T) (it : Iterator) (hok : Cursor_ok s it)
    (hs : it.expected_mod_count = s.mod_count) (hc : it.can_erase = true)
    (he : it.current.1 ≠ -1) :
    ∃ e, e ∈ s.entries ∧ Iterator_deref s it = .ok (some e) ∧
      Iterator_arrow s it = .ok (some e) := by
  obtain ⟨b, i, hcur, hb, hi⟩ := Bucket.live_cases s.table it.current (hok.2 hs) he
  refine ⟨(s.table.getD b []).get ⟨i, hi⟩,
    Bucket.getD_mem_flatten s.table b _ (List.get_mem _ _ _), ?_, ?_⟩
  · unfold Iterator_deref
    rw [if_neg (by simpa using hs), if_neg (by simp [hc, he]), hcur,
      Bucket.node_value_live s.table b i hi]
  · unfold Iterator_arrow
    rw [if_neg (by simpa using hs), if_neg (by simp [hc, he]), hcur,
      Bucket.node_value_live s.table b i hi]

/-- The cursor `erase()` leaves a usable cursor usable on the table it has changed. -/
theorem set_Cursor_ok_erase (code : hashfunc → T → Int) (s : HashSet T) (hw : WF code s)
    (it it2 : Iterator) (r : Option T) (s2 : HashSet T) (hok : Cursor_ok s it)
    (h : Iterator_erase s it = .ok (r, it2, s2)) : WF code s2 ∧ Cursor_ok s2 it2 := by
  have hwf : WF code s2 := by
    obtain ⟨h1, h2, h3⟩ := set_Iterator_erase_cases s it
    by_cases hs : it.expected_mod_count = s.mod_count
    · by_cases he : it.current.1 = -1 ∨ it.can_erase = false
      · rw [h2 hs he] at h
        cases h
      · obtain ⟨e, -, hd, -⟩ := set_deref_live s it hok hs (by simpa using fun h => he (Or.inr h))
          (fun h => he (Or.inl h))
        unfold Iterator_deref at hd
        rw [if_neg (by simpa using hs), if_neg (by
          intro hc
          exact he hc.symm)] at hd
        have h0 : 0 ≤ it.current.1 := by
          rcases hok.2 hs with h | h
          · rw [h] at he
            exact absurd (Or.inl rfl) he
          · exact h.1
        obtain ⟨it3, s3, h4, hw3, -⟩ := set_Iterator_erase_spec code s hw it e hs
          (by simpa using fun h => he (Or.inr h)) h0 (by simpa using hd)
        rw [h] at h4
        cases h4
        exact hw3
    · rw [h1 hs] at h
      cases h
  refine ⟨hwf, ?_⟩
  unfold Iterator_erase at h
  by_cases hs : it.expected_mod_count = s.mod_count
  · rw [if_neg (by simpa using hs)] at h
    by_cases hc : it.can_erase = false
    · rw [if_pos hc] at h
      cases h
    · rw [if_neg hc] at h
      by_cases he : it.current.1 = -1
      · rw [if_pos he] at h
        cases h
      · rw [if_neg he] at h
        simp only [Except.ok.injEq, Prod.mk.injEq] at h
        obtain ⟨-, rfl, rfl⟩ := h
        refine ⟨le_of_eq rfl, fun _ => ?_⟩
        obtain ⟨b, i, hcur, hb, hi⟩ := Bucket.live_cases s.table it.current (hok.2 hs) he
        have hlen := set_table_length code s hw.1 b hb
        obtain ⟨h1, h2⟩ := Bucket.splice_at_live s.table b i hb hi
        simp only [table, Option.getD_some]
        rw [hcur]
        exact Bucket.advance_end_or_live s.bins _ (h1.trans hlen) b i (by omega) h2
  · rw [if_pos hs] at h
    cases h

end HashSet

namespace HashMap

variable {K V : Type} [DecidableEq K]

theorem has_key_eq_false (code : hashfunc → K → Int) (m : HashMap K V) (k : K) :
    has_key code m k = false ↔ find_key code m k = none := by
  rw [has_key_eq, get?]
  cases find_key code m k <;> simp

theorem operator_index_absent [Inhabited V] (code : hashfunc → K → Int) (m : HashMap K V)
    (k : K) (hf : find_key code m k = none) :
    operator_index code m k = (default, (put code m k default).2) := by
  unfold operator_index put
  rw [hf]

theorem operator_index_present [Inhabited V] (code : hashfunc → K → Int) (m : HashMap K V)
    (k : K) (v : V) (hg : get? code m k = some v) : operator_index code m k = (v, m) := by
  unfold get? at hg
  unfold operator_index
  cases hf : find_key code m k with
  | none => simp [hf] at hg
  | some p =>
    obtain ⟨i, e⟩ := p
    simp only [hf, Option.map_some', Option.some.injEq] at hg
    simp [hg]

theorem operator_index_const_exec_eq (code : hashfunc → K → Int) (m : HashMap K V) (k : K) :
    operator_index_const_exec code m k = (operator_index_const code m k, m) := by
  unfold operator_index_const_exec operator_index_const
  cases find_key code m k with
  | none => rfl
  | some p => rfl

end HashMap

namespace HashSet

variable {T : Type} [DecidableEq T]

theorem find_element_isSome (code : hashfunc → T → Int) (s : HashSet T) (hs : Shape code s)
    (e : T) : (find_element code s e).isSome = true ↔ e ∈ s.entries :=
  contains_iff code s hs e

end HashSet

namespace HashMap

variable {K V : Type} [DecidableEq K]

/-- The state-returning `erase` agrees with `erase`: same outcome, and the state returned
by `erase` when the call returns. -/
theorem erase_exec_eq (code : hashfunc → K → Int) (m : HashMap K V) (k : K) :
    erase_exec code m k
      = match erase code m k with
        | .ok (v, m2) => (.ok v, m2)
        | .error err => (.error err, m) := by
  unfold erase_exec erase
  cases find_key code m k with
  | none => rfl
  | some p => rfl

theorem Iterator_erase_exec_eq (m : HashMap K V) (it : Iterator) :
    Iterator_erase_exec m it
      = match Iterator_erase m it with
        | .ok (r, it2, m2) => (.ok r, it2, m2)
        | .error err => (.error err, it, m) := by
  unfold Iterator_erase_exec Iterator_erase
  split_ifs <;> rfl

theorem Iterator_inc_exec_eq (m : HashMap K V) (it : Iterator) :
    Iterator_inc_exec m it
      = match Iterator_inc m it with
        | .ok it2 => (.ok (), it2, m)
        | .error err => (.error err, it, m) := by
  unfold Iterator_inc_exec Iterator_inc
  split_ifs <;> rfl

theorem Iterator_post_inc_exec_eq (m : HashMap K V) (it : Iterator) :
    Iterator_post_inc_exec m it
      = match Iterator_inc m it with
        | .ok it2 => (.ok it, it2, m)
        | .error err => (.error err, it, m) := by
  unfold Iterator_post_inc_exec Iterator_inc
  split_ifs <;> rfl

theorem Iterator_deref_exec_eq (m : HashMap K V) (it : Iterator) :
    Iterator_deref_exec m it = (Iterator_deref m it, it, m) ∧
      Iterator_arrow_exec m it = (Iterator_arrow m it, it, m) := by
  unfold Iterator_deref_exec Iterator_deref Iterator_arrow_exec Iterator_arrow
  constructor <;> split_ifs <;> rfl

theorem Iterator_eq_exec_eq (m : HashMap K V) (r r2 : Nat) (it rhs : Iterator) :
    Iterator_eq_exec m r it r2 rhs = (Iterator_eq m r it r2 rhs, it, rhs, m) ∧
      Iterator_ne_exec m r it r2 rhs = (Iterator_ne m r it r2 rhs, it, rhs, m) := by
  unfold Iterator_eq_exec Iterator_eq Iterator_ne_exec Iterator_ne
  constructor <;> split_ifs <;> rfl

end HashMap

namespace HashSet

variable {T : Type} [DecidableEq T]

theorem set_Iterator_erase_exec_eq (s : HashSet T) (it : Iterator) :
    Iterator_erase_exec s it
      = match Iterator_erase s it with
        | .ok (r, it2, s2) => (.ok r, it2, s2)
        | .error err => (.error err, it, s) := by
  unfold Iterator_erase_exec Iterator_erase
  split_ifs <;> rfl

theorem set_Iterator_inc_exec_eq (s : HashSet T) (it : Iterator) :
    Iterator_inc_exec s it
      = match Iterator_inc s it with
        | .ok it2 => (.ok (), it2, s)
        | .error err => (.error err, it, s) := by
  unfold Iterator_inc_exec Iterator_inc
  split_ifs <;> rfl

theorem set_Iterator_post_inc_exec_eq (s : HashSet T) (it : Iterator) :
    Iterator_post_inc_exec s it
      = match Iterator_inc s it with
        | .ok it2 => (.ok it, it2, s)
        | .error err => (.error err, it, s) := by
  unfold Iterator_post_inc_exec Iterator_inc
  split_ifs <;> rfl

theorem set_Iterator_deref_exec_eq (s : HashSet T) (it : Iterator) :
    Iterator_deref_exec s it = (Iterator_deref s it, it, s) ∧
      Iterator_arrow_exec s it = (Iterator_arrow s it, it, s) := by
  unfold Iterator_deref_exec Iterator_deref Iterator_arrow_exec Iterator_arrow
  constructor <;> split_ifs <;> rfl

theorem set_Iterator_eq_exec_eq (s : HashSet T) (r r2 : Nat) (it rhs : Iterator) :
    Iterator_eq_exec s r it r2 rhs = (Iterator_eq s r it r2 rhs, it, rhs, s) ∧
      Iterator_ne_exec s r it r2 rhs = (Iterator_ne s r it r2 rhs, it, rhs, s) := by
  unfold Iterator_eq_exec Iterator_eq Iterator_ne_exec Iterator_ne
  constructor <;> split_ifs <;> rfl

end HashSet

namespace HashMap

variable {K V : Type} [DecidableEq K]

theorem foldl_put_load_threshold (code : hashfunc → K → Int) (kvs : List (K × V))
    (m : HashMap K V) (hw : WF code m) :
    (kvs.foldl (fun t e => (put code t e.1 e.2).2) m).load_threshold = m.load_threshold := by
  induction kvs generalizing m with
  | nil => rfl
  | cons e kvs ih =>
    obtain ⟨hw2, _, _, _, hl⟩ := put_spec code m hw e.1 e.2
    simp only [List.foldl_cons]
    rw [ih _ hw2, hl]

theorem ctor_il_load_threshold (code : hashfunc → K → Int) (thash chash : hashfunc) (t : ℚ)
    (il : List (K × V)) (m : HashMap K V) (h : ctor_il code thash il t chash = .ok m) :
    m.load_threshold = if t ≤ 0 then 1 else t := by
  unfold ctor_il at h
  cases hr : resolve_hash thash chash with
  | error e =>
    rw [hr] at h
    cases h
  | ok hash =>
    rw [hr] at h
    simp only [Except.ok.injEq] at h
    rw [← h, foldl_put_load_threshold code il _ (WF_initial code hash _ 1 0 (le_refl 1))]

/-- The copy constructor takes the threshold argument if it is positive and the threshold
of the table copied if not. -/
theorem ctor_copy_load_threshold (code : hashfunc → K → Int) (thash chash : hashfunc) (t : ℚ)
    (a b : HashMap K V) (h : ctor_copy code thash b t chash = .ok a) :
    a.load_threshold = if t ≤ 0 then b.load_threshold else t := by
  unfold ctor_copy at h
  simp only at h
  generalize (if (if thash ≠ undefinedhash then thash else chash) = undefinedhash then b.hash
    else if thash ≠ undefinedhash then thash else chash) = hash at h
  by_cases herr : thash ≠ undefinedhash ∧ chash ≠ undefinedhash ∧ chash ≠ thash
  · rw [if_pos herr] at h
    cases h
  · rw [if_neg herr] at h
    by_cases hh : hash = b.hash
    · rw [if_pos hh] at h
      simp only [Except.ok.injEq] at h
      rw [← h]
    · rw [if_neg hh] at h
      simp only [Except.ok.injEq] at h
      rw [← h, foldl_put_load_threshold code _ _ (WF_initial code hash _ 1 0 (le_refl 1))]

end HashMap

namespace HashSet

variable {T : Type} [DecidableEq T]

theorem foldl_insert_load_threshold (code : hashfunc → T → Int) (es : List T)
    (s : HashSet T) (hw : WF code s) :
    (es.foldl (fun t e => (insert code t e).2) s).load_threshold = s.load_threshold := by
  induction es generalizing s with
  | nil => rfl
  | cons e es ih =>
    obtain ⟨hw2, _, _, hl⟩ := insert_spec code s hw e
    simp only [List.foldl_cons]
    rw [ih _ hw2, hl]

theorem set_ctor_il_load_threshold (code : hashfunc → T → Int) (thash chash : hashfunc) (t : ℚ)
    (il : List T) (s : HashSet T) (h : ctor_il code thash il t chash = .ok s) :
    s.load_threshold = if t ≤ 0 then 1 else t := by
  unfold ctor_il at h
  cases hr : resolve_hash thash chash with
  | error e =>
    rw [hr] at h
    cases h
  | ok hash =>
    rw [hr] at h
    simp only [Except.ok.injEq] at h
    rw [← h, foldl_insert_load_threshold code il _ (set_WF_initial code hash _ 1 0 (le_refl 1))]

/-- The copy constructor takes the threshold argument if it is positive and 1 if not. -/
theorem set_ctor_copy_load_threshold (code : hashfunc → T → Int) (thash chash : hashfunc)
    (t : ℚ) (a b : HashSet T) (h : ctor_copy code thash b t chash = .ok a) :
    a.load_threshold = if t ≤ 0 then 1 else t := by
  unfold ctor_copy at h
  simp only at h
  generalize (if (if thash ≠ undefinedhash then thash else chash) = undefinedhash then b.hash
    else if thash ≠ undefinedhash then thash else chash) = hash at h
  by_cases herr : thash ≠ undefinedhash ∧ chash ≠ undefinedhash ∧ thash ≠ chash
  · rw [if_pos herr] at h
    cases h
  · rw [if_neg herr] at h
    by_cases hh : hash = b.hash
    · rw [if_pos hh] at h
      simp only [Except.ok.injEq] at h
      rw [← h]
    · rw [if_neg hh] at h
      simp only [Except.ok.injEq] at h
      rw [← h, foldl_insert_load_threshold code _ _ (set_WF_initial code hash _ 1 0 (le_refl 1))]

end HashSet

theorem threshold_pos (t : ℚ) : 0 < (if t ≤ 0 then (1 : ℚ) else t) := by
  split
  · exact one_pos
  · rename_i h
    exact not_le.1 h

namespace Bucket

variable {E : Type}

end Bucket

namespace HashMap

variable {K V : Type} [DecidableEq K]

end HashMap

namespace HashSet

variable {T : Type} [DecidableEq T]

end HashSet

namespace HashSet

variable {T : Type} [DecidableEq T]

/-- With a load threshold of at least 1, a sequence of `insert` calls keeps
`used / bins <= load_threshold`. -/
theorem foldl_insert_load (code : hashfunc → T → Int) (es : List T) (s : HashSet T)
    (hw : WF code s) (ht : 1 ≤ s.load_threshold)
    (hl : (s.used : ℚ) / (s.bins : ℚ) ≤ s.load_threshold) :
    ((es.foldl (fun t e => (insert code t e).2) s).used : ℚ)
        / ((es.foldl (fun t e => (insert code t e).2) s).bins : ℚ)
      ≤ (es.foldl (fun t e => (insert code t e).2) s).load_threshold := by
  induction es generalizing s with
  | nil => exact hl
  | cons e es ih =>
    obtain ⟨hw2, _, _, hlt⟩ := insert_spec code s hw e
    simp only [List.foldl_cons]
    exact ih _ hw2 (by rw [hlt]; exact ht) (load_le_insert code s hw e ht hl)

/-- The set built by inserting the distinct `keys` into an empty well-formed set holds
exactly the `keys`, and `size()` is their number. -/
theorem foldl_insert_from_empty (code : hashfunc → T → Int) (keys : List T) (s0 : HashSet T)
    (hw : WF code s0) (h0 : s0.used = 0) (hn : keys.Nodup) :
    WF code (keys.foldl (fun t e => (insert code t e).2) s0) ∧
      (∀ y, y ∈ (keys.foldl (fun t e => (insert code t e).2) s0).entries ↔ y ∈ keys) ∧
      (keys.foldl (fun t e => (insert code t e).2) s0).size = keys.length := by
  obtain ⟨hw2, hmem⟩ := foldl_insert_spec code keys s0 hw
  have hmem2 : ∀ y, y ∈ (keys.foldl (fun t e => (insert code t e).2) s0).entries ↔ y ∈ keys := by
    intro y
    rw [hmem y, set_entries_eq_nil_of_used code s0 hw h0]
    simp
  refine ⟨hw2, hmem2, ?_⟩
  have hp := (List.perm_ext_iff_of_nodup hw2.1.2.2.2 hn).2 hmem2
  show (keys.foldl (fun t e => (insert code t e).2) s0).used = keys.length
  rw [hw2.2, hp.length_eq]

end HashSet

namespace Bucket

variable {E : Type}

/-- Splicing out the node under the cursor leaves ahead of the same position what was
ahead of the node before. -/
theorem ahead_splice (bs : List (List E)) (b i : Nat) (hb : b < bs.length)
    (hi : i < (bs.getD b []).length) :
    ahead bs b i = (bs.getD b []).get ⟨i, hi⟩ :: ahead (splice bs b i) b i := by
  rw [ahead_live bs b i hi]
  congr 1
  unfold ahead splice
  have hx : ∀ X : List E, (bs.set b X).getD b [] = X := by
    intro X
    rw [List.getD_eq_getElem _ _ (by simpa using hb)]
    simp
  rw [hx, List.drop_set_of_lt _ _ (Nat.lt_succ_self b)]
  congr 1
  generalize bs.getD b [] = c at hi
  clear hb hx
  induction c generalizing i with
  | nil => simp at hi
  | cons x c ih =>
    cases i with
    | zero => simp
    | succ i =>
      simp only [List.eraseIdx_cons_succ, List.drop_succ_cons]
      exact ih i (by simpa using hi)

end Bucket

namespace HashSet

variable {T : Type} [DecidableEq T]

theorem Iterator_erase_live (s : HashSet T) (it : Iterator) (b i : Nat)
    (hs : it.expected_mod_count = s.mod_count) (hc : it.can_erase = true)
    (hcur : it.current = ((b : Int), some i)) :
    Iterator_erase s it
      = .ok (Bucket.node_value s.table ((b : Int), some i),
          { current := Bucket.advance_cursors s.bins (Bucket.splice s.table b i)
              ((b : Int), some i),
            expected_mod_count := s.mod_count + 1, can_erase := false },
          { s with set := some (Bucket.splice s.table b i), used := s.used - 1,
                   mod_count := s.mod_count + 1 }) := by
  unfold Iterator_erase
  have hne : ¬ it.current.1 = -1 := by
    rw [hcur]
    simp only
    omega
  rw [if_neg (by simpa using hs), if_neg (by simp [hc]), if_neg hne, hcur]
  simp [Bucket.splice_at, table]

theorem retain_all_loop_end (code : hashfunc → T → Int) (hset s : HashSet T) (ref_set : Nat)
    (fuel : Nat) (it : Iterator) (count : Int)
    (hs : it.expected_mod_count = s.mod_count) (hc : it.current = (-1, none)) :
    retain_all_loop code hset ref_set (fuel + 1) s it count = some (.ok (count, s)) := by
  unfold retain_all_loop
  simp [Iterator_ne, hs, hc, (set_end_cases s).2.2]

end HashSet

namespace HashSet

variable {T : Type} [DecidableEq T]

/-- One iteration of the `retain_all` loop on a live node whose value `hset` contains: the
cursor steps on. -/
theorem retain_all_loop_keep (code : hashfunc → T → Int) (hset s : HashSet T) (ref_set : Nat)
    (fuel : Nat) (it : Iterator) (count : Int) (b i : Nat)
    (hs : it.expected_mod_count = s.mod_count) (hc : it.can_erase = true)
    (hcur : it.current = ((b : Int), some i)) (hi : i < (s.table.getD b []).length)
    (hin : contains code hset ((s.table.getD b []).get ⟨i, hi⟩) = true) :
    retain_all_loop code hset ref_set (fuel + 1) s it count
      = retain_all_loop code hset ref_set fuel s
          { current := Bucket.advance_cursors s.bins s.table ((b : Int), some (i + 1)),
            expected_mod_count := s.mod_count, can_erase := true } count := by
  have hne : it.current ≠ (end_ s).current := by
    rw [hcur, (set_end_cases s).2.2]
    intro h
    have := congrArg Prod.snd h
    simp at this
  have hb1 : ¬ it.current.1 = -1 := by
    rw [hcur]
    simp only
    omega
  have hval : Bucket.node_value s.table it.current = some ((s.table.getD b []).get ⟨i, hi⟩) := by
    rw [hcur]
    exact Bucket.node_value_live s.table b i hi
  have hinc : Iterator_inc s it
      = .ok { current := Bucket.advance_cursors s.bins s.table ((b : Int), some (i + 1)),
              expected_mod_count := s.mod_count, can_erase := true } := by
    unfold Iterator_inc
    rw [if_neg (by simpa using hs), if_neg hb1, if_pos hc, hcur]
    simp [Bucket.next_node, hs, hc]
  have hder : Iterator_deref s it = .ok (some ((s.table.getD b []).get ⟨i, hi⟩)) := by
    unfold Iterator_deref
    rw [if_neg (by simpa using hs), if_neg (by simp [hc, hb1]), hval]
  have hn : Iterator_ne s ref_set it ref_set (end_ s) = .ok true := by
    unfold Iterator_ne
    rw [if_neg (by simpa using hs), if_neg (by simp)]
    simp [hne]
  rw [retain_all_loop, hn]
  simp only
  rw [hder]
  simp only
  rw [if_neg (by rw [hin]; decide), hinc]

/-- One iteration of the `retain_all` loop on a live node whose value `hset` does not
contain: the node is spliced out, and `++` only sets `can_erase` again. -/
theorem retain_all_loop_erase (code : hashfunc → T → Int) (hset s : HashSet T) (ref_set : Nat)
    (fuel : Nat) (it : Iterator) (count : Int) (b i : Nat)
    (hs : it.expected_mod_count = s.mod_count) (hc : it.can_erase = true)
    (hcur : it.current = ((b : Int), some i)) (hi : i < (s.table.getD b []).length)
    (hin : contains code hset ((s.table.getD b []).get ⟨i, hi⟩) = false) :
    retain_all_loop code hset ref_set (fuel + 1) s it count
      = retain_all_loop code hset ref_set fuel
          { s with set := some (Bucket.splice s.table b i), used := s.used - 1,
                   mod_count := s.mod_count + 1 }
          { current := Bucket.advance_cursors s.bins (Bucket.splice s.table b i)
              ((b : Int), some i),
            expected_mod_count := s.mod_count + 1,
            can_erase := decide (¬ (Bucket.advance_cursors s.bins (Bucket.splice s.table b i)
              ((b : Int), some i)).1 = -1) }
          (count + 1) := by
  have hne : it.current ≠ (end_ s).current := by
    rw [hcur, (set_end_cases s).2.2]
    intro h
    have := congrArg Prod.snd h
    simp at this
  have hb1 : ¬ it.current.1 = -1 := by
    rw [hcur]
    simp only
    omega
  have hval : Bucket.node_value s.table it.current = some ((s.table.getD b []).get ⟨i, hi⟩) := by
    rw [hcur]
    exact Bucket.node_value_live s.table b i hi
  have hder : Iterator_deref s it = .ok (some ((s.table.getD b []).get ⟨i, hi⟩)) := by
    unfold Iterator_deref
    rw [if_neg (by simpa using hs), if_neg (by simp [hc, hb1]), hval]
  have hn : Iterator_ne s ref_set it ref_set (end_ s) = .ok true := by
    unfold Iterator_ne
    rw [if_neg (by simpa using hs), if_neg (by simp)]
    simp [hne]
  rw [retain_all_loop, hn]
  simp only
  rw [hder]
  simp only
  rw [if_pos hin, Iterator_erase_live s it b i hs hc hcur]
  simp only
  unfold Iterator_inc
  simp only [ne_eq, not_true_eq_false, if_false]
  by_cases hend : (Bucket.advance_cursors s.bins (Bucket.splice s.table b i)
      ((b : Int), some i)).1 = -1
  · rw [if_pos hend]
    simp [hend]
  · rw [if_neg hend]
    simp [hend]

end HashSet

namespace HashSet

variable {T : Type} [DecidableEq T]

/-- The `retain_all` loop from a fresh cursor that is at the end or on a live node, with
the values `A` ahead of it: it ends, erases the values of `A` that `hset` does not contain
and no other, and adds their number to `count`. -/
theorem retain_all_loop_spec (code : hashfunc → T → Int) (hset : HashSet T) (ref_set : Nat) :
    ∀ (fuel : Nat) (s : HashSet T) (it : Iterator) (count : Int) (A : List T),
      WF code s → it.expected_mod_count = s.mod_count →
      ((it.current = (-1, none) ∧ A = []) ∨
        (it.can_erase = true ∧ ∃ b i : Nat, it.current = ((b : Int), some i) ∧
          b < s.table.length ∧ i < (s.table.getD b []).length ∧
          Bucket.ahead s.table b i = A)) →
      A.length + 1 ≤ fuel →
      ∃ s2, retain_all_loop code hset ref_set fuel s it count
          = some (.ok (count + (s.used - s2.used), s2)) ∧
        WF code s2 ∧
        (∀ y, y ∈ s2.entries ↔ y ∈ s.entries ∧ (y ∈ A → contains code hset y = true)) := by
  intro fuel
  induction fuel with
  | zero =>
    intro s it count A _ _ _ hf
    omega
  | succ fuel ih =>
    intro s it count A hw hs hpos hf
    rcases hpos with ⟨hcur, rfl⟩ | ⟨hc, b, i, hcur, hb, hi, rfl⟩
    · refine ⟨s, ?_, hw, ?_⟩
      · rw [retain_all_loop_end code hset s ref_set fuel it count hs hcur]
        simp
      · simp
    · have hlen := set_table_length code s hw.1 b hb
      have hbb : b < s.bins := by
        rw [← hlen]
        exact hb
      have hmemA : (s.table.getD b []).get ⟨i, hi⟩ ∈ s.entries :=
        Bucket.getD_mem_flatten s.table b _ (List.get_mem _ _ _)
      by_cases hin : contains code hset ((s.table.getD b []).get ⟨i, hi⟩) = true
      · rw [retain_all_loop_keep code hset s ref_set fuel it count b i hs hc hcur hi hin]
        rw [Bucket.ahead_live s.table b i hi] at hf ⊢
        have hpos2 := Bucket.advance_cursors_spec s.bins s.table hlen b (i + 1) hbb (by omega)
        have hnext : ∃ s2, retain_all_loop code hset ref_set fuel s
            { current := Bucket.advance_cursors s.bins s.table ((b : Int), some (i + 1)),
              expected_mod_count := s.mod_count, can_erase := true } count
              = some (.ok (count + (s.used - s2.used), s2)) ∧ WF code s2 ∧
            (∀ y, y ∈ s2.entries ↔ y ∈ s.entries ∧
              (y ∈ Bucket.ahead s.table b (i + 1) → contains code hset y = true)) := by
          apply ih s _ count (Bucket.ahead s.table b (i + 1)) hw rfl
          · rcases hpos2 with ⟨h1, h2⟩ | ⟨b2, i2, h1, h2, h3, h4⟩
            · exact Or.inl ⟨h1, h2⟩
            · exact Or.inr ⟨rfl, b2, i2, h1, by rw [hlen]; exact h2, h3, h4⟩
          · simpa using hf
        obtain ⟨s2, h1, h2, h3⟩ := hnext
        refine ⟨s2, h1, h2, fun y => ?_⟩
        rw [h3 y]
        constructor
        · rintro ⟨hy, hA⟩
          refine ⟨hy, fun hm => ?_⟩
          rcases List.mem_cons.1 hm with rfl | hm
          · exact hin
          · exact hA hm
        · rintro ⟨hy, hA⟩
          exact ⟨hy, fun hm => hA (List.mem_cons_of_mem _ hm)⟩
      · have hin2 : contains code hset ((s.table.getD b []).get ⟨i, hi⟩) = false := by
          simpa using hin
        rw [retain_all_loop_erase code hset s ref_set fuel it count b i hs hc hcur hi hin2]
        rw [Bucket.ahead_splice s.table b i hb hi] at hf ⊢
        obtain ⟨hw2, P, Q, hP, hQ⟩ := set_splice_WF code s hw b i
          ((s.table.getD b []).get ⟨i, hi⟩) hb (List.getElem?_eq_getElem hi) (s.mod_count + 1)
        obtain ⟨hl1, hl2⟩ := Bucket.splice_at_live s.table b i hb hi
        have hsp : Bucket.splice_at s.table ((b : Int), some i) = Bucket.splice s.table b i := by
          simp [Bucket.splice_at]
        rw [hsp] at hl1 hl2
        have hpos2 := Bucket.advance_cursors_spec s.bins (Bucket.splice s.table b i)
          (hl1.trans hlen) b i hbb hl2
        have hnext := ih
          ({ s with set := some (Bucket.splice s.table b i), used := s.used - 1,
                    mod_count := s.mod_count + 1 } : HashSet T)
          { current := Bucket.advance_cursors s.bins (Bucket.splice s.table b i)
              ((b : Int), some i),
            expected_mod_count := s.mod_count + 1,
            can_erase := decide (¬ (Bucket.advance_cursors s.bins (Bucket.splice s.table b i)
              ((b : Int), some i)).1 = -1) }
          (count + 1) (Bucket.ahead (Bucket.splice s.table b i) b i) hw2 rfl (by
            rcases hpos2 with ⟨h1, h2⟩ | ⟨b2, i2, h1, h2, h3, h4⟩
            · exact Or.inl ⟨h1, h2⟩
            · refine Or.inr ⟨?_, b2, i2, h1, ?_, h3, h4⟩
              · rw [h1]
                simp only [decide_eq_true_eq]
                omega
              · show b2 < (Bucket.splice s.table b i).length
                rw [hl1, hlen]
                exact h2) (by simpa using hf)
        obtain ⟨s2, h1, h2, h3⟩ := hnext
        refine ⟨s2, ?_, h2, fun y => ?_⟩
        · rw [h1]
          simp only [Option.some.injEq, Except.ok.injEq, Prod.mk.injEq, and_true]
          ring
        · rw [h3 y]
          have hnd : (P ++ (s.table.getD b []).get ⟨i, hi⟩ :: Q).Nodup := by
            rw [← hP]
            exact hw.1.2.2.2
          have hnotin : (s.table.getD b []).get ⟨i, hi⟩ ∉ P ++ Q := by
            intro hm
            rw [List.nodup_append] at hnd
            rcases List.mem_append.1 hm with hm | hm
            · exact hnd.2.2 hm (List.mem_cons_self _ _)
            · exact (List.nodup_cons.1 hnd.2.1).1 hm
          have hmem2 : y ∈
              ({ s with set := some (Bucket.splice s.table b i), used := s.used - 1,
                        mod_count := s.mod_count + 1 } : HashSet T).entries ↔
              y ≠ (s.table.getD b []).get ⟨i, hi⟩ ∧ y ∈ s.entries := by
            rw [hQ, hP]
            constructor
            · intro hm
              refine ⟨fun h => hnotin (h ▸ hm), ?_⟩
              rcases List.mem_append.1 hm with hm | hm
              · exact List.mem_append_left _ hm
              · exact List.mem_append_right _ (List.mem_cons_of_mem _ hm)
            · rintro ⟨hne, hm⟩
              rcases List.mem_append.1 hm with hm | hm
              · exact List.mem_append_left _ hm
              · rcases List.mem_cons.1 hm with h | hm
                · exact absurd h hne
                · exact List.mem_append_right _ hm
          rw [hmem2]
          constructor
          · rintro ⟨⟨hne, hy⟩, hA⟩
            refine ⟨hy, fun hm => ?_⟩
            rcases List.mem_cons.1 hm with h | hm
            · exact absurd h hne
            · exact hA hm
          · rintro ⟨hy, hA⟩
            refine ⟨⟨fun h => ?_, hy⟩, fun hm => hA (List.mem_cons_of_mem _ hm)⟩
            have := hA (h ▸ List.mem_cons_self _ _)
            rw [h] at this
            rw [hin2] at this
            cases this

end HashSet

namespace HashSet

variable {T : Type} [DecidableEq T]

theorem set_ctor_il_mem (code : hashfunc → T → Int) (thash chash : hashfunc) (t : ℚ)
    (il : List T) (s : HashSet T) (h : ctor_il code thash il t chash = .ok s) (y : T) :
    y ∈ s.entries ↔ y ∈ il := by
  unfold ctor_il at h
  cases hr : resolve_hash thash chash with
  | error e =>
    rw [hr] at h
    cases h
  | ok hash =>
    rw [hr] at h
    simp only [Except.ok.injEq] at h
    rw [← h, (foldl_insert_spec code il _ (set_WF_initial code hash _ 1 0 (le_refl 1))).2 y]
    simp [entries, table]

/-- In a class with a type-level hash function, `retain_all(i)` on a well-formed set ends,
given one unit of fuel per element and one for the last test, leaves exactly the elements
of the set that occur in `i`, and returns the number of elements removed. -/
theorem retain_all_spec (code : hashfunc → T → Int) (thash : hashfunc) (s : HashSet T)
    (ref_set : Nat) (i : List T) (fuel : Nat) (ht : thash ≠ undefinedhash)
    (hw : WF code s) (hf : s.size.toNat + 1 ≤ fuel) :
    ∃ s2, retain_all code thash s ref_set i fuel = some (.ok (s.size - s2.size, s2)) ∧
      WF code s2 ∧ ∀ y, contains code s2 y = (contains code s y && decide (y ∈ i)) := by
  obtain ⟨hset, hc, -⟩ := (set_ctor_il_eq code thash undefinedhash i 1).2 (by
    unfold ambiguous_or_missing
    simp [ht])
  have hwh := set_ctor_il_WF code thash undefinedhash 1 i hset hc
  have hmemh := set_ctor_il_mem code thash undefinedhash 1 i hset hc
  have hlen : s.entries.length + 1 ≤ fuel := by
    have hu : (s.entries.length : Int) = s.size := hw.2.symm
    rw [← hu] at hf
    simpa using hf
  obtain ⟨hs, hce, hpos⟩ := set_begin_cases code s hw
  obtain ⟨s2, h1, h2, h3⟩ := retain_all_loop_spec code hset ref_set fuel s (begin s) 0
    s.entries hw hs (by
      rcases hpos with ⟨h, he⟩ | ⟨b, j, h, hb, hl, hj, ha⟩
      · exact Or.inl ⟨h, he⟩
      · exact Or.inr ⟨hce, b, j, h, by rw [hl]; exact hb, hj, ha⟩) hlen
  refine ⟨s2, ?_, h2, fun y => ?_⟩
  · unfold retain_all
    rw [hc]
    simp only
    rw [h1]
    simp [size]
  · rw [Bool.eq_iff_iff, contains_iff code s2 h2.1, h3 y, Bool.and_eq_true,
      contains_iff code s hw.1, decide_eq_true_eq]
    constructor
    · rintro ⟨hy, hA⟩
      exact ⟨hy, (hmemh y).1 ((contains_iff code hset hwh.1 y).1 (hA hy))⟩
    · rintro ⟨hy, hi⟩
      exact ⟨hy, fun _ => (contains_iff code hset hwh.1 y).2 ((hmemh y).2 hi)⟩

end HashSet

theorem hash_compress_int_eq (h b : Int) (hb : 1 ≤ b ∧ b ≤ INT_MAX) :
    hash_compress_int h b = some (((h.natAbs % b.natAbs : Nat) : Int)) := by
  obtain ⟨n, rfl⟩ : ∃ n : Nat, b = (n : Int) := ⟨b.toNat, (Int.toNat_of_nonneg (by omega)).symm⟩
  have hn : 1 ≤ n := by omega
  have hnI : (n : Int) ≤ INT_MAX := hb.2
  unfold hash_compress_int
  have hk := Bucket.natAbs_tmod_natCast h n
  have hlt : h.natAbs % n < n := Nat.mod_lt _ (by omega)
  have habs : (Int.tmod h (n : Int)).natAbs < n := by rw [hk]; exact hlt
  have hbound : INT_MIN ≤ Int.tmod h (n : Int) ∧ Int.tmod h (n : Int) ≤ INT_MAX := by
    unfold INT_MIN INT_MAX at *
    omega
  rw [if_neg (by
    unfold INT_MIN
    omega)]
  unfold int_value
  rw [if_pos hbound]
  simp only [Int.natAbs_ofNat]
  by_cases hneg : Int.tmod h (n : Int) < 0
  · rw [if_pos hneg]
    have hv : Int.tmod h (n : Int) * -1 = ((h.natAbs % n : Nat) : Int) := by
      rw [← hk]
      omega
    rw [hv, if_pos (by
      unfold INT_MIN INT_MAX at *
      omega)]
  · rw [if_neg hneg]
    have hv : Int.tmod h (n : Int) = ((h.natAbs % n : Nat) : Int) := by
      rw [← hk]
      omega
    rw [hv]

namespace HashMap

variable {K V : Type} [DecidableEq K]

theorem erase_ok_WF (code : hashfunc → K → Int) (m : HashMap K V) (hw : WF code m) (k : K)
    (v : V) (m2 : HashMap K V) (h : erase code m k = .ok (v, m2)) : WF code m2 := by
  cases hf : find_key code m k with
  | none =>
    unfold erase at h
    rw [hf] at h
    cases h
  | some p =>
    obtain ⟨i, e⟩ := p
    obtain ⟨m3, h3, hw3, -⟩ := erase_found code m hw k i e hf
    rw [h] at h3
    cases h3
    exact hw3

/-- Every table that the public operations produce satisfies the representation
invariant. -/
theorem Reachable.WF [DecidableEq V] [Inhabited V] (code : hashfunc → K → Int)
    (thash : hashfunc) (m : HashMap K V) (h : Reachable code thash m) : HashMap.WF code m := by
  induction h with
  | by_ctor_default t chash m h => exact (ctor_default_WF code thash chash t m h).1
  | by_ctor_bins ib t chash m h => exact (ctor_bins_spec code thash ib t chash m h).1
  | by_ctor_il il t chash m h => exact ctor_il_WF code thash chash t il m h
  | by_ctor_copy b t chash a _ h ih => exact (ctor_copy_spec code thash chash t a b ih h).1
  | by_put m k v _ ih => exact (put_spec code m ih k v).1
  | by_erase m k v m2 _ h ih => exact erase_ok_WF code m ih k v m2 h
  | by_clear m _ ih => exact clear_WF code m ih
  | by_operator_index m k _ ih => exact operator_index_WF code m ih k
  | by_operator_assign a b _ _ iha ihb => exact (operator_assign_spec code a b iha ihb).1
  | by_Iterator_erase m it r it2 m2 _ hc h ih =>
    exact (Cursor_ok_erase code m ih it it2 r m2 hc h).1

theorem find_key_isSome_iff (code : hashfunc → K → Int) (m : HashMap K V) (hs : Shape code m)
    (k : K) : (find_key code m k).isSome = true ↔ ∃ e ∈ m.entries, e.1 = k := by
  constructor
  · intro h
    obtain ⟨p, hp⟩ := Option.isSome_iff_exists.1 h
    obtain ⟨i, e⟩ := p
    obtain ⟨-, h2, -, h4⟩ := find_key_eq_some code m k i e hp
    exact ⟨e, h4, h2⟩
  · rintro ⟨e, he, rfl⟩
    obtain ⟨i, hi⟩ := find_key_of_mem code m hs e he
    rw [hi]
    rfl

end HashMap

namespace HashSet

variable {T : Type} [DecidableEq T]

/-- Every table that the public operations produce satisfies the representation
invariant. -/
theorem Reachable.set_WF (code : hashfunc → T → Int) (thash : hashfunc) (s : HashSet T)
    (h : Reachable code thash s) : HashSet.WF code s := by
  induction h with
  | by_ctor_default t chash s h => exact (set_ctor_default_WF code thash chash t s h).1
  | by_ctor_bins ib t chash s h => exact (set_ctor_bins_spec code thash ib t chash s h).1
  | by_ctor_il il t chash s h => exact set_ctor_il_WF code thash chash t il s h
  | by_ctor_copy b t chash a _ h ih => exact (set_ctor_copy_spec code thash chash t a b ih h).1
  | by_insert s e _ ih => exact (insert_spec code s ih e).1
  | by_erase s e _ ih => exact (set_erase_spec code s ih e).1
  | by_clear s _ ih => exact set_clear_WF code s ih
  | by_operator_assign a b _ _ iha ihb => exact (set_operator_assign_spec code a b iha ihb).1
  | by_Iterator_erase s it r it2 s2 _ hc h ih =>
    exact (set_Cursor_ok_erase code s ih it it2 r s2 hc h).1

end HashSet

namespace Sample

theorem mapN_reachable : HashMap.Reachable Sample.code 1 Sample.mapN :=
  HashMap.Reachable.by_ctor_il [] 1 undefinedhash Sample.mapN rfl

theorem setN_reachable : HashSet.Reachable Sample.code 1 Sample.setN :=
  HashSet.Reachable.by_ctor_il [] 1 undefinedhash Sample.setN rfl

end Sample

namespace HashSet

variable {T : Type} [DecidableEq T]

theorem erase_if_loop_end (p : T → Bool) (s : HashSet T) (ref_set : Nat)
    (fuel : Nat) (it : Iterator)
    (hs : it.expected_mod_count = s.mod_count) (hc : it.current = (-1, none)) :
    erase_if_loop p ref_set (fuel + 1) s it = some (.ok ([], s)) := by
  unfold erase_if_loop
  simp [Iterator_ne, hs, hc, (set_end_cases s).2.2]

theorem erase_if_loop_head (s : HashSet T) (ref_set : Nat) (it : Iterator) (b i : Nat)
    (hs : it.expected_mod_count = s.mod_count) (hc : it.can_erase = true)
    (hcur : it.current = ((b : Int), some i)) (hi : i < (s.table.getD b []).length) :
    Iterator_ne s ref_set it ref_set (end_ s) = .ok true ∧
      Iterator_deref s it = .ok (some ((s.table.getD b []).get ⟨i, hi⟩)) ∧
      Iterator_inc s it
        = .ok { current := Bucket.advance_cursors s.bins s.table ((b : Int), some (i + 1)),
                expected_mod_count := s.mod_count, can_erase := true } := by
  have hne : it.current ≠ (end_ s).current := by
    rw [hcur, (set_end_cases s).2.2]
    intro h
    have := congrArg Prod.snd h
    simp at this
  have hb1 : ¬ it.current.1 = -1 := by
    rw [hcur]
    simp only
    omega
  have hval : Bucket.node_value s.table it.current = some ((s.table.getD b []).get ⟨i, hi⟩) := by
    rw [hcur]
    exact Bucket.node_value_live s.table b i hi
  refine ⟨?_, ?_, ?_⟩
  · unfold Iterator_ne
    rw [if_neg (by simpa using hs), if_neg (by simp)]
    simp [hne]
  · unfold Iterator_deref
    rw [if_neg (by simpa using hs), if_neg (by simp [hc, hb1]), hval]
  · unfold Iterator_inc
    rw [if_neg (by simpa using hs), if_neg hb1, if_pos hc, hcur]
    simp [Bucket.next_node, hs, hc]

/-- After a cursor `erase()`, the prefix `++` leaves the position as it is. -/
theorem inc_after_erase (s : HashSet T) (cur : Int × Option Nat) (mc : Int)
    (hmc : mc = s.mod_count) :
    Iterator_inc s { current := cur, expected_mod_count := mc, can_erase := false }
      = .ok { current := cur, expected_mod_count := mc,
              can_erase := decide (¬ cur.1 = -1) } := by
  unfold Iterator_inc
  rw [if_neg (by simpa using hmc)]
  by_cases hend : cur.1 = -1
  · simp [hend]
  · simp [hend]

theorem erase_if_loop_keep (p : T → Bool) (s : HashSet T) (ref_set : Nat)
    (fuel : Nat) (it : Iterator) (b i : Nat)
    (hs : it.expected_mod_count = s.mod_count) (hc : it.can_erase = true)
    (hcur : it.current = ((b : Int), some i)) (hi : i < (s.table.getD b []).length)
    (hp : p ((s.table.getD b []).get ⟨i, hi⟩) = false) :
    erase_if_loop p ref_set (fuel + 1) s it
      = (erase_if_loop p ref_set fuel s
          { current := Bucket.advance_cursors s.bins s.table ((b : Int), some (i + 1)),
            expected_mod_count := s.mod_count, can_erase := true }).map
          (fun r => r.map (fun x => ((s.table.getD b []).get ⟨i, hi⟩ :: x.1, x.2))) := by
  obtain ⟨hn, hder, hinc⟩ := erase_if_loop_head s ref_set it b i hs hc hcur hi
  rw [erase_if_loop, hn]
  simp only
  rw [hder]
  simp only
  rw [if_neg (by rw [hp]; decide), hinc]

theorem erase_if_loop_erase (p : T → Bool) (s : HashSet T) (ref_set : Nat)
    (fuel : Nat) (it : Iterator) (b i : Nat)
    (hs : it.expected_mod_count = s.mod_count) (hc : it.can_erase = true)
    (hcur : it.current = ((b : Int), some i)) (hi : i < (s.table.getD b []).length)
    (hp : p ((s.table.getD b []).get ⟨i, hi⟩) = true) :
    erase_if_loop p ref_set (fuel + 1) s it
      = (erase_if_loop p ref_set fuel
          { s with set := some (Bucket.splice s.table b i), used := s.used - 1,
                   mod_count := s.mod_count + 1 }
          { current := Bucket.advance_cursors s.bins (Bucket.splice s.table b i)
              ((b : Int), some i),
            expected_mod_count := s.mod_count + 1,
            can_erase := decide (¬ (Bucket.advance_cursors s.bins (Bucket.splice s.table b i)
              ((b : Int), some i)).1 = -1) }).map
          (fun r => r.map (fun x => ((s.table.getD b []).get ⟨i, hi⟩ :: x.1, x.2))) := by
  obtain ⟨hn, hder, -⟩ := erase_if_loop_head s ref_set it b i hs hc hcur hi
  rw [erase_if_loop, hn]
  simp only
  rw [hder]
  simp only
  rw [if_pos hp, Iterator_erase_live s it b i hs hc hcur]
  simp only
  rw [inc_after_erase _ _ _ rfl]

/-- The erase loop from a fresh cursor that is at the end or on a live node, with the
values `A` ahead of it: it ends, dereferences exactly `A`, in order, erases the values of
`A` that satisfy `p` and no other. -/
theorem erase_if_loop_spec (code : hashfunc → T → Int) (p : T → Bool) (ref_set : Nat) :
    ∀ (fuel : Nat) (s : HashSet T) (it : Iterator) (A : List T),
      WF code s → it.expected_mod_count = s.mod_count →
      ((it.current = (-1, none) ∧ A = []) ∨
        (it.can_erase = true ∧ ∃ b i : Nat, it.current = ((b : Int), some i) ∧
          b < s.table.length ∧ i < (s.table.getD b []).length ∧
          Bucket.ahead s.table b i = A)) →
      A.length + 1 ≤ fuel →
      ∃ s2, erase_if_loop p ref_set fuel s it = some (.ok (A, s2)) ∧ WF code s2 ∧
        (∀ y, y ∈ s2.entries ↔ y ∈ s.entries ∧ (y ∈ A → p y = false)) ∧
        s2.used = s.used - ((A.filter (fun y => p y)).length : Int) := by
  intro fuel
  induction fuel with
  | zero =>
    intro s it A _ _ _ hf
    omega
  | succ fuel ih =>
    intro s it A hw hs hpos hf
    rcases hpos with ⟨hcur, rfl⟩ | ⟨hc, b, i, hcur, hb, hi, rfl⟩
    · refine ⟨s, erase_if_loop_end p s ref_set fuel it hs hcur, hw, ?_, ?_⟩
      · simp
      · simp
    · have hlen := set_table_length code s hw.1 b hb
      have hbb : b < s.bins := by
        rw [← hlen]
        exact hb
      by_cases hp : p ((s.table.getD b []).get ⟨i, hi⟩) = true
      · rw [erase_if_loop_erase p s ref_set fuel it b i hs hc hcur hi hp]
        rw [Bucket.ahead_splice s.table b i hb hi] at hf ⊢
        obtain ⟨hw2, P, Q, hP, hQ⟩ := set_splice_WF code s hw b i
          ((s.table.getD b []).get ⟨i, hi⟩) hb (List.getElem?_eq_getElem hi) (s.mod_count + 1)
        obtain ⟨hl1, hl2⟩ := Bucket.splice_at_live s.table b i hb hi
        have hsp : Bucket.splice_at s.table ((b : Int), some i) = Bucket.splice s.table b i := by
          simp [Bucket.splice_at]
        rw [hsp] at hl1 hl2
        have hpos2 := Bucket.advance_cursors_spec s.bins (Bucket.splice s.table b i)
          (hl1.trans hlen) b i hbb hl2
        have hnext := ih
          ({ s with set := some (Bucket.splice s.table b i), used := s.used - 1,
                    mod_count := s.mod_count + 1 } : HashSet T)
          { current := Bucket.advance_cursors s.bins (Bucket.splice s.table b i)
              ((b : Int), some i),
            expected_mod_count := s.mod_count + 1,
            can_erase := decide (¬ (Bucket.advance_cursors s.bins (Bucket.splice s.table b i)
              ((b : Int), some i)).1 = -1) }
          (Bucket.ahead (Bucket.splice s.table b i) b i) hw2 rfl (by
            rcases hpos2 with ⟨h1, h2⟩ | ⟨b2, i2, h1, h2, h3, h4⟩
            · exact Or.inl ⟨h1, h2⟩
            · refine Or.inr ⟨?_, b2, i2, h1, ?_, h3, h4⟩
              · rw [h1]
                simp only [decide_eq_true_eq]
                omega
              · show b2 < (Bucket.splice s.table b i).length
                rw [hl1, hlen]
                exact h2) (by simpa using hf)
        obtain ⟨s2, h1, h2, h3, h4⟩ := hnext
        refine ⟨s2, ?_, h2, fun y => ?_, ?_⟩
        · rw [h1]
          rfl
        · rw [h3 y]
          have hnd : (P ++ (s.table.getD b []).get ⟨i, hi⟩ :: Q).Nodup := by
            rw [← hP]
            exact hw.1.2.2.2
          have hnotin : (s.table.getD b []).get ⟨i, hi⟩ ∉ P ++ Q := by
            intro hm
            rw [List.nodup_append] at hnd
            rcases List.mem_append.1 hm with hm | hm
            · exact hnd.2.2 hm (List.mem_cons_self _ _)
            · exact (List.nodup_cons.1 hnd.2.1).1 hm
          have hmem2 : y ∈
              ({ s with set := some (Bucket.splice s.table b i), used := s.used - 1,
                        mod_count := s.mod_count + 1 } : HashSet T).entries ↔
              y ≠ (s.table.getD b []).get ⟨i, hi⟩ ∧ y ∈ s.entries := by
            rw [hQ, hP]
            constructor
            · intro hm
              refine ⟨fun h => hnotin (h ▸ hm), ?_⟩
              rcases List.mem_append.1 hm with hm | hm
              · exact List.mem_append_left _ hm
              · exact List.mem_append_right _ (List.mem_cons_of_mem _ hm)
            · rintro ⟨hne, hm⟩
              rcases List.mem_append.1 hm with hm | hm
              · exact List.mem_append_left _ hm
              · rcases List.mem_cons.1 hm with h | hm
                · exact absurd h hne
                · exact List.mem_append_right _ hm
          rw [hmem2]
          constructor
          · rintro ⟨⟨hne, hy⟩, hA⟩
            refine ⟨hy, fun hm => ?_⟩
            rcases List.mem_cons.1 hm with h | hm
            · exact absurd h hne
            · exact hA hm
          · rintro ⟨hy, hA⟩
            refine ⟨⟨fun h => ?_, hy⟩, fun hm => hA (List.mem_cons_of_mem _ hm)⟩
            have := hA (h ▸ List.mem_cons_self _ _)
            rw [h] at this
            rw [hp] at this
            cases this
        · rw [h4, List.filter_cons_of_pos (by simpa using hp)]
          simp only [List.length_cons, Nat.cast_add, Nat.cast_one]
          ring
      · have hp2 : p ((s.table.getD b []).get ⟨i, hi⟩) = false := by
          simpa using hp
        rw [erase_if_loop_keep p s ref_set fuel it b i hs hc hcur hi hp2]
        rw [Bucket.ahead_live s.table b i hi] at hf ⊢
        have hpos2 := Bucket.advance_cursors_spec s.bins s.table hlen b (i + 1) hbb (by omega)
        have hnext := ih s
            { current := Bucket.advance_cursors s.bins s.table ((b : Int), some (i + 1)),
              expected_mod_count := s.mod_count, can_erase := true }
            (Bucket.ahead s.table b (i + 1)) hw rfl (by
              rcases hpos2 with ⟨h1, h2⟩ | ⟨b2, i2, h1, h2, h3, h4⟩
              · exact Or.inl ⟨h1, h2⟩
              · exact Or.inr ⟨rfl, b2, i2, h1, by rw [hlen]; exact h2, h3, h4⟩)
            (by simpa using hf)
        obtain ⟨s2, h1, h2, h3, h4⟩ := hnext
        refine ⟨s2, ?_, h2, fun y => ?_, ?_⟩
        · rw [h1]
          rfl
        · rw [h3 y]
          constructor
          · rintro ⟨hy, hA⟩
            refine ⟨hy, fun hm => ?_⟩
            rcases List.mem_cons.1 hm with rfl | hm
            · exact hp2
            · exact hA hm
          · rintro ⟨hy, hA⟩
            exact ⟨hy, fun hm => hA (List.mem_cons_of_mem _ hm)⟩
        · rw [h4, List.filter_cons_of_neg (by simpa using hp)]

/-- The erase loop from `begin()` on a well-formed table ends without an exception,
dereferences the entries of the table, each once and in bin order, and leaves exactly the
entries that do not satisfy `p`. -/
theorem erase_if_spec (code : hashfunc → T → Int) (p : T → Bool) (s : HashSet T)
    (ref_set fuel : Nat) (hw : WF code s) (hf : s.size.toNat + 1 ≤ fuel) :
    ∃ s2, erase_if p s ref_set fuel = some (.ok (s.entries, s2)) ∧ WF code s2 ∧
      (∀ y, y ∈ s2.entries ↔ y ∈ s.entries ∧ p y = false) ∧
      s2.size = s.size - ((s.entries.filter (fun y => p y)).length : Int) := by
  have hlen : s.entries.length + 1 ≤ fuel := by
    have hu : (s.entries.length : Int) = s.size := hw.2.symm
    rw [← hu] at hf
    simpa using hf
  obtain ⟨hs, hce, hpos⟩ := set_begin_cases code s hw
  obtain ⟨s2, h1, h2, h3, h4⟩ := erase_if_loop_spec code p ref_set fuel s (begin s)
    s.entries hw hs (by
      rcases hpos with ⟨h, he⟩ | ⟨b, j, h, hb, hl, hj, ha⟩
      · exact Or.inl ⟨h, he⟩
      · exact Or.inr ⟨hce, b, j, h, by rw [hl]; exact hb, hj, ha⟩) hlen
  refine ⟨s2, h1, h2, fun y => ?_, h4⟩
  rw [h3 y]
  constructor
  · rintro ⟨hy, hA⟩
    exact ⟨hy, hA hy⟩
  · rintro ⟨hy, hA⟩
    exact ⟨hy, fun _ => hA⟩

end HashSet

namespace HashMap

variable {K V : Type} [DecidableEq K]

theorem map_Iterator_erase_live (m : HashMap K V) (it : Iterator) (b i : Nat)
    (hs : it.expected_mod_count = m.mod_count) (hc : it.can_erase = true)
    (hcur : it.current = ((b : Int), some i)) :
    Iterator_erase m it
      = .ok (Bucket.node_value m.table ((b : Int), some i),
          { current := Bucket.advance_cursors m.bins (Bucket.splice m.table b i)
              ((b : Int), some i),
            expected_mod_count := m.mod_count + 1, can_erase := false },
          { m with map := some (Bucket.splice m.table b i), used := m.used - 1,
                   mod_count := m.mod_count + 1 }) := by
  unfold Iterator_erase
  have hne : ¬ it.current.1 = -1 := by
    rw [hcur]
    simp only
    omega
  rw [if_neg (by simpa using hs), if_neg (by simp [hc]), if_neg hne, hcur]
  simp [Bucket.splice_at, table]


theorem map_erase_if_loop_end (p : K × V → Bool) (m : HashMap K V) (ref_map : Nat)
    (fuel : Nat) (it : Iterator)
    (hs : it.expected_mod_count = m.mod_count) (hc : it.current = (-1, none)) :
    erase_if_loop p ref_map (fuel + 1) m it = some (.ok ([], m)) := by
  unfold erase_if_loop
  simp [Iterator_ne, hs, hc, (end_cases m).2.2]

theorem map_erase_if_loop_head (m : HashMap K V) (ref_map : Nat) (it : Iterator) (b i : Nat)
    (hs : it.expected_mod_count = m.mod_count) (hc : it.can_erase = true)
    (hcur : it.current = ((b : Int), some i)) (hi : i < (m.table.getD b []).length) :
    Iterator_ne m ref_map it ref_map (end_ m) = .ok true ∧
      Iterator_deref m it = .ok (some ((m.table.getD b []).get ⟨i, hi⟩)) ∧
      Iterator_inc m it
        = .ok { current := Bucket.advance_cursors m.bins m.table ((b : Int), some (i + 1)),
                expected_mod_count := m.mod_count, can_erase := true } := by
  have hne : it.current ≠ (end_ m).current := by
    rw [hcur, (end_cases m).2.2]
    intro h
    have := congrArg Prod.snd h
    simp at this
  have hb1 : ¬ it.current.1 = -1 := by
    rw [hcur]
    simp only
    omega
  have hval : Bucket.node_value m.table it.current = some ((m.table.getD b []).get ⟨i, hi⟩) := by
    rw [hcur]
    exact Bucket.node_value_live m.table b i hi
  refine ⟨?_, ?_, ?_⟩
  · unfold Iterator_ne
    rw [if_neg (by simpa using hs.symm), if_neg (by simp)]
    simp [hne]
  · unfold Iterator_deref
    rw [if_neg (by simpa using hs), if_neg (by simp [hc, hb1]), hval]
  · unfold Iterator_inc
    rw [if_neg (by simpa using hs), if_neg hb1, if_pos hc, hcur]
    simp [Bucket.next_node, hs, hc]

/-- After a cursor `erase()`, the prefix `++` leaves the position as it is. -/
theorem map_inc_after_erase (m : HashMap K V) (cur : Int × Option Nat) (mc : Int)
    (hmc : mc = m.mod_count) :
    Iterator_inc m { current := cur, expected_mod_count := mc, can_erase := false }
      = .ok { current := cur, expected_mod_count := mc,
              can_erase := decide (¬ cur.1 = -1) } := by
  unfold Iterator_inc
  rw [if_neg (by simpa using hmc)]
  by_cases hend : cur.1 = -1
  · simp [hend]
  · simp [hend]

theorem map_erase_if_loop_keep (p : K × V → Bool) (m : HashMap K V) (ref_map : Nat)
    (fuel : Nat) (it : Iterator) (b i : Nat)
    (hs : it.expected_mod_count = m.mod_count) (hc : it.can_erase = true)
    (hcur : it.current = ((b : Int), some i)) (hi : i < (m.table.getD b []).length)
    (hp : p ((m.table.getD b []).get ⟨i, hi⟩) = false) :
    erase_if_loop p ref_map (fuel + 1) m it
      = (erase_if_loop p ref_map fuel m
          { current := Bucket.advance_cursors m.bins m.table ((b : Int), some (i + 1)),
            expected_mod_count := m.mod_count, can_erase := true }).map
          (fun r => r.map (fun x => ((m.table.getD b []).get ⟨i, hi⟩ :: x.1, x.2))) := by
  obtain ⟨hn, hder, hinc⟩ := map_erase_if_loop_head m ref_map it b i hs hc hcur hi
  rw [erase_if_loop, hn]
  simp only
  rw [hder]
  simp only
  rw [if_neg (by rw [hp]; decide), hinc]

theorem map_erase_if_loop_erase (p : K × V → Bool) (m : HashMap K V) (ref_map : Nat)
    (fuel : Nat) (it : Iterator) (b i : Nat)
    (hs : it.expected_mod_count = m.mod_count) (hc : it.can_erase = true)
    (hcur : it.current = ((b : Int), some i)) (hi : i < (m.table.getD b []).length)
    (hp : p ((m.table.getD b []).get ⟨i, hi⟩) = true) :
    erase_if_loop p ref_map (fuel + 1) m it
      = (erase_if_loop p ref_map fuel
          { m with map := some (Bucket.splice m.table b i), used := m.used - 1,
                   mod_count := m.mod_count + 1 }
          { current := Bucket.advance_cursors m.bins (Bucket.splice m.table b i)
              ((b : Int), some i),
            expected_mod_count := m.mod_count + 1,
            can_erase := decide (¬ (Bucket.advance_cursors m.bins (Bucket.splice m.table b i)
              ((b : Int), some i)).1 = -1) }).map
          (fun r => r.map (fun x => ((m.table.getD b []).get ⟨i, hi⟩ :: x.1, x.2))) := by
  obtain ⟨hn, hder, -⟩ := map_erase_if_loop_head m ref_map it b i hs hc hcur hi
  rw [erase_if_loop, hn]
  simp only
  rw [hder]
  simp only
  rw [if_pos hp, map_Iterator_erase_live m it b i hs hc hcur]
  simp only
  rw [map_inc_after_erase _ _ _ rfl]

/-- The erase loop from a fresh cursor that is at the end or on a live node, with the
values `A` ahead of it: it ends, dereferences exactly `A`, in order, erases the values of
`A` that satisfy `p` and no other. -/
theorem map_erase_if_loop_spec (code : hashfunc → K → Int) (p : K × V → Bool) (ref_map : Nat) :
    ∀ (fuel : Nat) (m : HashMap K V) (it : Iterator) (A : List (K × V)),
      WF code m → it.expected_mod_count = m.mod_count →
      ((it.current = (-1, none) ∧ A = []) ∨
        (it.can_erase = true ∧ ∃ b i : Nat, it.current = ((b : Int), some i) ∧
          b < m.table.length ∧ i < (m.table.getD b []).length ∧
          Bucket.ahead m.table b i = A)) →
      A.length + 1 ≤ fuel →
      ∃ m2, erase_if_loop p ref_map fuel m it = some (.ok (A, m2)) ∧ WF code m2 ∧
        (∀ y, y ∈ m2.entries ↔ y ∈ m.entries ∧ (y ∈ A → p y = false)) ∧
        m2.used = m.used - ((A.filter (fun y => p y)).length : Int) := by
  intro fuel
  induction fuel with
  | zero =>
    intro m it A _ _ _ hf
    omega
  | succ fuel ih =>
    intro m it A hw hs hpos hf
    rcases hpos with ⟨hcur, rfl⟩ | ⟨hc, b, i, hcur, hb, hi, rfl⟩
    · refine ⟨m, map_erase_if_loop_end p m ref_map fuel it hs hcur, hw, ?_, ?_⟩
      · simp
      · simp
    · have hlen := table_length code m hw.1 b hb
      have hbb : b < m.bins := by
        rw [← hlen]
        exact hb
      by_cases hp : p ((m.table.getD b []).get ⟨i, hi⟩) = true
      · rw [map_erase_if_loop_erase p m ref_map fuel it b i hs hc hcur hi hp]
        rw [Bucket.ahead_splice m.table b i hb hi] at hf ⊢
        obtain ⟨hw2, P, Q, hP, hQ⟩ := splice_WF code m hw b i
          ((m.table.getD b []).get ⟨i, hi⟩) hb (List.getElem?_eq_getElem hi) (m.mod_count + 1)
        obtain ⟨hl1, hl2⟩ := Bucket.splice_at_live m.table b i hb hi
        have hsp : Bucket.splice_at m.table ((b : Int), some i) = Bucket.splice m.table b i := by
          simp [Bucket.splice_at]
        rw [hsp] at hl1 hl2
        have hpos2 := Bucket.advance_cursors_spec m.bins (Bucket.splice m.table b i)
          (hl1.trans hlen) b i hbb hl2
        have hnext := ih
          ({ m with map := some (Bucket.splice m.table b i), used := m.used - 1,
                    mod_count := m.mod_count + 1 } : HashMap K V)
          { current := Bucket.advance_cursors m.bins (Bucket.splice m.table b i)
              ((b : Int), some i),
            expected_mod_count := m.mod_count + 1,
            can_erase := decide (¬ (Bucket.advance_cursors m.bins (Bucket.splice m.table b i)
              ((b : Int), some i)).1 = -1) }
          (Bucket.ahead (Bucket.splice m.table b i) b i) hw2 rfl (by
            rcases hpos2 with ⟨h1, h2⟩ | ⟨b2, i2, h1, h2, h3, h4⟩
            · exact Or.inl ⟨h1, h2⟩
            · refine Or.inr ⟨?_, b2, i2, h1, ?_, h3, h4⟩
              · rw [h1]
                simp only [decide_eq_true_eq]
                omega
              · show b2 < (Bucket.splice m.table b i).length
                rw [hl1, hlen]
                exact h2) (by simpa using hf)
        obtain ⟨m2, h1, h2, h3, h4⟩ := hnext
        refine ⟨m2, ?_, h2, fun y => ?_, ?_⟩
        · rw [h1]
          rfl
        · rw [h3 y]
          have hnd : (P ++ (m.table.getD b []).get ⟨i, hi⟩ :: Q).Nodup := by
            rw [← hP]
            exact entries_nodup code m hw.1
          have hnotin : (m.table.getD b []).get ⟨i, hi⟩ ∉ P ++ Q := by
            intro hm
            rw [List.nodup_append] at hnd
            rcases List.mem_append.1 hm with hm | hm
            · exact hnd.2.2 hm (List.mem_cons_self _ _)
            · exact (List.nodup_cons.1 hnd.2.1).1 hm
          have hmem2 : y ∈
              ({ m with map := some (Bucket.splice m.table b i), used := m.used - 1,
                        mod_count := m.mod_count + 1 } : HashMap K V).entries ↔
              y ≠ (m.table.getD b []).get ⟨i, hi⟩ ∧ y ∈ m.entries := by
            rw [hQ, hP]
            constructor
            · intro hm
              refine ⟨fun h => hnotin (h ▸ hm), ?_⟩
              rcases List.mem_append.1 hm with hm | hm
              · exact List.mem_append_left _ hm
              · exact List.mem_append_right _ (List.mem_cons_of_mem _ hm)
            · rintro ⟨hne, hm⟩
              rcases List.mem_append.1 hm with hm | hm
              · exact List.mem_append_left _ hm
              · rcases List.mem_cons.1 hm with h | hm
                · exact absurd h hne
                · exact List.mem_append_right _ hm
          rw [hmem2]
          constructor
          · rintro ⟨⟨hne, hy⟩, hA⟩
            refine ⟨hy, fun hm => ?_⟩
            rcases List.mem_cons.1 hm with h | hm
            · exact absurd h hne
            · exact hA hm
          · rintro ⟨hy, hA⟩
            refine ⟨⟨fun h => ?_, hy⟩, fun hm => hA (List.mem_cons_of_mem _ hm)⟩
            have := hA (h ▸ List.mem_cons_self _ _)
            rw [h] at this
            rw [hp] at this
            cases this
        · rw [h4, List.filter_cons_of_pos (by simpa using hp)]
          simp only [List.length_cons, Nat.cast_add, Nat.cast_one]
          ring
      · have hp2 : p ((m.table.getD b []).get ⟨i, hi⟩) = false := by
          simpa using hp
        rw [map_erase_if_loop_keep p m ref_map fuel it b i hs hc hcur hi hp2]
        rw [Bucket.ahead_live m.table b i hi] at hf ⊢
        have hpos2 := Bucket.advance_cursors_spec m.bins m.table hlen b (i + 1) hbb (by omega)
        have hnext := ih m
            { current := Bucket.advance_cursors m.bins m.table ((b : Int), some (i + 1)),
              expected_mod_count := m.mod_count, can_erase := true }
            (Bucket.ahead m.table b (i + 1)) hw rfl (by
              rcases hpos2 with ⟨h1, h2⟩ | ⟨b2, i2, h1, h2, h3, h4⟩
              · exact Or.inl ⟨h1, h2⟩
              · exact Or.inr ⟨rfl, b2, i2, h1, by rw [hlen]; exact h2, h3, h4⟩)
            (by simpa using hf)
        obtain ⟨m2, h1, h2, h3, h4⟩ := hnext
        refine ⟨m2, ?_, h2, fun y => ?_, ?_⟩
        · rw [h1]
          rfl
        · rw [h3 y]
          constructor
          · rintro ⟨hy, hA⟩
            refine ⟨hy, fun hm => ?_⟩
            rcases List.mem_cons.1 hm with rfl | hm
            · exact hp2
            · exact hA hm
          · rintro ⟨hy, hA⟩
            exact ⟨hy, fun hm => hA (List.mem_cons_of_mem _ hm)⟩
        · rw [h4, List.filter_cons_of_neg (by simpa using hp)]

/-- The erase loop from `begin()` on a well-formed table ends without an exception,
dereferences the entries of the table, each once and in bin order, and leaves exactly the
entries that do not satisfy `p`. -/
theorem map_erase_if_spec (code : hashfunc → K → Int) (p : K × V → Bool) (m : HashMap K V)
    (ref_map fuel : Nat) (hw : WF code m) (hf : m.size.toNat + 1 ≤ fuel) :
    ∃ m2, erase_if p m ref_map fuel = some (.ok (m.entries, m2)) ∧ WF code m2 ∧
      (∀ y, y ∈ m2.entries ↔ y ∈ m.entries ∧ p y = false) ∧
      m2.size = m.size - ((m.entries.filter (fun y => p y)).length : Int) := by
  have hlen : m.entries.length + 1 ≤ fuel := by
    have hu : (m.entries.length : Int) = m.size := hw.2.symm
    rw [← hu] at hf
    simpa using hf
  obtain ⟨hs, hce, hpos⟩ := begin_cases code m hw
  obtain ⟨m2, h1, h2, h3, h4⟩ := map_erase_if_loop_spec code p ref_map fuel m (begin m)
    m.entries hw hs (by
      rcases hpos with ⟨h, he⟩ | ⟨b, j, h, hb, hl, hj, ha⟩
      · exact Or.inl ⟨h, he⟩
      · exact Or.inr ⟨hce, b, j, h, by rw [hl]; exact hb, hj, ha⟩) hlen
  refine ⟨m2, h1, h2, fun y => ?_, h4⟩
  rw [h3 y]
  constructor
  · rintro ⟨hy, hA⟩
    exact ⟨hy, hA hy⟩
  · rintro ⟨hy, hA⟩
    exact ⟨hy, fun _ => hA⟩

end HashMap

namespace HashMap

variable {K V : Type} [DecidableEq K]

/-- After a cursor `erase()` the first `++` succeeds and leaves the position where
`erase()` put it; it sets `can_erase` again unless the cursor is at the end. -/
theorem inc_after_Iterator_erase (m m2 : HashMap K V) (it it2 : Iterator)
    (r : Option (K × V)) (h : Iterator_erase m it = .ok (r, it2, m2)) :
    ∃ it3, Iterator_inc m2 it2 = .ok it3 ∧ it3.current = it2.current ∧
      it3.expected_mod_count = m2.mod_count ∧
      (it2.current.1 ≠ -1 → it3.can_erase = true) := by
  unfold Iterator_erase at h
  split_ifs at h
  simp only [Except.ok.injEq, Prod.mk.injEq] at h
  obtain ⟨-, rfl, rfl⟩ := h
  rw [map_inc_after_erase _ _ _ rfl]
  exact ⟨_, rfl, rfl, rfl, fun hne => by simpa using hne⟩

end HashMap

namespace HashSet

variable {T : Type} [DecidableEq T]

/-- After a cursor `erase()` the first `++` succeeds and leaves the position where
`erase()` put it; it sets `can_erase` again unless the cursor is at the end. -/
theorem set_inc_after_Iterator_erase (s s2 : HashSet T) (it it2 : Iterator)
    (r : Option T) (h : Iterator_erase s it = .ok (r, it2, s2)) :
    ∃ it3, Iterator_inc s2 it2 = .ok it3 ∧ it3.current = it2.current ∧
      it3.expected_mod_count = s2.mod_count ∧
      (it2.current.1 ≠ -1 → it3.can_erase = true) := by
  unfold Iterator_erase at h
  split_ifs at h
  simp only [Except.ok.injEq, Prod.mk.injEq] at h
  obtain ⟨-, rfl, rfl⟩ := h
  rw [inc_after_erase _ _ _ rfl]
  exact ⟨_, rfl, rfl, rfl, fun hne => by simpa using hne⟩

end HashSet

namespace Bucket

variable {E K : Type} [DecidableEq K]

theorem read_bin_eq (bs : List (List E)) (bins : Nat) (i : Int) (hlen : bs.length = bins)
    (h0 : 0 ≤ i) (h1 : i < (bins : Int)) :
    read_bin (some bs) bins i = some (bs.getD i.toNat []) := by
  unfold read_bin
  simp only
  rw [if_pos]
  refine ⟨h0, h1, ?_⟩
  omega

theorem read_bin_natCast (bs : List (List E)) (bins : Nat) (i : Nat) (hlen : bs.length = bins)
    (h1 : i < bins) : read_bin (some bs) bins (i : Int) = some (bs.getD i []) := by
  rw [read_bin_eq bs bins (i : Int) hlen (Int.natCast_nonneg i) (by exact_mod_cast h1)]
  simp

theorem deref_eq (chain : List E) (p : Nat) (h : p ≤ chain.length) :
    deref chain p = some p := by
  unfold deref
  rw [if_pos h]

theorem find_checked_drop (key : E → K) (k : K) (chain : List E) :
    ∀ (fuel p : Nat), chain.length < fuel + p → p ≤ chain.length →
      find_checked key k chain fuel p
        = some ((find key k (chain.drop p)).map (fun q => (q.1 + p, q.2))) := by
  intro fuel
  induction fuel with
  | zero => intro p h1 h2; omega
  | succ fuel ih =>
    intro p h1 h2
    unfold find_checked
    rw [deref_eq chain p h2]
    simp only
    rcases Nat.lt_or_ge p chain.length with hp | hp
    · rw [List.getElem?_eq_getElem hp]
      simp only
      rw [List.drop_eq_getElem_cons hp]
      by_cases hk : k = key chain[p]
      · simp [find, hk]
      · rw [if_neg hk, ih (p + 1) (by omega) (by omega)]
        simp only [find, if_neg hk, Option.map_map]
        congr 1
        cases find key k (List.drop (p + 1) chain) with
        | none => rfl
        | some q => simp [Nat.add_assoc, Nat.add_comm 1 p]
    · rw [List.getElem?_eq_none hp, List.drop_eq_nil_of_le hp]
      simp [find]

theorem find_checked_eq (key : E → K) (k : K) (chain : List E) :
    find_checked key k chain (chain.length + 1) 0 = some (find key k chain) := by
  rw [find_checked_drop key k chain (chain.length + 1) 0 (by omega) (by omega)]
  cases h : find key k chain with
  | none => simp [h]
  | some q => simp [h]

theorem walk_checked_drop (chain : List E) :
    ∀ (fuel p : Nat), chain.length < fuel + p → p ≤ chain.length →
      walk_checked chain fuel p = some (chain.drop p) := by
  intro fuel
  induction fuel with
  | zero => intro p h1 h2; omega
  | succ fuel ih =>
    intro p h1 h2
    unfold walk_checked
    rw [deref_eq chain p h2]
    simp only
    rcases Nat.lt_or_ge p chain.length with hp | hp
    · rw [List.getElem?_eq_getElem hp]
      simp only
      rw [ih (p + 1) (by omega) (by omega), List.drop_eq_getElem_cons hp]
      rfl
    · rw [List.getElem?_eq_none hp, List.drop_eq_nil_of_le hp]

theorem walk_checked_eq (chain : List E) :
    walk_checked chain (chain.length + 1) 0 = some chain := by
  rw [walk_checked_drop chain (chain.length + 1) 0 (by omega) (by omega)]
  rfl

theorem push_front_length (bs : List (List E)) (i : Nat) (e : E) :
    (push_front bs i e).length = bs.length := by
  simp [push_front]

theorem push_front_checked_eq (bs : List (List E)) (bins : Nat) (i : Int) (e : E)
    (hlen : bs.length = bins) (h0 : 0 ≤ i) (h1 : i < (bins : Int)) :
    push_front_checked bs bins i e = some (push_front bs i.toNat e) := by
  unfold push_front_checked
  rw [read_bin_eq bs bins i hlen h0 h1]

theorem relink_checked_eq (place : E → Int) (newBins : Nat)
    (hp : ∀ e, 0 ≤ place e ∧ place e < (newBins : Int)) (chain : List E) :
    ∀ tm : List (List E), tm.length = newBins →
      relink_checked place newBins tm chain
        = some (relink (fun e => (place e).toNat) tm chain) ∧
      (relink (fun e => (place e).toNat) tm chain).length = newBins := by
  induction chain with
  | nil => intro tm h; exact ⟨rfl, h⟩
  | cons e rest ih =>
    intro tm h
    have h2 := ih (push_front tm (place e).toNat e) (by rw [push_front_length, h])
    unfold relink_checked relink at *
    rw [List.foldlM_cons, push_front_checked_eq tm newBins (place e) e h (hp e).1 (hp e).2]
    exact h2

theorem rehash_checked_take (place : E → Int) (old : List (List E)) (tempBins newBins : Nat)
    (hlen : old.length = tempBins) (hp : ∀ e, 0 ≤ place e ∧ place e < (newBins : Int)) :
    ∀ n, n ≤ tempBins →
      (List.range n).foldlM
        (fun tm (i : Nat) =>
          match read_bin (some old) tempBins (i : Int) with
          | none => none
          | some chain => relink_checked place newBins tm chain)
        (fresh newBins)
        = some ((old.take n).foldl (relink (fun e => (place e).toNat)) (fresh newBins)) ∧
      ((old.take n).foldl (relink (fun e => (place e).toNat))
        (fresh newBins : List (List E))).length = newBins := by
  intro n
  induction n with
  | zero => intro _; exact ⟨rfl, by simp [fresh]⟩
  | succ n ih =>
    intro hn
    obtain ⟨h1, h2⟩ := ih (by omega)
    have hlt : n < old.length := by omega
    rw [List.range_succ, List.foldlM_append, h1]
    simp only [Option.bind_eq_bind, Option.some_bind, List.foldlM_cons, List.foldlM_nil]
    rw [read_bin_natCast old tempBins n hlen (by omega)]
    simp only
    have h3 := relink_checked_eq place newBins hp (old.getD n []) _ h2
    rw [h3.1]
    have htake : old.take (n + 1) = old.take n ++ [old.getD n []] := by
      rw [List.take_succ, List.getElem?_eq_getElem hlt, List.getD_eq_getElem _ _ hlt]
      rfl
    rw [htake, List.foldl_append]
    exact ⟨rfl, h3.2⟩

theorem rehash_checked_eq (place : E → Int) (old : List (List E)) (tempBins newBins : Nat)
    (hlen : old.length = tempBins) (hp : ∀ e, 0 ≤ place e ∧ place e < (newBins : Int)) :
    rehash_checked place old tempBins newBins
      = some (rehash (fun e => (place e).toNat) old newBins) := by
  unfold rehash_checked rehash
  have h := (rehash_checked_take place old tempBins newBins hlen hp tempBins (le_refl _)).1
  have ht : old.take tempBins = old := by rw [← hlen, List.take_length]
  rw [ht] at h
  exact h

theorem deref_cursor_eq (bs : List (List E)) (b i : Nat) (hb : b < bs.length)
    (hi : i ≤ (bs.getD b []).length) : deref_cursor bs ((b : Int), some i) = some i := by
  unfold deref_cursor
  simp only [Int.toNat_ofNat]
  rw [if_pos ⟨Int.natCast_nonneg b, hb⟩, deref_eq _ _ hi]

theorem advance_loop_checked_eq (bins : Nat) (bs : List (List E)) (hlen : bs.length = bins) :
    ∀ (fuel b i : Nat), b < bins → i ≤ (bs.getD b []).length → bins ≤ fuel + b →
      advance_loop_checked bins (some bs) fuel ((b : Int), some i)
        = some (advance_loop bins bs fuel ((b : Int), some i)) := by
  intro fuel
  induction fuel with
  | zero => intro b i hb _ hf; omega
  | succ fuel ih =>
    intro b i hb hi hf
    unfold advance_loop_checked advance_loop
    simp only [Option.getD_some]
    rw [deref_cursor_eq bs b i (by omega) hi]
    simp only
    split_ifs with h1 h2
    · rfl
    · have hb1 : b + 1 < bins := by omega
      have hr := read_bin_natCast bs bins (b + 1) hlen hb1
      rw [Nat.cast_add, Nat.cast_one] at hr
      rw [hr]
      simp only
      have := ih (b + 1) 0 hb1 (Nat.zero_le _) (by omega)
      rw [Nat.cast_add, Nat.cast_one] at this
      exact this
    · rfl

theorem advance_cursors_checked_eq (bins : Nat) (bs : List (List E)) (hlen : bs.length = bins)
    (b i : Nat) (hb : b < bins) (hi : i ≤ (bs.getD b []).length) :
    advance_cursors_checked bins (some bs) ((b : Int), some i)
      = some (advance_cursors bins bs ((b : Int), some i)) :=
  advance_loop_checked_eq bins bs hlen bins b i hb hi (by omega)

end Bucket

namespace HashMap

variable {K V : Type} [DecidableEq K]

theorem hash_compress_range (code : hashfunc → K → Int) (m : HashMap K V) (k : K)
    (h : 1 ≤ m.bins) : 0 ≤ hash_compress code m k ∧ hash_compress code m k < (m.bins : Int) := by
  rw [hash_compress_eq]
  refine ⟨Int.natCast_nonneg _, ?_⟩
  exact_mod_cast Nat.mod_lt _ h

theorem map_eq_some_table (m : HashMap K V) (h : m.map.isSome = true) :
    m.map = some m.table := by
  unfold table
  cases hm : m.map with
  | none => rw [hm] at h; cases h
  | some bs => rfl

theorem find_key_checked_eq (code : hashfunc → K → Int) (m : HashMap K V)
    (hs : Shape code m) (key : K) :
    find_key_checked code m key = some (find_key code m key) := by
  obtain ⟨hb, hl, -, -⟩ := hs
  unfold find_key_checked find_key
  cases hm : m.map with
  | none => rfl
  | some bs =>
    simp only
    have hlen : bs.length = m.bins := by simpa [table, hm] using hl
    obtain ⟨h0, h1⟩ := hash_compress_range code m key hb
    rw [Bucket.read_bin_eq bs m.bins _ hlen h0 h1]
    simp only
    exact Bucket.find_checked_eq _ _ _

theorem has_value_loop_spec [DecidableEq V] (m : HashMap K V) (value : V)
    (hm : m.map.isSome = true) (hlen : m.table.length = m.bins) :
    ∀ l : List Nat, (∀ i ∈ l, i < m.bins) →
      has_value_loop m value l
        = some (decide (∃ i ∈ l, ∃ e ∈ m.table.getD i [], e.2 = value)) := by
  intro l
  induction l with
  | nil => intro _; simp [has_value_loop]
  | cons i rest ih =>
    intro hl
    unfold has_value_loop
    rw [map_eq_some_table m hm,
      Bucket.read_bin_natCast m.table m.bins i hlen (hl i (List.mem_cons_self _ _))]
    simp only
    rw [Bucket.find_checked_eq]
    cases hf : Bucket.find Prod.snd value (m.table.getD i []) with
    | none =>
      simp only
      rw [ih (fun j hj => hl j (List.mem_cons_of_mem _ hj))]
      have hno := (Bucket.find_eq_none Prod.snd value _).1 hf
      congr 1
      apply decide_eq_decide.2
      constructor
      · rintro ⟨j, hj, e, he, hv⟩
        exact ⟨j, List.mem_cons_of_mem _ hj, e, he, hv⟩
      · rintro ⟨j, hj, e, he, hv⟩
        rcases List.mem_cons.1 hj with rfl | hj
        · exact absurd hv (hno e he)
        · exact ⟨j, hj, e, he, hv⟩
    | some q =>
      simp only
      obtain ⟨h1, h2⟩ := Bucket.find_eq_some Prod.snd value _ q.1 q.2 hf
      congr 1
      symm
      apply decide_eq_true
      exact ⟨i, List.mem_cons_self _ _, q.2, List.mem_iff_getElem?.2 ⟨_, h1⟩, h2⟩

theorem entries_ne_nil_map (m : HashMap K V) (h : m.entries ≠ []) : m.map.isSome = true := by
  cases hm : m.map with
  | none => exact absurd (by simp [entries, table, hm]) h
  | some bs => rfl

theorem WF_map_none (code : hashfunc → K → Int) (m : HashMap K V) (hw : WF code m)
    (h : m.map = none) : m.used = 0 := by
  rw [hw.2]
  simp [entries, table, h]

theorem WF_used_pos (code : hashfunc → K → Int) (m : HashMap K V) (hw : WF code m)
    (h : m.used ≠ 0) : m.map.isSome = true ∧ m.table.length = m.bins := by
  have hm : m.map.isSome = true := by
    cases hm : m.map with
    | none => exact absurd (WF_map_none code m hw hm) h
    | some bs => rfl
  exact ⟨hm, hw.1.2.1 hm⟩

theorem has_value_checked_eq [DecidableEq V] (code : hashfunc → K → Int) (m : HashMap K V)
    (hw : WF code m) (value : V) :
    has_value_checked m value = some (decide (∃ e ∈ m.entries, e.2 = value)) := by
  unfold has_value_checked
  by_cases hu : m.used = 0
  · rw [if_pos (by simp [empty, hu])]
    have : m.entries = [] := by
      have := hw.2
      rw [hu] at this
      exact List.length_eq_zero.1 (by exact_mod_cast this.symm)
    simp [this]
  · rw [if_neg (by simp [empty, hu])]
    obtain ⟨hm, hlen⟩ := WF_used_pos code m hw hu
    rw [has_value_loop_spec m value hm hlen (List.range m.bins)
      (fun i hi => List.mem_range.1 hi)]
    congr 1
    apply decide_eq_decide.2
    constructor
    · rintro ⟨i, -, e, he, hv⟩
      exact ⟨e, Bucket.getD_mem_flatten _ i e he, hv⟩
    · rintro ⟨e, he, hv⟩
      obtain ⟨c, hc, hec⟩ := List.mem_flatten.1 he
      obtain ⟨i, hi, hci⟩ := List.getElem_of_mem hc
      refine ⟨i, List.mem_range.2 (hlen ▸ hi), e, ?_, hv⟩
      rw [List.getD_eq_getElem _ _ hi, hci]
      exact hec

theorem mapM_eq_some_map {α β : Type} (f : α → Option β) (g : α → β) :
    ∀ l : List α, (∀ a ∈ l, f a = some (g a)) → l.mapM f = some (l.map g) := by
  intro l
  induction l with
  | nil => intro _; rfl
  | cons a rest ih =>
    intro h
    rw [List.mapM_cons, h a (List.mem_cons_self _ _),
      ih (fun b hb => h b (List.mem_cons_of_mem _ hb))]
    rfl

theorem str_checked_eq (code : hashfunc → K → Int) (m : HashMap K V) (hw : WF code m) :
    str_checked m = some (if m.used > 0 then m.table else []) := by
  unfold str_checked
  by_cases hu : m.used > 0
  · rw [if_pos hu, if_pos hu]
    obtain ⟨hm, hlen⟩ := WF_used_pos code m hw (by omega)
    rw [mapM_eq_some_map _ (fun i => m.table.getD i [])]
    · congr 1
      apply List.ext_getElem
      · simp [hlen]
      · intro i h1 h2
        simp [List.getElem?_eq_getElem h2]
    · intro i hi
      rw [map_eq_some_table m hm,
        Bucket.read_bin_natCast m.table m.bins i hlen (List.mem_range.1 hi)]
      simp only
      exact Bucket.walk_checked_eq _
  · rw [if_neg hu, if_neg hu]

theorem ensure_load_threshold_checked_eq (code : hashfunc → K → Int) (m : HashMap K V)
    (n : Int) (hb : 1 ≤ m.bins) (hl : m.map.isSome = true → m.table.length = m.bins) :
    ensure_load_threshold_checked code m n = some (ensure_load_threshold code m n) := by
  have key : ∀ (m2 : HashMap K V) (map0 : List (List (K × V))), m2.bins = m.bins * 2 →
      map0.length = m.bins →
      Bucket.rehash_checked (fun e => hash_compress code m2 e.1) map0 m.bins (m.bins * 2)
        = some (Bucket.rehash (fun e => (hash_compress code m2 e.1).toNat)
          map0 (m.bins * 2)) := by
    intro m2 map0 h2 h
    apply Bucket.rehash_checked_eq _ _ m.bins (m.bins * 2) h
    intro e
    rw [← h2]
    exact hash_compress_range code m2 e.1 (by omega)
  unfold ensure_load_threshold_checked ensure_load_threshold
  simp only
  split_ifs with h
  · rfl
  · cases hm : m.map with
    | none =>
      simp only
      rw [key _ _ rfl (by simp [Bucket.fresh])]
    | some bs =>
      simp only
      rw [key _ _ rfl (by simpa [table, hm] using hl)]

theorem read_after_ensure (code : hashfunc → K → Int) (m : HashMap K V) (n : Int)
    (hs : Shape code m) (key : K) :
    Bucket.read_bin (ensure_load_threshold code m n).map (ensure_load_threshold code m n).bins
        (hash_compress code (ensure_load_threshold code m n) key)
      = some ((ensure_load_threshold code m n).table.getD
          (hash_compress code (ensure_load_threshold code m n) key).toNat []) := by
  have hs2 := (ensure_shape code m n hs).1
  have hm := (ensure_fields code m n).2.2.2.2
  obtain ⟨h0, h1⟩ := hash_compress_range code (ensure_load_threshold code m n) key hs2.1
  rw [map_eq_some_table _ hm]
  exact Bucket.read_bin_eq _ _ _ (hs2.2.1 hm) h0 h1

theorem put_checked_eq (code : hashfunc → K → Int) (m : HashMap K V) (hs : Shape code m)
    (key : K) (value : V) : put_checked code m key value = some (put code m key value) := by
  unfold put_checked put
  rw [find_key_checked_eq code m hs]
  simp only
  cases hf : find_key code m key with
  | none =>
    simp only
    have hs1 : Shape code { m with mod_count := m.mod_count + 1, used := m.used + 1 } := hs
    rw [ensure_load_threshold_checked_eq code _ _ hs1.1 hs1.2.1]
    simp only
    rw [read_after_ensure code _ _ hs1 key]
  | some q => rfl

theorem operator_index_checked_eq [Inhabited V] (code : hashfunc → K → Int) (m : HashMap K V)
    (hs : Shape code m) (key : K) :
    operator_index_checked code m key = some (operator_index code m key) := by
  unfold operator_index_checked operator_index
  rw [find_key_checked_eq code m hs]
  cases hf : find_key code m key with
  | none =>
    simp only
    have hs1 : Shape code { m with mod_count := m.mod_count + 1, used := m.used + 1 } := hs
    rw [ensure_load_threshold_checked_eq code _ _ hs1.1 hs1.2.1]
    simp only
    rw [read_after_ensure code _ _ hs1 key]
  | some q => rfl

theorem begin_checked_eq (code : hashfunc → K → Int) (m : HashMap K V) (hw : WF code m) :
    begin_checked m = some (begin m) := by
  unfold begin_checked begin Iterator_ctor_checked Iterator_ctor
  by_cases hu : m.used = 0
  · rw [if_neg (by simp [empty, hu]), if_neg (by simp [empty, hu])]
  · rw [if_pos (by simp [empty, hu]), if_pos (by simp [empty, hu])]
    obtain ⟨hm, hlen⟩ := WF_used_pos code m hw hu
    rw [map_eq_some_table m hm]
    have h0 := Bucket.read_bin_natCast m.table m.bins 0 hlen hw.1.1
    rw [Nat.cast_zero] at h0
    rw [h0]
    simp only
    have h1 := Bucket.advance_cursors_checked_eq m.bins m.table hlen 0 0 hw.1.1 (Nat.zero_le _)
    rw [Nat.cast_zero] at h1
    rw [h1]
    rfl

theorem Iterator_deref_checked_eq (m : HashMap K V)
    (it : Iterator) (hc : Cursor_ok m it) :
    Iterator_deref_checked m it = some (Iterator_deref m it) := by
  unfold Iterator_deref_checked Iterator_deref
  split_ifs with h1 h2
  · rfl
  · rfl
  · push_neg at h1 h2
    obtain ⟨b, i, hcur, hb, hi⟩ := Bucket.live_cases m.table it.current (hc.2 h1) h2.2
    rw [hcur, Bucket.deref_cursor_eq m.table b i hb (le_of_lt hi)]

theorem Iterator_inc_checked_eq (code : hashfunc → K → Int) (m : HashMap K V)
    (hw : WF code m) (it : Iterator) (hc : Cursor_ok m it) :
    Iterator_inc_checked m it = some (Iterator_inc m it) := by
  unfold Iterator_inc_checked Iterator_inc
  split_ifs with h1 h2 h3
  · rfl
  · rfl
  · push_neg at h1
    obtain ⟨b, i, hcur, hb, hi⟩ := Bucket.live_cases m.table it.current (hc.2 h1) h2
    have hm := map_isSome_of_lt hb
    have hlen := hw.1.2.1 hm
    rw [hcur, Bucket.deref_cursor_eq m.table b i hb (le_of_lt hi)]
    simp only [Bucket.next_node, Option.map_some']
    rw [map_eq_some_table m hm,
      Bucket.advance_cursors_checked_eq m.bins m.table hlen b (i + 1) (hlen ▸ hb) hi]
    rfl
  · rfl

theorem Iterator_erase_checked_eq (code : hashfunc → K → Int) (m : HashMap K V)
    (hw : WF code m) (it : Iterator) (hc : Cursor_ok m it) :
    Iterator_erase_checked m it = some (Iterator_erase m it) := by
  unfold Iterator_erase_checked Iterator_erase
  split_ifs with h1 h2 h3
  · rfl
  · rfl
  · rfl
  · push_neg at h1
    obtain ⟨b, i, hcur, hb, hi⟩ := Bucket.live_cases m.table it.current (hc.2 h1) h3
    have hm := map_isSome_of_lt hb
    have hlen := hw.1.2.1 hm
    rw [hcur, Bucket.deref_cursor_eq m.table b i hb (le_of_lt hi)]
    simp only [Bucket.next_node, Option.map_some']
    rw [Bucket.deref_cursor_eq m.table b (i + 1) hb hi]
    simp only
    have hlen2 : (Bucket.splice_at m.table ((b : Int), some i)).length = m.bins := by
      simp [Bucket.splice_at, Bucket.splice, hlen]
    have hi2 : i ≤ ((Bucket.splice_at m.table ((b : Int), some i)).getD b []).length := by
      simp only [Bucket.splice_at, Bucket.splice, Int.toNat_ofNat]
      rw [List.getD_eq_getElem _ _ (by simpa using hb)]
      simp only [List.getElem_set_self, List.length_eraseIdx]
      rw [if_pos hi]
      omega
    rw [Bucket.advance_cursors_checked_eq m.bins _ hlen2 b i (hlen ▸ hb) hi2]
    rfl

end HashMap

namespace HashMap

variable {K V : Type} [DecidableEq K]

theorem advance_loop_checked_ends (code : hashfunc → K → Int) (m : HashMap K V)
    (hs : Shape code m) (fuel b i : Nat) (hb : b < m.table.length)
    (hi : i ≤ (m.table.getD b []).length) (hf : m.bins ≤ fuel + b) :
    ∃ c, Bucket.advance_loop_checked m.bins m.map fuel ((b : Int), some i) = some c ∧
      Bucket.End_or_live m.table c := by
  have hm := map_isSome_of_lt hb
  have hlen := hs.2.1 hm
  refine ⟨Bucket.advance_loop m.bins m.table fuel ((b : Int), some i), ?_, ?_⟩
  · rw [map_eq_some_table m hm]
    exact Bucket.advance_loop_checked_eq m.bins m.table hlen fuel b i (hlen ▸ hb) hi hf
  · rcases Bucket.advance_loop_spec m.bins m.table hlen fuel b i (hlen ▸ hb) hi hf with
      ⟨h, -⟩ | ⟨b2, i2, h, -, hi2, -⟩
    · exact Or.inl h
    · right
      rw [h, Bucket.node_value_live m.table b2 i2 hi2]
      exact ⟨Int.natCast_nonneg b2, rfl⟩

end HashMap

namespace BSTMap

variable {K V : Type} [DecidableEq K]

theorem bst_copy_to_queue_eq (t : TN K V) : ∀ q, copy_to_queue t q = q ++ inorder t := by
  induction t with
  | nil => intro q; simp [copy_to_queue, inorder]
  | node e l r ihl ihr =>
    intro q
    simp [copy_to_queue, inorder, ihl, ihr]

theorem bst_insert_all (lt : K → K → Bool) (key : K) (value : V) (P : K → Prop) (hk : P key) :
    ∀ (t : TN K V) (u c : Int), (∀ x ∈ inorder t, P x.1) →
      ∀ x ∈ inorder (insert lt key value t u c).2.1, P x.1 := by
  intro t
  induction t with
  | nil =>
    intro u c _ x hx
    simp [insert, inorder] at hx
    rw [hx]
    exact hk
  | node e l r ihl ihr =>
    intro u c h x hx
    unfold insert at hx
    split_ifs at hx with h1 h2
    · simp only [inorder, List.mem_append, List.mem_cons] at hx h
      rcases hx with hx | hx | hx
      · exact h x (Or.inl hx)
      · rw [hx]
        exact h e (Or.inr (Or.inl rfl))
      · exact h x (Or.inr (Or.inr hx))
    · simp only [inorder, List.mem_append, List.mem_cons] at hx h
      rcases hx with hx | hx | hx
      · exact h x (Or.inl hx)
      · exact h x (Or.inr (Or.inl hx))
      · exact ihr u c (fun y hy => h y (Or.inr (Or.inr hy))) x hx
    · simp only [inorder, List.mem_append, List.mem_cons] at hx h
      rcases hx with hx | hx | hx
      · exact ihl u c (fun y hy => h y (Or.inl hy)) x hx
      · exact h x (Or.inr (Or.inl hx))
      · exact h x (Or.inr (Or.inr hx))

theorem bst_insert_BST (lt : K → K → Bool)
    (htot : ∀ a b, a ≠ b → lt a b = true ∨ lt b a = true) (key : K) (value : V) :
    ∀ (t : TN K V) (u c : Int), BST lt t → BST lt (insert lt key value t u c).2.1 := by
  intro t
  induction t with
  | nil => intro u c _; simp [insert, BST, inorder]
  | node e l r ihl ihr =>
    intro u c h
    obtain ⟨hl, hr, hbl, hbr⟩ := h
    unfold insert
    split_ifs with h1 h2
    · exact ⟨hl, hr, hbl, hbr⟩
    · exact ⟨hl, bst_insert_all lt key value (fun k => lt e.1 k = true) h2 r u c hr,
        hbl, ihr u c hbr⟩
    · have h3 : lt key e.1 = true := by
        rcases htot e.1 key h1 with h | h
        · exact absurd h h2
        · exact h
      exact ⟨bst_insert_all lt key value (fun k => lt k e.1 = true) h3 l u c hl, hr,
        ihl u c hbl, hbr⟩

theorem bst_insert_used (lt : K → K → Bool) (key : K) (value : V) :
    ∀ (t : TN K V) (u c : Int),
      (insert lt key value t u c).2.2.1 - u
        = ((inorder (insert lt key value t u c).2.1).length : Int) - (inorder t).length := by
  intro t
  induction t with
  | nil => intro u c; simp [insert, inorder]
  | node e l r ihl ihr =>
    intro u c
    unfold insert
    split_ifs with h1 h2
    · simp [inorder]
    · have := ihr u c
      simp only [inorder, List.length_append, List.length_cons, Nat.cast_add, Nat.cast_one]
      omega
    · have := ihl u c
      simp only [inorder, List.length_append, List.length_cons, Nat.cast_add, Nat.cast_one]
      omega

theorem bst_remove_closest_inorder :
    ∀ (r : TN K V) (e : K × V) (l : TN K V),
      inorder l ++ e :: inorder r
        = inorder (remove_closest e l r).2 ++ [(remove_closest e l r).1] := by
  intro r
  induction r with
  | nil => intro e l; simp [remove_closest, inorder]
  | node e2 l2 r2 _ ihr =>
    intro e l
    simp only [remove_closest, inorder]
    rw [ihr e2 l2]
    simp

theorem bst_remove_closest_BST (lt : K → K → Bool)
    (htr : ∀ a b c, lt a b = true → lt b c = true → lt a c = true) :
    ∀ (r : TN K V) (e : K × V) (l : TN K V), BST lt (.node e l r) →
      BST lt (remove_closest e l r).2 ∧
      ∀ x ∈ inorder (remove_closest e l r).2, lt x.1 (remove_closest e l r).1.1 = true := by
  intro r
  induction r with
  | nil =>
    intro e l h
    exact ⟨h.2.2.1, h.1⟩
  | node e2 l2 r2 _ ihr =>
    intro e l h
    obtain ⟨hl, hr, hbl, hbr⟩ := h
    obtain ⟨h1, h2⟩ := ihr e2 l2 hbr
    have hio := bst_remove_closest_inorder r2 e2 l2
    have hsub : ∀ x, x ∈ inorder (remove_closest e2 l2 r2).2 → x ∈ inorder (.node e2 l2 r2) := by
      intro x hx
      simp only [inorder]
      rw [hio]
      exact List.mem_append_left _ hx
    have hc : (remove_closest e2 l2 r2).1 ∈ inorder (.node e2 l2 r2) := by
      simp only [inorder]
      rw [hio]
      simp
    simp only [remove_closest]
    refine ⟨⟨hl, fun x hx => hr x (hsub x hx), hbl, h1⟩, ?_⟩
    intro x hx
    simp only [inorder, List.mem_append, List.mem_cons] at hx
    have hec := hr _ hc
    rcases hx with hx | hx | hx
    · exact htr _ _ _ (hl x hx) hec
    · rw [hx]
      exact hec
    · exact h2 x hx

theorem bst_filter_all_ne (key : K) (l : List (K × V)) (h : ∀ x ∈ l, x.1 ≠ key) :
    l.filter (fun e => decide (e.1 ≠ key)) = l := by
  apply List.filter_eq_self.2
  intro x hx
  simpa using h x hx

theorem bst_ne_of_lt (lt : K → K → Bool) (hirr : ∀ a, lt a a = false) (a b : K)
    (h : lt a b = true) : a ≠ b := by
  intro hab
  rw [hab, hirr] at h
  cases h

/-- The helper `remove` on a binary search tree: it throws `KeyError` exactly when the key
is not in the tree, and otherwise returns the value of the key and leaves the tree with the
entries of the other keys, in the same order, a binary search tree again. -/
theorem bst_remove_spec (lt : K → K → Bool) (hirr : ∀ a, lt a a = false)
    (htr : ∀ a b c, lt a b = true → lt b c = true → lt a c = true)
    (htot : ∀ a b, a ≠ b → lt a b = true ∨ lt b a = true) (key : K) :
    ∀ (t : TN K V), BST lt t →
      ((∀ x ∈ inorder t, x.1 ≠ key) ∧ remove lt key t = .error Error.KeyError) ∨
      (∃ v t2, remove lt key t = .ok (v, t2) ∧ (key, v) ∈ inorder t ∧
        inorder t2 = (inorder t).filter (fun e => decide (e.1 ≠ key)) ∧ BST lt t2) := by
  intro t
  induction t with
  | nil => intro _; left; exact ⟨fun x hx => by simp [inorder] at hx, rfl⟩
  | node e l r ihl ihr =>
    intro h
    obtain ⟨hl, hr, hbl, hbr⟩ := h
    have hlne : ∀ x ∈ inorder l, x.1 ≠ e.1 := fun x hx => bst_ne_of_lt lt hirr _ _ (hl x hx)
    have hrne : ∀ x ∈ inorder r, x.1 ≠ e.1 :=
      fun x hx => (bst_ne_of_lt lt hirr _ _ (hr x hx)).symm
    by_cases hk : key = e.1
    · right
      have hfl := bst_filter_all_ne key (inorder l) (fun x hx => hk ▸ hlne x hx)
      have hfr := bst_filter_all_ne key (inorder r) (fun x hx => hk ▸ hrne x hx)
      have hfilter : (inorder (.node e l r)).filter (fun x => decide (x.1 ≠ key))
          = inorder l ++ inorder r := by
        simp only [inorder, List.filter_append, List.filter_cons, hfl, hfr]
        simp [hk]
      have hmem : (key, e.2) ∈ inorder (.node e l r) := by
        simp only [inorder, List.mem_append, List.mem_cons]
        right; left
        rw [hk]
      rw [hfilter]
      unfold remove
      rw [if_pos hk]
      cases l with
      | nil => exact ⟨e.2, r, rfl, hmem, by simp [inorder], hbr⟩
      | node el ll lr =>
        cases r with
        | nil => exact ⟨e.2, .node el ll lr, rfl, hmem, by simp [inorder], hbl⟩
        | node er rl rr =>
          refine ⟨e.2, _, rfl, hmem, ?_, ?_⟩
          · have hio := bst_remove_closest_inorder lr el ll
            simp only [inorder] at hio ⊢
            rw [hio]
            simp
          · obtain ⟨h1, h2⟩ := bst_remove_closest_BST lt htr lr el ll hbl
            have hc : (remove_closest el ll lr).1 ∈ inorder (.node el ll lr) := by
              simp only [inorder]
              rw [bst_remove_closest_inorder lr el ll]
              simp
            have hce := hl _ hc
            exact ⟨h2, fun x hx => htr _ _ _ hce (hr x hx), h1, hbr⟩
    · by_cases hlt : lt key e.1 = true
      · have hrk : ∀ x ∈ inorder r, x.1 ≠ key :=
          fun x hx => (bst_ne_of_lt lt hirr _ _ (htr _ _ _ hlt (hr x hx))).symm
        have hfr := bst_filter_all_ne key (inorder r) hrk
        rcases ihl hbl with ⟨hno, herr⟩ | ⟨v, l2, hok, hmem, hio, hb2⟩
        · left
          refine ⟨?_, ?_⟩
          · intro x hx
            simp only [inorder, List.mem_append, List.mem_cons] at hx
            rcases hx with hx | hx | hx
            · exact hno x hx
            · rw [hx]; exact Ne.symm hk
            · exact hrk x hx
          · unfold remove
            rw [if_neg hk, if_pos hlt, herr]
        · right
          refine ⟨v, .node e l2 r, ?_, ?_, ?_, ?_⟩
          · unfold remove
            rw [if_neg hk, if_pos hlt, hok]
          · simp only [inorder, List.mem_append, List.mem_cons]
            exact Or.inl hmem
          · simp only [inorder, List.filter_append, List.filter_cons, hfr, hio]
            simp [Ne.symm hk]
          · refine ⟨?_, hr, hb2, hbr⟩
            intro x hx
            rw [hio] at hx
            exact hl x (List.mem_filter.1 hx).1
      · have hgt : lt e.1 key = true := by
          rcases htot e.1 key (Ne.symm hk) with h | h
          · exact h
          · exact absurd h hlt
        have hlk : ∀ x ∈ inorder l, x.1 ≠ key :=
          fun x hx => bst_ne_of_lt lt hirr _ _ (htr _ _ _ (hl x hx) hgt)
        have hfl := bst_filter_all_ne key (inorder l) hlk
        rcases ihr hbr with ⟨hno, herr⟩ | ⟨v, r2, hok, hmem, hio, hb2⟩
        · left
          refine ⟨?_, ?_⟩
          · intro x hx
            simp only [inorder, List.mem_append, List.mem_cons] at hx
            rcases hx with hx | hx | hx
            · exact hlk x hx
            · rw [hx]; exact Ne.symm hk
            · exact hno x hx
          · unfold remove
            rw [if_neg hk, if_neg hlt, herr]
        · right
          refine ⟨v, .node e l r2, ?_, ?_, ?_, ?_⟩
          · unfold remove
            rw [if_neg hk, if_neg hlt, hok]
          · simp only [inorder, List.mem_append, List.mem_cons]
            exact Or.inr (Or.inr hmem)
          · simp only [inorder, List.filter_append, List.filter_cons, hfl, hio]
            simp [Ne.symm hk]
          · refine ⟨hl, ?_, hbl, hb2⟩
            intro x hx
            rw [hio] at hx
            exact hr x (List.mem_filter.1 hx).1

/-- The entries of a binary search tree are in strictly ascending key order. -/
theorem bst_inorder_sorted (lt : K → K → Bool)
    (htr : ∀ a b c, lt a b = true → lt b c = true → lt a c = true) :
    ∀ (t : TN K V), BST lt t → (inorder t).Pairwise (fun a b => lt a.1 b.1 = true) := by
  intro t
  induction t with
  | nil => intro _; simp [inorder]
  | node e l r ihl ihr =>
    intro h
    obtain ⟨hl, hr, hbl, hbr⟩ := h
    simp only [inorder]
    rw [List.pairwise_append]
    refine ⟨ihl hbl, List.pairwise_cons.2 ⟨hr, ihr hbr⟩, ?_⟩
    intro a ha b hb
    rcases List.mem_cons.1 hb with hb | hb
    · rw [hb]; exact hl a ha
    · exact htr _ _ _ (hl a ha) (hr b hb)

theorem bst_keys_nodup (lt : K → K → Bool) (hirr : ∀ a, lt a a = false)
    (htr : ∀ a b c, lt a b = true → lt b c = true → lt a c = true)
    (t : TN K V) (h : BST lt t) : ((inorder t).map Prod.fst).Nodup := by
  have hs := bst_inorder_sorted lt htr t h
  unfold List.Nodup
  rw [List.pairwise_map]
  exact hs.imp (fun hab => bst_ne_of_lt lt hirr _ _ hab)

/-- The invariant of `BSTMap`: the tree is a binary search tree and `used` counts its
nodes. -/
theorem bst_reachable_inv (lt : K → K → Bool) (hirr : ∀ a, lt a a = false)
    (htr : ∀ a b c, lt a b = true → lt b c = true → lt a c = true)
    (htot : ∀ a b, a ≠ b → lt a b = true ∨ lt b a = true)
    (m : BSTMap K V) (hr : Reachable lt m) :
    BST lt m.map ∧ m.used = ((inorder m.map).length : Int) := by
  induction hr with
  | by_ctor => exact ⟨trivial, rfl⟩
  | by_put m key value _ ih =>
    refine ⟨bst_insert_BST lt htot key value m.map m.used m.mod_count ih.1, ?_⟩
    have := bst_insert_used lt key value m.map m.used m.mod_count
    simp only [put]
    omega
  | by_erase m key _ ih =>
    rcases bst_remove_spec lt hirr htr htot key m.map ih.1 with
      ⟨-, herr⟩ | ⟨v, t2, hok, hmem, hio, hb2⟩
    · simp only [erase, herr]
      exact ih
    · simp only [erase, hok]
      refine ⟨hb2, ?_⟩
      have hnd := bst_keys_nodup lt hirr htr m.map ih.1
      have hlen : (inorder t2).length + 1 = (inorder m.map).length := by
        rw [hio]
        have hcount : ((inorder m.map).filter (fun e => decide (e.1 = key))).length = 1 := by
          have h1 : ((inorder m.map).map Prod.fst).count key = 1 :=
            List.count_eq_one_of_mem hnd (List.mem_map.2 ⟨(key, v), hmem, rfl⟩)
          rw [List.count, List.countP_map, List.countP_eq_length_filter] at h1
          rw [← h1]
          congr 1
        have hsum := @List.length_eq_length_filter_add _ (inorder m.map)
          (fun e => decide (e.1 = key))
        rw [hcount] at hsum
        have hneg : (inorder m.map).filter (fun e => decide (e.1 ≠ key))
            = (inorder m.map).filter (fun e => !decide (e.1 = key)) := by
          apply List.filter_congr
          intro x _
          simp
        rw [hneg]
        omega
      rw [ih.2]
      omega

theorem bst_range_for_loop_spec (m : BSTMap K V) (ref_map : Nat) :
    ∀ (q : List (K × V)) (i : Iterator K V), i.it = q →
      i.expected_mod_count = m.mod_count → i.can_erase = true →
      range_for_loop m ref_map (q.length + 1) i = some (.ok q) := by
  intro q
  induction q with
  | nil =>
    intro i hq hm _
    unfold range_for_loop
    simp [Iterator_ne, hm, hq, end_, Iterator_ctor]
  | cons e rest ih =>
    intro i hq hm hc
    unfold range_for_loop
    have hne : Iterator_ne m ref_map i ref_map (end_ m) = .ok true := by
      simp [Iterator_ne, hm, hq, end_, Iterator_ctor]
    have hd : Iterator_deref m i = .ok e := by
      simp [Iterator_deref, hm, hq, hc]
    have hi : Iterator_inc m i = .ok { i with it := rest } := by
      simp [Iterator_inc, hm, hq, hc]
    rw [hne]
    simp only
    rw [hd]
    simp only
    rw [hi]
    simp only
    simp only [List.length_cons]
    rw [ih { i with it := rest } rfl hm hc]
    rfl

theorem bst_range_for_spec (m : BSTMap K V) (ref_map : Nat) :
    range_for m ref_map ((inorder m.map).length + 1) = some (.ok (inorder m.map)) := by
  unfold range_for
  apply bst_range_for_loop_spec m ref_map (inorder m.map) (begin m)
  · simp [begin, Iterator_ctor, bst_copy_to_queue_eq]
  · rfl
  · rfl

end BSTMap


namespace Sample

theorem lt_int_irrefl (a : Int) : lt_int a a = false := by
  simp [lt_int]

theorem lt_int_trans (a b c : Int) (h1 : lt_int a b = true) (h2 : lt_int b c = true) :
    lt_int a c = true := by
  simp only [lt_int, decide_eq_true_eq] at *
  omega

theorem lt_int_total (a b : Int) (h : a ≠ b) : lt_int a b = true ∨ lt_int b a = true := by
  simp only [lt_int, decide_eq_true_eq]
  omega

theorem bst3_reachable : BSTMap.Reachable lt_int bst3 :=
  .by_erase _ 2 (.by_put _ 3 30 (.by_put _ 1 10 (.by_put _ 2 20 .by_ctor)))

end Sample

namespace HeapPriorityQueue

variable {T : Type} [Inhabited T]

theorem parent_eq (i : Nat) : parent i = (i - 1) / 2 := by
  unfold parent
  rcases Nat.eq_zero_or_pos i with h | h
  · rw [h]; rfl
  · have h1 : ((i : Int) - 1) = ((i - 1 : Nat) : Int) := by omega
    rw [h1, Int.tdiv_eq_ediv (Int.natCast_nonneg _) (by decide)]
    omega

theorem parent_zero : parent 0 = 0 := rfl

theorem parent_left (e : Nat) : parent (2 * e + 1) = e := by
  rw [parent_eq]; omega

theorem parent_right (e : Nat) : parent (2 * e + 2) = e := by
  rw [parent_eq]; omega

theorem parent_cases (c e : Nat) (hc : 0 < c) (h : parent c = e) :
    c = 2 * e + 1 ∨ c = 2 * e + 2 := by
  rw [parent_eq] at h; omega

theorem parent_lt (i : Nat) (h : 0 < i) : parent i < i := by
  rw [parent_eq]; omega

theorem in_heap_iff (n i : Nat) : in_heap n i = true ↔ i < n := by
  unfold in_heap
  simp only [decide_eq_true_eq]
  omega

theorem swap_length (pq : List T) (i j : Nat) : (swap pq i j).length = pq.length := by
  simp [swap]

theorem elem_swap (pq : List T) (i j k : Nat) (hi : i < pq.length) (hj : j < pq.length) :
    elem (swap pq i j) k
      = if k = j then elem pq i else if k = i then elem pq j else elem pq k := by
  unfold swap elem
  simp only [List.getD_eq_getElem?_getD, List.getElem?_set, List.length_set]
  by_cases h1 : k = j
  · subst h1
    simp [hj]
  · by_cases h2 : k = i
    · subst h2
      simp [hi, h1, Ne.symm h1]
    · simp [h1, h2, Ne.symm h1, Ne.symm h2]

theorem take_eq_ofFn (pq : List T) (n : Nat) (hn : n ≤ pq.length) :
    pq.take n = List.ofFn (fun k : Fin n => elem pq k.1) := by
  apply List.ext_getElem
  · simp [hn]
  · intro i h1 h2
    simp only [List.getElem_take, List.getElem_ofFn, elem]
    rw [List.getD_eq_getElem]

theorem take_swap_perm (pq : List T) (n i j : Nat) (hn : n ≤ pq.length) (hi : i < n)
    (hj : j < n) : ((swap pq i j).take n).Perm (pq.take n) := by
  rw [take_eq_ofFn _ n (by rw [swap_length]; exact hn), take_eq_ofFn pq n hn]
  have h : (fun k : Fin n => elem (swap pq i j) k.1)
      = (fun k : Fin n => elem pq k.1) ∘ (Equiv.swap (⟨i, hi⟩ : Fin n) ⟨j, hj⟩) := by
    funext k
    rw [elem_swap pq i j k.1 (by omega) (by omega)]
    simp only [Function.comp, Equiv.swap_apply_def]
    by_cases h1 : k = ⟨i, hi⟩
    · subst h1
      by_cases h3 : i = j
      · simp [h3]
      · simp [h3]
    · by_cases h2 : k = ⟨j, hj⟩
      · subst h2
        have hji : j ≠ i := fun h => h1 (Fin.ext h)
        simp [hji]
      · have h1v : k.1 ≠ i := fun h => h1 (Fin.ext h)
        have h2v : k.1 ≠ j := fun h => h2 (Fin.ext h)
        simp [h1, h2, h1v, h2v]
  rw [h]
  exact Equiv.Perm.ofFn_comp_perm _ _

end HeapPriorityQueue

namespace HeapPriorityQueue

variable {T : Type} [Inhabited T]

theorem gt_asymm (gt : T → T → Bool) (hirr : ∀ a, gt a a = false)
    (htr : ∀ a b c, gt a b = true → gt b c = true → gt a c = true) (a b : T)
    (h : gt a b = true) : gt b a = false := by
  cases hba : gt b a with
  | false => rfl
  | true =>
    have := htr a b a h hba
    rw [hirr] at this
    cases this

/-- The loop of `percolate_down` started at `e`, when every link between a slot and its
parent holds among the links whose parent slot is at least `lo`, except the links below
`e`, and the slots below `e` are not `gt` the slot above `e`: the loop ends, permutes the
first `n` slots and leaves every link with parent slot at least `lo` in order. -/
theorem percolate_down_loop_spec (gt : T → T → Bool) (hirr : ∀ a, gt a a = false)
    (htr : ∀ a b c, gt a b = true → gt b c = true → gt a c = true)
    (hneg : ∀ a b c, gt a b = false → gt b c = false → gt a c = false) (n lo : Nat) :
    ∀ (fuel e : Nat) (pq : List T), n ≤ pq.length → lo ≤ e → 1 ≤ fuel → n + 1 ≤ fuel + e →
      (∀ i, 0 < i → i < n → lo ≤ parent i → parent i ≠ e →
        gt (elem pq i) (elem pq (parent i)) = false) →
      (0 < e → lo ≤ parent e → ∀ c, c < n → 0 < c → parent c = e →
        gt (elem pq c) (elem pq (parent e)) = false) →
      ∃ pq2, percolate_down_loop gt n fuel pq e = some pq2 ∧ pq2.length = pq.length ∧
        (∀ i, 0 < i → i < n → lo ≤ parent i →
          gt (elem pq2 i) (elem pq2 (parent i)) = false) ∧
        (pq2.take n).Perm (pq.take n) := by
  intro fuel
  induction fuel with
  | zero => intro e pq _ _ h1; omega
  | succ fuel ih =>
    intro e pq hlen hlo _ hfuel pre1 pre2
    unfold percolate_down_loop
    by_cases he : e < n
    · rw [if_pos ((in_heap_iff n e).2 he)]
      simp only [in_heap_iff, left_child, right_child]
      -- the larger child
      have hchild : ∃ c, (if 2 * e + 2 < n ∧ gt (elem pq (2 * e + 2)) (elem pq (2 * e + 1)) = true
            then 2 * e + 2 else 2 * e + 1) = c ∧ (c = 2 * e + 1 ∨ c = 2 * e + 2) ∧
          (∀ s, s < n → (s = 2 * e + 1 ∨ s = 2 * e + 2) → c < n ∧ gt (elem pq s) (elem pq c) = false) := by
        by_cases hr : 2 * e + 2 < n ∧ gt (elem pq (2 * e + 2)) (elem pq (2 * e + 1)) = true
        · refine ⟨2 * e + 2, if_pos hr, Or.inr rfl, ?_⟩
          intro s hs hcs
          refine ⟨hr.1, ?_⟩
          rcases hcs with h | h
          · rw [h]; exact gt_asymm gt hirr htr _ _ hr.2
          · rw [h]; exact hirr _
        · refine ⟨2 * e + 1, if_neg hr, Or.inl rfl, ?_⟩
          intro s hs hcs
          rcases hcs with h | h
          · rw [h]; exact ⟨h ▸ hs, hirr _⟩
          · refine ⟨by omega, ?_⟩
            rw [h]
            cases hg : gt (elem pq (2 * e + 2)) (elem pq (2 * e + 1)) with
            | false => rfl
            | true => exact absurd ⟨h ▸ hs, hg⟩ hr
      obtain ⟨c, hceq, hcc, hmax⟩ := hchild
      rw [hceq]
      have hpc : parent c = e := by
        rcases hcc with h | h
        · rw [h]; exact parent_left e
        · rw [h]; exact parent_right e
      have hce : e < c := by omega
      by_cases hsw : c < n ∧ gt (elem pq c) (elem pq e) = true
      · rw [if_pos hsw]
        obtain ⟨hcn, hgt⟩ := hsw
        have hcl : c < pq.length := by omega
        have hel : e < pq.length := by omega
        have hsl := swap_length pq c e
        have hes : ∀ k, elem (swap pq c e) k
            = if k = e then elem pq c else if k = c then elem pq e else elem pq k :=
          fun k => elem_swap pq c e k hcl hel
        have hA : ∀ i, 0 < i → i < n → lo ≤ parent i → parent i ≠ c →
            gt (elem (swap pq c e) i) (elem (swap pq c e) (parent i)) = false := by
          intro i hi0 hin hlop hpne
          rw [hes i, hes (parent i)]
          have hpi := parent_lt i hi0
          by_cases hic : i = c
          · subst hic
            rw [hpc]
            simp only [if_neg (Nat.ne_of_gt hce), if_true]
            exact gt_asymm gt hirr htr _ _ hgt
          · by_cases hie : i = e
            · subst hie
              have h1 : parent i ≠ i := Nat.ne_of_lt hpi
              have h2 : parent i ≠ c := by omega
              simp only [if_true, if_neg h1, if_neg h2]
              exact pre2 hi0 hlop c hcn (by omega) hpc
            · simp only [if_neg hie, if_neg hic]
              by_cases hpe : parent i = e
              · rw [hpe]
                simp only [if_true]
                exact (hmax i hin (parent_cases i e hi0 hpe)).2
              · simp only [if_neg hpe, if_neg hpne]
                exact pre1 i hi0 hin hlop hpe
        have hB : 0 < c → lo ≤ parent c → ∀ d, d < n → 0 < d → parent d = c →
            gt (elem (swap pq c e) d) (elem (swap pq c e) (parent c)) = false := by
          intro _ _ d hdn hd0 hpd
          have hdc : c < d := by have := parent_lt d hd0; omega
          rw [hes d, hpc, hes e]
          simp only [if_neg (show d ≠ e by omega), if_neg (show d ≠ c by omega), if_true]
          have := pre1 d hd0 hdn (by rw [hpd]; omega) (by rw [hpd]; omega)
          rw [hpd] at this
          exact this
        obtain ⟨pq2, h1, h2, h3, h4⟩ := ih c (swap pq c e) (by omega) (by omega) (by omega)
          (by omega) hA hB
        exact ⟨pq2, h1, by omega, h3, h4.trans (take_swap_perm pq n c e hlen hcn he)⟩
      · rw [if_neg hsw]
        refine ⟨pq, rfl, rfl, ?_, List.Perm.refl _⟩
        intro i hi0 hin hlop
        by_cases hpe : parent i = e
        · rw [hpe]
          obtain ⟨hcn, hle⟩ := hmax i hin (parent_cases i e hi0 hpe)
          have hce2 : gt (elem pq c) (elem pq e) = false := by
            cases hg : gt (elem pq c) (elem pq e) with
            | false => rfl
            | true => exact absurd ⟨hcn, hg⟩ hsw
          exact hneg _ _ _ hle hce2
        · exact pre1 i hi0 hin hlop hpe
    · rw [if_neg (fun h => he ((in_heap_iff n e).1 h))]
      refine ⟨pq, rfl, rfl, ?_, List.Perm.refl _⟩
      intro i hi0 hin hlop
      have hpi := parent_lt i hi0
      exact pre1 i hi0 hin hlop (by omega)

theorem percolate_down_noop (gt : T → T → Bool) (n e fuel : Nat) (pq : List T)
    (h : ∀ c, c < n → 0 < c → parent c = e → gt (elem pq c) (elem pq e) = false) :
    percolate_down_loop gt n (fuel + 1) pq e = some pq := by
  unfold percolate_down_loop
  by_cases h1 : in_heap n e = true
  · rw [if_pos h1]
    simp only
    rw [if_neg]
    rintro ⟨h3, h4⟩
    rw [in_heap_iff] at h3
    by_cases h5 : in_heap n (right_child e) = true ∧
        gt (elem pq (right_child e)) (elem pq (left_child e)) = true
    · rw [if_pos h5] at h3 h4
      rw [h (right_child e) h3 (by unfold right_child; omega) (parent_right e)] at h4
      cases h4
    · rw [if_neg h5] at h3 h4
      rw [h (left_child e) h3 (by unfold left_child; omega) (parent_left e)] at h4
      cases h4
  · rw [if_neg h1]

/-- The loop of `percolate_up` at `e`, when every link holds except the one above `e` and
the slots below `e` are not `gt` the slot above `e`: the loop ends, permutes the first `n`
slots and leaves the heap ordering property. -/
theorem percolate_up_loop_spec (gt : T → T → Bool) (hirr : ∀ a, gt a a = false)
    (htr : ∀ a b c, gt a b = true → gt b c = true → gt a c = true)
    (hneg : ∀ a b c, gt a b = false → gt b c = false → gt a c = false) (n i : Nat)
    (hi : is_root n i = false) :
    ∀ (fuel e : Nat) (pq : List T), n ≤ pq.length → e < n → e < fuel →
      (∀ j, 0 < j → j < n → j ≠ e → gt (elem pq j) (elem pq (parent j)) = false) →
      (0 < e → ∀ c, c < n → 0 < c → parent c = e →
        gt (elem pq c) (elem pq (parent e)) = false) →
      ∃ pq2, percolate_up_loop gt n i fuel pq e = some pq2 ∧ pq2.length = pq.length ∧
        Heap gt n pq2 ∧ (pq2.take n).Perm (pq.take n) := by
  intro fuel
  induction fuel with
  | zero => intro e pq _ _ h1; omega
  | succ fuel ih =>
    intro e pq hlen hen hfuel pre1 pre2
    unfold percolate_up_loop
    by_cases hg : gt (elem pq e) (elem pq (parent e)) = true
    · rw [if_pos ⟨hi, hg⟩]
      have he0 : 0 < e := by
        rcases Nat.eq_zero_or_pos e with h | h
        · rw [h, parent_zero, hirr] at hg
          cases hg
        · exact h
      have hpe := parent_lt e he0
      have hel : e < pq.length := by omega
      have hpl : parent e < pq.length := by omega
      have hes : ∀ k, elem (swap pq e (parent e)) k
          = if k = parent e then elem pq e else if k = e then elem pq (parent e)
            else elem pq k :=
        fun k => elem_swap pq e (parent e) k hel hpl
      have hnoop : percolate_down gt n (swap pq e (parent e)) e
          = some (swap pq e (parent e)) := by
        unfold percolate_down
        apply percolate_down_noop
        intro c hcn hc0 hpc
        have hce : e < c := by have := parent_lt c hc0; omega
        rw [hes c, hes e]
        simp only [if_neg (show c ≠ parent e by omega), if_neg (show c ≠ e by omega),
          if_neg (show e ≠ parent e by omega), if_true]
        exact pre2 he0 c hcn hc0 hpc
      rw [hnoop]
      simp only
      have hA : ∀ j, 0 < j → j < n → j ≠ parent e →
          gt (elem (swap pq e (parent e)) j) (elem (swap pq e (parent e)) (parent j))
            = false := by
        intro j hj0 hjn hjp
        have hpj := parent_lt j hj0
        rw [hes j, hes (parent j)]
        by_cases hje : j = e
        · subst hje
          simp only [if_neg hjp, if_true]
          exact gt_asymm gt hirr htr _ _ hg
        · simp only [if_neg hjp, if_neg hje]
          by_cases hq1 : parent j = parent e
          · rw [hq1]
            simp only [if_true]
            have h1 := pre1 j hj0 hjn hje
            rw [hq1] at h1
            cases hje2 : gt (elem pq j) (elem pq e) with
            | false => rfl
            | true =>
              rw [htr _ _ _ hje2 hg] at h1
              cases h1
          · by_cases hq2 : parent j = e
            · rw [hq2]
              simp only [if_neg (show e ≠ parent e by omega), if_true]
              exact pre2 he0 j hjn hj0 hq2
            · simp only [if_neg hq1, if_neg hq2]
              exact pre1 j hj0 hjn hje
      have hB : 0 < parent e → ∀ c, c < n → 0 < c → parent c = parent e →
          gt (elem (swap pq e (parent e)) c)
            (elem (swap pq e (parent e)) (parent (parent e))) = false := by
        intro hp0 c hcn hc0 hpc
        have hgp := parent_lt (parent e) hp0
        have hpc2 := parent_lt c hc0
        rw [hes c, hes (parent (parent e))]
        simp only [if_neg (show parent (parent e) ≠ parent e by omega),
          if_neg (show parent (parent e) ≠ e by omega), if_neg (show c ≠ parent e by omega)]
        have hpg := pre1 (parent e) hp0 (by omega) (by omega)
        by_cases hce : c = e
        · rw [if_pos hce]
          exact hpg
        · rw [if_neg hce]
          have h1 := pre1 c hc0 hcn hce
          rw [hpc] at h1
          exact hneg _ _ _ h1 hpg
      obtain ⟨pq2, h1, h2, h3, h4⟩ := ih (parent e) (swap pq e (parent e))
        (by rw [swap_length]; exact hlen) (by omega) (by omega) hA hB
      exact ⟨pq2, h1, by rw [h2, swap_length], h3,
        h4.trans (take_swap_perm pq n e (parent e) hlen hen (by omega))⟩
    · rw [if_neg (fun h => hg h.2)]
      refine ⟨pq, rfl, rfl, ?_, List.Perm.refl _⟩
      intro j hj0 hjn
      by_cases hje : j = e
      · rw [hje]
        cases h : gt (elem pq e) (elem pq (parent e)) with
        | false => rfl
        | true => exact absurd h hg
      · exact pre1 j hj0 hjn hje

/-- In a heap no slot is `gt` slot 0. -/
theorem heap_root_max (gt : T → T → Bool) (hirr : ∀ a, gt a a = false)
    (hneg : ∀ a b c, gt a b = false → gt b c = false → gt a c = false) (n : Nat)
    (pq : List T) (h : Heap gt n pq) :
    ∀ k, k < n → gt (elem pq k) (elem pq 0) = false := by
  intro k
  induction k using Nat.strong_induction_on with
  | _ k ih =>
    intro hk
    rcases Nat.eq_zero_or_pos k with h0 | h0
    · rw [h0]; exact hirr _
    · have hp := parent_lt k h0
      exact hneg _ _ _ (h k h0 hk) (ih (parent k) hp (by omega))

theorem elem_set (pq : List T) (i k : Nat) (x : T) (hi : i < pq.length) :
    elem (pq.set i x) k = if k = i then x else elem pq k := by
  unfold elem
  simp only [List.getD_eq_getElem?_getD, List.getElem?_set]
  by_cases h : k = i
  · subst h
    simp [hi]
  · simp [h, Ne.symm h]

theorem elem_ensure_length (q : HeapPriorityQueue T) (m k : Nat) (hu : q.used ≤ q.pq.length)
    (hk : k < q.used) : elem (ensure_length q m) k = elem q.pq k := by
  unfold ensure_length
  split_ifs with h
  · rfl
  · unfold elem
    rw [List.getD_eq_getElem?_getD, List.getElem?_map, List.getElem?_range (by omega)]
    simp [hk, elem]

theorem ensure_length_le (q : HeapPriorityQueue T) (m : Nat) :
    m ≤ (ensure_length q m).length := by
  unfold ensure_length
  split_ifs with h
  · exact h
  · simp

theorem take_congr_elem (a b : List T) (n : Nat) (ha : n ≤ a.length) (hb : n ≤ b.length)
    (h : ∀ k, k < n → elem a k = elem b k) : a.take n = b.take n := by
  rw [take_eq_ofFn a n ha, take_eq_ofFn b n hb]
  congr 1
  funext k
  exact h k.1 k.2

theorem take_succ_elem (a : List T) (n : Nat) (ha : n < a.length) :
    a.take (n + 1) = a.take n ++ [elem a n] := by
  unfold elem
  rw [List.getD_eq_getElem _ _ ha, List.take_succ, List.getElem?_eq_getElem ha]
  rfl

/-- The method `enqueue` on a heap: it ends, returns 1, adds the element to the values
held and leaves a heap. -/
theorem enqueue_spec (gt : T → T → Bool) (hirr : ∀ a, gt a a = false)
    (htr : ∀ a b c, gt a b = true → gt b c = true → gt a c = true)
    (hneg : ∀ a b c, gt a b = false → gt b c = false → gt a c = false)
    (q : HeapPriorityQueue T) (element : T) (hu : q.used ≤ q.pq.length)
    (hh : Heap gt q.used q.pq) :
    ∃ q2, enqueue gt q element = some (1, q2) ∧ q2.used = q.used + 1 ∧
      q2.used ≤ q2.pq.length ∧ Heap gt q2.used q2.pq ∧
      q2.contents.Perm (element :: q.contents) ∧ q2.mod_count = q.mod_count + 1 := by
  have hel := ensure_length_le q (q.used + 2)
  have hlen1 : ((ensure_length q (q.used + 2)).set q.used element).length
      = (ensure_length q (q.used + 2)).length := List.length_set _ _ _
  have hes : ∀ k, elem ((ensure_length q (q.used + 2)).set q.used element) k
      = if k = q.used then element else elem (ensure_length q (q.used + 2)) k :=
    fun k => elem_set _ _ _ _ (by omega)
  have helem : ∀ k, k < q.used →
      elem ((ensure_length q (q.used + 2)).set q.used element) k = elem q.pq k := by
    intro k hk
    rw [hes k, if_neg (by omega), elem_ensure_length q _ k hu hk]
  have htake : ((ensure_length q (q.used + 2)).set q.used element).take (q.used + 1)
      = q.pq.take q.used ++ [element] := by
    rw [take_succ_elem _ _ (by omega), hes q.used, if_pos rfl]
    congr 1
    exact take_congr_elem _ _ _ (by omega) hu helem
  have hup : ∃ pq2, percolate_up gt (q.used + 1)
        ((ensure_length q (q.used + 2)).set q.used element) q.used = some pq2 ∧
      pq2.length = ((ensure_length q (q.used + 2)).set q.used element).length ∧
      Heap gt (q.used + 1) pq2 ∧
      (pq2.take (q.used + 1)).Perm
        (((ensure_length q (q.used + 2)).set q.used element).take (q.used + 1)) := by
    unfold percolate_up
    by_cases h0 : q.used = 0
    · refine ⟨_, ?_, rfl, ?_, List.Perm.refl _⟩
      · unfold percolate_up_loop
        rw [if_neg]
        simp [is_root, h0]
      · intro i hi0 hin
        omega
    · apply percolate_up_loop_spec gt hirr htr hneg (q.used + 1) q.used
        (by simp [is_root, h0]) (q.used + 1) q.used _ (by omega) (by omega) (by omega)
      · intro j hj0 hjn hje
        have hpj := parent_lt j hj0
        rw [helem j (by omega), helem (parent j) (by omega)]
        exact hh j hj0 (by omega)
      · intro _ c hcn hc0 hpc
        have := parent_lt c hc0
        omega
  obtain ⟨pq2, h1, h2, h3, h4⟩ := hup
  refine ⟨{ pq := pq2, used := q.used + 1, mod_count := q.mod_count + 1 }, ?_, rfl, ?_, h3,
    ?_, rfl⟩
  · unfold enqueue
    simp only [Nat.add_sub_cancel]
    rw [h1]
  · show q.used + 1 ≤ pq2.length
    omega
  · show (pq2.take (q.used + 1)).Perm (element :: q.pq.take q.used)
    rw [htake] at h4
    exact h4.trans (List.perm_append_singleton _ _)

/-- The method `dequeue` on a non-empty heap: it ends, returns the value of slot 0, which
no value held is `gt`, takes one occurrence of it off the values held and leaves a heap. -/
theorem dequeue_spec (gt : T → T → Bool) (hirr : ∀ a, gt a a = false)
    (htr : ∀ a b c, gt a b = true → gt b c = true → gt a c = true)
    (hneg : ∀ a b c, gt a b = false → gt b c = false → gt a c = false)
    (q : HeapPriorityQueue T) (hu : q.used ≤ q.pq.length) (hh : Heap gt q.used q.pq)
    (hne : q.used ≠ 0) :
    ∃ val q2, dequeue gt q = some (.ok (val, q2)) ∧ q2.used + 1 = q.used ∧
      q2.used ≤ q2.pq.length ∧ Heap gt q2.used q2.pq ∧
      q.contents.Perm (val :: q2.contents) ∧ (∀ x ∈ q.contents, gt x val = false) ∧
      q2.mod_count = q.mod_count + 1 := by
  have hlen0 : 0 < q.pq.length := by omega
  have hes : ∀ k, elem (q.pq.set 0 (elem q.pq (q.used - 1))) k
      = if k = 0 then elem q.pq (q.used - 1) else elem q.pq k :=
    fun k => elem_set _ _ _ _ hlen0
  have hlen1 : (q.pq.set 0 (elem q.pq (q.used - 1))).length = q.pq.length :=
    List.length_set _ _ _
  -- the values held
  have hperm : (q.pq.take q.used).Perm
      (elem q.pq 0 :: (q.pq.set 0 (elem q.pq (q.used - 1))).take (q.used - 1)) := by
    have h1 := take_swap_perm q.pq q.used 0 (q.used - 1) hu (by omega) (by omega)
    have h2 : (swap q.pq 0 (q.used - 1)).take q.used
        = (q.pq.set 0 (elem q.pq (q.used - 1))).take (q.used - 1) ++ [elem q.pq 0] := by
      have hs : q.used = (q.used - 1) + 1 := by omega
      rw [hs, take_succ_elem _ _ (by rw [swap_length]; omega)]
      simp only [Nat.add_sub_cancel]
      rw [elem_swap q.pq 0 (q.used - 1) (q.used - 1) hlen0 (by omega), if_pos rfl]
      congr 1
      apply take_congr_elem _ _ _ (by rw [swap_length]; omega) (by omega)
      intro k hk
      rw [elem_swap q.pq 0 (q.used - 1) k hlen0 (by omega), hes k,
        if_neg (show k ≠ q.used - 1 by omega)]
    rw [h2] at h1
    exact h1.symm.trans (List.perm_append_singleton _ _)
  have hmax : ∀ x ∈ q.pq.take q.used, gt x (elem q.pq 0) = false := by
    intro x hx
    rw [take_eq_ofFn q.pq q.used hu, List.mem_ofFn] at hx
    obtain ⟨k, hk⟩ := hx
    rw [← hk]
    exact heap_root_max gt hirr hneg q.used q.pq hh k.1 k.2
  unfold dequeue
  rw [if_neg (by simp [empty, hne])]
  simp only
  by_cases h1 : q.used - 1 = 0
  · rw [if_neg (by simp [h1])]
    refine ⟨_, _, rfl, by show q.used - 1 + 1 = q.used; omega, ?_, ?_, hperm, hmax, rfl⟩
    · show q.used - 1 ≤ (q.pq.set 0 (elem q.pq (q.used - 1))).length
      omega
    · intro i hi0 hin
      have : i < q.used - 1 := hin
      omega
  · rw [if_pos (by simp [h1])]
    obtain ⟨pq2, h2, h3, h4, h5⟩ := percolate_down_loop_spec gt hirr htr hneg (q.used - 1) 0
      (q.used - 1 + 1) 0 (q.pq.set 0 (elem q.pq (q.used - 1))) (by omega) (le_refl _)
      (by omega) (by omega)
      (by
        intro i hi0 hin _ hp
        have hpi := parent_lt i hi0
        rw [hes i, hes (parent i), if_neg (by omega), if_neg hp]
        exact hh i hi0 (by omega))
      (by intro h; omega)
    unfold percolate_down
    rw [h2]
    refine ⟨_, _, rfl, by show q.used - 1 + 1 = q.used; omega, ?_, ?_, ?_, hmax, rfl⟩
    · show q.used - 1 ≤ pq2.length
      omega
    · intro i hi0 hin
      exact h4 i hi0 hin (Nat.zero_le _)
    · exact hperm.trans (List.Perm.cons _ h5.symm)

/-- The method `heapify` on any array with `n` slots in use: it ends, permutes the slots
in use and leaves a heap. -/
theorem heapify_spec (gt : T → T → Bool) (hirr : ∀ a, gt a a = false)
    (htr : ∀ a b c, gt a b = true → gt b c = true → gt a c = true)
    (hneg : ∀ a b c, gt a b = false → gt b c = false → gt a c = false) (n : Nat) :
    ∀ (k : Nat) (pq : List T), k ≤ n → n ≤ pq.length →
      (∀ i, 0 < i → i < n → k ≤ parent i → gt (elem pq i) (elem pq (parent i)) = false) →
      ∃ pq2, (List.range k).reverse.foldlM (fun a (i : Nat) => percolate_down gt n a i) pq
          = some pq2 ∧ pq2.length = pq.length ∧ Heap gt n pq2 ∧
        (pq2.take n).Perm (pq.take n) := by
  intro k
  induction k with
  | zero =>
    intro pq _ _ h
    exact ⟨pq, rfl, rfl, fun i hi0 hin => h i hi0 hin (Nat.zero_le _), List.Perm.refl _⟩
  | succ k ih =>
    intro pq hk hlen h
    obtain ⟨pq1, h1, h2, h3, h4⟩ := percolate_down_loop_spec gt hirr htr hneg n k (n + 1) k pq
      hlen (le_refl _) (by omega) (by omega)
      (fun i hi0 hin hlo hne => h i hi0 hin (by omega))
      (by
        intro hk0 hlo
        have := parent_lt k hk0
        omega)
    obtain ⟨pq2, h5, h6, h7, h8⟩ := ih pq1 (by omega) (by omega) h3
    refine ⟨pq2, ?_, by omega, h7, h8.trans h4⟩
    rw [List.range_succ, List.reverse_append, List.reverse_singleton, List.singleton_append,
      List.foldlM_cons]
    have : percolate_down gt n pq k = some pq1 := h1
    rw [this]
    exact h5

/-- The invariant of `HeapPriorityQueue`: the slots in use lie in the array and satisfy the
heap ordering property. -/
theorem reachable_heap (gt : T → T → Bool) (hirr : ∀ a, gt a a = false)
    (htr : ∀ a b c, gt a b = true → gt b c = true → gt a c = true)
    (hneg : ∀ a b c, gt a b = false → gt b c = false → gt a c = false)
    (q : HeapPriorityQueue T) (hr : Reachable gt q) :
    q.used ≤ q.pq.length ∧ Heap gt q.used q.pq := by
  induction hr with
  | by_ctor => exact ⟨Nat.zero_le _, fun i hi0 hin => absurd hin (Nat.not_lt_zero i)⟩
  | by_ctor_length n => exact ⟨Nat.zero_le _, fun i hi0 hin => absurd hin (Nat.not_lt_zero i)⟩
  | by_ctor_il il q h =>
    obtain ⟨pq2, h1, h2, h3, -⟩ := heapify_spec gt hirr htr hneg il.length il.length il
      (le_refl _) (le_refl _)
      (by
        intro i hi0 hin hlo
        have := parent_lt i hi0
        omega)
    unfold ctor_il heapify at h
    rw [h1] at h
    simp only [Option.map_some', Option.some.injEq] at h
    rw [← h]
    exact ⟨by show il.length ≤ pq2.length; omega, h3⟩
  | by_enqueue q element r q2 _ h ih =>
    obtain ⟨q3, h1, -, h3, h4, -⟩ := enqueue_spec gt hirr htr hneg q element ih.1 ih.2
    rw [h1] at h
    simp only [Option.some.injEq, Prod.mk.injEq] at h
    rw [← h.2]
    exact ⟨h3, h4⟩
  | by_dequeue q val q2 _ h ih =>
    by_cases hne : q.used = 0
    · unfold dequeue at h
      rw [if_pos (by simp [empty, hne])] at h
      simp at h
    · obtain ⟨v, q3, h1, -, h3, h4, -⟩ := dequeue_spec gt hirr htr hneg q ih.1 ih.2 hne
      rw [h1] at h
      simp only [Option.some.injEq, Except.ok.injEq, Prod.mk.injEq] at h
      rw [← h.2]
      exact ⟨h3, h4⟩

end HeapPriorityQueue

namespace HeapPriorityQueue

variable {T : Type} [Inhabited T]

/-- The loop of `percolate_down` ends on every array: each iteration moves `e` to a larger
index below `n`. -/
theorem percolate_down_loop_ends (gt : T → T → Bool) (n : Nat) :
    ∀ (fuel e : Nat) (pq : List T), 1 ≤ fuel → n + 1 ≤ fuel + e →
      (percolate_down_loop gt n fuel pq e).isSome = true := by
  intro fuel
  induction fuel with
  | zero => intro e pq h; omega
  | succ fuel ih =>
    intro e pq _ hf
    unfold percolate_down_loop
    by_cases he : in_heap n e = true
    · rw [if_pos he]
      simp only
      split_ifs with h1 h2 h3
      · have := (in_heap_iff n _).1 h2.1
        unfold right_child at this ⊢
        exact ih _ _ (by omega) (by omega)
      · rfl
      · have := (in_heap_iff n _).1 h3.1
        unfold left_child at this ⊢
        exact ih _ _ (by omega) (by omega)
      · rfl
    · rw [if_neg he]
      rfl

/-- The loop of `percolate_up` ends on every array when `gt` is irreflexive: each iteration
moves `e` to its parent, a smaller index, and at `e = 0` the test compares slot 0 with
itself. -/
theorem percolate_up_loop_ends (gt : T → T → Bool) (hirr : ∀ a, gt a a = false) (n i : Nat) :
    ∀ (fuel e : Nat) (pq : List T), e < fuel →
      (percolate_up_loop gt n i fuel pq e).isSome = true := by
  intro fuel
  induction fuel with
  | zero => intro e pq h; omega
  | succ fuel ih =>
    intro e pq hf
    unfold percolate_up_loop
    split_ifs with h
    · have he0 : 0 < e := by
        rcases Nat.eq_zero_or_pos e with h0 | h0
        · rw [h0, parent_zero, hirr] at h
          cases h.2
        · exact h0
      have hp := parent_lt e he0
      have hd := percolate_down_loop_ends gt n (n + 1) e (swap pq e (parent e)) (by omega)
        (by omega)
      unfold percolate_down
      obtain ⟨pq2, h2⟩ := Option.isSome_iff_exists.1 hd
      rw [h2]
      exact ih _ _ (by omega)
    · rfl

end HeapPriorityQueue

namespace Sample

theorem gt_int_irrefl (a : Int) : gt_int a a = false := by
  simp [gt_int]

theorem gt_int_trans (a b c : Int) (h1 : gt_int a b = true) (h2 : gt_int b c = true) :
    gt_int a c = true := by
  simp only [gt_int, decide_eq_true_eq] at *
  omega

theorem gt_int_neg_trans (a b c : Int) (h1 : gt_int a b = false) (h2 : gt_int b c = false) :
    gt_int a c = false := by
  simp only [gt_int, decide_eq_false_iff_not] at *
  omega

theorem heap3_reachable : HeapPriorityQueue.Reachable gt_int heap3 :=
  .by_enqueue heap2 3 1 heap3
    (.by_enqueue heap1 5 1 heap2
      (.by_enqueue HeapPriorityQueue.ctor 1 1 heap1 .by_ctor (by decide)) (by decide))
    (by decide)

end Sample

/-- The default, bin-count and initializer-list / iterable constructors of
`HashMap` and `HashSet` and the copy constructor of `HashSet` leave `load_threshold > 0`
and `bins >= 1`, with `load_threshold` 1 whenever the threshold argument is `<= 0` and
`bins` 1 whenever the initial-bins argument is `< 1`.  The copy constructor of `HashMap`
leaves `bins >= 1` as well, but for a threshold argument `<= 0` it takes the load
threshold of the table copied, which is positive when that of the source is.  (The copy
constructors are given a well-formed source, which has `bins >= 1`.) -/
theorem constructors_threshold_and_bins {K V T : Type} [DecidableEq K] [DecidableEq V]
    [DecidableEq T] :
    (∀ (code : hashfunc → K → Int) (thash chash : hashfunc) (t : ℚ) (initial_bins : Int)
        (il : List (K × V)) (m : HashMap K V),
      (HashMap.ctor_default code thash t chash = .ok m ∨
        HashMap.ctor_bins code thash initial_bins t chash = .ok m ∨
        HashMap.ctor_il code thash il t chash = .ok m) →
      0 < m.load_threshold ∧ 1 ≤ m.bins ∧ (t ≤ 0 → m.load_threshold = 1)) ∧
    (∀ (code : hashfunc → K → Int) (thash chash : hashfunc) (t : ℚ) (initial_bins : Int)
        (m : HashMap K V),
      HashMap.ctor_bins code thash initial_bins t chash = .ok m → initial_bins < 1 →
      m.bins = 1) ∧
    (∀ (code : hashfunc → K → Int) (thash chash : hashfunc) (t : ℚ) (a b : HashMap K V),
      HashMap.WF code b → HashMap.ctor_copy code thash b t chash = .ok a →
      1 ≤ a.bins ∧ (0 < b.load_threshold → 0 < a.load_threshold) ∧
      (t ≤ 0 → a.load_threshold = b.load_threshold)) ∧
    (∀ (code : hashfunc → T → Int) (thash chash : hashfunc) (t : ℚ) (initial_bins : Int)
        (il : List T) (s : HashSet T),
      (HashSet.ctor_default code thash t chash = .ok s ∨
        HashSet.ctor_bins code thash initial_bins t chash = .ok s ∨
        HashSet.ctor_il code thash il t chash = .ok s) →
      0 < s.load_threshold ∧ 1 ≤ s.bins ∧ (t ≤ 0 → s.load_threshold = 1)) ∧
    (∀ (code : hashfunc → T → Int) (thash chash : hashfunc) (t : ℚ) (initial_bins : Int)
        (s : HashSet T),
      HashSet.ctor_bins code thash initial_bins t chash = .ok s → initial_bins < 1 →
      s.bins = 1) ∧
    (∀ (code : hashfunc → T → Int) (thash chash : hashfunc) (t : ℚ) (a b : HashSet T),
      HashSet.WF code b → HashSet.ctor_copy code thash b t chash = .ok a →
      0 < a.load_threshold ∧ 1 ≤ a.bins ∧ (t ≤ 0 → a.load_threshold = 1)) := by
  refine ⟨?_, ?_, ?_, ?_, ?_, ?_⟩
  · intro code thash chash t ib il m h
    have key : HashMap.WF code m ∧ m.load_threshold = if t ≤ 0 then 1 else t := by
      rcases h with h | h | h
      · rw [HashMap.ctor_default_eq] at h
        obtain ⟨hw, -, -, -, hl, -⟩ := HashMap.ctor_bins_spec code thash 1 t chash m h
        exact ⟨hw, hl⟩
      · obtain ⟨hw, -, -, -, hl, -⟩ := HashMap.ctor_bins_spec code thash ib t chash m h
        exact ⟨hw, hl⟩
      · exact ⟨HashMap.ctor_il_WF code thash chash t il m h,
          HashMap.ctor_il_load_threshold code thash chash t il m h⟩
    obtain ⟨hw, hl⟩ := key
    refine ⟨?_, hw.1.1, fun ht => ?_⟩
    · rw [hl]
      exact threshold_pos t
    · rw [hl, if_pos ht]
  · intro code thash chash t ib m h hib
    obtain ⟨-, -, -, hb, -⟩ := HashMap.ctor_bins_spec code thash ib t chash m h
    rw [hb, if_pos hib]
  · intro code thash chash t a b hb h
    have hl := HashMap.ctor_copy_load_threshold code thash chash t a b h
    obtain ⟨hwa, -⟩ := HashMap.ctor_copy_spec code thash chash t a b hb h
    refine ⟨hwa.1.1, fun hpos => ?_, fun ht => ?_⟩
    · rw [hl]
      split
      · exact hpos
      · rename_i hn
        exact not_le.1 hn
    · rw [hl, if_pos ht]
  · intro code thash chash t ib il s h
    have key : HashSet.WF code s ∧ s.load_threshold = if t ≤ 0 then 1 else t := by
      rcases h with h | h | h
      · rw [HashSet.set_ctor_default_eq] at h
        obtain ⟨hw, -, -, -, hl, -⟩ := HashSet.set_ctor_bins_spec code thash 1 t chash s h
        exact ⟨hw, hl⟩
      · obtain ⟨hw, -, -, -, hl, -⟩ := HashSet.set_ctor_bins_spec code thash ib t chash s h
        exact ⟨hw, hl⟩
      · exact ⟨HashSet.set_ctor_il_WF code thash chash t il s h,
          HashSet.set_ctor_il_load_threshold code thash chash t il s h⟩
    obtain ⟨hw, hl⟩ := key
    refine ⟨?_, hw.1.1, fun ht => ?_⟩
    · rw [hl]
      exact threshold_pos t
    · rw [hl, if_pos ht]
  · intro code thash chash t ib s h hib
    obtain ⟨-, -, -, hb, -⟩ := HashSet.set_ctor_bins_spec code thash ib t chash s h
    rw [hb, if_pos hib]
  · intro code thash chash t a b hb h
    have hl := HashSet.set_ctor_copy_load_threshold code thash chash t a b h
    obtain ⟨hwa, -⟩ := HashSet.set_ctor_copy_spec code thash chash t a b hb h
    refine ⟨?_, hwa.1.1, fun ht => ?_⟩
    · rw [hl]
      exact threshold_pos t
    · rw [hl, if_pos ht]

namespace Nodes

variable {E K : Type} [DecidableEq K] [Inhabited E]

theorem nodes_chain_length (live : List E) :
    (live.map some ++ [none] : List (Option E)).length = live.length + 1 := by
  simp

theorem nodes_chain_pos (c : List (Option E)) (h : Chain c) : 0 < c.length := by
  obtain ⟨live, rfl⟩ := h
  simp

theorem nodes_chain_cons (c : List (Option E)) (e : E) (h : Chain c) : Chain (some e :: c) := by
  obtain ⟨live, rfl⟩ := h
  exact ⟨e :: live, by simp⟩

theorem nodes_chain_eraseIdx_eq :
    ∀ (live : List E) (p : Nat), p < live.length →
      (live.map some ++ [none] : List (Option E)).eraseIdx p
        = (live.eraseIdx p).map some ++ [none] := by
  intro live
  induction live with
  | nil => intro p hp; simp at hp
  | cons x rest ih =>
    intro p hp
    cases p with
    | zero => simp
    | succ q =>
      have hq : q < rest.length := by simpa using hp
      simp only [List.map_cons, List.cons_append, List.eraseIdx_cons_succ]
      rw [ih q hq]

theorem nodes_chain_eraseIdx (c : List (Option E)) (p : Nat) (h : Chain c)
    (hp : p + 1 < c.length) : Chain (c.eraseIdx p) := by
  obtain ⟨live, rfl⟩ := h
  rw [nodes_chain_length] at hp
  exact ⟨live.eraseIdx p, nodes_chain_eraseIdx_eq live p (by omega)⟩

theorem nodes_chain_set_eq :
    ∀ (live : List E) (p : Nat) (v : E), p < live.length →
      (live.map some ++ [none] : List (Option E)).set p (some v)
        = (live.set p v).map some ++ [none] := by
  intro live
  induction live with
  | nil => intro p v hp; simp at hp
  | cons x rest ih =>
    intro p v hp
    cases p with
    | zero => simp
    | succ q =>
      have hq : q < rest.length := by simpa using hp
      simp only [List.map_cons, List.cons_append, List.set_cons_succ]
      rw [ih q v hq]

theorem nodes_chain_set (c : List (Option E)) (p : Nat) (v : E) (h : Chain c)
    (hp : p + 1 < c.length) : Chain (c.set p (some v)) := by
  obtain ⟨live, rfl⟩ := h
  rw [nodes_chain_length] at hp
  exact ⟨live.set p v, nodes_chain_set_eq live p v (by omega)⟩

theorem nodes_chain_dropLast (live : List E) :
    (live.map some ++ [none] : List (Option E)).dropLast = live.map some := by
  simp

theorem nodes_copy_list_eq :
    ∀ (live : List E), copy_list (live.map some ++ [none] : List (Option E))
      = live.map some ++ [none] := by
  intro live
  induction live with
  | nil => rfl
  | cons x rest ih =>
    obtain ⟨y, r, hy⟩ : ∃ y r, (rest.map some ++ [none] : List (Option E)) = y :: r := by
      cases rest with
      | nil => exact ⟨_, _, rfl⟩
      | cons z r2 => exact ⟨_, _, rfl⟩
    simp only [List.map_cons, List.cons_append]
    rw [hy, copy_list, ← hy, ih]
    rfl

theorem nodes_copy_list_chain (c : List (Option E)) (h : Chain c) : Chain (copy_list c) := by
  obtain ⟨live, rfl⟩ := h
  exact ⟨live, nodes_copy_list_eq live⟩

/-- The node that `find` returns has a successor, holds the value returned, and its key is
the key looked for. -/
theorem nodes_find_spec (key : E → K) (k : K) :
    ∀ (ch : List (Option E)) (p : Nat) (e : E), find key k ch = some (p, e) →
      p + 1 < ch.length ∧ (ch[p]?).map read = some e ∧ key e = k := by
  intro ch
  induction ch with
  | nil => intro p e h; simp [find] at h
  | cons x rest ih =>
    intro p e h
    cases rest with
    | nil => simp [find] at h
    | cons y rest2 =>
      unfold find at h
      by_cases hk : k = key (read x)
      · rw [if_pos hk] at h
        simp only [Option.some.injEq, Prod.mk.injEq] at h
        obtain ⟨rfl, rfl⟩ := h
        exact ⟨by simp, rfl, hk.symm⟩
      · rw [if_neg hk] at h
        cases hf : find key k (y :: rest2) with
        | none => rw [hf] at h; simp at h
        | some q =>
          rw [hf] at h
          simp only [Option.map_some', Option.some.injEq, Prod.mk.injEq] at h
          obtain ⟨rfl, rfl⟩ := h
          obtain ⟨h1, h2, h3⟩ := ih q.1 q.2 hf
          refine ⟨by simpa using h1, ?_, h3⟩
          simpa using h2

/-- In a chain ended by one `LN()` node, the node that `find` returns was built with the
value returned. -/
theorem nodes_find_chain (key : E → K) (k : K) (ch : List (Option E)) (hc : Chain ch)
    (p : Nat) (e : E) (h : find key k ch = some (p, e)) :
    p + 1 < ch.length ∧ ch[p]? = some (some e) ∧ key e = k := by
  obtain ⟨h1, h2, h3⟩ := nodes_find_spec key k ch p e h
  refine ⟨h1, ?_, h3⟩
  obtain ⟨live, rfl⟩ := hc
  rw [nodes_chain_length] at h1
  have hp : p < live.length := by omega
  rw [List.getElem?_append_left (by simpa using hp)] at h2 ⊢
  rw [List.getElem?_map] at h2 ⊢
  rw [List.getElem?_eq_getElem hp] at h2 ⊢
  simp only [Option.map_some', Option.some.injEq] at h2 ⊢
  exact h2

theorem nodes_new_array_all (bins : Nat) :
    (new_array bins : List (List (Option E))).length = bins ∧
      ∀ c ∈ (new_array bins : List (List (Option E))), Chain c := by
  refine ⟨by simp [new_array], ?_⟩
  intro c hc
  rw [new_array, List.mem_replicate] at hc
  rw [hc.2]
  exact ⟨[], rfl⟩

theorem nodes_set_all (a : List (List (Option E))) (i : Nat) (x : List (Option E))
    (ha : ∀ c ∈ a, Chain c) (hx : i < a.length → Chain x) : ∀ c ∈ a.set i x, Chain c := by
  intro c hc
  rcases Nat.lt_or_ge i a.length with hi | hi
  · rcases List.mem_or_eq_of_mem_set hc with h | h
    · exact ha c h
    · rw [h]; exact hx hi
  · rw [List.set_eq_of_length_le hi] at hc
    exact ha c hc

theorem nodes_getD_chain (a : List (List (Option E))) (i : Nat) (ha : ∀ c ∈ a, Chain c)
    (hi : i < a.length) : Chain (a.getD i []) := by
  rw [List.getD_eq_getElem _ _ hi]
  exact ha _ (List.getElem_mem _)

theorem nodes_relink_fold (place : E → Nat) (l : List (Option E))
    (hl : ∀ x ∈ l, ∃ e, x = some e) :
    ∀ (tm : List (List (Option E))), (∀ c ∈ tm, Chain c) →
      (l.foldl (fun tm x => tm.set (place (read x)) (x :: tm.getD (place (read x)) []))
        tm).length = tm.length ∧
      ∀ c ∈ l.foldl (fun tm x => tm.set (place (read x)) (x :: tm.getD (place (read x)) []))
        tm, Chain c := by
  induction l with
  | nil => intro tm h; exact ⟨rfl, h⟩
  | cons x rest ih =>
    intro tm h
    rw [List.foldl_cons]
    obtain ⟨e, rfl⟩ := hl x (List.mem_cons_self _ _)
    obtain ⟨h1, h2⟩ := ih (fun y hy => hl y (List.mem_cons_of_mem _ hy))
      (tm.set (place (read (some e))) (some e :: tm.getD (place (read (some e))) []))
      (nodes_set_all tm _ _ h (fun hi => nodes_chain_cons _ e (nodes_getD_chain tm _ h hi)))
    refine ⟨?_, h2⟩
    rw [h1, List.length_set]

theorem nodes_relink_all (place : E → Nat) (chain : List (Option E)) (hc : Chain chain) :
    ∀ (tm : List (List (Option E))), (∀ c ∈ tm, Chain c) →
      (relink place tm chain).length = tm.length ∧ ∀ c ∈ relink place tm chain, Chain c := by
  unfold relink
  apply nodes_relink_fold
  obtain ⟨live, rfl⟩ := hc
  rw [nodes_chain_dropLast]
  intro x hx
  obtain ⟨e, -, rfl⟩ := List.mem_map.1 hx
  exact ⟨e, rfl⟩

theorem nodes_rehash_all (place : E → Nat) (old : List (List (Option E))) :
    (∀ c ∈ old, Chain c) →
    ∀ (tm : List (List (Option E))), (∀ c ∈ tm, Chain c) →
      (old.foldl (relink place) tm).length = tm.length ∧
        ∀ c ∈ old.foldl (relink place) tm, Chain c := by
  induction old with
  | nil => intro _ tm h; exact ⟨rfl, h⟩
  | cons ch rest ih =>
    intro ho tm h
    rw [List.foldl_cons]
    obtain ⟨h1, h2⟩ := nodes_relink_all place ch (ho ch (List.mem_cons_self _ _)) tm h
    obtain ⟨h3, h4⟩ := ih (fun c hc => ho c (List.mem_cons_of_mem _ hc)) (relink place tm ch) h2
    exact ⟨by rw [h3, h1], h4⟩

theorem nodes_ensure_inv (code : hashfunc → K → Int) (key : E → K) (t : Table E) (n : Int)
    (hb : 1 ≤ t.bins) (ha : ∀ a, t.map = some a → a.length = t.bins ∧ ∀ c ∈ a, Chain c) :
    Inv (ensure_load_threshold code key t n) ∧
      (ensure_load_threshold code key t n).map.isSome = true ∧
      (ensure_load_threshold code key t n).used = t.used ∧
      (ensure_load_threshold code key t n).mod_count = t.mod_count := by
  have h0 : (match t.map with
      | none => (new_array t.bins : List (List (Option E)))
      | some a => a).length = t.bins ∧
      ∀ c ∈ (match t.map with
        | none => (new_array t.bins : List (List (Option E)))
        | some a => a), Chain c := by
    cases hm : t.map with
    | none => exact nodes_new_array_all t.bins
    | some a => exact ha a hm
  unfold ensure_load_threshold
  simp only
  split_ifs with hr
  · refine ⟨⟨hb, ?_, ?_⟩, rfl, rfl, rfl⟩
    · intro hm; cases hm
    · intro a hm
      simp only [Option.some.injEq] at hm
      rw [← hm]
      exact h0
  · refine ⟨⟨?_, ?_, ?_⟩, rfl, rfl, rfl⟩
    · show 1 ≤ t.bins * 2
      omega
    · intro hm; cases hm
    · intro a hm
      simp only [Option.some.injEq] at hm
      rw [← hm]
      obtain ⟨h1, h2⟩ := nodes_rehash_all
        (fun e => (hash_compress code ({ t with bins := t.bins * 2 } : Table E)
          (key e)).toNat)
        (match t.map with
          | none => (new_array t.bins : List (List (Option E)))
          | some a => a) h0.2
        (new_array (t.bins * 2)) (nodes_new_array_all (t.bins * 2)).2
      exact ⟨h1.trans (nodes_new_array_all (t.bins * 2)).1, h2⟩

theorem nodes_inv_cells (t : Table E) (h : Inv t) (hm : t.map.isSome = true) :
    (cells t).length = t.bins ∧ ∀ c ∈ cells t, Chain c := by
  unfold cells
  cases hmap : t.map with
  | none => rw [hmap] at hm; cases hm
  | some a => exact h.2.2 a hmap

theorem nodes_inv_intro (t2 : Table E) (a : List (List (Option E))) (hm : t2.map = some a)
    (hb : 1 ≤ t2.bins) (hlen : a.length = t2.bins) (hall : ∀ c ∈ a, Chain c) : Inv t2 := by
  refine ⟨hb, ?_, ?_⟩
  · intro h2
    rw [hm] at h2
    cases h2
  · intro a2 h2
    rw [hm] at h2
    simp only [Option.some.injEq] at h2
    rw [← h2]
    exact ⟨hlen, hall⟩

theorem nodes_add_inv (code : hashfunc → K → Int) (key : E → K) (t : Table E) (e : E)
    (h : Inv t) : Inv (add code key t e) ∧ (add code key t e).mod_count = t.mod_count := by
  obtain ⟨h2, h3, -, hmc⟩ := nodes_ensure_inv code key
    ({ t with used := t.used + 1 } : Table E) (t.used + 1) h.1 h.2.2
  obtain ⟨h4, h5⟩ := nodes_inv_cells _ h2 h3
  unfold add
  simp only
  refine ⟨nodes_inv_intro _ _ rfl h2.1 ?_ ?_, hmc⟩
  · unfold link_front
    rw [List.length_set]
    exact h4
  · exact nodes_set_all _ _ _ h5 (fun hi => nodes_chain_cons _ e (nodes_getD_chain _ _ h5 hi))

theorem nodes_insert_inv (code : hashfunc → K → Int) (key : E → K) (t : Table E) (e : E)
    (h : Inv t) : Inv (insert code key t e) := by
  unfold insert
  cases find_node code key t (key e) with
  | some q => exact h
  | none =>
    exact (nodes_add_inv code key ({ t with mod_count := t.mod_count + 1 } : Table E) e h).1

theorem nodes_insert_mod (code : hashfunc → K → Int) (key : E → K) (t : Table E) (e : E)
    (h : Inv t) :
    insert code key t e = t ∨ t.mod_count < (insert code key t e).mod_count := by
  unfold insert
  cases find_node code key t (key e) with
  | some q => exact Or.inl rfl
  | none =>
    right
    have h1 : Inv ({ t with mod_count := t.mod_count + 1 } : Table E) := h
    rw [(nodes_add_inv code key _ e h1).2]
    show t.mod_count < t.mod_count + 1
    omega

theorem nodes_getD_mem (a : List (List (Option E))) (b : Nat)
    (h : 0 < (a.getD b []).length) : b < a.length ∧ a.getD b [] ∈ a := by
  rcases Nat.lt_or_ge b a.length with hb | hb
  · refine ⟨hb, ?_⟩
    rw [List.getD_eq_getElem _ _ hb]
    exact List.getElem_mem _
  · rw [List.getD_eq_default _ _ hb] at h
    simp at h

/-- The node that `find_key` / `find_element` returns lies in the bin of its key, has a
successor, and was built with the value returned. -/
theorem nodes_find_node_spec (code : hashfunc → K → Int) (key : E → K) (t : Table E)
    (hi : Inv t) (k : K) (p : Nat) (e : E) (h : find_node code key t k = some (p, e)) :
    p + 1 < ((cells t).getD (hash_compress code t k).toNat []).length ∧
      ((cells t).getD (hash_compress code t k).toNat [])[p]? = some (some e) ∧ key e = k ∧
      t.map.isSome = true := by
  unfold find_node at h
  cases hm : t.map with
  | none => rw [hm] at h; cases h
  | some a =>
    rw [hm] at h
    have hc : cells t = a := by unfold cells; rw [hm]; rfl
    rw [hc]
    have h1 := (nodes_find_spec key k _ p e h).1
    obtain ⟨hb, hmem⟩ := nodes_getD_mem a (hash_compress code t k).toNat (by omega)
    obtain ⟨h1, h2, h3⟩ := nodes_find_chain key k _ ((hi.2.2 a hm).2 _ hmem) p e h
    exact ⟨h1, h2, h3, rfl⟩

theorem nodes_splice_all (a : List (List (Option E))) (b p : Nat) (ha : ∀ c ∈ a, Chain c)
    (hp : p + 1 < (a.getD b []).length) :
    (splice a b p).length = a.length ∧ ∀ c ∈ splice a b p, Chain c := by
  unfold splice
  refine ⟨List.length_set _ _ _, ?_⟩
  apply nodes_set_all a b _ ha
  intro hb
  exact nodes_chain_eraseIdx _ p (nodes_getD_chain a b ha hb) hp

theorem nodes_erase_inv (code : hashfunc → K → Int) (key : E → K) (t : Table E) (k : K)
    (h : Inv t) : Inv (erase code key t k) := by
  unfold erase
  cases hf : find_node code key t k with
  | none => exact h
  | some q =>
    obtain ⟨h1, -, -, hm⟩ := nodes_find_node_spec code key t h k q.1 q.2 hf
    obtain ⟨h4, h5⟩ := nodes_inv_cells t h hm
    obtain ⟨h6, h7⟩ := nodes_splice_all (cells t) _ q.1 h5 h1
    exact nodes_inv_intro _ _ rfl h.1 (by rw [h6, h4]) h7

theorem nodes_erase_mod (code : hashfunc → K → Int) (key : E → K) (t : Table E) (k : K) :
    erase code key t k = t ∨ t.mod_count < (erase code key t k).mod_count := by
  unfold erase
  cases hf : find_node code key t k with
  | none => exact Or.inl rfl
  | some q =>
    right
    show t.mod_count < t.mod_count + 1
    omega

theorem nodes_put_inv {V : Type} [Inhabited (K × V)] (code : hashfunc → K → Int)
    (t : Table (K × V)) (e : K × V) (h : Inv t) : Inv (put code t e) := by
  unfold put
  simp only
  cases hf : find_node code Prod.fst t e.1 with
  | none =>
    exact (nodes_add_inv code Prod.fst
      ({ t with mod_count := t.mod_count + 1 } : Table (K × V)) e h).1
  | some q =>
    obtain ⟨h1, -, -, hm⟩ := nodes_find_node_spec code Prod.fst t h e.1 q.1 q.2 hf
    obtain ⟨h4, h5⟩ := nodes_inv_cells t h hm
    simp only
    refine nodes_inv_intro _ _ rfl h.1 ?_ ?_
    · rw [List.length_set]
      exact h4
    · apply nodes_set_all _ _ _ h5
      intro hb
      exact nodes_chain_set _ q.1 _ (nodes_getD_chain _ _ h5 hb) h1

theorem nodes_put_mod {V : Type} [Inhabited (K × V)] (code : hashfunc → K → Int)
    (t : Table (K × V)) (e : K × V) (h : Inv t) :
    put code t e = t ∨ t.mod_count < (put code t e).mod_count := by
  right
  unfold put
  simp only
  cases hf : find_node code Prod.fst t e.1 with
  | none =>
    have h1 : Inv ({ t with mod_count := t.mod_count + 1 } : Table (K × V)) := h
    simp only
    rw [(nodes_add_inv code Prod.fst _ e h1).2]
    show t.mod_count < t.mod_count + 1
    omega
  | some q =>
    show t.mod_count < t.mod_count + 1
    omega

theorem nodes_clear_inv (t : Table E) (h : Inv t) : Inv (clear t) := by
  refine ⟨h.1, fun _ => rfl, ?_⟩
  intro a ha
  cases ha

theorem nodes_copy_all (b : Table E) (h : Inv b) :
    ∀ a, copy_hash_table b.map b.bins = some a → a.length = b.bins ∧ ∀ c ∈ a, Chain c := by
  intro a ha
  unfold copy_hash_table at ha
  cases hm : b.map with
  | none => rw [hm] at ha; cases ha
  | some a0 =>
    rw [hm] at ha
    simp only [Option.some.injEq] at ha
    obtain ⟨h1, h2⟩ := h.2.2 a0 hm
    rw [← ha]
    refine ⟨by simp, ?_⟩
    intro c hc
    obtain ⟨i, hi, rfl⟩ := List.mem_map.1 hc
    have hi2 : i < a0.length := by rw [h1]; exact List.mem_range.1 hi
    exact nodes_copy_list_chain _ (nodes_getD_chain a0 i h2 hi2)

theorem nodes_copy_none (b : Table E) (h : Inv b)
    (hn : copy_hash_table b.map b.bins = none) : b.used = 0 := by
  apply h.2.1
  unfold copy_hash_table at hn
  cases hm : b.map with
  | none => rfl
  | some a0 => rw [hm] at hn; cases hn

theorem nodes_foldl_inv (store : Table E → E → Table E)
    (hstore : ∀ t e, Inv t → Inv (store t e) ∧
      (store t e = t ∨ t.mod_count < (store t e).mod_count)) (l : List E) :
    ∀ t, Inv t → Inv (l.foldl store t) ∧ t.mod_count ≤ (l.foldl store t).mod_count := by
  induction l with
  | nil => intro t h; exact ⟨h, le_refl _⟩
  | cons e rest ih =>
    intro t h
    obtain ⟨h1, h2⟩ := hstore t e h
    obtain ⟨h3, h4⟩ := ih _ h1
    rw [List.foldl_cons]
    refine ⟨h3, ?_⟩
    rcases h2 with h2 | h2
    · rw [h2] at h4 ⊢; exact h4
    · omega

theorem nodes_initial_inv (hash : hashfunc) (l : ℚ) (bins : Nat) (hb : 1 ≤ bins) (mc : Int) :
    Inv ({ hash := hash, map := none, load_threshold := l, bins := bins, used := 0,
           mod_count := mc } : Table E) :=
  ⟨hb, fun _ => rfl, fun a ha => by cases ha⟩

end Nodes

namespace Nodes

variable {E K : Type} [DecidableEq K] [Inhabited E]

theorem nodes_next_isSome (c : List (Option E)) (p : Nat) :
    (next c p).isSome = true ↔ p + 1 < c.length := by
  unfold next
  split_ifs with h
  · simp [h]
  · simp [h]

/-- From a node of a bin, `advance_cursors` ends on the end position or on a node that has
a successor. -/
theorem nodes_advance_loop_spec (bins : Nat) (a : List (List (Option E)))
    (hlen : a.length = bins) (hall : ∀ c ∈ a, Chain c) :
    ∀ (fuel : Nat) (cur : Int × Option Nat), 0 ≤ cur.1 → cur.1 < (bins : Int) →
      (∃ p, cur.2 = some p ∧ p < (a.getD cur.1.toNat []).length) →
      (bins : Int) ≤ cur.1 + fuel → End_or_inner a (advance_loop bins a fuel cur) := by
  intro fuel
  induction fuel with
  | zero =>
    intro cur h0 h1 _ h3
    simp only [Nat.cast_zero, add_zero] at h3
    omega
  | succ n ih =>
    intro cur h0 h1 h2 h3
    unfold advance_loop
    by_cases hc : at_last a cur = true ∧ cur.1 < (bins : Int)
    · rw [if_pos hc]
      by_cases hb : cur.1 + 1 ≥ (bins : Int)
      · rw [if_pos hb]
        exact Or.inl rfl
      · rw [if_neg hb]
        apply ih
        · show 0 ≤ cur.1 + 1
          omega
        · show cur.1 + 1 < (bins : Int)
          omega
        · refine ⟨0, rfl, ?_⟩
          apply nodes_chain_pos
          apply nodes_getD_chain a _ hall
          show (cur.1 + 1).toNat < a.length
          omega
        · show (bins : Int) ≤ cur.1 + 1 + (n : Int)
          push_cast at h3
          omega
    · rw [if_neg hc]
      obtain ⟨p, hp, hlt⟩ := h2
      refine Or.inr ⟨h0, p, hp, ?_⟩
      have hl : at_last a cur = false := by
        cases hx : at_last a cur with
        | false => rfl
        | true => exact absurd ⟨hx, h1⟩ hc
      unfold at_last at hl
      rw [hp] at hl
      simp only at hl
      cases hn : next (a.getD cur.1.toNat []) p with
      | none => rw [hn] at hl; cases hl
      | some q => rfl

theorem nodes_used_map (t : Table E) (h : Inv t) (hu : t.used ≠ 0) : t.map.isSome = true := by
  cases hm : t.map with
  | none => exact absurd (h.2.1 hm) hu
  | some a => rfl

theorem nodes_cursor_end (t : Table E) : Cursor_ok t (end_ t) := by
  unfold end_ Iterator_ctor
  rw [if_neg (by simp)]
  exact ⟨le_refl _, fun _ => Or.inl rfl⟩

theorem nodes_cursor_begin (t : Table E) (h : Inv t) : Cursor_ok t (begin t) := by
  unfold begin Iterator_ctor
  by_cases hu : t.used ≠ 0
  · rw [if_pos ⟨rfl, hu⟩]
    refine ⟨le_refl _, fun _ => ?_⟩
    obtain ⟨h1, h2⟩ := nodes_inv_cells t h (nodes_used_map t h hu)
    have hb := h.1
    apply nodes_advance_loop_spec t.bins (cells t) h1 h2 t.bins (0, some 0)
    · exact le_refl _
    · show (0 : Int) < (t.bins : Int)
      omega
    · refine ⟨0, rfl, ?_⟩
      apply nodes_chain_pos
      apply nodes_getD_chain _ _ h2
      show (0 : Int).toNat < (cells t).length
      rw [h1]
      exact hb
    · show (t.bins : Int) ≤ 0 + (t.bins : Int)
      omega
  · rw [if_neg (fun hx => hu hx.2)]
    exact ⟨le_refl _, fun _ => Or.inl rfl⟩

theorem nodes_cursor_of_lt (t t2 : Table E) (it : Iterator)
    (h : it.expected_mod_count ≤ t.mod_count) (hlt : t.mod_count < t2.mod_count) :
    Cursor_ok t2 it :=
  ⟨by omega, fun he => by omega⟩

theorem nodes_cursor_step (t t2 : Table E) (it : Iterator) (h : Cursor_ok t it)
    (hs : t2 = t ∨ t.mod_count < t2.mod_count) : Cursor_ok t2 it := by
  rcases hs with hs | hs
  · rw [hs]; exact h
  · exact nodes_cursor_of_lt t t2 it h.1 hs

/-- A node with a successor lies in a bin of the allocated bucket array. -/
theorem nodes_inner_bin (t : Table E) (h : Inv t) (b : Int) (p : Nat) (h0 : 0 ≤ b)
    (hp : p + 1 < ((cells t).getD b.toNat []).length) :
    t.map.isSome = true ∧ b < (t.bins : Int) ∧ b.toNat < (cells t).length := by
  obtain ⟨hb, -⟩ := nodes_getD_mem (cells t) b.toNat (by omega)
  have hm : t.map.isSome = true := by
    cases hmap : t.map with
    | none => simp [cells, hmap] at hb
    | some a => rfl
  obtain ⟨h1, -⟩ := nodes_inv_cells t h hm
  refine ⟨hm, ?_, hb⟩
  omega

theorem nodes_cursor_inc (t : Table E) (h : Inv t) (it it2 : Iterator) (hc : Cursor_ok t it)
    (hi : Iterator_inc t it = .ok it2) : Cursor_ok t it2 := by
  unfold Iterator_inc at hi
  by_cases h1 : it.expected_mod_count ≠ t.mod_count
  · rw [if_pos h1] at hi; cases hi
  · rw [if_neg h1] at hi
    have he : it.expected_mod_count = t.mod_count := not_not.1 h1
    by_cases h2 : it.current.1 = -1
    · rw [if_pos h2] at hi
      cases hi
      exact hc
    · rw [if_neg h2] at hi
      by_cases h3 : it.can_erase = true
      · rw [if_pos h3] at hi
        cases hi
        refine ⟨hc.1, fun _ => ?_⟩
        rcases hc.2 he with hend | ⟨h0, p, hp, hn⟩
        · rw [hend] at h2; exact absurd rfl h2
        · rw [nodes_next_isSome] at hn
          obtain ⟨hm, hb, hb2⟩ := nodes_inner_bin t h it.current.1 p h0 hn
          obtain ⟨h4, h5⟩ := nodes_inv_cells t h hm
          apply nodes_advance_loop_spec t.bins (cells t) h4 h5 t.bins
          · exact h0
          · exact hb
          · refine ⟨p + 1, ?_, hn⟩
            show it.current.2.bind (next ((cells t).getD it.current.1.toNat [])) = some (p + 1)
            rw [hp]
            show next ((cells t).getD it.current.1.toNat []) p = some (p + 1)
            unfold next
            rw [if_pos hn]
          · show (t.bins : Int) ≤ it.current.1 + (t.bins : Int)
            omega
      · rw [if_neg h3] at hi
        cases hi
        exact hc

/-- The cursor `erase()` that does not throw acts on a node that has a successor, and
leaves a table with a chain in every bin and a usable cursor. -/
theorem nodes_cursor_erase (t : Table E) (h : Inv t) (it : Iterator) (hc : Cursor_ok t it)
    (r : Option E) (it2 : Iterator) (t2 : Table E)
    (hi : Iterator_erase t it = .ok (r, it2, t2)) :
    Inv t2 ∧ Cursor_ok t2 it2 ∧ t.mod_count < t2.mod_count ∧
      0 ≤ it.current.1 ∧ ∃ p, it.current.2 = some p ∧
        (next ((cells t).getD it.current.1.toNat []) p).isSome = true := by
  unfold Iterator_erase at hi
  by_cases h1 : it.expected_mod_count ≠ t.mod_count
  · rw [if_pos h1] at hi; cases hi
  · rw [if_neg h1] at hi
    have he : it.expected_mod_count = t.mod_count := not_not.1 h1
    by_cases h2 : it.can_erase = false
    · rw [if_pos h2] at hi; cases hi
    · rw [if_neg h2] at hi
      by_cases h3 : it.current.1 = -1
      · rw [if_pos h3] at hi; cases hi
      · rw [if_neg h3] at hi
        rcases hc.2 he with hend | ⟨h0, p, hp, hn⟩
        · rw [hend] at h3; exact absurd rfl h3
        · have hn2 := (nodes_next_isSome _ _).1 hn
          obtain ⟨hm, hb, hb2⟩ := nodes_inner_bin t h it.current.1 p h0 hn2
          obtain ⟨h4, h5⟩ := nodes_inv_cells t h hm
          obtain ⟨h6, h7⟩ := nodes_splice_all (cells t) it.current.1.toNat p h5 hn2
          have hsp : splice_at (cells t) it.current
              = splice (cells t) it.current.1.toNat p := by
            unfold splice_at
            rw [hp]
          simp only [Except.ok.injEq, Prod.mk.injEq] at hi
          obtain ⟨-, hit, ht⟩ := hi
          have hinv : Inv t2 := by
            rw [← ht]
            exact nodes_inv_intro _ _ rfl h.1 (by rw [hsp, h6, h4]) (by rw [hsp]; exact h7)
          refine ⟨hinv, ?_, ?_, h0, p, hp, hn⟩
          · rw [← hit, ← ht]
            refine ⟨le_refl _, fun _ => ?_⟩
            show End_or_inner (splice_at (cells t) it.current)
              (advance_cursors t.bins (splice_at (cells t) it.current) it.current)
            rw [hsp]
            apply nodes_advance_loop_spec t.bins _ (by rw [h6, h4]) h7 t.bins
            · exact h0
            · exact hb
            · refine ⟨p, hp, ?_⟩
              unfold splice
              rw [List.getD_eq_getElem _ _ (by rw [List.length_set]; exact hb2)]
              rw [List.getElem_set_self]
              rw [List.length_eraseIdx, if_pos (by omega)]
              omega
            · show (t.bins : Int) ≤ it.current.1 + (t.bins : Int)
              omega
          · rw [← ht]
            show t.mod_count < t.mod_count + 1
            omega

theorem nodes_ctor_inv (code : hashfunc → K → Int) (key : E → K) (hash : hashfunc) (l : ℚ)
    (bins : Nat) (hb : 1 ≤ bins) :
    Inv (ensure_load_threshold code key
      ({ hash := hash, map := none, load_threshold := l, bins := bins, used := 0,
         mod_count := 0 } : Table E) 0) :=
  (nodes_ensure_inv code key _ 0 hb (fun a ha => by cases ha)).1

/-- Every state that the public operations produce has a chain ended by one `LN()` node in
every bin of an allocated bucket array, and a usable cursor. -/
theorem nodes_reachable_inv (code : hashfunc → K → Int) (key : E → K)
    (store : Table E → E → Table E)
    (hstore : ∀ t e, Inv t → Inv (store t e) ∧
      (store t e = t ∨ t.mod_count < (store t e).mod_count))
    (thash : hashfunc) (t : Table E) (it : Iterator)
    (h : Reachable code key store thash t it) : Inv t ∧ Cursor_ok t it := by
  induction h with
  | by_ctor_default l chash t h =>
    refine ⟨?_, nodes_cursor_end t⟩
    unfold ctor_default at h
    cases hr : HashMap.resolve_hash thash chash with
    | error err => rw [hr] at h; cases h
    | ok hash =>
      rw [hr] at h
      simp only [Except.ok.injEq] at h
      rw [← h]
      exact nodes_ctor_inv code key _ _ 1 (le_refl _)
  | by_ctor_bins ib l chash t h =>
    refine ⟨?_, nodes_cursor_end t⟩
    unfold ctor_bins at h
    cases hr : HashMap.resolve_hash thash chash with
    | error err => rw [hr] at h; cases h
    | ok hash =>
      rw [hr] at h
      simp only [Except.ok.injEq] at h
      rw [← h]
      apply nodes_ctor_inv code key
      split_ifs with h1
      · exact le_refl _
      · omega
  | by_ctor_il il l chash t h =>
    refine ⟨?_, nodes_cursor_end t⟩
    unfold ctor_il at h
    cases hr : HashMap.resolve_hash thash chash with
    | error err => rw [hr] at h; cases h
    | ok hash =>
      rw [hr] at h
      simp only [Except.ok.injEq] at h
      rw [← h]
      exact (nodes_foldl_inv store hstore il _ (nodes_initial_inv _ _ 1 (le_refl _) 0)).1
  | by_ctor_copy b itb l chash fallback t _ h ih =>
    refine ⟨?_, nodes_cursor_end t⟩
    unfold ctor_copy at h
    simp only at h
    split_ifs at h <;>
    first
      | (cases h; done)
      | (simp only [Except.ok.injEq] at h
         rw [← h]
         exact ⟨ih.1.1, nodes_copy_none b ih.1, nodes_copy_all b ih.1⟩)
      | (simp only [Except.ok.injEq] at h
         rw [← h]
         exact (nodes_foldl_inv store hstore _ _ (nodes_initial_inv _ _ 1 (le_refl _) 0)).1)
  | by_begin t it _ ih => exact ⟨ih.1, nodes_cursor_begin t ih.1⟩
  | by_end t it _ ih => exact ⟨ih.1, nodes_cursor_end t⟩
  | by_store t it e _ ih =>
    exact ⟨(hstore t e ih.1).1, nodes_cursor_step t _ it ih.2 (hstore t e ih.1).2⟩
  | by_operator_index t it e _ ih =>
    exact ⟨nodes_insert_inv code key t e ih.1,
      nodes_cursor_step t _ it ih.2 (nodes_insert_mod code key t e ih.1)⟩
  | by_erase t it k _ ih =>
    exact ⟨nodes_erase_inv code key t k ih.1,
      nodes_cursor_step t _ it ih.2 (nodes_erase_mod code key t k)⟩
  | by_clear t it _ ih =>
    exact ⟨nodes_clear_inv t ih.1, nodes_cursor_of_lt t _ it ih.2.1
      (by show t.mod_count < t.mod_count + 1; omega)⟩
  | by_operator_assign a ita b itb _ _ iha ihb =>
    unfold operator_assign
    simp only
    split_ifs with h1
    · refine ⟨⟨ihb.1.1, nodes_copy_none b ihb.1, nodes_copy_all b ihb.1⟩, ?_⟩
      apply nodes_cursor_of_lt a _ ita iha.2.1
      show a.mod_count < a.mod_count + 1 + 1
      omega
    · obtain ⟨h2, h3⟩ := nodes_foldl_inv store hstore (traversal b)
        ({ hash := b.hash, map := none, load_threshold := a.load_threshold, bins := a.bins,
           used := 0, mod_count := a.mod_count + 1 } : Table E)
        (nodes_initial_inv _ _ _ iha.1.1 _)
      refine ⟨h2, ?_⟩
      apply nodes_cursor_of_lt a _ ita iha.2.1
      have h4 : a.mod_count + 1 ≤ (List.foldl store
        ({ hash := b.hash, map := none, load_threshold := a.load_threshold, bins := a.bins,
           used := 0, mod_count := a.mod_count + 1 } : Table E) (traversal b)).mod_count := h3
      show a.mod_count < (List.foldl store
        ({ hash := b.hash, map := none, load_threshold := a.load_threshold, bins := a.bins,
           used := 0, mod_count := a.mod_count + 1 } : Table E) (traversal b)).mod_count + 1
      omega
  | by_operator_assign_self a ita _ ih => exact ih
  | by_Iterator_inc t it it2 _ h ih => exact ⟨ih.1, nodes_cursor_inc t ih.1 it it2 ih.2 h⟩
  | by_Iterator_erase t it r it2 t2 _ h ih =>
    obtain ⟨h1, h2, -⟩ := nodes_cursor_erase t ih.1 it ih.2 r it2 t2 h
    exact ⟨h1, h2⟩
  | by_other_erase t it ito r it2 t2 _ _ h ih iho =>
    obtain ⟨h1, -, h3, -⟩ := nodes_cursor_erase t iho.1 ito iho.2 r it2 t2 h
    exact ⟨h1, nodes_cursor_of_lt t t2 it ih.2.1 h3⟩

end Nodes


namespace Nodes

variable {E K : Type} [DecidableEq K] [Inhabited E]

/-- What the representation invariant and a usable cursor give: an allocated bucket array
has `bins` bins, each with a chain of nodes built with a value, ended by one node built by
`LN()`; the node that `find_key` / `find_element` returns has a successor and was built
with the value returned; nothing is counted or found while the bucket array is `nullptr`;
and the cursor `erase()` that does not throw acts on a node that has a successor. -/
theorem nodes_inv_spec (code : hashfunc → K → Int) (key : E → K) (t : Table E) (it : Iterator)
    (h : Inv t) (hc : Cursor_ok t it) :
    1 ≤ t.bins ∧
    (∀ a, t.map = some a → a.length = t.bins ∧
      ∀ i, i < t.bins → ∃ live : List E, a.getD i [] = live.map some ++ [none]) ∧
    (∀ k p e, find_node code key t k = some (p, e) →
      (next ((cells t).getD (hash_compress code t k).toNat []) p).isSome = true ∧
        ((cells t).getD (hash_compress code t k).toNat [])[p]? = some (some e) ∧
        key e = k) ∧
    (t.map = none → t.used = 0 ∧ ∀ k, find_node code key t k = none) ∧
    (∀ r it2 t2, Iterator_erase t it = .ok (r, it2, t2) →
      ∃ p, it.current.2 = some p ∧
        (next ((cells t).getD it.current.1.toNat []) p).isSome = true) := by
  refine ⟨h.1, ?_, ?_, ?_, ?_⟩
  · intro a ha
    obtain ⟨h1, h2⟩ := h.2.2 a ha
    refine ⟨h1, ?_⟩
    intro i hi
    exact nodes_getD_chain a i h2 (by omega)
  · intro k p e hf
    obtain ⟨h1, h2, h3, -⟩ := nodes_find_node_spec code key t h k p e hf
    exact ⟨(nodes_next_isSome _ _).2 h1, h2, h3⟩
  · intro hm
    refine ⟨h.2.1 hm, fun k => ?_⟩
    unfold find_node
    rw [hm]
  · intro r it2 t2 he
    obtain ⟨-, -, -, -, hp⟩ := nodes_cursor_erase t h it hc r it2 t2 he
    exact hp

end Nodes

namespace Sample

theorem nodesN_reachable :
    Nodes.Reachable Sample.code Prod.fst (Nodes.put Sample.code) 1 nodesN
      (Nodes.end_ nodesN) :=
  Nodes.Reachable.by_ctor_il [] 1 undefinedhash nodesN rfl

theorem nodesP_eq :
    Nodes.put Sample.code (Nodes.put Sample.code nodesN (0, 5)) (1, 7) = nodesP := by
  decide!

theorem nodesP_reachable :
    Nodes.Reachable Sample.code Prod.fst (Nodes.put Sample.code) 1 nodesP
      (Nodes.end_ nodesN) := by
  rw [← nodesP_eq]
  exact .by_store _ _ _ (.by_store _ _ _ nodesN_reachable)

theorem nodesE_reachable :
    Nodes.Reachable Sample.code Prod.fst (Nodes.put Sample.code) 1 nodesE
      ⟨(1, some 0), 3, false⟩ :=
  .by_Iterator_erase nodesP (Nodes.begin nodesP) (some (0, 5)) ⟨(1, some 0), 3, false⟩ nodesE
    (.by_begin nodesP _ nodesP_reachable) rfl

theorem nodesC_reachable :
    Nodes.Reachable Sample.code Prod.fst (Nodes.put Sample.code) 1 nodesC
      (Nodes.end_ nodesN) :=
  .by_clear nodesP _ nodesP_reachable

theorem nodesS_reachable :
    Nodes.Reachable Sample.code id (Nodes.insert Sample.code id) 1 nodesS
      (Nodes.end_ nodesS) :=
  Nodes.Reachable.by_ctor_il [] 1 undefinedhash nodesS rfl

theorem nodesT_eq :
    Nodes.erase Sample.code id
      (Nodes.insert Sample.code id (Nodes.insert Sample.code id nodesS 0) 1) 1 = nodesT := by
  decide!

theorem nodesT_reachable :
    Nodes.Reachable Sample.code id (Nodes.insert Sample.code id) 1 nodesT
      (Nodes.end_ nodesS) := by
  rw [← nodesT_eq]
  exact .by_erase _ _ _ (.by_store _ _ _ (.by_store _ _ _ nodesS_reachable))

end Sample

namespace Nodes

variable {E K : Type} [DecidableEq K] [Inhabited E]

theorem nodes_live_getD (a : List (List (Option E))) (b : Nat) :
    (live_cells a).getD b [] = (a.getD b []).dropLast.map read := by
  unfold live_cells
  rcases Nat.lt_or_ge b a.length with hb | hb
  · rw [List.getD_eq_getElem _ _ (by simpa using hb), List.getD_eq_getElem _ _ hb,
      List.getElem_map]
  · rw [List.getD_eq_default _ _ (by simpa using hb), List.getD_eq_default _ _ hb]
    rfl

theorem nodes_live_length (a : List (List (Option E))) (b : Nat) :
    ((live_cells a).getD b []).length = (a.getD b []).length - 1 := by
  rw [nodes_live_getD]
  simp

theorem nodes_at_last_eq (a : List (List (Option E))) (cur : Int × Option Nat) :
    at_last a cur = Bucket.at_trailer (live_cells a) cur := by
  unfold at_last Bucket.at_trailer
  cases hc : cur.2 with
  | none => rfl
  | some p =>
    simp only
    rw [nodes_live_length]
    unfold next
    by_cases h : p + 1 < (a.getD cur.1.toNat []).length
    · rw [if_pos h]
      show false = decide ((a.getD cur.1.toNat []).length - 1 ≤ p)
      symm
      rw [decide_eq_false_iff_not]
      omega
    · rw [if_neg h]
      show true = decide ((a.getD cur.1.toNat []).length - 1 ≤ p)
      symm
      rw [decide_eq_true_eq]
      omega

theorem nodes_advance_loop_eq (bins : Nat) (a : List (List (Option E))) :
    ∀ (fuel : Nat) (cur : Int × Option Nat),
      advance_loop bins a fuel cur = Bucket.advance_loop bins (live_cells a) fuel cur := by
  intro fuel
  induction fuel with
  | zero => intro cur; rfl
  | succ n ih =>
    intro cur
    unfold advance_loop Bucket.advance_loop
    rw [nodes_at_last_eq, ih]

theorem nodes_advance_cursors_eq (bins : Nat) (a : List (List (Option E)))
    (cur : Int × Option Nat) :
    advance_cursors bins a cur = Bucket.advance_cursors bins (live_cells a) cur :=
  nodes_advance_loop_eq bins a bins cur

theorem nodes_end_cases (t : Table E) :
    (end_ t).expected_mod_count = t.mod_count ∧ (end_ t).can_erase = true ∧
      (end_ t).current = (-1, none) := by
  simp [end_, Iterator_ctor]

theorem nodes_range_for_loop_end (t : Table E) (fuel : Nat) (it : Iterator)
    (hs : it.expected_mod_count = t.mod_count) (hc : it.current = (-1, none)) :
    range_for_loop t (fuel + 1) it = some (.ok []) := by
  unfold range_for_loop
  simp [Iterator_ne, hs, hc, (nodes_end_cases t).2.2]

/-- The value that `operator*` reads at a node before the last one of its chain. -/
theorem nodes_read_live (a : List (List (Option E))) (b i : Nat)
    (hi : i < ((live_cells a).getD b []).length) :
    read (node_at a ((b : Int), some i)) = ((live_cells a).getD b []).get ⟨i, hi⟩ := by
  have hl := nodes_live_length a b
  have hi2 : i < (a.getD b []).length := by omega
  have hi3 : i < ((a.getD b []).dropLast.map read).length := by
    rw [← nodes_live_getD]; exact hi
  have h1 : ((live_cells a).getD b []).get ⟨i, hi⟩
      = ((a.getD b []).dropLast.map read).get ⟨i, hi3⟩ := by
    congr 1
    · exact nodes_live_getD a b
    · exact (Fin.heq_ext_iff (by rw [nodes_live_getD])).2 rfl
  rw [h1]
  show read ((a.getD ((b : Int).toNat) []).getD i none) = _
  rw [Int.toNat_ofNat, List.getD_eq_getElem _ _ hi2]
  simp [List.getElem_dropLast]

/-- The loop from a fresh cursor on a node before the last one of its chain visits the
values ahead of it, in order, and ends, given one unit of fuel per value and one for the
last test. -/
theorem nodes_range_for_loop_live (t : Table E)
    (hlen : (live_cells (cells t)).length = t.bins) :
    ∀ (fuel : Nat) (it : Iterator) (b i : Nat), it.expected_mod_count = t.mod_count →
      it.can_erase = true → it.current = ((b : Int), some i) → b < t.bins →
      i < ((live_cells (cells t)).getD b []).length →
      (Bucket.ahead (live_cells (cells t)) b i).length + 1 ≤ fuel →
      range_for_loop t fuel it = some (.ok (Bucket.ahead (live_cells (cells t)) b i)) := by
  intro fuel
  induction fuel with
  | zero =>
    intro it b i _ _ _ _ _ hf
    omega
  | succ fuel ih =>
    intro it b i hs hc hcur hb hi hf
    have hne : it.current ≠ (end_ t).current := by
      rw [hcur, (nodes_end_cases t).2.2]
      intro h
      have := congrArg Prod.snd h
      simp at this
    have hb1 : ¬ it.current.1 = -1 := by
      rw [hcur]
      simp only
      omega
    have hnext : next_node (cells t) ((b : Int), some i) = ((b : Int), some (i + 1)) := by
      have hl := nodes_live_length (cells t) b
      have hi2 : i + 1 < ((cells t).getD b []).length := by omega
      unfold next_node
      show ((b : Int), next ((cells t).getD ((b : Int).toNat) []) i) = _
      rw [Int.toNat_ofNat]
      unfold next
      rw [if_pos hi2]
    rw [Bucket.ahead_live (live_cells (cells t)) b i hi] at hf ⊢
    unfold range_for_loop
    simp only [Iterator_ne, hs, ne_eq, not_true_eq_false, if_false, hne, not_false_eq_true,
      decide_True, Iterator_deref, hc, hb1, Bool.true_eq_false, or_self, Iterator_inc, if_true]
    rw [hcur, nodes_read_live (cells t) b i hi, hnext, nodes_advance_cursors_eq]
    rcases Bucket.advance_cursors_spec t.bins (live_cells (cells t)) hlen b (i + 1) hb
      (by omega) with ⟨h, ha⟩ | ⟨b2, i2, h, hb2, hi2, ha⟩
    · rw [ha] at hf ⊢
      obtain ⟨f2, rfl⟩ : ∃ f2, fuel = f2 + 1 := ⟨fuel - 1, by simp at hf; omega⟩
      rw [h, nodes_range_for_loop_end t f2 ⟨(-1, none), t.mod_count, true⟩ rfl rfl]
      rfl
    · rw [← ha] at hf ⊢
      rw [h, ih ⟨((b2 : Int), some i2), t.mod_count, true⟩ b2 i2 rfl rfl rfl hb2 hi2
        (by simpa using hf)]
      rfl

theorem nodes_traversal_eq (t : Table E) (hu : t.used ≠ 0) :
    traversal t = (live_cells (cells t)).flatten := by
  unfold traversal live_cells
  rw [if_neg hu]

/-- The cursor loop from `begin()` to `end()` on a table that satisfies the representation
invariant ends and visits the values of `traversal`: in every bin the values of the nodes
before the last one. -/
theorem nodes_range_for_spec (t : Table E) (h : Inv t) (fuel : Nat)
    (hf : (traversal t).length + 1 ≤ fuel) :
    range_for t fuel = some (.ok (traversal t)) := by
  unfold range_for
  by_cases hu : t.used = 0
  · have hb : begin t = ⟨(-1, none), t.mod_count, true⟩ := by
      unfold begin Iterator_ctor
      rw [if_neg (fun hx => hx.2 hu)]
    obtain ⟨f2, rfl⟩ : ∃ f2, fuel = f2 + 1 := ⟨fuel - 1, by omega⟩
    rw [hb, nodes_range_for_loop_end t f2 _ rfl rfl]
    unfold traversal
    rw [if_pos hu]
  · obtain ⟨h1, h2⟩ := nodes_inv_cells t h (nodes_used_map t h hu)
    have hlen : (live_cells (cells t)).length = t.bins := by
      unfold live_cells
      rw [List.length_map, h1]
    have hb : begin t
        = ⟨Bucket.advance_cursors t.bins (live_cells (cells t)) (((0 : Nat) : Int), some 0),
            t.mod_count, true⟩ := by
      unfold begin Iterator_ctor
      rw [if_pos ⟨rfl, hu⟩, nodes_advance_cursors_eq]
      rfl
    rw [nodes_traversal_eq t hu, ← Bucket.ahead_zero] at hf ⊢
    rw [hb]
    rcases Bucket.advance_cursors_spec t.bins (live_cells (cells t)) hlen 0 0
      (by have := h.1; omega) (Nat.zero_le _) with ⟨hc, ha⟩ | ⟨b2, i2, hc, hb2, hi2, ha⟩
    · obtain ⟨f2, rfl⟩ : ∃ f2, fuel = f2 + 1 := ⟨fuel - 1, by omega⟩
      rw [hc, ha, nodes_range_for_loop_end t f2 _ rfl rfl]
    · rw [hc, ← ha]
      rw [← ha] at hf
      exact nodes_range_for_loop_live t hlen fuel _ b2 i2 rfl rfl rfl hb2 hi2 hf

end Nodes

/-! ## Properties of the specification -/

/-- C1: on a well-formed `HashMap`, after `put(k, v)` the key is found (`has_key`), the const
and the non-const `operator[]` read `v`, and when `k` was absent `put` returns `v` and
`size()` grows by exactly 1. -/
theorem C1_put_then_lookup {K V : Type} [DecidableEq K] [Inhabited V]
    (code : hashfunc → K → Int) (m : HashMap K V) (hw : HashMap.WF code m) (k : K) (v : V) :
    HashMap.has_key code (HashMap.put code m k v).2 k = true ∧
    HashMap.operator_index_const code (HashMap.put code m k v).2 k = .ok v ∧
    HashMap.operator_index code (HashMap.put code m k v).2 k = (v, (HashMap.put code m k v).2) ∧
    (HashMap.has_key code m k = false →
      (HashMap.put code m k v).1 = v ∧
      (HashMap.put code m k v).2.size = m.size + 1) := by
  obtain ⟨hw2, hget, _⟩ := HashMap.put_spec code m hw k v
  have hk := hget k
  rw [if_pos rfl] at hk
  have hf : ∃ i e, HashMap.find_key code (HashMap.put code m k v).2 k = some (i, e) ∧ e.2 = v := by
    simp only [HashMap.get?, Option.map_eq_some'] at hk
    obtain ⟨⟨i, e⟩, h1, h2⟩ := hk
    exact ⟨i, e, h1, h2⟩
  obtain ⟨i, e, hfind, hv⟩ := hf
  refine ⟨?_, ?_, ?_, ?_⟩
  · simp [HashMap.has_key, hfind]
  · simp [HashMap.operator_index_const, hfind, hv]
  · simp [HashMap.operator_index, hfind, hv]
  · intro habs
    have hnone : HashMap.find_key code m k = none := by
      simpa [HashMap.has_key] using habs
    obtain ⟨h1, _, _, h4, _⟩ := HashMap.put_new code m hw k v hnone
    exact ⟨h1, h4⟩

/-- Witness of C1 on the sample map `{0 -> 5, 1 -> 7}` with the new key 2. -/
theorem C1_put_then_lookup_witness :
    HashMap.has_key Sample.code (HashMap.put Sample.code Sample.map2 2 9).2 2 = true ∧
    HashMap.operator_index_const Sample.code (HashMap.put Sample.code Sample.map2 2 9).2 2
      = .ok 9 ∧
    HashMap.operator_index Sample.code (HashMap.put Sample.code Sample.map2 2 9).2 2
      = (9, (HashMap.put Sample.code Sample.map2 2 9).2) ∧
    (HashMap.has_key Sample.code Sample.map2 2 = false →
      (HashMap.put Sample.code Sample.map2 2 9).1 = 9 ∧
      (HashMap.put Sample.code Sample.map2 2 9).2.size = Sample.map2.size + 1) :=
  C1_put_then_lookup Sample.code Sample.map2 (by decide) 2 9

/-- C2: erasing a key that a well-formed `HashMap` contains succeeds, after which `has_key`
is false and the const `operator[]` throws `KeyError`; erasing an element that a well-formed
`HashSet` contains leaves `contains` false. -/
theorem C2_erase_then_lookup {K V T : Type} [DecidableEq K] [DecidableEq T] :
    (∀ (code : hashfunc → K → Int) (m : HashMap K V) (k : K),
      HashMap.WF code m → HashMap.has_key code m k = true →
      ∃ r m2, HashMap.erase code m k = .ok (r, m2) ∧
        HashMap.has_key code m2 k = false ∧
        HashMap.operator_index_const code m2 k = .error Error.KeyError) ∧
    (∀ (code : hashfunc → T → Int) (s : HashSet T) (e : T),
      HashSet.WF code s → HashSet.contains code s e = true →
      HashSet.contains code (HashSet.erase code s e).2 e = false) := by
  constructor
  · intro code m k hw hk
    rw [HashMap.has_key_eq] at hk
    obtain ⟨v, hv⟩ := Option.isSome_iff_exists.1 hk
    obtain ⟨m2, he, hw2, hget, _⟩ := HashMap.erase_spec code m hw k v hv
    have hk2 := hget k
    rw [if_pos rfl] at hk2
    refine ⟨v, m2, he, ?_, ?_⟩
    · rw [HashMap.has_key_eq, hk2]; rfl
    · rw [HashMap.operator_index_const_eq, hk2]
  · intro code s e hw _
    obtain ⟨hw2, hmem, _⟩ := HashSet.set_erase_spec code s hw e
    have : ¬ (HashSet.contains code (HashSet.erase code s e).2 e = true) := by
      rw [HashSet.contains_iff code _ hw2.1, hmem]
      exact fun h => h.1 rfl
    simpa using this

/-- Witness of C2 on the sample map and the sample set, erasing 1. -/
theorem C2_erase_then_lookup_witness :
    (∃ r m2, HashMap.erase Sample.code Sample.map2 1 = .ok (r, m2) ∧
        HashMap.has_key Sample.code m2 1 = false ∧
        HashMap.operator_index_const Sample.code m2 1 = .error Error.KeyError) ∧
    HashSet.contains Sample.code (HashSet.erase Sample.code Sample.set2 1).2 1 = false :=
  ⟨(@C2_erase_then_lookup Int Int Int _ _).1 Sample.code Sample.map2 1 (by decide) (by decide),
   (@C2_erase_then_lookup Int Int Int _ _).2 Sample.code Sample.set2 1 (by decide) (by decide)⟩

/-- C3: when a well-formed `HashMap` maps `k` to `v0`, `put(k, v1)` returns `v0`, leaves
`size()` unchanged, and afterwards `m[k]` reads `v1`. -/
theorem C3_put_existing {K V : Type} [DecidableEq K]
    (code : hashfunc → K → Int) (m : HashMap K V) (hw : HashMap.WF code m) (k : K) (v0 v1 : V)
    (h0 : HashMap.operator_index_const code m k = .ok v0) :
    (HashMap.put code m k v1).1 = v0 ∧
    (HashMap.put code m k v1).2.size = m.size ∧
    HashMap.operator_index_const code (HashMap.put code m k v1).2 k = .ok v1 := by
  have hf : ∃ i e, HashMap.find_key code m k = some (i, e) ∧ e.2 = v0 := by
    unfold HashMap.operator_index_const at h0
    cases hfk : HashMap.find_key code m k with
    | none => simp [hfk] at h0
    | some p =>
      obtain ⟨i, e⟩ := p
      simp only [hfk, Except.ok.injEq] at h0
      exact ⟨i, e, rfl, h0⟩
  obtain ⟨i, e, hfind, hv⟩ := hf
  obtain ⟨h1, _, _, h4, _⟩ := HashMap.put_found code m hw k v1 i e hfind
  obtain ⟨_, hget, _⟩ := HashMap.put_spec code m hw k v1
  have hk := hget k
  rw [if_pos rfl] at hk
  refine ⟨by rw [h1, hv], h4, ?_⟩
  rw [HashMap.operator_index_const_eq, hk]

/-- Witness of C3 on the sample map, overwriting the value of key 1. -/
theorem C3_put_existing_witness :
    (HashMap.put Sample.code Sample.map2 1 8).1 = 7 ∧
    (HashMap.put Sample.code Sample.map2 1 8).2.size = Sample.map2.size ∧
    HashMap.operator_index_const Sample.code (HashMap.put Sample.code Sample.map2 1 8).2 1
      = .ok 8 :=
  C3_put_existing Sample.code Sample.map2 (by decide) 1 7 8 (by rfl)

/-- C4: starting from an empty well-formed `HashMap` (`HashSet`), after any sequence of `put`
(`insert`) calls `size()` is the number of distinct keys (elements) of the sequence. -/
theorem C4_size_counts_distinct {K V T : Type} [DecidableEq K] [DecidableEq T] :
    (∀ (code : hashfunc → K → Int) (m : HashMap K V) (kvs : List (K × V)),
      HashMap.WF code m → m.size = 0 →
      (kvs.foldl (fun t e => (HashMap.put code t e.1 e.2).2) m).size
        = ((kvs.map Prod.fst).toFinset.card : Int)) ∧
    (∀ (code : hashfunc → T → Int) (s : HashSet T) (es : List T),
      HashSet.WF code s → s.size = 0 →
      (es.foldl (fun t e => (HashSet.insert code t e).2) s).size
        = (es.toFinset.card : Int)) := by
  constructor
  · intro code m kvs hw h0
    obtain ⟨hw2, hk⟩ := HashMap.foldl_put_spec code kvs m hw
    rw [HashMap.size_eq_card code _ hw2]
    have hnil : m.entries = [] := by
      have := hw.2
      rw [show m.used = 0 from h0] at this
      exact List.length_eq_zero.1 (by exact_mod_cast this.symm)
    congr 2
    ext k
    simp only [List.mem_toFinset]
    rw [HashMap.mem_keys_iff code _ hw2.1, hk k, ← HashMap.mem_keys_iff code m hw.1, hnil]
    simp
  · intro code s es hw h0
    obtain ⟨hw2, hk⟩ := HashSet.foldl_insert_spec code es s hw
    have hnil : s.entries = [] := by
      have := hw.2
      rw [show s.used = 0 from h0] at this
      exact List.length_eq_zero.1 (by exact_mod_cast this.symm)
    show (List.foldl (fun t e => (HashSet.insert code t e).2) s es).used = _
    rw [hw2.2, ← List.toFinset_card_of_nodup hw2.1.2.2.2]
    congr 2
    ext x
    simp only [List.mem_toFinset]
    rw [hk x, hnil]
    simp

/-- Witness of C4: three `put` calls with two distinct keys, three `insert` calls with two
distinct elements. -/
theorem C4_size_counts_distinct_witness :
    (([(1, 5), (2, 6), (1, 7)] : List (Int × Int)).foldl
        (fun t e => (HashMap.put Sample.code t e.1 e.2).2) Sample.map0).size
      = (((([(1, 5), (2, 6), (1, 7)] : List (Int × Int)).map Prod.fst).toFinset.card : Nat) : Int) ∧
    (([1, 2, 1] : List Int).foldl
        (fun t e => (HashSet.insert Sample.code t e).2) Sample.set0).size
      = ((([1, 2, 1] : List Int).toFinset.card : Nat) : Int) :=
  ⟨(@C4_size_counts_distinct Int Int Int _ _).1 Sample.code Sample.map0 _ (by decide) (by decide),
   (@C4_size_counts_distinct Int Int Int _ _).2 Sample.code Sample.set0 _ (by decide) (by decide)⟩

/-- C5 (failing input): a `HashMap` (`HashSet`) constructed with one bin and load threshold
1/4 holds, after its first `put` (`insert`), one entry in two bins: `used / bins` is 1/2,
above the threshold. -/
theorem C5_load_threshold_exceeded :
    (∃ m0 : HashMap Int Int,
      HashMap.ctor_bins Sample.code 1 1 (1 / 4) undefinedhash = .ok m0 ∧
      (HashMap.put Sample.code m0 0 0).2.used = 1 ∧
      (HashMap.put Sample.code m0 0 0).2.bins = 2 ∧
      (HashMap.put Sample.code m0 0 0).2.load_threshold = 1 / 4 ∧
      ¬ (((HashMap.put Sample.code m0 0 0).2.used : ℚ)
          / ((HashMap.put Sample.code m0 0 0).2.bins : ℚ)
          ≤ (HashMap.put Sample.code m0 0 0).2.load_threshold)) ∧
    (∃ s0 : HashSet Int,
      HashSet.ctor_bins Sample.code 1 1 (1 / 4) undefinedhash = .ok s0 ∧
      (HashSet.insert Sample.code s0 0).2.used = 1 ∧
      (HashSet.insert Sample.code s0 0).2.bins = 2 ∧
      (HashSet.insert Sample.code s0 0).2.load_threshold = 1 / 4 ∧
      ¬ (((HashSet.insert Sample.code s0 0).2.used : ℚ)
          / ((HashSet.insert Sample.code s0 0).2.bins : ℚ)
          ≤ (HashSet.insert Sample.code s0 0).2.load_threshold)) := by
  constructor
  · have hex : ∃ m0 : HashMap Int Int,
        HashMap.ctor_bins Sample.code 1 1 (1 / 4) undefinedhash = .ok m0 := ⟨_, rfl⟩
    obtain ⟨m0, hm0⟩ := hex
    obtain ⟨hw, hu, _, hb, hl, _⟩ := HashMap.ctor_bins_spec _ _ _ _ _ _ hm0
    have hb1 : m0.bins = 1 := by simpa using hb
    have hl1 : m0.load_threshold = 1 / 4 := by rw [hl]; norm_num
    have hnone : HashMap.find_key Sample.code m0 0 = none := by
      rw [HashMap.find_key_eq_none _ _ hw.1, HashMap.entries_eq_nil_of_used _ _ hw hu]
      simp
    obtain ⟨_, _, _, h4, _, _, h7, h8⟩ := HashMap.put_new Sample.code m0 hw 0 0 hnone
    have hbins : (HashMap.put Sample.code m0 0 0).2.bins = 2 := by
      rw [h8, HashMap.ensure_bins, hu, hb1, hl1]
      norm_num
    refine ⟨m0, hm0, by rw [h4, hu]; rfl, hbins, by rw [h7, hl1], ?_⟩
    rw [h4, hu, hbins, h7, hl1]
    norm_num
  · have hex : ∃ s0 : HashSet Int,
        HashSet.ctor_bins Sample.code 1 1 (1 / 4) undefinedhash = .ok s0 := ⟨_, rfl⟩
    obtain ⟨s0, hs0⟩ := hex
    obtain ⟨hw, hu, _, hb, hl, _⟩ := HashSet.set_ctor_bins_spec _ _ _ _ _ _ hs0
    have hb1 : s0.bins = 1 := by simpa using hb
    have hl1 : s0.load_threshold = 1 / 4 := by rw [hl]; norm_num
    have hnone : HashSet.find_element Sample.code s0 0 = none := by
      rw [HashSet.find_element_eq_none _ _ hw.1, HashSet.set_entries_eq_nil_of_used _ _ hw hu]
      simp
    obtain ⟨_, _, _, h4, _, _, h7, h8⟩ := HashSet.insert_new Sample.code s0 hw 0 hnone
    have hbins : (HashSet.insert Sample.code s0 0).2.bins = 2 := by
      rw [h8, HashSet.set_ensure_bins, hu, hb1, hl1]
      norm_num
    refine ⟨s0, hs0, by rw [h4, hu]; rfl, hbins, by rw [h7, hl1], ?_⟩
    rw [h4, hu, hbins, h7, hl1]
    norm_num

/-- C6: on well-formed tables, `operator==` of `HashMap` is true exactly when the sizes agree
and every key of the right operand is mapped to the same value by the left one, which is
exactly when both maps associate the same value (or none) with every key; `operator==` of
`HashSet` is true exactly when the sizes agree and every element of the right operand is in
the left one, which is exactly when both sets have the same elements; an operand compared
with itself is equal.  Bin counts, chain order and hash functions play no part: two maps
built from `(1,"x"), (2,"y")` with 1 and with 5 initial bins compare equal. -/
theorem C6_operator_eq {K V T : Type} [DecidableEq K] [DecidableEq V] [DecidableEq T] :
    (∀ (code : hashfunc → K → Int) (a b : HashMap K V),
      HashMap.WF code a → HashMap.WF code b →
      (HashMap.operator_eq code a (.other b) = true ↔
        a.size = b.size ∧
          ∀ k v, HashMap.get? code b k = some v → HashMap.get? code a k = some v) ∧
      (HashMap.operator_eq code a (.other b) = true ↔
        ∀ k, HashMap.get? code a k = HashMap.get? code b k) ∧
      HashMap.operator_eq code a .self = true) ∧
    (∀ (code : hashfunc → T → Int) (a b : HashSet T),
      HashSet.WF code a → HashSet.WF code b →
      (HashSet.operator_eq code a (.other b) = true ↔
        a.size = b.size ∧
          ∀ e, HashSet.contains code b e = true → HashSet.contains code a e = true) ∧
      (HashSet.operator_eq code a (.other b) = true ↔
        ∀ e, HashSet.contains code a e = HashSet.contains code b e) ∧
      HashSet.operator_eq code a .self = true) ∧
    (∃ a0 b0 : HashMap Int String,
      HashMap.ctor_bins Sample.code 1 1 1 undefinedhash = .ok a0 ∧
      HashMap.ctor_bins Sample.code 1 5 1 undefinedhash = .ok b0 ∧
      a0.bins = 1 ∧ b0.bins = 5 ∧
      HashMap.operator_eq Sample.code
        (HashMap.put Sample.code (HashMap.put Sample.code a0 1 "x").2 2 "y").2
        (.other (HashMap.put Sample.code (HashMap.put Sample.code b0 1 "x").2 2 "y").2)
        = true) := by
  refine ⟨?_, ?_, ?_⟩
  · intro code a b ha hb
    have h1 := HashMap.operator_eq_other code a b ha hb
    have h2 := HashMap.content_eq_iff code a b ha hb
    refine ⟨?_, h1.trans h2, rfl⟩
    rw [h1]
    refine and_congr Iff.rfl ?_
    constructor
    · intro h k v hv
      exact (HashMap.get?_eq_some code a ha.1 k v).2
        (h (k, v) ((HashMap.get?_eq_some code b hb.1 k v).1 hv))
    · intro h e he
      exact (HashMap.get?_eq_some code a ha.1 e.1 e.2).1
        (h e.1 e.2 ((HashMap.get?_eq_some code b hb.1 e.1 e.2).2 he))
  · intro code a b ha hb
    have h1 := HashSet.set_operator_eq_other code a b ha hb
    have h2 := HashSet.set_content_eq_iff code a b ha hb
    refine ⟨?_, h1.trans h2, rfl⟩
    rw [h1]
    refine and_congr Iff.rfl ?_
    constructor
    · intro h e he
      exact (HashSet.contains_iff code a ha.1 e).2 (h e ((HashSet.contains_iff code b hb.1 e).1 he))
    · intro h e he
      exact (HashSet.contains_iff code a ha.1 e).1 (h e ((HashSet.contains_iff code b hb.1 e).2 he))
  · have hexa : ∃ a0 : HashMap Int String,
        HashMap.ctor_bins Sample.code 1 1 1 undefinedhash = .ok a0 := ⟨_, rfl⟩
    have hexb : ∃ b0 : HashMap Int String,
        HashMap.ctor_bins Sample.code 1 5 1 undefinedhash = .ok b0 := ⟨_, rfl⟩
    obtain ⟨a0, ha0⟩ := hexa
    obtain ⟨b0, hb0⟩ := hexb
    obtain ⟨hwa, hua, _, hba, _⟩ := HashMap.ctor_bins_spec _ _ _ _ _ _ ha0
    obtain ⟨hwb, hub, _, hbb, _⟩ := HashMap.ctor_bins_spec _ _ _ _ _ _ hb0
    refine ⟨a0, b0, ha0, hb0, by simpa using hba, by simpa using hbb, ?_⟩
    have hcong := HashMap.foldl_put_congr Sample.code [(1, "x"), (2, "y")] a0 b0 hwa hwb
      (fun k => by rw [HashMap.get?_of_used_zero _ _ hwa hua, HashMap.get?_of_used_zero _ _ hwb hub])
    have hwa2 := (HashMap.foldl_put_spec Sample.code [(1, "x"), (2, "y")] a0 hwa).1
    have hwb2 := (HashMap.foldl_put_spec Sample.code [(1, "x"), (2, "y")] b0 hwb).1
    have h1 := HashMap.operator_eq_other Sample.code _ _ hwa2 hwb2
    have h2 := HashMap.content_eq_iff Sample.code _ _ hwa2 hwb2
    exact (h1.trans h2).2 hcong

/-- Witness of C6: the sample map and set against copies of them laid out in one bin. -/
theorem C6_operator_eq_witness :
    ((HashMap.operator_eq Sample.code Sample.map2 (.other Sample.map2b) = true ↔
        Sample.map2.size = Sample.map2b.size ∧
          ∀ k v, HashMap.get? Sample.code Sample.map2b k = some v →
            HashMap.get? Sample.code Sample.map2 k = some v) ∧
      (HashMap.operator_eq Sample.code Sample.map2 (.other Sample.map2b) = true ↔
        ∀ k, HashMap.get? Sample.code Sample.map2 k = HashMap.get? Sample.code Sample.map2b k) ∧
      HashMap.operator_eq Sample.code Sample.map2 .self = true) ∧
    ((HashSet.operator_eq Sample.code Sample.set2 (.other Sample.set2b) = true ↔
        Sample.set2.size = Sample.set2b.size ∧
          ∀ e, HashSet.contains Sample.code Sample.set2b e = true →
            HashSet.contains Sample.code Sample.set2 e = true) ∧
      (HashSet.operator_eq Sample.code Sample.set2 (.other Sample.set2b) = true ↔
        ∀ e, HashSet.contains Sample.code Sample.set2 e
          = HashSet.contains Sample.code Sample.set2b e) ∧
      HashSet.operator_eq Sample.code Sample.set2 .self = true) ∧
    HashMap.operator_eq Sample.code Sample.map2 (.other Sample.map2b) = true ∧
    HashSet.operator_eq Sample.code Sample.set2 (.other Sample.set2b) = true :=
  ⟨(@C6_operator_eq Int Int Int _ _ _).1 Sample.code Sample.map2 Sample.map2b
      (by decide) (by decide),
   (@C6_operator_eq Int Int Int _ _ _).2.1 Sample.code Sample.set2 Sample.set2b
      (by decide) (by decide),
   by decide, by decide⟩

/-- C7: copy construction `a(b)` and assignment `a = b` from a well-formed table, with the
same or with a different hash function, leave `a == b` true and `a.size() == b.size()`;
when the hash function of `a` (the one resolved by the constructor, the one `a` had before
the assignment) is the hash function of `b`, `a` also gets the bin count of `b` and the
bucket array of `b`, chain by chain.  The right operand is a `const` reference: the
operations return no new state for it. -/
theorem C7_copy_and_assign {K V T : Type} [DecidableEq K] [DecidableEq V] [DecidableEq T] :
    (∀ (code : hashfunc → K → Int) (thash chash : hashfunc) (t : ℚ) (a b : HashMap K V),
      HashMap.WF code b → HashMap.ctor_copy code thash b t chash = .ok a →
      HashMap.operator_eq code a (.other b) = true ∧ a.size = b.size ∧
        (a.hash = b.hash → a.bins = b.bins ∧ a.map = b.map)) ∧
    (∀ (code : hashfunc → K → Int) (a b : HashMap K V),
      HashMap.WF code a → HashMap.WF code b →
      HashMap.operator_eq code (HashMap.operator_assign code a (.other b)) (.other b) = true ∧
        (HashMap.operator_assign code a (.other b)).size = b.size ∧
        (a.hash = b.hash → (HashMap.operator_assign code a (.other b)).bins = b.bins ∧
          (HashMap.operator_assign code a (.other b)).map = b.map)) ∧
    (∀ (code : hashfunc → T → Int) (thash chash : hashfunc) (t : ℚ) (a b : HashSet T),
      HashSet.WF code b → HashSet.ctor_copy code thash b t chash = .ok a →
      HashSet.operator_eq code a (.other b) = true ∧ a.size = b.size ∧
        (a.hash = b.hash → a.bins = b.bins ∧ a.set = b.set)) ∧
    (∀ (code : hashfunc → T → Int) (a b : HashSet T),
      HashSet.WF code a → HashSet.WF code b →
      HashSet.operator_eq code (HashSet.operator_assign code a (.other b)) (.other b) = true ∧
        (HashSet.operator_assign code a (.other b)).size = b.size ∧
        (a.hash = b.hash → (HashSet.operator_assign code a (.other b)).bins = b.bins ∧
          (HashSet.operator_assign code a (.other b)).set = b.set)) := by
  refine ⟨?_, ?_, ?_, ?_⟩
  · intro code thash chash t a b hb h
    exact (HashMap.ctor_copy_spec code thash chash t a b hb h).2
  · intro code a b ha hb
    obtain ⟨_, h1, h2, h3, _⟩ := HashMap.operator_assign_spec code a b ha hb
    exact ⟨h1, h2, h3⟩
  · intro code thash chash t a b hb h
    exact (HashSet.set_ctor_copy_spec code thash chash t a b hb h).2
  · intro code a b ha hb
    obtain ⟨_, h1, h2, h3, _⟩ := HashSet.set_operator_assign_spec code a b ha hb
    exact ⟨h1, h2, h3⟩

/-- Witness of C7: the sample map and set copied with their own hash function, and assigned
to from the one-bin tables that work with another hash function. -/
theorem C7_copy_and_assign_witness :
    (HashMap.operator_eq Sample.code
        Sample.map2c (.other Sample.map2) = true ∧
      Sample.map2c.size = Sample.map2.size ∧
      (Sample.map2c.hash = Sample.map2.hash →
        Sample.map2c.bins = Sample.map2.bins ∧
        Sample.map2c.map = Sample.map2.map)) ∧
    (HashMap.operator_eq Sample.code
        (HashMap.operator_assign Sample.code Sample.map2 (.other Sample.map2b))
        (.other Sample.map2b) = true ∧
      (HashMap.operator_assign Sample.code Sample.map2 (.other Sample.map2b)).size
        = Sample.map2b.size ∧
      (Sample.map2.hash = Sample.map2b.hash →
        (HashMap.operator_assign Sample.code Sample.map2 (.other Sample.map2b)).bins
          = Sample.map2b.bins ∧
        (HashMap.operator_assign Sample.code Sample.map2 (.other Sample.map2b)).map
          = Sample.map2b.map)) ∧
    (HashSet.operator_eq Sample.code
        Sample.set2c (.other Sample.set2) = true ∧
      Sample.set2c.size = Sample.set2.size ∧
      (Sample.set2c.hash = Sample.set2.hash →
        Sample.set2c.bins = Sample.set2.bins ∧
        Sample.set2c.set = Sample.set2.set)) ∧
    (HashSet.operator_eq Sample.code
        (HashSet.operator_assign Sample.code Sample.set2 (.other Sample.set2b))
        (.other Sample.set2b) = true ∧
      (HashSet.operator_assign Sample.code Sample.set2 (.other Sample.set2b)).size
        = Sample.set2b.size ∧
      (Sample.set2.hash = Sample.set2b.hash →
        (HashSet.operator_assign Sample.code Sample.set2 (.other Sample.set2b)).bins
          = Sample.set2b.bins ∧
        (HashSet.operator_assign Sample.code Sample.set2 (.other Sample.set2b)).set
          = Sample.set2b.set)) :=
  ⟨(@C7_copy_and_assign Int Int Int _ _ _).1 Sample.code 1 undefinedhash 1 Sample.map2c Sample.map2
      (by decide) (by rfl),
   (@C7_copy_and_assign Int Int Int _ _ _).2.1 Sample.code Sample.map2 Sample.map2b
      (by decide) (by decide),
   (@C7_copy_and_assign Int Int Int _ _ _).2.2.1 Sample.code 1 undefinedhash 1 Sample.set2c Sample.set2
      (by decide) (by rfl),
   (@C7_copy_and_assign Int Int Int _ _ _).2.2.2 Sample.code Sample.set2 Sample.set2b
      (by decide) (by decide)⟩

/-- C8 (counterexample): `erase` of an element that the set does not contain returns 0 and
leaves the set as it is; a cursor obtained before still advances and dereferences. -/
theorem C8_erase_absent_keeps_cursor :
    HashSet.erase Sample.code Sample.set2 5 = (0, Sample.set2) ∧
    HashSet.Iterator_inc (HashSet.erase Sample.code Sample.set2 5).2
        (HashSet.begin Sample.set2)
      = .ok { current := (1, some 0), expected_mod_count := 2, can_erase := true } ∧
    HashSet.Iterator_deref (HashSet.erase Sample.code Sample.set2 5).2
        (HashSet.begin Sample.set2)
      = .ok (some 0) ∧
    ¬ HashSet.fails_fast (HashSet.erase Sample.code Sample.set2 5).2
        (HashSet.begin Sample.set2) := by
  refine ⟨rfl, rfl, rfl, ?_⟩
  intro h
  have h2 : HashSet.Iterator_deref (HashSet.erase Sample.code Sample.set2 5).2
      (HashSet.begin Sample.set2) = .ok (some 0) := rfl
  rw [h.2.1] at h2
  cases h2

/-- C8 (amended): after a table `erase` of a key the `HashMap` contains (an element the
`HashSet` contains), `++`, `*` and `->` of every cursor created on the table before throw
`ConcurrentModificationError`. -/
theorem C8_erase_present_fails_fast {K V T : Type} [DecidableEq K] [DecidableEq T] :
    (∀ (code : hashfunc → K → Int) (m : HashMap K V) (k : K) (it : Iterator),
      HashMap.has_key code m k = true → it.expected_mod_count ≤ m.mod_count →
      ∃ r m2, HashMap.erase code m k = .ok (r, m2) ∧
        HashMap.Iterator_inc m2 it = .error Error.ConcurrentModificationError ∧
        HashMap.Iterator_deref m2 it = .error Error.ConcurrentModificationError ∧
        HashMap.Iterator_arrow m2 it = .error Error.ConcurrentModificationError) ∧
    (∀ (code : hashfunc → T → Int) (s : HashSet T) (e : T) (it : Iterator),
      HashSet.contains code s e = true → it.expected_mod_count ≤ s.mod_count →
      (HashSet.erase code s e).1 = 1 ∧
        HashSet.Iterator_inc (HashSet.erase code s e).2 it
          = .error Error.ConcurrentModificationError ∧
        HashSet.Iterator_deref (HashSet.erase code s e).2 it
          = .error Error.ConcurrentModificationError ∧
        HashSet.Iterator_arrow (HashSet.erase code s e).2 it
          = .error Error.ConcurrentModificationError) := by
  constructor
  · intro code m k it hk hit
    have hex : ∃ r m2, HashMap.erase code m k = .ok (r, m2) := by
      unfold HashMap.has_key at hk
      unfold HashMap.erase
      cases hf : HashMap.find_key code m k with
      | none => simp [hf] at hk
      | some p => exact ⟨_, _, rfl⟩
    obtain ⟨r, m2, he⟩ := hex
    have hmc := HashMap.erase_mod_count code m m2 k r he
    obtain ⟨h1, h2, h3, _⟩ := HashMap.fails_fast_of_ne m2 it (by omega)
    exact ⟨r, m2, he, h1, h2, h3⟩
  · intro code s e it hc hit
    have hmc := HashSet.set_erase_mod_count code s e
    rw [hc] at hmc
    simp only [if_true] at hmc
    obtain ⟨h1, h2, h3, _⟩ := HashSet.set_fails_fast_of_ne (HashSet.erase code s e).2 it (by omega)
    refine ⟨?_, h1, h2, h3⟩
    unfold HashSet.contains at hc
    unfold HashSet.erase
    cases hf : HashSet.find_element code s e with
    | none => simp [hf] at hc
    | some p => rfl

/-- Witness of C8 (amended): `erase(1)` on the sample map and set, with the cursors obtained
from `begin()` before. -/
theorem C8_erase_present_fails_fast_witness :
    (∃ r m2, HashMap.erase Sample.code Sample.map2 1 = .ok (r, m2) ∧
        HashMap.Iterator_inc m2 (HashMap.begin Sample.map2)
          = .error Error.ConcurrentModificationError ∧
        HashMap.Iterator_deref m2 (HashMap.begin Sample.map2)
          = .error Error.ConcurrentModificationError ∧
        HashMap.Iterator_arrow m2 (HashMap.begin Sample.map2)
          = .error Error.ConcurrentModificationError) ∧
    ((HashSet.erase Sample.code Sample.set2 1).1 = 1 ∧
        HashSet.Iterator_inc (HashSet.erase Sample.code Sample.set2 1).2
            (HashSet.begin Sample.set2)
          = .error Error.ConcurrentModificationError ∧
        HashSet.Iterator_deref (HashSet.erase Sample.code Sample.set2 1).2
            (HashSet.begin Sample.set2)
          = .error Error.ConcurrentModificationError ∧
        HashSet.Iterator_arrow (HashSet.erase Sample.code Sample.set2 1).2
            (HashSet.begin Sample.set2)
          = .error Error.ConcurrentModificationError) :=
  ⟨(@C8_erase_present_fails_fast Int Int Int _ _).1 Sample.code Sample.map2 1
      (HashMap.begin Sample.map2) (by decide) (by decide),
   (@C8_erase_present_fails_fast Int Int Int _ _).2 Sample.code Sample.set2 1
      (HashSet.begin Sample.set2) (by decide) (by decide)⟩

/-- C9: `put` (of a new key or not, growing the table or not), a successful `erase`,
`clear`, the non-const `operator[]` on an absent key and `operator=` from another table
strictly increase the mutation counter of a `HashMap`, as do `insert` of a new element,
`erase` of a present element, `clear` and `operator=` on a `HashSet`; afterwards `++`, `*`,
`->` and `erase` of every cursor created before throw `ConcurrentModificationError`.  The
remaining cases (`operator[]` on a present key, `insert` of a present element, `erase` of an
absent one, self-assignment) and the growth step by itself leave the counter as it is, so
the counter never decreases. -/
theorem C9_mutation_counter {K V T : Type} [DecidableEq K] [Inhabited V] [DecidableEq T] :
    ((∀ (code : hashfunc → K → Int) (m : HashMap K V) (k : K) (v : V),
        HashMap.invalidates m (HashMap.put code m k v).2) ∧
      (∀ (code : hashfunc → K → Int) (m m2 : HashMap K V) (k : K) (r : V),
        HashMap.erase code m k = .ok (r, m2) → HashMap.invalidates m m2) ∧
      (∀ m : HashMap K V, HashMap.invalidates m (HashMap.clear m)) ∧
      (∀ (code : hashfunc → K → Int) (m : HashMap K V) (k : K),
        HashMap.has_key code m k = false →
        HashMap.invalidates m (HashMap.operator_index code m k).2) ∧
      (∀ (code : hashfunc → K → Int) (a b : HashMap K V),
        HashMap.invalidates a (HashMap.operator_assign code a (.other b))) ∧
      (∀ (code : hashfunc → K → Int) (m : HashMap K V) (k : K),
        m.mod_count ≤ (HashMap.operator_index code m k).2.mod_count) ∧
      (∀ (code : hashfunc → K → Int) (a : HashMap K V) (rhs : Rhs (HashMap K V)),
        a.mod_count ≤ (HashMap.operator_assign code a rhs).mod_count) ∧
      (∀ (code : hashfunc → K → Int) (m : HashMap K V) (n : Int),
        (HashMap.ensure_load_threshold code m n).mod_count = m.mod_count)) ∧
    ((∀ (code : hashfunc → T → Int) (s : HashSet T) (e : T),
        HashSet.contains code s e = false →
        HashSet.invalidates s (HashSet.insert code s e).2) ∧
      (∀ (code : hashfunc → T → Int) (s : HashSet T) (e : T),
        HashSet.contains code s e = true →
        HashSet.invalidates s (HashSet.erase code s e).2) ∧
      (∀ s : HashSet T, HashSet.invalidates s (HashSet.clear s)) ∧
      (∀ (code : hashfunc → T → Int) (a b : HashSet T),
        HashSet.invalidates a (HashSet.operator_assign code a (.other b))) ∧
      (∀ (code : hashfunc → T → Int) (s : HashSet T) (e : T),
        s.mod_count ≤ (HashSet.insert code s e).2.mod_count ∧
        s.mod_count ≤ (HashSet.erase code s e).2.mod_count) ∧
      (∀ (code : hashfunc → T → Int) (a : HashSet T) (rhs : Rhs (HashSet T)),
        a.mod_count ≤ (HashSet.operator_assign code a rhs).mod_count) ∧
      (∀ (code : hashfunc → T → Int) (s : HashSet T) (n : Int),
        (HashSet.ensure_load_threshold code s n).mod_count = s.mod_count)) := by
  refine ⟨⟨?_, ?_, ?_, ?_, ?_, ?_, ?_, ?_⟩, ⟨?_, ?_, ?_, ?_, ?_, ?_, ?_⟩⟩
  · intro code m k v
    exact HashMap.invalidates_of_lt _ _ (by rw [HashMap.put_mod_count]; omega)
  · intro code m m2 k r h
    exact HashMap.invalidates_of_lt _ _ (by rw [HashMap.erase_mod_count code m m2 k r h]; omega)
  · intro m
    exact HashMap.invalidates_of_lt _ _ (by show m.mod_count < m.mod_count + 1; omega)
  · intro code m k hk
    exact HashMap.invalidates_of_lt _ _ (by
      rw [HashMap.operator_index_mod_count, hk]; simp)
  · intro code a b
    exact HashMap.invalidates_of_lt _ _ (by
      have := HashMap.operator_assign_mod_count code a b; omega)
  · intro code m k
    rw [HashMap.operator_index_mod_count]
    split <;> omega
  · intro code a rhs
    cases rhs with
    | self => exact le_refl _
    | other b => have := HashMap.operator_assign_mod_count code a b; omega
  · intro code m n
    exact (HashMap.ensure_fields code m n).2.2.1
  · intro code s e h
    exact HashSet.set_invalidates_of_lt _ _ (by rw [HashSet.insert_mod_count, h]; simp)
  · intro code s e h
    exact HashSet.set_invalidates_of_lt _ _ (by rw [HashSet.set_erase_mod_count, h]; simp)
  · intro s
    exact HashSet.set_invalidates_of_lt _ _ (by show s.mod_count < s.mod_count + 1; omega)
  · intro code a b
    exact HashSet.set_invalidates_of_lt _ _ (by
      have := HashSet.set_operator_assign_mod_count code a b; omega)
  · intro code s e
    rw [HashSet.insert_mod_count, HashSet.set_erase_mod_count]
    constructor <;> split <;> omega
  · intro code a rhs
    cases rhs with
    | self => exact le_refl _
    | other b => have := HashSet.set_operator_assign_mod_count code a b; omega
  · intro code s n
    exact (HashSet.set_ensure_fields code s n).2.2.1

/-- Witness of C9: `erase(1)` and `operator[]` with the absent key 2 on the sample map,
`insert(2)` and `erase(1)` on the sample set. -/
theorem C9_mutation_counter_witness :
    HashMap.invalidates Sample.map2 Sample.map2e ∧
    HashMap.invalidates Sample.map2 (HashMap.operator_index Sample.code Sample.map2 2).2 ∧
    HashSet.invalidates Sample.set2 (HashSet.insert Sample.code Sample.set2 2).2 ∧
    HashSet.invalidates Sample.set2 (HashSet.erase Sample.code Sample.set2 1).2 :=
  ⟨(@C9_mutation_counter Int Int Int _ _ _).1.2.1 Sample.code Sample.map2 Sample.map2e 1 7
      (by rfl),
   (@C9_mutation_counter Int Int Int _ _ _).1.2.2.2.1 Sample.code Sample.map2 2 (by decide),
   (@C9_mutation_counter Int Int Int _ _ _).2.1 Sample.code Sample.set2 2 (by decide),
   (@C9_mutation_counter Int Int Int _ _ _).2.2.1 Sample.code Sample.set2 1 (by decide)⟩

/-- C10: on a well-formed table, `erase()` of a cursor that is not stale, has its can-erase
flag set and lies on the live entry `e` returns `e`; afterwards the key of `e` is not found
and every other key is mapped as before, `size()` is one less, the mutation counter is one
more and is the snapshot of the cursor, so that the following `++` succeeds and `*` and `->`
after it do not throw `ConcurrentModificationError`. -/
theorem C10_cursor_erase {K V T : Type} [DecidableEq K] [DecidableEq T] :
    (∀ (code : hashfunc → K → Int) (m : HashMap K V) (it : Iterator) (e : K × V),
      HashMap.WF code m → it.expected_mod_count = m.mod_count → it.can_erase = true →
      0 ≤ it.current.1 → Bucket.node_value m.table it.current = some e →
      ∃ it2 m2, HashMap.Iterator_erase m it = .ok (some e, it2, m2) ∧
        HashMap.has_key code m2 e.1 = false ∧
        (∀ k, k ≠ e.1 → HashMap.get? code m2 k = HashMap.get? code m k) ∧
        m2.size = m.size - 1 ∧ m2.mod_count = m.mod_count + 1 ∧
        it2.expected_mod_count = m2.mod_count ∧
        ∃ it3, HashMap.Iterator_inc m2 it2 = .ok it3 ∧
          HashMap.Iterator_deref m2 it3 ≠ .error Error.ConcurrentModificationError ∧
          HashMap.Iterator_arrow m2 it3 ≠ .error Error.ConcurrentModificationError) ∧
    (∀ (code : hashfunc → T → Int) (s : HashSet T) (it : Iterator) (e : T),
      HashSet.WF code s → it.expected_mod_count = s.mod_count → it.can_erase = true →
      0 ≤ it.current.1 → Bucket.node_value s.table it.current = some e →
      ∃ it2 s2, HashSet.Iterator_erase s it = .ok (some e, it2, s2) ∧
        HashSet.contains code s2 e = false ∧
        (∀ x, x ≠ e → HashSet.contains code s2 x = HashSet.contains code s x) ∧
        s2.size = s.size - 1 ∧ s2.mod_count = s.mod_count + 1 ∧
        it2.expected_mod_count = s2.mod_count ∧
        ∃ it3, HashSet.Iterator_inc s2 it2 = .ok it3 ∧
          HashSet.Iterator_deref s2 it3 ≠ .error Error.ConcurrentModificationError ∧
          HashSet.Iterator_arrow s2 it3 ≠ .error Error.ConcurrentModificationError) := by
  constructor
  · intro code m it e hw hs hc h0 he
    obtain ⟨it2, m2, h1, hw2, hget, hu, hmc, hsnap, _⟩ :=
      HashMap.Iterator_erase_spec code m hw it e hs hc h0 he
    obtain ⟨it3, h3, _, h4, h5⟩ := HashMap.inc_deref_of_fresh m2 it2 hsnap
    refine ⟨it2, m2, h1, ?_, ?_, hu, hmc, hsnap, it3, h3, h4, h5⟩
    · rw [HashMap.has_key_eq, hget, if_pos rfl]; rfl
    · intro k hk
      rw [hget, if_neg hk]
  · intro code s it e hw hs hc h0 he
    obtain ⟨it2, s2, h1, hw2, hget, hu, hmc, hsnap, _⟩ :=
      HashSet.set_Iterator_erase_spec code s hw it e hs hc h0 he
    obtain ⟨it3, h3, _, h4, h5⟩ := HashSet.set_inc_deref_of_fresh s2 it2 hsnap
    refine ⟨it2, s2, h1, ?_, ?_, hu, hmc, hsnap, it3, h3, h4, h5⟩
    · rw [hget]; simp
    · intro x hx
      rw [hget]; simp [hx]

/-- Witness of C10: the cursors `begin()` of the sample map and of the sample set, which lie
on the entry `0 -> 5` and on the element 0. -/
theorem C10_cursor_erase_witness :
    (∃ it2 m2, HashMap.Iterator_erase Sample.map2 (HashMap.begin Sample.map2)
          = .ok (some (0, 5), it2, m2) ∧
        HashMap.has_key Sample.code m2 (0, 5).1 = false ∧
        (∀ k, k ≠ ((0, 5) : Int × Int).1 →
          HashMap.get? Sample.code m2 k = HashMap.get? Sample.code Sample.map2 k) ∧
        m2.size = Sample.map2.size - 1 ∧ m2.mod_count = Sample.map2.mod_count + 1 ∧
        it2.expected_mod_count = m2.mod_count ∧
        ∃ it3, HashMap.Iterator_inc m2 it2 = .ok it3 ∧
          HashMap.Iterator_deref m2 it3 ≠ .error Error.ConcurrentModificationError ∧
          HashMap.Iterator_arrow m2 it3 ≠ .error Error.ConcurrentModificationError) ∧
    (∃ it2 s2, HashSet.Iterator_erase Sample.set2 (HashSet.begin Sample.set2)
          = .ok (some 0, it2, s2) ∧
        HashSet.contains Sample.code s2 0 = false ∧
        (∀ x, x ≠ 0 → HashSet.contains Sample.code s2 x = HashSet.contains Sample.code Sample.set2 x) ∧
        s2.size = Sample.set2.size - 1 ∧ s2.mod_count = Sample.set2.mod_count + 1 ∧
        it2.expected_mod_count = s2.mod_count ∧
        ∃ it3, HashSet.Iterator_inc s2 it2 = .ok it3 ∧
          HashSet.Iterator_deref s2 it3 ≠ .error Error.ConcurrentModificationError ∧
          HashSet.Iterator_arrow s2 it3 ≠ .error Error.ConcurrentModificationError) :=
  ⟨(@C10_cursor_erase Int Int Int _ _).1 Sample.code Sample.map2 (HashMap.begin Sample.map2)
      (0, 5) (by decide) (by decide) (by decide) (by decide) (by decide),
   (@C10_cursor_erase Int Int Int _ _).2 Sample.code Sample.set2 (HashSet.begin Sample.set2)
      0 (by decide) (by decide) (by decide) (by decide) (by decide)⟩

/-- C11: cursor `erase()` throws `ConcurrentModificationError` when the snapshot of the
cursor differs from the mutation counter of the table; otherwise it throws
`CannotEraseError` when the cursor is at the end position or has erased without a `++`
since; otherwise it succeeds.  After a successful `erase()` the next `erase()` on the same
cursor throws `CannotEraseError`, so of two consecutive calls on a cursor that is not stale
the second always does. -/
theorem C11_cursor_erase_errors {K V T : Type} [DecidableEq K] [DecidableEq T] :
    (∀ (m : HashMap K V) (it : Iterator),
      (it.expected_mod_count ≠ m.mod_count →
        HashMap.Iterator_erase m it = .error Error.ConcurrentModificationError) ∧
      (it.expected_mod_count = m.mod_count → (it.current.1 = -1 ∨ it.can_erase = false) →
        HashMap.Iterator_erase m it = .error Error.CannotEraseError) ∧
      (it.expected_mod_count = m.mod_count → it.current.1 ≠ -1 → it.can_erase = true →
        ∃ r it2 m2, HashMap.Iterator_erase m it = .ok (r, it2, m2)) ∧
      (∀ r it2 m2, HashMap.Iterator_erase m it = .ok (r, it2, m2) →
        HashMap.Iterator_erase m2 it2 = .error Error.CannotEraseError) ∧
      (it.expected_mod_count = m.mod_count →
        HashMap.Iterator_erase m it = .error Error.CannotEraseError ∨
        ∃ r it2 m2, HashMap.Iterator_erase m it = .ok (r, it2, m2) ∧
          HashMap.Iterator_erase m2 it2 = .error Error.CannotEraseError)) ∧
    (∀ (s : HashSet T) (it : Iterator),
      (it.expected_mod_count ≠ s.mod_count →
        HashSet.Iterator_erase s it = .error Error.ConcurrentModificationError) ∧
      (it.expected_mod_count = s.mod_count → (it.current.1 = -1 ∨ it.can_erase = false) →
        HashSet.Iterator_erase s it = .error Error.CannotEraseError) ∧
      (it.expected_mod_count = s.mod_count → it.current.1 ≠ -1 → it.can_erase = true →
        ∃ r it2 s2, HashSet.Iterator_erase s it = .ok (r, it2, s2)) ∧
      (∀ r it2 s2, HashSet.Iterator_erase s it = .ok (r, it2, s2) →
        HashSet.Iterator_erase s2 it2 = .error Error.CannotEraseError) ∧
      (it.expected_mod_count = s.mod_count →
        HashSet.Iterator_erase s it = .error Error.CannotEraseError ∨
        ∃ r it2 s2, HashSet.Iterator_erase s it = .ok (r, it2, s2) ∧
          HashSet.Iterator_erase s2 it2 = .error Error.CannotEraseError)) := by
  constructor
  · intro m it
    obtain ⟨h1, h2, h3⟩ := HashMap.Iterator_erase_cases m it
    refine ⟨h1, h2, h3, fun r it2 m2 h => HashMap.Iterator_erase_twice m m2 it it2 r h, ?_⟩
    intro hs
    by_cases hc : it.current.1 = -1 ∨ it.can_erase = false
    · exact Or.inl (h2 hs hc)
    · have hc1 : it.current.1 ≠ -1 := fun h => hc (Or.inl h)
      have hc2 : it.can_erase = true := by
        cases hce : it.can_erase
        · exact absurd (Or.inr hce) hc
        · rfl
      obtain ⟨r, it2, m2, h⟩ := h3 hs hc1 hc2
      exact Or.inr ⟨r, it2, m2, h, HashMap.Iterator_erase_twice m m2 it it2 r h⟩
  · intro s it
    obtain ⟨h1, h2, h3⟩ := HashSet.set_Iterator_erase_cases s it
    refine ⟨h1, h2, h3, fun r it2 s2 h => HashSet.set_Iterator_erase_twice s s2 it it2 r h, ?_⟩
    intro hs
    by_cases hc : it.current.1 = -1 ∨ it.can_erase = false
    · exact Or.inl (h2 hs hc)
    · have hc1 : it.current.1 ≠ -1 := fun h => hc (Or.inl h)
      have hc2 : it.can_erase = true := by
        cases hce : it.can_erase
        · exact absurd (Or.inr hce) hc
        · rfl
      obtain ⟨r, it2, s2, h⟩ := h3 hs hc1 hc2
      exact Or.inr ⟨r, it2, s2, h, HashSet.set_Iterator_erase_twice s s2 it it2 r h⟩

/-- Witness of C11: the cursor `begin()` of the sample map succeeds, the cursor `end()`
throws `CannotEraseError`, a cursor with an old snapshot throws
`ConcurrentModificationError`; the same on the sample set. -/
theorem C11_cursor_erase_errors_witness :
    ((∃ r it2 m2, HashMap.Iterator_erase Sample.map2 (HashMap.begin Sample.map2)
        = .ok (r, it2, m2)) ∧
      HashMap.Iterator_erase Sample.map2 (HashMap.end_ Sample.map2)
        = .error Error.CannotEraseError ∧
      HashMap.Iterator_erase Sample.map2 (HashMap.begin Sample.map0)
        = .error Error.ConcurrentModificationError ∧
      (HashMap.Iterator_erase Sample.map2 (HashMap.begin Sample.map2)
          = .error Error.CannotEraseError ∨
        ∃ r it2 m2, HashMap.Iterator_erase Sample.map2 (HashMap.begin Sample.map2)
            = .ok (r, it2, m2) ∧
          HashMap.Iterator_erase m2 it2 = .error Error.CannotEraseError)) ∧
    ((∃ r it2 s2, HashSet.Iterator_erase Sample.set2 (HashSet.begin Sample.set2)
        = .ok (r, it2, s2)) ∧
      HashSet.Iterator_erase Sample.set2 (HashSet.end_ Sample.set2)
        = .error Error.CannotEraseError ∧
      HashSet.Iterator_erase Sample.set2 (HashSet.begin Sample.set0)
        = .error Error.ConcurrentModificationError ∧
      (HashSet.Iterator_erase Sample.set2 (HashSet.begin Sample.set2)
          = .error Error.CannotEraseError ∨
        ∃ r it2 s2, HashSet.Iterator_erase Sample.set2 (HashSet.begin Sample.set2)
            = .ok (r, it2, s2) ∧
          HashSet.Iterator_erase s2 it2 = .error Error.CannotEraseError)) :=
  ⟨⟨((@C11_cursor_erase_errors Int Int Int _ _).1 Sample.map2
        (HashMap.begin Sample.map2)).2.2.1 (by decide) (by decide) (by decide),
    ((@C11_cursor_erase_errors Int Int Int _ _).1 Sample.map2
        (HashMap.end_ Sample.map2)).2.1 (by decide) (by decide),
    ((@C11_cursor_erase_errors Int Int Int _ _).1 Sample.map2
        (HashMap.begin Sample.map0)).1 (by decide),
    ((@C11_cursor_erase_errors Int Int Int _ _).1 Sample.map2
        (HashMap.begin Sample.map2)).2.2.2.2 (by decide)⟩,
   ⟨((@C11_cursor_erase_errors Int Int Int _ _).2 Sample.set2
        (HashSet.begin Sample.set2)).2.2.1 (by decide) (by decide) (by decide),
    ((@C11_cursor_erase_errors Int Int Int _ _).2 Sample.set2
        (HashSet.end_ Sample.set2)).2.1 (by decide) (by decide),
    ((@C11_cursor_erase_errors Int Int Int _ _).2 Sample.set2
        (HashSet.begin Sample.set0)).1 (by decide),
    ((@C11_cursor_erase_errors Int Int Int _ _).2 Sample.set2
        (HashSet.begin Sample.set2)).2.2.2.2 (by decide)⟩⟩

/-- C14: on every well-formed table the loop `for (i = begin(); i != end(); ++i) *i`, given
one unit of fuel per entry and one for the last test, ends and dereferences exactly the
live entries, each once, in the order bin 0 from chain head to trailer, then bin 1, and
so on (`entries` is the concatenation of the chains in bin order); their number is
`size()`, no entry occurs twice, and `begin() == end()` is true exactly when the table is
empty. -/
theorem C14_cursor_traversal {K V T : Type} [DecidableEq K] [DecidableEq T] :
    (∀ (code : hashfunc → K → Int) (m : HashMap K V) (ref_map fuel : Nat),
      HashMap.WF code m → m.size.toNat + 1 ≤ fuel →
      HashMap.range_for m ref_map fuel = some (.ok (m.entries.map some)) ∧
      m.entries = m.table.flatten ∧ ((m.entries.map some).length : Int) = m.size ∧
      m.entries.Nodup ∧
      HashMap.Iterator_eq m ref_map (HashMap.begin m) ref_map (HashMap.end_ m)
        = .ok m.empty ∧
      HashMap.Iterator_ne m ref_map (HashMap.begin m) ref_map (HashMap.end_ m)
        = .ok (!m.empty)) ∧
    (∀ (code : hashfunc → T → Int) (s : HashSet T) (ref_set fuel : Nat),
      HashSet.WF code s → s.size.toNat + 1 ≤ fuel →
      HashSet.range_for s ref_set fuel = some (.ok (s.entries.map some)) ∧
      s.entries = s.table.flatten ∧ ((s.entries.map some).length : Int) = s.size ∧
      s.entries.Nodup ∧
      HashSet.Iterator_eq s ref_set (HashSet.begin s) ref_set (HashSet.end_ s)
        = .ok s.empty ∧
      HashSet.Iterator_ne s ref_set (HashSet.begin s) ref_set (HashSet.end_ s)
        = .ok (!s.empty)) := by
  constructor
  · intro code m r fuel hw hf
    have hu : (m.entries.length : Int) = m.size := hw.2.symm
    refine ⟨HashMap.range_for_spec code m hw r fuel ?_, rfl, by simpa using hu,
      HashMap.entries_nodup code m hw.1, HashMap.begin_eq_end code m hw r⟩
    rw [← hu] at hf
    simpa using hf
  · intro code s r fuel hw hf
    have hu : (s.entries.length : Int) = s.size := hw.2.symm
    refine ⟨HashSet.set_range_for_spec code s hw r fuel ?_, rfl, by simpa using hu,
      hw.1.2.2.2, HashSet.set_begin_eq_end code s hw r⟩
    rw [← hu] at hf
    simpa using hf

/-- Witness of C14: the sample map and set with two entries, traversed with three units of
fuel. -/
theorem C14_cursor_traversal_witness :
    (HashMap.range_for Sample.map2 0 3 = some (.ok (Sample.map2.entries.map some)) ∧
      Sample.map2.entries = Sample.map2.table.flatten ∧
      ((Sample.map2.entries.map some).length : Int) = Sample.map2.size ∧
      Sample.map2.entries.Nodup ∧
      HashMap.Iterator_eq Sample.map2 0 (HashMap.begin Sample.map2) 0
        (HashMap.end_ Sample.map2) = .ok Sample.map2.empty ∧
      HashMap.Iterator_ne Sample.map2 0 (HashMap.begin Sample.map2) 0
        (HashMap.end_ Sample.map2) = .ok (!Sample.map2.empty)) ∧
    (HashSet.range_for Sample.set2 0 3 = some (.ok (Sample.set2.entries.map some)) ∧
      Sample.set2.entries = Sample.set2.table.flatten ∧
      ((Sample.set2.entries.map some).length : Int) = Sample.set2.size ∧
      Sample.set2.entries.Nodup ∧
      HashSet.Iterator_eq Sample.set2 0 (HashSet.begin Sample.set2) 0
        (HashSet.end_ Sample.set2) = .ok Sample.set2.empty ∧
      HashSet.Iterator_ne Sample.set2 0 (HashSet.begin Sample.set2) 0
        (HashSet.end_ Sample.set2) = .ok (!Sample.set2.empty)) :=
  ⟨(@C14_cursor_traversal Int Int Int _ _).1 Sample.code Sample.map2 0 3 (by decide)
      (by decide),
   (@C14_cursor_traversal Int Int Int _ _).2 Sample.code Sample.set2 0 3 (by decide)
      (by decide)⟩

/-- C15: `HashMap::erase(k)` throws `KeyError` exactly when `k` is not found as a key, and
otherwise returns; `HashSet::erase(e)` returns 0 exactly when `e` is not found as an element
and 1 otherwise.  On a well-formed table a key (element) is found exactly when a live node
holds it. -/
theorem C15_erase_result {K V T : Type} [DecidableEq K] [DecidableEq T] :
    (∀ (code : hashfunc → K → Int) (m : HashMap K V) (k : K),
      (HashMap.erase code m k = .error Error.KeyError ↔ HashMap.has_key code m k = false) ∧
      (HashMap.has_key code m k = true → ∃ r m2, HashMap.erase code m k = .ok (r, m2)) ∧
      (HashMap.WF code m →
        (HashMap.has_key code m k = true ↔ k ∈ m.entries.map Prod.fst))) ∧
    (∀ (code : hashfunc → T → Int) (s : HashSet T) (e : T),
      ((HashSet.erase code s e).1 = 0 ↔ HashSet.contains code s e = false) ∧
      (HashSet.contains code s e = true → (HashSet.erase code s e).1 = 1) ∧
      (HashSet.WF code s → (HashSet.contains code s e = true ↔ e ∈ s.entries))) := by
  constructor
  · intro code m k
    exact ⟨HashMap.erase_eq_error_iff code m k, HashMap.erase_ok_of_has_key code m k,
      fun hw => (HashMap.mem_keys_iff code m hw.1 k).symm⟩
  · intro code s e
    refine ⟨?_, ?_, fun hw => HashSet.contains_iff code s hw.1 e⟩
    · rw [HashSet.erase_fst]
      cases HashSet.contains code s e <;> simp
    · intro h
      rw [HashSet.erase_fst, if_pos h]

/-- Witness of C15: the key 1 of the sample map and the element 1 of the sample set. -/
theorem C15_erase_result_witness :
    ((∃ r m2, HashMap.erase Sample.code Sample.map2 1 = .ok (r, m2)) ∧
      (HashMap.has_key Sample.code Sample.map2 1 = true ↔
        (1 : Int) ∈ Sample.map2.entries.map Prod.fst)) ∧
    ((HashSet.erase Sample.code Sample.set2 1).1 = 1 ∧
      (HashSet.contains Sample.code Sample.set2 1 = true ↔ (1 : Int) ∈ Sample.set2.entries)) :=
  ⟨⟨((@C15_erase_result Int Int Int _ _).1 Sample.code Sample.map2 1).2.1 (by decide),
    ((@C15_erase_result Int Int Int _ _).1 Sample.code Sample.map2 1).2.2 (by decide)⟩,
   ⟨((@C15_erase_result Int Int Int _ _).2 Sample.code Sample.set2 1).2.1 (by decide),
    ((@C15_erase_result Int Int Int _ _).2 Sample.code Sample.set2 1).2.2 (by decide)⟩⟩

/-- C16: when a well-formed `HashMap` maps `k` to `v`, `erase(k)` returns `v`, lowers
`size()` by exactly 1, raises the mutation counter by exactly 1, keeps the bin count, and
for every other key leaves `has_key` and the value read by `operator[]` as they were. -/
theorem C16_erase_frame {K V : Type} [DecidableEq K]
    (code : hashfunc → K → Int) (m : HashMap K V) (k : K) (v : V)
    (hw : HashMap.WF code m) (hv : HashMap.operator_index_const code m k = .ok v) :
    ∃ m2, HashMap.erase code m k = .ok (v, m2) ∧
      m2.size = m.size - 1 ∧ m2.mod_count = m.mod_count + 1 ∧ m2.bins = m.bins ∧
      ∀ k2, k2 ≠ k →
        HashMap.has_key code m2 k2 = HashMap.has_key code m k2 ∧
        HashMap.operator_index_const code m2 k2 = HashMap.operator_index_const code m k2 ∧
        HashMap.get? code m2 k2 = HashMap.get? code m k2 := by
  have hg : HashMap.get? code m k = some v := by
    rw [HashMap.operator_index_const_eq] at hv
    cases hgk : HashMap.get? code m k with
    | none => simp [hgk] at hv
    | some w =>
      simp only [hgk, Except.ok.injEq] at hv
      rw [hv]
  obtain ⟨m2, he, _, hget, hu, hmc, _, _, hb⟩ := HashMap.erase_spec code m hw k v hg
  refine ⟨m2, he, hu, hmc, hb, ?_⟩
  intro k2 hk
  have h := hget k2
  rw [if_neg hk] at h
  refine ⟨?_, ?_, h⟩
  · rw [HashMap.has_key_eq, HashMap.has_key_eq, h]
  · rw [HashMap.operator_index_const_eq, HashMap.operator_index_const_eq, h]

/-- Witness of C16: `erase(1)` on the sample map `{0 -> 5, 1 -> 7}`. -/
theorem C16_erase_frame_witness :
    ∃ m2, HashMap.erase Sample.code Sample.map2 1 = .ok (7, m2) ∧
      m2.size = Sample.map2.size - 1 ∧ m2.mod_count = Sample.map2.mod_count + 1 ∧
      m2.bins = Sample.map2.bins ∧
      ∀ k2, k2 ≠ 1 →
        HashMap.has_key Sample.code m2 k2 = HashMap.has_key Sample.code Sample.map2 k2 ∧
        HashMap.operator_index_const Sample.code m2 k2
          = HashMap.operator_index_const Sample.code Sample.map2 k2 ∧
        HashMap.get? Sample.code m2 k2 = HashMap.get? Sample.code Sample.map2 k2 :=
  C16_erase_frame Sample.code Sample.map2 1 7 (by decide) (by rfl)

/-- C18: the default, bin-count and initializer-list / iterable constructors of `HashMap`
and `HashSet` throw `TemplateFunctionError` exactly when `thash` and `chash` are both
`undefinedhash` or are both defined and differ; otherwise they build a table whose hash
function is `thash` if it is defined and `chash` if not. -/
theorem C18_constructor_hash {K V T : Type} [DecidableEq K] [DecidableEq T] :
    (∀ (code : hashfunc → K → Int) (thash chash : hashfunc) (t : ℚ) (initial_bins : Int)
        (il : List (K × V)),
      ((HashMap.ctor_default code thash t chash : Except Error (HashMap K V))
          = .error Error.TemplateFunctionError ↔ ambiguous_or_missing thash chash) ∧
      ((HashMap.ctor_bins code thash initial_bins t chash : Except Error (HashMap K V))
          = .error Error.TemplateFunctionError ↔ ambiguous_or_missing thash chash) ∧
      (HashMap.ctor_il code thash il t chash
          = .error Error.TemplateFunctionError ↔ ambiguous_or_missing thash chash) ∧
      (¬ ambiguous_or_missing thash chash →
        (∃ m : HashMap K V, HashMap.ctor_default code thash t chash = .ok m ∧
          m.hash = if thash ≠ undefinedhash then thash else chash) ∧
        (∃ m : HashMap K V, HashMap.ctor_bins code thash initial_bins t chash = .ok m ∧
          m.hash = if thash ≠ undefinedhash then thash else chash) ∧
        (∃ m : HashMap K V, HashMap.ctor_il code thash il t chash = .ok m ∧
          m.hash = if thash ≠ undefinedhash then thash else chash))) ∧
    (∀ (code : hashfunc → T → Int) (thash chash : hashfunc) (t : ℚ) (initial_bins : Int)
        (il : List T),
      ((HashSet.ctor_default code thash t chash : Except Error (HashSet T))
          = .error Error.TemplateFunctionError ↔ ambiguous_or_missing thash chash) ∧
      ((HashSet.ctor_bins code thash initial_bins t chash : Except Error (HashSet T))
          = .error Error.TemplateFunctionError ↔ ambiguous_or_missing thash chash) ∧
      (HashSet.ctor_il code thash il t chash
          = .error Error.TemplateFunctionError ↔ ambiguous_or_missing thash chash) ∧
      (¬ ambiguous_or_missing thash chash →
        (∃ s : HashSet T, HashSet.ctor_default code thash t chash = .ok s ∧
          s.hash = if thash ≠ undefinedhash then thash else chash) ∧
        (∃ s : HashSet T, HashSet.ctor_bins code thash initial_bins t chash = .ok s ∧
          s.hash = if thash ≠ undefinedhash then thash else chash) ∧
        (∃ s : HashSet T, HashSet.ctor_il code thash il t chash = .ok s ∧
          s.hash = if thash ≠ undefinedhash then thash else chash))) := by
  constructor
  · intro code thash chash t initial_bins il
    have hd := @HashMap.ctor_bins_eq K V _ code thash chash 1 t
    rw [← HashMap.ctor_default_eq] at hd
    have hb := @HashMap.ctor_bins_eq K V _ code thash chash initial_bins t
    have hi := HashMap.ctor_il_eq code thash chash il t
    exact ⟨hd.1, hb.1, hi.1, fun h => ⟨hd.2 h, hb.2 h, hi.2 h⟩⟩
  · intro code thash chash t initial_bins il
    have hd := @HashSet.set_ctor_bins_eq T _ code thash chash 1 t
    rw [← HashSet.set_ctor_default_eq] at hd
    have hb := @HashSet.set_ctor_bins_eq T _ code thash chash initial_bins t
    have hi := HashSet.set_ctor_il_eq code thash chash il t
    exact ⟨hd.1, hb.1, hi.1, fun h => ⟨hd.2 h, hb.2 h, hi.2 h⟩⟩

/-- Witness of C18: no type-level hash function and the constructor argument 1. -/
theorem C18_constructor_hash_witness :
    ((∃ m : HashMap Int Int, HashMap.ctor_default Sample.code undefinedhash 1 1 = .ok m ∧
        m.hash = if undefinedhash ≠ undefinedhash then undefinedhash else 1) ∧
      (∃ m : HashMap Int Int, HashMap.ctor_bins Sample.code undefinedhash 4 1 1 = .ok m ∧
        m.hash = if undefinedhash ≠ undefinedhash then undefinedhash else 1) ∧
      (∃ m : HashMap Int Int,
        HashMap.ctor_il Sample.code undefinedhash [(1, 5)] 1 1 = .ok m ∧
        m.hash = if undefinedhash ≠ undefinedhash then undefinedhash else 1)) ∧
    ((∃ s : HashSet Int, HashSet.ctor_default Sample.code undefinedhash 1 1 = .ok s ∧
        s.hash = if undefinedhash ≠ undefinedhash then undefinedhash else 1) ∧
      (∃ s : HashSet Int, HashSet.ctor_bins Sample.code undefinedhash 4 1 1 = .ok s ∧
        s.hash = if undefinedhash ≠ undefinedhash then undefinedhash else 1) ∧
      (∃ s : HashSet Int, HashSet.ctor_il Sample.code undefinedhash [1] 1 1 = .ok s ∧
        s.hash = if undefinedhash ≠ undefinedhash then undefinedhash else 1)) :=
  ⟨((@C18_constructor_hash Int Int Int _ _).1 Sample.code undefinedhash 1 1 4 [(1, 5)]).2.2.2
      (by decide),
   ((@C18_constructor_hash Int Int Int _ _).2 Sample.code undefinedhash 1 1 4 [1]).2.2.2
      (by decide)⟩

/-- C19 (counterexample): in a class without a type-level hash function, copying the sample
map (hash function at address 1) with the constructor argument 2 does not throw: the copy
is built and works with the hash function at address 2. -/
theorem C19_copy_with_other_hash_succeeds :
    Sample.map2.hash = 1 ∧
    HashMap.ctor_copy Sample.code2 undefinedhash Sample.map2 1 2
      ≠ .error Error.TemplateFunctionError ∧
    ∃ a, HashMap.ctor_copy Sample.code2 undefinedhash Sample.map2 1 2 = .ok a ∧ a.hash = 2 := by
  obtain ⟨a, h1, h2⟩ :=
    (HashMap.ctor_copy_cases Sample.code2 undefinedhash 2 1 Sample.map2).2 (by decide)
  refine ⟨rfl, ?_, a, h1, by rw [h2]; decide⟩
  rw [h1]
  intro h
  cases h

/-- C19 (amended): the copy constructor takes `thash` if it is defined, else `chash` if it
is defined, else the hash function of the table copied, and throws only when `thash` and
`chash` are both defined and differ.  For a source `b` of the same class (its hash function
is `thash` when that is defined) with hash function `f` and a constructor argument `g`:
with `g` defined and different from `f` the constructor throws `TemplateFunctionError` when
`thash` is defined, and builds a copy working with `g` when `thash` is `undefinedhash`;
with `g` undefined or equal to `f` the copy works with `f`. -/
theorem C19_copy_constructor_hash {K V T : Type} [DecidableEq K] [DecidableEq T] :
    (∀ (code : hashfunc → K → Int) (thash g : hashfunc) (t : ℚ) (b : HashMap K V),
      (thash ≠ undefinedhash → b.hash = thash) →
      (g ≠ undefinedhash → g ≠ b.hash → thash ≠ undefinedhash →
        HashMap.ctor_copy code thash b t g = .error Error.TemplateFunctionError) ∧
      (g ≠ undefinedhash → g ≠ b.hash → thash = undefinedhash →
        ∃ a, HashMap.ctor_copy code thash b t g = .ok a ∧ a.hash = g) ∧
      (g = undefinedhash ∨ g = b.hash →
        ∃ a, HashMap.ctor_copy code thash b t g = .ok a ∧ a.hash = b.hash)) ∧
    (∀ (code : hashfunc → T → Int) (thash g : hashfunc) (t : ℚ) (b : HashSet T),
      (thash ≠ undefinedhash → b.hash = thash) →
      (g ≠ undefinedhash → g ≠ b.hash → thash ≠ undefinedhash →
        HashSet.ctor_copy code thash b t g = .error Error.TemplateFunctionError) ∧
      (g ≠ undefinedhash → g ≠ b.hash → thash = undefinedhash →
        ∃ a, HashSet.ctor_copy code thash b t g = .ok a ∧ a.hash = g) ∧
      (g = undefinedhash ∨ g = b.hash →
        ∃ a, HashSet.ctor_copy code thash b t g = .ok a ∧ a.hash = b.hash)) := by
  constructor
  · intro code thash g t b hcls
    obtain ⟨h1, h2⟩ := HashMap.ctor_copy_cases code thash g t b
    refine ⟨?_, ?_, ?_⟩
    · intro hg hgf ht
      exact h1 ⟨ht, hg, by rw [← hcls ht]; exact hgf⟩
    · intro hg hgf ht
      obtain ⟨a, ha, hh⟩ := h2 (fun h => h.1 ht)
      refine ⟨a, ha, ?_⟩
      rw [hh]
      simp [ht, hg]
    · intro hg
      have hno : ¬ (thash ≠ undefinedhash ∧ g ≠ undefinedhash ∧ g ≠ thash) := by
        rintro ⟨ht, hgd, hgt⟩
        rcases hg with hg | hg
        · exact hgd hg
        · exact hgt (hg.trans (hcls ht))
      obtain ⟨a, ha, hh⟩ := h2 hno
      refine ⟨a, ha, ?_⟩
      rw [hh]
      by_cases ht : thash = undefinedhash
      · rcases hg with hg | hg
        · simp [ht, hg]
        · by_cases hgu : g = undefinedhash
          · simp [ht, hgu]
          · simp [ht, hgu, hg]
      · have := hcls ht
        simp [ht, this]
  · intro code thash g t b hcls
    obtain ⟨h1, h2⟩ := HashSet.set_ctor_copy_cases code thash g t b
    refine ⟨?_, ?_, ?_⟩
    · intro hg hgf ht
      exact h1 ⟨ht, hg, by rw [← hcls ht]; exact fun h => hgf h.symm⟩
    · intro hg hgf ht
      obtain ⟨a, ha, hh⟩ := h2 (fun h => h.1 ht)
      refine ⟨a, ha, ?_⟩
      rw [hh]
      simp [ht, hg]
    · intro hg
      have hno : ¬ (thash ≠ undefinedhash ∧ g ≠ undefinedhash ∧ thash ≠ g) := by
        rintro ⟨ht, hgd, hgt⟩
        rcases hg with hg | hg
        · exact hgd hg
        · exact hgt ((hcls ht).symm.trans hg.symm)
      obtain ⟨a, ha, hh⟩ := h2 hno
      refine ⟨a, ha, ?_⟩
      rw [hh]
      by_cases ht : thash = undefinedhash
      · rcases hg with hg | hg
        · simp [ht, hg]
        · by_cases hgu : g = undefinedhash
          · simp [ht, hgu]
          · simp [ht, hgu, hg]
      · have := hcls ht
        simp [ht, this]

/-- Witness of C19 (amended): the sample map and set (hash function at address 1) copied in
the class with `thash` at address 1 and in the class without a type-level hash function. -/
theorem C19_copy_constructor_hash_witness :
    (HashMap.ctor_copy Sample.code2 1 Sample.map2 1 2 = .error Error.TemplateFunctionError ∧
      (∃ a, HashMap.ctor_copy Sample.code2 undefinedhash Sample.map2 1 2 = .ok a ∧
        a.hash = 2) ∧
      (∃ a, HashMap.ctor_copy Sample.code2 1 Sample.map2 1 undefinedhash = .ok a ∧
        a.hash = Sample.map2.hash)) ∧
    (HashSet.ctor_copy Sample.code2 1 Sample.set2 1 2 = .error Error.TemplateFunctionError ∧
      (∃ a, HashSet.ctor_copy Sample.code2 undefinedhash Sample.set2 1 2 = .ok a ∧
        a.hash = 2) ∧
      (∃ a, HashSet.ctor_copy Sample.code2 1 Sample.set2 1 undefinedhash = .ok a ∧
        a.hash = Sample.set2.hash)) :=
  ⟨⟨((@C19_copy_constructor_hash Int Int Int _ _).1 Sample.code2 1 2 1 Sample.map2
        (by decide)).1 (by decide) (by decide) (by decide),
    ((@C19_copy_constructor_hash Int Int Int _ _).1 Sample.code2 undefinedhash 2 1 Sample.map2
        (by decide)).2.1 (by decide) (by decide) (by decide),
    ((@C19_copy_constructor_hash Int Int Int _ _).1 Sample.code2 1 undefinedhash 1 Sample.map2
        (by decide)).2.2 (by decide)⟩,
   ⟨((@C19_copy_constructor_hash Int Int Int _ _).2 Sample.code2 1 2 1 Sample.set2
        (by decide)).1 (by decide) (by decide) (by decide),
    ((@C19_copy_constructor_hash Int Int Int _ _).2 Sample.code2 undefinedhash 2 1 Sample.set2
        (by decide)).2.1 (by decide) (by decide) (by decide),
    ((@C19_copy_constructor_hash Int Int Int _ _).2 Sample.code2 1 undefinedhash 1 Sample.set2
        (by decide)).2.2 (by decide)⟩⟩

/-- C20 (counterexample): assigning the sample map built by the hash function at address 2
to the sample map built by the hash function at address 1 leaves the destination with the
hash function at address 2, not with the one it had before; likewise for the sets. -/
theorem C20_assign_adopts_source_hash :
    Sample.map2.hash = 1 ∧
    (HashMap.operator_assign Sample.code2 Sample.map2 (.other Sample.map2b)).hash = 2 ∧
    Sample.set2.hash = 1 ∧
    (HashSet.operator_assign Sample.code2 Sample.set2 (.other Sample.set2b)).hash = 2 :=
  ⟨rfl,
   (HashMap.operator_assign_spec Sample.code2 Sample.map2 Sample.map2b
      (by decide) (by decide)).2.2.2.2.1,
   rfl,
   (HashSet.set_operator_assign_spec Sample.code2 Sample.set2 Sample.set2b
      (by decide) (by decide)).2.2.2.2.1⟩

/-- C20 (amended): copy-constructing from a source whose hash function differs from the one
resolved for the copy (`thash`, else `chash`) re-inserts every entry under the copy's own
hash function: the copy works with the resolved function, holds the entries of the source,
and every entry lies in the bin that function selects.  Assigning from a source whose hash
function differs from the destination's makes the destination take over the hash function
of the source and re-inserts every entry under it: afterwards the destination works with
the hash function of the source, holds the entries of the source, and every entry lies in
the bin that function selects. -/
theorem C20_reinsert_under_hash {K V T : Type} [DecidableEq K] [DecidableEq V]
    [DecidableEq T] :
    (∀ (code : hashfunc → K → Int) (thash chash : hashfunc) (t : ℚ) (a b : HashMap K V),
      HashMap.WF code b → HashMap.ctor_copy code thash b t chash = .ok a →
      a.hash ≠ b.hash →
      a.hash = (if thash ≠ undefinedhash then thash else chash) ∧
      (∀ k, HashMap.get? code a k = HashMap.get? code b k) ∧
      ∀ i, i < a.table.length → ∀ e ∈ a.table.getD i [],
        (HashMap.hash_compress code a e.1).toNat = i) ∧
    (∀ (code : hashfunc → K → Int) (a b : HashMap K V),
      HashMap.WF code a → HashMap.WF code b → a.hash ≠ b.hash →
      (HashMap.operator_assign code a (.other b)).hash = b.hash ∧
      (∀ k, HashMap.get? code (HashMap.operator_assign code a (.other b)) k
        = HashMap.get? code b k) ∧
      ∀ i, i < (HashMap.operator_assign code a (.other b)).table.length →
        ∀ e ∈ (HashMap.operator_assign code a (.other b)).table.getD i [],
          (HashMap.hash_compress code (HashMap.operator_assign code a (.other b)) e.1).toNat
            = i) ∧
    (∀ (code : hashfunc → T → Int) (thash chash : hashfunc) (t : ℚ) (a b : HashSet T),
      HashSet.WF code b → HashSet.ctor_copy code thash b t chash = .ok a →
      a.hash ≠ b.hash →
      a.hash = (if thash ≠ undefinedhash then thash else chash) ∧
      (∀ e, HashSet.contains code a e = HashSet.contains code b e) ∧
      ∀ i, i < a.table.length → ∀ e ∈ a.table.getD i [],
        (HashSet.hash_compress code a e).toNat = i) ∧
    (∀ (code : hashfunc → T → Int) (a b : HashSet T),
      HashSet.WF code a → HashSet.WF code b → a.hash ≠ b.hash →
      (HashSet.operator_assign code a (.other b)).hash = b.hash ∧
      (∀ e, HashSet.contains code (HashSet.operator_assign code a (.other b)) e
        = HashSet.contains code b e) ∧
      ∀ i, i < (HashSet.operator_assign code a (.other b)).table.length →
        ∀ e ∈ (HashSet.operator_assign code a (.other b)).table.getD i [],
          (HashSet.hash_compress code (HashSet.operator_assign code a (.other b)) e).toNat
            = i) := by
  refine ⟨?_, ?_, ?_, ?_⟩
  · intro code thash chash t a b hb h hne
    obtain ⟨hwa, heq, -, -⟩ := HashMap.ctor_copy_spec code thash chash t a b hb h
    refine ⟨?_, ?_, hwa.1.2.2.1⟩
    · by_cases herr : thash ≠ undefinedhash ∧ chash ≠ undefinedhash ∧ chash ≠ thash
      · rw [(HashMap.ctor_copy_cases code thash chash t b).1 herr] at h
        cases h
      · obtain ⟨a2, h2, hh⟩ := (HashMap.ctor_copy_cases code thash chash t b).2 herr
        rw [h] at h2
        cases h2
        by_cases hu : (if thash ≠ undefinedhash then thash else chash) = undefinedhash
        · rw [if_pos hu] at hh
          exact absurd hh hne
        · rw [if_neg hu] at hh
          exact hh
    · exact (HashMap.content_eq_iff code a b hwa hb).1
        ((HashMap.operator_eq_other code a b hwa hb).1 heq)
  · intro code a b ha hb _
    obtain ⟨hwa, heq, -, -, hh, -⟩ := HashMap.operator_assign_spec code a b ha hb
    exact ⟨hh, (HashMap.content_eq_iff code _ b hwa hb).1
      ((HashMap.operator_eq_other code _ b hwa hb).1 heq), hwa.1.2.2.1⟩
  · intro code thash chash t a b hb h hne
    obtain ⟨hwa, heq, -, -⟩ := HashSet.set_ctor_copy_spec code thash chash t a b hb h
    refine ⟨?_, ?_, hwa.1.2.2.1⟩
    · by_cases herr : thash ≠ undefinedhash ∧ chash ≠ undefinedhash ∧ thash ≠ chash
      · rw [(HashSet.set_ctor_copy_cases code thash chash t b).1 herr] at h
        cases h
      · obtain ⟨a2, h2, hh⟩ := (HashSet.set_ctor_copy_cases code thash chash t b).2 herr
        rw [h] at h2
        cases h2
        by_cases hu : (if thash ≠ undefinedhash then thash else chash) = undefinedhash
        · rw [if_pos hu] at hh
          exact absurd hh hne
        · rw [if_neg hu] at hh
          exact hh
    · exact (HashSet.set_content_eq_iff code a b hwa hb).1
        ((HashSet.set_operator_eq_other code a b hwa hb).1 heq)
  · intro code a b ha hb _
    obtain ⟨hwa, heq, -, -, hh, -⟩ := HashSet.set_operator_assign_spec code a b ha hb
    exact ⟨hh, (HashSet.set_content_eq_iff code _ b hwa hb).1
      ((HashSet.set_operator_eq_other code _ b hwa hb).1 heq), hwa.1.2.2.1⟩

/-- Witness of C20 (amended): the sample map and set built by the hash function at address
2 assigned to the ones built by the hash function at address 1. -/
theorem C20_reinsert_under_hash_witness :
    ((HashMap.operator_assign Sample.code2 Sample.map2 (.other Sample.map2b)).hash
        = Sample.map2b.hash ∧
      (∀ k, HashMap.get? Sample.code2
          (HashMap.operator_assign Sample.code2 Sample.map2 (.other Sample.map2b)) k
        = HashMap.get? Sample.code2 Sample.map2b k) ∧
      ∀ i, i < (HashMap.operator_assign Sample.code2 Sample.map2
          (.other Sample.map2b)).table.length →
        ∀ e ∈ (HashMap.operator_assign Sample.code2 Sample.map2
            (.other Sample.map2b)).table.getD i [],
          (HashMap.hash_compress Sample.code2
            (HashMap.operator_assign Sample.code2 Sample.map2 (.other Sample.map2b))
              e.1).toNat = i) ∧
    ((HashSet.operator_assign Sample.code2 Sample.set2 (.other Sample.set2b)).hash
        = Sample.set2b.hash ∧
      (∀ e, HashSet.contains Sample.code2
          (HashSet.operator_assign Sample.code2 Sample.set2 (.other Sample.set2b)) e
        = HashSet.contains Sample.code2 Sample.set2b e) ∧
      ∀ i, i < (HashSet.operator_assign Sample.code2 Sample.set2
          (.other Sample.set2b)).table.length →
        ∀ e ∈ (HashSet.operator_assign Sample.code2 Sample.set2
            (.other Sample.set2b)).table.getD i [],
          (HashSet.hash_compress Sample.code2
            (HashSet.operator_assign Sample.code2 Sample.set2 (.other Sample.set2b))
              e).toNat = i) :=
  ⟨(@C20_reinsert_under_hash Int Int Int _ _ _).2.1 Sample.code2 Sample.map2 Sample.map2b
      (by decide) (by decide) (by decide),
   (@C20_reinsert_under_hash Int Int Int _ _ _).2.2.2 Sample.code2 Sample.set2 Sample.set2b
      (by decide) (by decide) (by decide)⟩

/-- C21: every `HashMap::put` raises the mutation counter by exactly 1, for a new key and
for a key already present, with or without growth (the equation holds for every table, key
and value); `ensure_load_threshold`, the growth step, leaves the mutation counter and the
live count `used` as they are, and on a well-formed table keeps the stored entries up to
their order, so their number as well. -/
theorem C21_put_counts_once {K V : Type} [DecidableEq K]
    (code : hashfunc → K → Int) (m : HashMap K V) (k : K) (v : V) (new_used : Int) :
    (HashMap.put code m k v).2.mod_count = m.mod_count + 1 ∧
    (HashMap.ensure_load_threshold code m new_used).mod_count = m.mod_count ∧
    (HashMap.ensure_load_threshold code m new_used).used = m.used ∧
    (HashMap.WF code m →
      (HashMap.ensure_load_threshold code m new_used).entries.Perm m.entries ∧
      (HashMap.ensure_load_threshold code m new_used).entries.length = m.entries.length) := by
  obtain ⟨-, hu, hm, -, -⟩ := HashMap.ensure_fields code m new_used
  refine ⟨HashMap.put_mod_count code m k v, hm, hu, fun hw => ?_⟩
  have hp := (HashMap.ensure_shape code m new_used hw.1).2
  exact ⟨hp, hp.length_eq⟩

/-- Witness of C21: `put` of the new key 2 into the sample map with two entries in two bins
and load threshold 1, which doubles the bins. -/
theorem C21_put_counts_once_witness :
    (HashMap.put Sample.code Sample.map2 2 9).2.mod_count = Sample.map2.mod_count + 1 ∧
    (HashMap.ensure_load_threshold Sample.code Sample.map2 3).mod_count
      = Sample.map2.mod_count ∧
    (HashMap.ensure_load_threshold Sample.code Sample.map2 3).used = Sample.map2.used ∧
    (HashMap.ensure_load_threshold Sample.code Sample.map2 3).entries.Perm
      Sample.map2.entries ∧
    (HashMap.ensure_load_threshold Sample.code Sample.map2 3).entries.length
      = Sample.map2.entries.length :=
  ⟨(C21_put_counts_once Sample.code Sample.map2 2 9 3).1,
   (C21_put_counts_once Sample.code Sample.map2 2 9 3).2.1,
   (C21_put_counts_once Sample.code Sample.map2 2 9 3).2.2.1,
   (C21_put_counts_once Sample.code Sample.map2 2 9 3).2.2.2 (by decide)⟩

/-- C22: on a well-formed `HashSet`, `insert(e)` of an absent element returns 1, raises
`size()` by 1, makes `contains(e)` true and leaves every other membership answer as it
was; `insert(e)` of an element already present returns 0 and returns the set unchanged in
every field (bucket array, live count, bin count, mutation counter). -/
theorem C22_insert_result {T : Type} [DecidableEq T]
    (code : hashfunc → T → Int) (s : HashSet T) (e : T) (hw : HashSet.WF code s) :
    (HashSet.contains code s e = false →
      (HashSet.insert code s e).1 = 1 ∧
      (HashSet.insert code s e).2.size = s.size + 1 ∧
      HashSet.contains code (HashSet.insert code s e).2 e = true ∧
      ∀ x, x ≠ e →
        HashSet.contains code (HashSet.insert code s e).2 x = HashSet.contains code s x) ∧
    (HashSet.contains code s e = true → HashSet.insert code s e = (0, s)) := by
  constructor
  · intro hc
    have hf : HashSet.find_element code s e = none := by
      simpa [HashSet.contains] using hc
    obtain ⟨h1, hw2, -, hu, -⟩ := HashSet.insert_new code s hw e hf
    obtain ⟨-, hmem, -⟩ := HashSet.insert_spec code s hw e
    refine ⟨h1, hu, (HashSet.contains_iff code _ hw2.1 e).2 ((hmem e).2 (Or.inl rfl)), ?_⟩
    intro x hx
    rw [Bool.eq_iff_iff, HashSet.contains_iff code _ hw2.1, HashSet.contains_iff code s hw.1,
      hmem x]
    simp [hx]
  · intro hc
    exact HashSet.insert_found code s e hc

/-- Witness of C22: the absent element 2 and the present element 1 of the sample set. -/
theorem C22_insert_result_witness :
    ((HashSet.insert Sample.code Sample.set2 2).1 = 1 ∧
      (HashSet.insert Sample.code Sample.set2 2).2.size = Sample.set2.size + 1 ∧
      HashSet.contains Sample.code (HashSet.insert Sample.code Sample.set2 2).2 2 = true ∧
      ∀ x, x ≠ 2 →
        HashSet.contains Sample.code (HashSet.insert Sample.code Sample.set2 2).2 x
          = HashSet.contains Sample.code Sample.set2 x) ∧
    HashSet.insert Sample.code Sample.set2 1 = (0, Sample.set2) :=
  ⟨(C22_insert_result Sample.code Sample.set2 2 (by decide)).1 (by decide),
   (C22_insert_result Sample.code Sample.set2 1 (by decide)).2 (by decide)⟩

/-- C23: `clear()` leaves `size() == 0` and no key found by `has_key` / `contains`, raises
the mutation counter by exactly 1 and keeps the bin count; on a well-formed table the
cleared table is well formed again, and a following `put` / `insert` of `k` makes `k`
found with `size() == 1`. -/
theorem C23_clear {K V T : Type} [DecidableEq K] [DecidableEq T] :
    (∀ (code : hashfunc → K → Int) (m : HashMap K V),
      (HashMap.clear m).size = 0 ∧ (∀ k, HashMap.has_key code (HashMap.clear m) k = false) ∧
      (HashMap.clear m).mod_count = m.mod_count + 1 ∧ (HashMap.clear m).bins = m.bins ∧
      (HashMap.WF code m → HashMap.WF code (HashMap.clear m) ∧ ∀ k v,
        HashMap.has_key code (HashMap.put code (HashMap.clear m) k v).2 k = true ∧
        HashMap.get? code (HashMap.put code (HashMap.clear m) k v).2 k = some v ∧
        (HashMap.put code (HashMap.clear m) k v).2.size = 1)) ∧
    (∀ (code : hashfunc → T → Int) (s : HashSet T),
      (HashSet.clear s).size = 0 ∧ (∀ e, HashSet.contains code (HashSet.clear s) e = false) ∧
      (HashSet.clear s).mod_count = s.mod_count + 1 ∧ (HashSet.clear s).bins = s.bins ∧
      (HashSet.WF code s → HashSet.WF code (HashSet.clear s) ∧ ∀ e,
        HashSet.contains code (HashSet.insert code (HashSet.clear s) e).2 e = true ∧
        (HashSet.insert code (HashSet.clear s) e).2.size = 1)) := by
  constructor
  · intro code m
    have hnone : ∀ k, HashMap.find_key code (HashMap.clear m) k = none := fun k => rfl
    refine ⟨rfl, fun k => (HashMap.has_key_eq_false code _ k).2 (hnone k), rfl, rfl, ?_⟩
    intro hw
    have hwc := HashMap.clear_WF code m hw
    refine ⟨hwc, fun k v => ?_⟩
    obtain ⟨-, -, -, hu, -⟩ := HashMap.put_new code _ hwc k v (hnone k)
    have hg := (HashMap.put_spec code _ hwc k v).2.1 k
    rw [if_pos rfl] at hg
    refine ⟨?_, hg, ?_⟩
    · rw [HashMap.has_key_eq, hg]
      rfl
    · show (HashMap.put code (HashMap.clear m) k v).2.used = 1
      rw [hu]
      rfl
  · intro code s
    have hnone : ∀ e, HashSet.find_element code (HashSet.clear s) e = none := fun e => rfl
    refine ⟨rfl, fun e => by simp [HashSet.contains, hnone e], rfl, rfl, ?_⟩
    intro hw
    have hwc := HashSet.set_clear_WF code s hw
    refine ⟨hwc, fun e => ?_⟩
    obtain ⟨-, hw2, -, hu, -⟩ := HashSet.insert_new code _ hwc e (hnone e)
    obtain ⟨-, hmem, -⟩ := HashSet.insert_spec code _ hwc e
    refine ⟨(HashSet.contains_iff code _ hw2.1 e).2 ((hmem e).2 (Or.inl rfl)), ?_⟩
    show (HashSet.insert code (HashSet.clear s) e).2.used = 1
    rw [hu]
    rfl

/-- Witness of C23: the sample map and the sample set cleared, then a key put and an
element inserted. -/
theorem C23_clear_witness :
    (HashMap.WF Sample.code (HashMap.clear Sample.map2) ∧ ∀ k v,
      HashMap.has_key Sample.code (HashMap.put Sample.code (HashMap.clear Sample.map2) k v).2 k
        = true ∧
      HashMap.get? Sample.code (HashMap.put Sample.code (HashMap.clear Sample.map2) k v).2 k
        = some v ∧
      (HashMap.put Sample.code (HashMap.clear Sample.map2) k v).2.size = 1) ∧
    (HashSet.WF Sample.code (HashSet.clear Sample.set2) ∧ ∀ e,
      HashSet.contains Sample.code (HashSet.insert Sample.code (HashSet.clear Sample.set2) e).2 e
        = true ∧
      (HashSet.insert Sample.code (HashSet.clear Sample.set2) e).2.size = 1) :=
  ⟨((@C23_clear Int Int Int _ _).1 Sample.code Sample.map2).2.2.2.2 (by decide),
   ((@C23_clear Int Int Int _ _).2 Sample.code Sample.set2).2.2.2.2 (by decide)⟩

/-- C24: on a well-formed `HashMap`, the non-const `m[k]` on an absent `k` inserts the
entry `(k, T())` (`size()` +1, mutation counter +1, every other key as before) and refers
to that default value; on a present `k` it refers to the stored value and returns the map
unchanged in every field.  The const `m[k]` returns the stored value if `k` is present,
and throws `KeyError` if `k` is absent; in both cases the call ends with the map as it
was. -/
theorem C24_operator_index {K V : Type} [DecidableEq K] [Inhabited V]
    (code : hashfunc → K → Int) (m : HashMap K V) (k : K) (hw : HashMap.WF code m) :
    (HashMap.has_key code m k = false →
      (HashMap.operator_index code m k).1 = default ∧
      HashMap.get? code (HashMap.operator_index code m k).2 k = some default ∧
      (HashMap.operator_index code m k).2.size = m.size + 1 ∧
      (HashMap.operator_index code m k).2.mod_count = m.mod_count + 1 ∧
      ∀ k2, k2 ≠ k →
        HashMap.get? code (HashMap.operator_index code m k).2 k2 = HashMap.get? code m k2) ∧
    (∀ v, HashMap.get? code m k = some v → HashMap.operator_index code m k = (v, m)) ∧
    (∀ v, HashMap.get? code m k = some v →
      HashMap.operator_index_const_exec code m k = (.ok v, m)) ∧
    (HashMap.has_key code m k = false →
      HashMap.operator_index_const_exec code m k = (.error Error.KeyError, m)) := by
  refine ⟨?_, ?_, ?_, ?_⟩
  · intro hk
    have hf := (HashMap.has_key_eq_false code m k).1 hk
    rw [HashMap.operator_index_absent code m k hf]
    obtain ⟨-, -, -, hu, hm, -⟩ := HashMap.put_new code m hw k default hf
    have hg := (HashMap.put_spec code m hw k default).2.1
    refine ⟨rfl, ?_, hu, hm, ?_⟩
    · rw [hg k, if_pos rfl]
    · intro k2 hk2
      rw [hg k2, if_neg hk2]
  · intro v hg
    exact HashMap.operator_index_present code m k v hg
  · intro v hg
    rw [HashMap.operator_index_const_exec_eq, HashMap.operator_index_const_eq, hg]
  · intro hk
    have hf := (HashMap.has_key_eq_false code m k).1 hk
    rw [HashMap.operator_index_const_exec_eq, HashMap.operator_index_const_eq]
    simp [HashMap.get?, hf]

/-- Witness of C24: the absent key 2 and the present key 1 of the sample map. -/
theorem C24_operator_index_witness :
    ((HashMap.operator_index Sample.code Sample.map2 2).1 = default ∧
      HashMap.get? Sample.code (HashMap.operator_index Sample.code Sample.map2 2).2 2
        = some default ∧
      (HashMap.operator_index Sample.code Sample.map2 2).2.size = Sample.map2.size + 1 ∧
      (HashMap.operator_index Sample.code Sample.map2 2).2.mod_count
        = Sample.map2.mod_count + 1 ∧
      ∀ k2, k2 ≠ 2 →
        HashMap.get? Sample.code (HashMap.operator_index Sample.code Sample.map2 2).2 k2
          = HashMap.get? Sample.code Sample.map2 k2) ∧
    HashMap.operator_index Sample.code Sample.map2 1 = (7, Sample.map2) ∧
    HashMap.operator_index_const_exec Sample.code Sample.map2 1 = (.ok 7, Sample.map2) ∧
    HashMap.operator_index_const_exec Sample.code Sample.map2 2
      = (.error Error.KeyError, Sample.map2) :=
  ⟨(C24_operator_index Sample.code Sample.map2 2 (by decide)).1 (by decide),
   (C24_operator_index Sample.code Sample.map2 1 (by decide)).2.1 7 (by decide),
   (C24_operator_index Sample.code Sample.map2 1 (by decide)).2.2.1 7 (by decide),
   (C24_operator_index Sample.code Sample.map2 2 (by decide)).2.2.2 (by decide)⟩

/-- C26 (failing input): in a class whose type-level hash function is `undefinedhash`, so
that every set got its hash function from its constructor, `retain_all(i)` throws
`TemplateFunctionError` for every set and every iterable of another type: the statement
`HashSet hset(i);` passes no `chash`.  So it does on the sample set `{0, 1}` with
`retain_all` of the sequence 1. -/
theorem C26_retain_all_throws {T : Type} [DecidableEq T]
    (code : hashfunc → T → Int) (s : HashSet T) (ref_set : Nat) (i : List T) (fuel : Nat) :
    HashSet.retain_all code undefinedhash s ref_set i fuel
      = some (.error Error.TemplateFunctionError) ∧
    HashSet.retain_all Sample.code undefinedhash Sample.set2 0 [1] 3
      = some (.error Error.TemplateFunctionError) := by
  have key : ∀ {U : Type} [DecidableEq U] (code : hashfunc → U → Int) (s : HashSet U)
      (r : Nat) (i : List U) (fuel : Nat),
      HashSet.retain_all code undefinedhash s r i fuel
        = some (.error Error.TemplateFunctionError) := by
    intro U _ code s r i fuel
    unfold HashSet.retain_all
    rw [((HashSet.set_ctor_il_eq code undefinedhash undefinedhash i 1).1).2 (by decide)]
  exact ⟨key code s ref_set i fuel, key Sample.code Sample.set2 0 [1] 3⟩

/-- C27: whenever `HashMap::erase`, the const `operator[]`, or a cursor operation
(`erase()`, prefix and postfix `++`, `*`, `->`, `==`, `!=`) of either class ends by
throwing, the state in which the call ends is the state in which it began: the table with
its bucket array, live count, bin count and mutation counter, and the cursor (both
cursors of a comparison) with its position, snapshot and `can_erase` flag. -/
theorem C27_failure_keeps_state {K V T : Type} [DecidableEq K] [DecidableEq T] :
    (∀ (code : hashfunc → K → Int) (m : HashMap K V) (k : K) (err : Error),
      ((HashMap.erase_exec code m k).1 = .error err → (HashMap.erase_exec code m k).2 = m) ∧
      ((HashMap.operator_index_const_exec code m k).1 = .error err →
        (HashMap.operator_index_const_exec code m k).2 = m)) ∧
    (∀ (m : HashMap K V) (it rhs : Iterator) (r r2 : Nat) (err : Error),
      ((HashMap.Iterator_erase_exec m it).1 = .error err →
        (HashMap.Iterator_erase_exec m it).2 = (it, m)) ∧
      ((HashMap.Iterator_inc_exec m it).1 = .error err →
        (HashMap.Iterator_inc_exec m it).2 = (it, m)) ∧
      ((HashMap.Iterator_post_inc_exec m it).1 = .error err →
        (HashMap.Iterator_post_inc_exec m it).2 = (it, m)) ∧
      ((HashMap.Iterator_deref_exec m it).1 = .error err →
        (HashMap.Iterator_deref_exec m it).2 = (it, m)) ∧
      ((HashMap.Iterator_arrow_exec m it).1 = .error err →
        (HashMap.Iterator_arrow_exec m it).2 = (it, m)) ∧
      ((HashMap.Iterator_eq_exec m r it r2 rhs).1 = .error err →
        (HashMap.Iterator_eq_exec m r it r2 rhs).2 = (it, rhs, m)) ∧
      ((HashMap.Iterator_ne_exec m r it r2 rhs).1 = .error err →
        (HashMap.Iterator_ne_exec m r it r2 rhs).2 = (it, rhs, m))) ∧
    (∀ (s : HashSet T) (it rhs : Iterator) (r r2 : Nat) (err : Error),
      ((HashSet.Iterator_erase_exec s it).1 = .error err →
        (HashSet.Iterator_erase_exec s it).2 = (it, s)) ∧
      ((HashSet.Iterator_inc_exec s it).1 = .error err →
        (HashSet.Iterator_inc_exec s it).2 = (it, s)) ∧
      ((HashSet.Iterator_post_inc_exec s it).1 = .error err →
        (HashSet.Iterator_post_inc_exec s it).2 = (it, s)) ∧
      ((HashSet.Iterator_deref_exec s it).1 = .error err →
        (HashSet.Iterator_deref_exec s it).2 = (it, s)) ∧
      ((HashSet.Iterator_arrow_exec s it).1 = .error err →
        (HashSet.Iterator_arrow_exec s it).2 = (it, s)) ∧
      ((HashSet.Iterator_eq_exec s r it r2 rhs).1 = .error err →
        (HashSet.Iterator_eq_exec s r it r2 rhs).2 = (it, rhs, s)) ∧
      ((HashSet.Iterator_ne_exec s r it r2 rhs).1 = .error err →
        (HashSet.Iterator_ne_exec s r it r2 rhs).2 = (it, rhs, s))) := by
  refine ⟨?_, ?_, ?_⟩
  · intro code m k err
    constructor
    · rw [HashMap.erase_exec_eq]
      cases HashMap.erase code m k with
      | error e => intro _; rfl
      | ok p => intro h; cases h
    · unfold HashMap.operator_index_const_exec
      cases HashMap.find_key code m k with
      | none => intro _; rfl
      | some p => intro _; rfl
  · intro m it rhs r r2 err
    refine ⟨?_, ?_, ?_, ?_, ?_, ?_, ?_⟩
    · rw [HashMap.Iterator_erase_exec_eq]
      cases HashMap.Iterator_erase m it with
      | error e => intro _; rfl
      | ok p => intro h; cases h
    · rw [HashMap.Iterator_inc_exec_eq]
      cases HashMap.Iterator_inc m it with
      | error e => intro _; rfl
      | ok p => intro h; cases h
    · rw [HashMap.Iterator_post_inc_exec_eq]
      cases HashMap.Iterator_inc m it with
      | error e => intro _; rfl
      | ok p => intro h; cases h
    · rw [(HashMap.Iterator_deref_exec_eq m it).1]
      intro _; rfl
    · rw [(HashMap.Iterator_deref_exec_eq m it).2]
      intro _; rfl
    · rw [(HashMap.Iterator_eq_exec_eq m r r2 it rhs).1]
      intro _; rfl
    · rw [(HashMap.Iterator_eq_exec_eq m r r2 it rhs).2]
      intro _; rfl
  · intro s it rhs r r2 err
    refine ⟨?_, ?_, ?_, ?_, ?_, ?_, ?_⟩
    · rw [HashSet.set_Iterator_erase_exec_eq]
      cases HashSet.Iterator_erase s it with
      | error e => intro _; rfl
      | ok p => intro h; cases h
    · rw [HashSet.set_Iterator_inc_exec_eq]
      cases HashSet.Iterator_inc s it with
      | error e => intro _; rfl
      | ok p => intro h; cases h
    · rw [HashSet.set_Iterator_post_inc_exec_eq]
      cases HashSet.Iterator_inc s it with
      | error e => intro _; rfl
      | ok p => intro h; cases h
    · rw [(HashSet.set_Iterator_deref_exec_eq s it).1]
      intro _; rfl
    · rw [(HashSet.set_Iterator_deref_exec_eq s it).2]
      intro _; rfl
    · rw [(HashSet.set_Iterator_eq_exec_eq s r r2 it rhs).1]
      intro _; rfl
    · rw [(HashSet.set_Iterator_eq_exec_eq s r r2 it rhs).2]
      intro _; rfl

/-- Witness of C27: on the sample map, `erase(2)` of an absent key throws `KeyError`, the
cursor `erase()` at the end position throws `CannotEraseError`, `*` at the end position
throws `IteratorPositionIllegal`, `++` of a stale cursor throws
`ConcurrentModificationError`, and `==` with a cursor of another table throws
`ComparingDifferentIteratorsError`; each call ends in the state in which it began. -/
theorem C27_failure_keeps_state_witness :
    ((HashMap.erase_exec Sample.code Sample.map2 2).1 = .error Error.KeyError ∧
      (HashMap.erase_exec Sample.code Sample.map2 2).2 = Sample.map2) ∧
    ((HashMap.Iterator_erase_exec Sample.map2 (HashMap.end_ Sample.map2)).1
        = .error Error.CannotEraseError ∧
      (HashMap.Iterator_erase_exec Sample.map2 (HashMap.end_ Sample.map2)).2
        = (HashMap.end_ Sample.map2, Sample.map2)) ∧
    ((HashMap.Iterator_deref_exec Sample.map2 (HashMap.end_ Sample.map2)).1
        = .error Error.IteratorPositionIllegal ∧
      (HashMap.Iterator_deref_exec Sample.map2 (HashMap.end_ Sample.map2)).2
        = (HashMap.end_ Sample.map2, Sample.map2)) ∧
    ((HashMap.Iterator_inc_exec Sample.map2e (HashMap.begin Sample.map2)).1
        = .error Error.ConcurrentModificationError ∧
      (HashMap.Iterator_inc_exec Sample.map2e (HashMap.begin Sample.map2)).2
        = (HashMap.begin Sample.map2, Sample.map2e)) ∧
    ((HashSet.Iterator_eq_exec Sample.set2 0 (HashSet.begin Sample.set2) 1
          (HashSet.begin Sample.set0)).1 = .error Error.ComparingDifferentIteratorsError ∧
      (HashSet.Iterator_eq_exec Sample.set2 0 (HashSet.begin Sample.set2) 1
          (HashSet.begin Sample.set0)).2
        = (HashSet.begin Sample.set2, HashSet.begin Sample.set0, Sample.set2)) :=
  ⟨⟨by rfl, ((@C27_failure_keeps_state Int Int Int _ _).1 Sample.code Sample.map2 2
      Error.KeyError).1 (by rfl)⟩,
   ⟨by rfl, ((@C27_failure_keeps_state Int Int Int _ _).2.1 Sample.map2
      (HashMap.end_ Sample.map2) (HashMap.end_ Sample.map2) 0 0
      Error.CannotEraseError).1 (by rfl)⟩,
   ⟨by rfl, ((@C27_failure_keeps_state Int Int Int _ _).2.1 Sample.map2
      (HashMap.end_ Sample.map2) (HashMap.end_ Sample.map2) 0 0
      Error.IteratorPositionIllegal).2.2.2.1 (by rfl)⟩,
   ⟨by rfl, ((@C27_failure_keeps_state Int Int Int _ _).2.1 Sample.map2e
      (HashMap.begin Sample.map2) (HashMap.begin Sample.map2) 0 0
      Error.ConcurrentModificationError).2.1 (by rfl)⟩,
   ⟨by rfl, ((@C27_failure_keeps_state Int Int Int _ _).2.2 Sample.set2
      (HashSet.begin Sample.set2) (HashSet.begin Sample.set0) 0 1
      Error.ComparingDifferentIteratorsError).2.2.2.2.2.1 (by rfl)⟩⟩

/-- C28: the `HashMap` copy constructor, called with the threshold argument 0 on the sample
map with load threshold 3, builds a copy with load threshold 3, not 1; the `HashSet` copy
constructor, called with the same argument on the sample set with load threshold 3, builds
a copy with load threshold 1. -/
theorem C28_map_copy_keeps_source_threshold :
    Sample.map2b.load_threshold = 3 ∧
    (∃ a, HashMap.ctor_copy Sample.code undefinedhash Sample.map2b 0 undefinedhash = .ok a ∧
      a.load_threshold = 3 ∧ a.load_threshold ≠ 1) ∧
    Sample.set2b.load_threshold = 3 ∧
    (∃ s, HashSet.ctor_copy Sample.code undefinedhash Sample.set2b 0 undefinedhash = .ok s ∧
      s.load_threshold = 1) := by
  refine ⟨rfl, ⟨_, rfl, ?_⟩, rfl, ⟨_, rfl, ?_⟩⟩
  · have h : (3 : ℚ) ≠ 1 := by norm_num
    exact ⟨HashMap.ctor_copy_load_threshold Sample.code undefinedhash undefinedhash 0 _
      Sample.map2b rfl, fun h1 => h ((HashMap.ctor_copy_load_threshold Sample.code
        undefinedhash undefinedhash 0 _ Sample.map2b rfl).symm.trans h1)⟩
  · exact HashSet.set_ctor_copy_load_threshold Sample.code undefinedhash undefinedhash 0 _
      Sample.set2b rfl

/-- C29: a `HashSet` is created with 1 bin and load threshold 1.0, and `n >= 2` distinct
keys are inserted; whatever the hash function, so also for one that is constant on the
keys: `size() == n`, the bin count is above 1, and `contains(y)` is true for every key
inserted.  After `erase(x)` of one of them the loop from `begin()` to `end()` ends and
visits exactly the other `n - 1` keys, each once. -/
theorem C29_collision_scenario {T : Type} [DecidableEq T]
    (code : hashfunc → T → Int) (thash chash : hashfunc) (s0 : HashSet T) (keys : List T)
    (x : T) (ref_set fuel : Nat)
    (h0 : HashSet.ctor_bins code thash 1 1 chash = .ok s0) (hn : keys.Nodup)
    (h2 : 2 ≤ keys.length) (hx : x ∈ keys) (hf : keys.length ≤ fuel) :
    (HashSet.insert_all code s0 keys).2.size = keys.length ∧
    1 < (HashSet.insert_all code s0 keys).2.bins ∧
    (∀ y ∈ keys, HashSet.contains code (HashSet.insert_all code s0 keys).2 y = true) ∧
    ∃ l : List T,
      HashSet.range_for (HashSet.erase code (HashSet.insert_all code s0 keys).2 x).2
        ref_set fuel = some (.ok (l.map some)) ∧
      l.Nodup ∧ l.length = keys.length - 1 ∧ ∀ y, y ∈ l ↔ y ∈ keys ∧ y ≠ x := by
  obtain ⟨hw0, hu0, -, hb0, hl0, -⟩ := HashSet.set_ctor_bins_spec code thash 1 1 chash s0 h0
  have hl1 : s0.load_threshold = 1 := by
    rw [hl0]
    norm_num
  have hs : (HashSet.insert_all code s0 keys).2
      = keys.foldl (fun t e => (HashSet.insert code t e).2) s0 := by
    unfold HashSet.insert_all
    exact HashSet.insert_all_snd code keys s0 0
  rw [hs]
  obtain ⟨hw, hmem, hsize⟩ := HashSet.foldl_insert_from_empty code keys s0 hw0 hu0 hn
  have hload := HashSet.foldl_insert_load code keys s0 hw0 (le_of_eq hl1.symm) (by
    rw [hu0, hl1]
    simp)
  rw [HashSet.foldl_insert_load_threshold code keys s0 hw0, hl1] at hload
  generalize keys.foldl (fun t e => (HashSet.insert code t e).2) s0 = s at hw hmem hsize hload
  have hbpos : (0 : ℚ) < (s.bins : ℚ) := by exact_mod_cast hw.1.1
  have hub : (s.used : ℚ) ≤ (s.bins : ℚ) := by
    rw [div_le_iff₀ hbpos] at hload
    simpa using hload
  have hused : s.used = (keys.length : Int) := hsize
  have hbins : 1 < s.bins := by
    have h3 : ((keys.length : Int) : ℚ) ≤ (s.bins : ℚ) := by
      rw [← hused]
      exact hub
    have h4 : keys.length ≤ s.bins := by exact_mod_cast h3
    omega
  refine ⟨hsize, hbins, fun y hy => (HashSet.contains_iff code s hw.1 y).2 ((hmem y).2 hy), ?_⟩
  obtain ⟨hwe, hmeme, -⟩ := HashSet.set_erase_spec code s hw x
  have hmem2 : ∀ y, y ∈ (HashSet.erase code s x).2.entries ↔ y ∈ keys.erase x := by
    intro y
    rw [hmeme y, hmem y, hn.mem_erase_iff]
  have hp := (List.perm_ext_iff_of_nodup hwe.1.2.2.2 (hn.erase x)).2 hmem2
  have hlen : (HashSet.erase code s x).2.entries.length = keys.length - 1 := by
    rw [hp.length_eq, List.length_erase_of_mem hx]
  refine ⟨(HashSet.erase code s x).2.entries,
    HashSet.set_range_for_spec code _ hwe ref_set fuel (by omega), hwe.1.2.2.2, hlen, ?_⟩
  intro y
  rw [hmeme y, hmem y]
  exact And.comm

/-- Witness of C29: keys "a", "b", "c" under the hash function `x ↦ length(x)`, which is
constant on them, then `erase("b")`. -/
theorem C29_collision_scenario_witness :
    ∃ s0, HashSet.ctor_bins Sample.code_len undefinedhash 1 1 1 = .ok s0 ∧
      (∀ y ∈ ["a", "b", "c"], Sample.code_len s0.hash y = 1) ∧
      (HashSet.insert_all Sample.code_len s0 ["a", "b", "c"]).2.size = 3 ∧
      1 < (HashSet.insert_all Sample.code_len s0 ["a", "b", "c"]).2.bins ∧
      (∀ y ∈ ["a", "b", "c"],
        HashSet.contains Sample.code_len
          (HashSet.insert_all Sample.code_len s0 ["a", "b", "c"]).2 y = true) ∧
      ∃ l : List String,
        HashSet.range_for
          (HashSet.erase Sample.code_len
            (HashSet.insert_all Sample.code_len s0 ["a", "b", "c"]).2 "b").2 0 3
          = some (.ok (l.map some)) ∧
        l.Nodup ∧ l.length = 3 - 1 ∧ ∀ y, y ∈ l ↔ y ∈ ["a", "b", "c"] ∧ y ≠ "b" := by
  obtain ⟨s0, h, -⟩ :=
    (@HashSet.set_ctor_bins_eq String _ Sample.code_len undefinedhash 1 1 1).2 (by decide)
  exact ⟨s0, h, by
      intro y hy
      simp only [List.mem_cons, List.mem_singleton, List.not_mem_nil, or_false] at hy
      rcases hy with rfl | rfl | rfl <;> rfl,
    C29_collision_scenario Sample.code_len undefinedhash 1 s0 ["a", "b", "c"] "b" 0 3 h
      (by decide) (by decide) (by decide) (by decide)⟩

/-- C31: for every 32-bit `int` hash value `h`, `INT_MIN` and the negative values
included, and every bin count `b >= 1`, the statements of `hash_compress` are defined (no
`int` overflow occurs) and yield `|h| mod b` taken over the integers, which lies in
`[0, b-1]`; it is the value of `hash_compress` of both tables for a key whose hash value
is `h` in a table with `b` bins. -/
theorem C31_hash_compress_int {K V T : Type} [DecidableEq K] [DecidableEq T] (h b : Int)
    (hh : INT_MIN ≤ h ∧ h ≤ INT_MAX) (hb : 1 ≤ b ∧ b ≤ INT_MAX) :
    hash_compress_int h b = some (|h| % b) ∧ 0 ≤ |h| % b ∧ |h| % b ≤ b - 1 ∧
    (∀ (code : hashfunc → K → Int) (m : HashMap K V) (key : K),
      code m.hash key = h → (m.bins : Int) = b →
      HashMap.hash_compress code m key = |h| % b) ∧
    (∀ (code : hashfunc → T → Int) (s : HashSet T) (e : T),
      code s.hash e = h → (s.bins : Int) = b →
      HashSet.hash_compress code s e = |h| % b) := by
  have hpos : (0 : Int) < b := by omega
  have key : ((h.natAbs % b.natAbs : Nat) : Int) = |h| % b := by
    rw [Int.natCast_mod, Int.natCast_natAbs, Int.natCast_natAbs, abs_of_pos hpos]
  refine ⟨?_, Int.emod_nonneg _ (by omega), ?_, ?_, ?_⟩
  · rw [hash_compress_int_eq h b hb, key]
  · have := Int.emod_lt_of_pos |h| hpos
    omega
  · intro code m k hc hbins
    rw [HashMap.hash_compress_eq, hc, ← key, ← hbins]
    simp
  · intro code s e hc hbins
    rw [HashSet.set_hash_compress_eq, hc, ← key, ← hbins]
    simp

/-- Witness of C31: the hash value `INT_MIN` with 3 bins gives bin 2. -/
theorem C31_hash_compress_int_witness :
    hash_compress_int INT_MIN 3 = some (|INT_MIN| % 3) ∧ |INT_MIN| % 3 = 2 ∧
    (0 : Int) ≤ |INT_MIN| % 3 ∧ |INT_MIN| % 3 ≤ 3 - 1 :=
  ⟨(@C31_hash_compress_int Int Int Int _ _ INT_MIN 3 (by decide) (by decide)).1, by decide,
   (@C31_hash_compress_int Int Int Int _ _ INT_MIN 3 (by decide) (by decide)).2.1,
   (@C31_hash_compress_int Int Int Int _ _ INT_MIN 3 (by decide) (by decide)).2.2.1⟩

/-- C32: in every table that the constructors and `put` / `insert`, `erase`, `clear`,
`operator[]`, `operator=` and the cursor `erase()` produce (growth is a part of `put`,
`insert` and `operator[]`), no two live nodes of a `HashMap` have equal keys and no two
live nodes of a `HashSet` have equal values. -/
theorem C32_no_duplicates {K V T : Type} [DecidableEq K] [DecidableEq V] [Inhabited V]
    [DecidableEq T] :
    (∀ (code : hashfunc → K → Int) (thash : hashfunc) (m : HashMap K V),
      HashMap.Reachable code thash m → (m.table.flatten.map Prod.fst).Nodup) ∧
    (∀ (code : hashfunc → T → Int) (thash : hashfunc) (s : HashSet T),
      HashSet.Reachable code thash s → s.table.flatten.Nodup) :=
  ⟨fun code thash m h => (HashMap.Reachable.WF code thash m h).1.2.2.2,
   fun code thash s h => (HashSet.Reachable.set_WF code thash s h).1.2.2.2⟩

/-- Witness of C32: the empty map after `put(0,5)`, `put(1,7)`, `put(0,6)`, and the empty
set after `insert(0)`, `insert(0)`. -/
theorem C32_no_duplicates_witness :
    ((HashMap.put Sample.code (HashMap.put Sample.code
        (HashMap.put Sample.code Sample.mapN 0 5).2 1 7).2 0 6).2.table.flatten.map
          Prod.fst).Nodup ∧
    (HashSet.insert Sample.code (HashSet.insert Sample.code Sample.setN 0).2
        0).2.table.flatten.Nodup :=
  ⟨(@C32_no_duplicates Int Int Int _ _ _ _).1 Sample.code 1 _
      (.by_put _ 0 6 (.by_put _ 1 7 (.by_put _ 0 5 Sample.mapN_reachable))),
   (@C32_no_duplicates Int Int Int _ _ _ _).2 Sample.code 1 _
      (.by_insert _ 0 (.by_insert _ 0 Sample.setN_reachable))⟩

/-- C33 (counterexample): the `HashMap<int,int>` built from the empty initializer list,
after `put(0, 5)`, `put(1, 7)` and `clear()`, is a state that the public operations
produce; it has 2 bins and its bucket array is `nullptr`, so there is no array whose bins
hold chains.  The same holds, with 1 bin, right after the constructor. -/
theorem C33_clear_leaves_no_chain :
    (Nodes.Reachable Sample.code Prod.fst (Nodes.put Sample.code) 1 Sample.nodesC
        (Nodes.end_ Sample.nodesN) ∧
      Nodes.clear Sample.nodesP = Sample.nodesC ∧
      Sample.nodesC.bins = 2 ∧ Sample.nodesC.map = none ∧
      ¬ ∃ a, Sample.nodesC.map = some a ∧
        ∀ i, i < Sample.nodesC.bins → Nodes.Chain (a.getD i [])) ∧
    (Nodes.Reachable Sample.code Prod.fst (Nodes.put Sample.code) 1 Sample.nodesN
        (Nodes.end_ Sample.nodesN) ∧
      Sample.nodesN.bins = 1 ∧ Sample.nodesN.map = none ∧
      ¬ ∃ a, Sample.nodesN.map = some a ∧
        ∀ i, i < Sample.nodesN.bins → Nodes.Chain (a.getD i [])) :=
  ⟨⟨Sample.nodesC_reachable, rfl, rfl, rfl, fun h => by
      obtain ⟨a, ha, -⟩ := h
      cases ha⟩,
   ⟨Sample.nodesN_reachable, rfl, rfl, fun h => by
      obtain ⟨a, ha, -⟩ := h
      cases ha⟩⟩

/-- C33 (amended): in every state that the public operations produce (constructors,
`put` / `insert`, `operator[]`, `erase`, `clear`, `operator =`, and the cursor operations
`begin()`, `end()`, `++` and `erase()`) there is at least one bin, and if the bucket array
is allocated, it has `bins` bins and each holds a chain of nodes built with a value, ended
by exactly one node built by `LN()`, the node whose `next` is `nullptr`.  The node that
`find_key` / `find_element` returns has a successor, was built with the value returned, and
its key is the key looked for.  While the bucket array is `nullptr`, `used` is 0 and
`find_key` / `find_element` returns `nullptr`.  A cursor `erase()` that does not throw
erases a node that has a successor.  The first part is `HashMap`, the second `HashSet`. -/
theorem C33_one_sentinel {K V T : Type} [DecidableEq K] [DecidableEq T] [Inhabited K]
    [Inhabited V] [Inhabited T] :
    (∀ (code : hashfunc → K → Int) (thash : hashfunc) (t : Nodes.Table (K × V))
        (it : Iterator),
      Nodes.Reachable code Prod.fst (Nodes.put code) thash t it →
      1 ≤ t.bins ∧
      (∀ a, t.map = some a → a.length = t.bins ∧
        ∀ i, i < t.bins → ∃ live : List (K × V), a.getD i [] = live.map some ++ [none]) ∧
      (∀ k p e, Nodes.find_node code Prod.fst t k = some (p, e) →
        (Nodes.next ((Nodes.cells t).getD (Nodes.hash_compress code t k).toNat []) p).isSome
            = true ∧
          ((Nodes.cells t).getD (Nodes.hash_compress code t k).toNat [])[p]?
            = some (some e) ∧
          e.1 = k) ∧
      (t.map = none → t.used = 0 ∧ ∀ k, Nodes.find_node code Prod.fst t k = none) ∧
      (∀ r it2 t2, Nodes.Iterator_erase t it = .ok (r, it2, t2) →
        ∃ p, it.current.2 = some p ∧
          (Nodes.next ((Nodes.cells t).getD it.current.1.toNat []) p).isSome = true)) ∧
    (∀ (code : hashfunc → T → Int) (thash : hashfunc) (s : Nodes.Table T) (it : Iterator),
      Nodes.Reachable code id (Nodes.insert code id) thash s it →
      1 ≤ s.bins ∧
      (∀ a, s.map = some a → a.length = s.bins ∧
        ∀ i, i < s.bins → ∃ live : List T, a.getD i [] = live.map some ++ [none]) ∧
      (∀ k p e, Nodes.find_node code id s k = some (p, e) →
        (Nodes.next ((Nodes.cells s).getD (Nodes.hash_compress code s k).toNat []) p).isSome
            = true ∧
          ((Nodes.cells s).getD (Nodes.hash_compress code s k).toNat [])[p]?
            = some (some e) ∧
          e = k) ∧
      (s.map = none → s.used = 0 ∧ ∀ k, Nodes.find_node code id s k = none) ∧
      (∀ r it2 s2, Nodes.Iterator_erase s it = .ok (r, it2, s2) →
        ∃ p, it.current.2 = some p ∧
          (Nodes.next ((Nodes.cells s).getD it.current.1.toNat []) p).isSome = true)) := by
  constructor
  · intro code thash t it h
    obtain ⟨h1, h2⟩ := Nodes.nodes_reachable_inv code Prod.fst (Nodes.put code)
      (fun t e ht => ⟨Nodes.nodes_put_inv code t e ht, Nodes.nodes_put_mod code t e ht⟩)
      thash t it h
    exact Nodes.nodes_inv_spec code Prod.fst t it h1 h2
  · intro code thash s it h
    obtain ⟨h1, h2⟩ := Nodes.nodes_reachable_inv code id (Nodes.insert code id)
      (fun t e ht => ⟨Nodes.nodes_insert_inv code id t e ht,
        Nodes.nodes_insert_mod code id t e ht⟩)
      thash s it h
    exact Nodes.nodes_inv_spec code id s it h1 h2

/-- Witness of C33 (amended): the map after `put(0, 5)`, `put(1, 7)` and the `erase()` of a
cursor made by `begin()`, with that cursor, and the set after `insert(0)`, `insert(1)` and
`erase(1)`, with a cursor made by `end()` after the constructor. -/
theorem C33_one_sentinel_witness :
    (Nodes.Reachable Sample.code Prod.fst (Nodes.put Sample.code) 1 Sample.nodesE
        ⟨(1, some 0), 3, false⟩ ∧
      1 ≤ Sample.nodesE.bins ∧
      (∀ a, Sample.nodesE.map = some a → a.length = Sample.nodesE.bins ∧
        ∀ i, i < Sample.nodesE.bins →
          ∃ live : List (Int × Int), a.getD i [] = live.map some ++ [none]) ∧
      (∀ k p e, Nodes.find_node Sample.code Prod.fst Sample.nodesE k = some (p, e) →
        (Nodes.next ((Nodes.cells Sample.nodesE).getD
            (Nodes.hash_compress Sample.code Sample.nodesE k).toNat []) p).isSome = true ∧
          ((Nodes.cells Sample.nodesE).getD
            (Nodes.hash_compress Sample.code Sample.nodesE k).toNat [])[p]?
            = some (some e) ∧
          e.1 = k) ∧
      (Sample.nodesE.map = none → Sample.nodesE.used = 0 ∧
        ∀ k, Nodes.find_node Sample.code Prod.fst Sample.nodesE k = none) ∧
      (∀ r it2 t2,
        Nodes.Iterator_erase Sample.nodesE (⟨(1, some 0), 3, false⟩ : Iterator)
          = .ok (r, it2, t2) →
        ∃ p, (⟨(1, some 0), 3, false⟩ : Iterator).current.2 = some p ∧
          (Nodes.next ((Nodes.cells Sample.nodesE).getD
            (⟨(1, some 0), 3, false⟩ : Iterator).current.1.toNat []) p).isSome = true)) ∧
    (Nodes.Reachable Sample.code id (Nodes.insert Sample.code id) 1 Sample.nodesT
        (Nodes.end_ Sample.nodesS) ∧
      1 ≤ Sample.nodesT.bins ∧
      (∀ a, Sample.nodesT.map = some a → a.length = Sample.nodesT.bins ∧
        ∀ i, i < Sample.nodesT.bins →
          ∃ live : List Int, a.getD i [] = live.map some ++ [none]) ∧
      (∀ k p e, Nodes.find_node Sample.code id Sample.nodesT k = some (p, e) →
        (Nodes.next ((Nodes.cells Sample.nodesT).getD
            (Nodes.hash_compress Sample.code Sample.nodesT k).toNat []) p).isSome = true ∧
          ((Nodes.cells Sample.nodesT).getD
            (Nodes.hash_compress Sample.code Sample.nodesT k).toNat [])[p]?
            = some (some e) ∧
          e = k) ∧
      (Sample.nodesT.map = none → Sample.nodesT.used = 0 ∧
        ∀ k, Nodes.find_node Sample.code id Sample.nodesT k = none) ∧
      (∀ r it2 s2, Nodes.Iterator_erase Sample.nodesT (Nodes.end_ Sample.nodesS)
          = .ok (r, it2, s2) →
        ∃ p, (Nodes.end_ Sample.nodesS).current.2 = some p ∧
          (Nodes.next ((Nodes.cells Sample.nodesT).getD
            (Nodes.end_ Sample.nodesS).current.1.toNat []) p).isSome = true)) :=
  ⟨⟨Sample.nodesE_reachable,
     (@C33_one_sentinel Int Int Int _ _ _ _ _).1 Sample.code 1 Sample.nodesE _
       Sample.nodesE_reachable⟩,
   ⟨Sample.nodesT_reachable,
     (@C33_one_sentinel Int Int Int _ _ _ _ _).2 Sample.code 1 Sample.nodesT _
       Sample.nodesT_reachable⟩⟩

/-- C34: on every well-formed table and for every predicate `p` on entries, the loop
`for (c = begin(); c != end(); ++c) if (p(*c)) c.erase();`, given one unit of fuel per
entry and one for the last test, ends without an exception, dereferences the entries of
the original table, each once, and leaves a well-formed table that holds exactly the
entries that do not satisfy `p`.  The first `++` after a cursor `erase()` succeeds without
moving the cursor, which `erase()` left at the end position or on a live node. -/
theorem C34_erase_loop {K V T : Type} [DecidableEq K] [DecidableEq T] :
    (∀ (code : hashfunc → K → Int) (p : K × V → Bool) (m : HashMap K V) (ref_map fuel : Nat),
      HashMap.WF code m → m.size.toNat + 1 ≤ fuel →
      ∃ m2, HashMap.erase_if p m ref_map fuel = some (.ok (m.entries, m2)) ∧
        m.entries.Nodup ∧ HashMap.WF code m2 ∧
        (∀ y, y ∈ m2.entries ↔ y ∈ m.entries ∧ p y = false) ∧
        m2.size = m.size - ((m.entries.filter (fun y => p y)).length : Int)) ∧
    (∀ (code : hashfunc → T → Int) (p : T → Bool) (s : HashSet T) (ref_set fuel : Nat),
      HashSet.WF code s → s.size.toNat + 1 ≤ fuel →
      ∃ s2, HashSet.erase_if p s ref_set fuel = some (.ok (s.entries, s2)) ∧
        s.entries.Nodup ∧ HashSet.WF code s2 ∧
        (∀ y, y ∈ s2.entries ↔ y ∈ s.entries ∧ p y = false) ∧
        s2.size = s.size - ((s.entries.filter (fun y => p y)).length : Int)) ∧
    (∀ (code : hashfunc → K → Int) (m m2 : HashMap K V) (it it2 : Iterator)
        (r : Option (K × V)),
      HashMap.WF code m → HashMap.Cursor_ok m it →
      HashMap.Iterator_erase m it = .ok (r, it2, m2) →
      Bucket.End_or_live m2.table it2.current ∧
      ∃ it3, HashMap.Iterator_inc m2 it2 = .ok it3 ∧ it3.current = it2.current) ∧
    (∀ (code : hashfunc → T → Int) (s s2 : HashSet T) (it it2 : Iterator) (r : Option T),
      HashSet.WF code s → HashSet.Cursor_ok s it →
      HashSet.Iterator_erase s it = .ok (r, it2, s2) →
      Bucket.End_or_live s2.table it2.current ∧
      ∃ it3, HashSet.Iterator_inc s2 it2 = .ok it3 ∧ it3.current = it2.current) := by
  refine ⟨?_, ?_, ?_, ?_⟩
  · intro code p m r fuel hw hf
    obtain ⟨m2, h1, h2, h3, h4⟩ := HashMap.map_erase_if_spec code p m r fuel hw hf
    exact ⟨m2, h1, HashMap.entries_nodup code m hw.1, h2, h3, h4⟩
  · intro code p s r fuel hw hf
    obtain ⟨s2, h1, h2, h3, h4⟩ := HashSet.erase_if_spec code p s r fuel hw hf
    exact ⟨s2, h1, hw.1.2.2.2, h2, h3, h4⟩
  · intro code m m2 it it2 r hw hc h
    obtain ⟨it3, h1, h2, h3, -⟩ := HashMap.inc_after_Iterator_erase m m2 it it2 r h
    have hok := (HashMap.Cursor_ok_erase code m hw it it2 r m2 hc h).2
    refine ⟨hok.2 ?_, it3, h1, h2⟩
    unfold HashMap.Iterator_erase at h
    split_ifs at h
    simp only [Except.ok.injEq, Prod.mk.injEq] at h
    obtain ⟨-, rfl, rfl⟩ := h
    rfl
  · intro code s s2 it it2 r hw hc h
    obtain ⟨it3, h1, h2, h3, -⟩ := HashSet.set_inc_after_Iterator_erase s s2 it it2 r h
    have hok := (HashSet.set_Cursor_ok_erase code s hw it it2 r s2 hc h).2
    refine ⟨hok.2 ?_, it3, h1, h2⟩
    unfold HashSet.Iterator_erase at h
    split_ifs at h
    simp only [Except.ok.injEq, Prod.mk.injEq] at h
    obtain ⟨-, rfl, rfl⟩ := h
    rfl

/-- Witness of C34: the loop that erases the entries with an odd key from the sample map
`{0 -> 5, 1 -> 7}`, and the one that erases every element from the sample set `{0, 1}`. -/
theorem C34_erase_loop_witness :
    (∃ m2, HashMap.erase_if (fun e => decide (e.1 % 2 = 1)) Sample.map2 0 3
        = some (.ok (Sample.map2.entries, m2)) ∧
      Sample.map2.entries.Nodup ∧ HashMap.WF Sample.code m2 ∧
      (∀ y, y ∈ m2.entries ↔ y ∈ Sample.map2.entries ∧ decide (y.1 % 2 = 1) = false) ∧
      m2.size = Sample.map2.size
        - ((Sample.map2.entries.filter (fun y => decide (y.1 % 2 = 1))).length : Int)) ∧
    (∃ s2, HashSet.erase_if (fun _ => true) Sample.set2 0 3
        = some (.ok (Sample.set2.entries, s2)) ∧
      Sample.set2.entries.Nodup ∧ HashSet.WF Sample.code s2 ∧
      (∀ y, y ∈ s2.entries ↔ y ∈ Sample.set2.entries ∧ true = false) ∧
      s2.size = Sample.set2.size
        - ((Sample.set2.entries.filter (fun _ => true)).length : Int)) :=
  ⟨(@C34_erase_loop Int Int Int _ _).1 Sample.code (fun e => decide (e.1 % 2 = 1))
      Sample.map2 0 3 (by decide) (by decide),
   (@C34_erase_loop Int Int Int _ _).2.1 Sample.code (fun _ => true) Sample.set2 0 3
      (by decide) (by decide)⟩

/-- C35: in every table that the public operations produce, every live node stored in bin
`i` satisfies `hash_compress(key) == i` under the current hash function and bin count of
the table; and `find_key(k)` / `find_element(k)` returns a node exactly when some live
node in some bin of the table has key `k`. -/
theorem C35_placement {K V T : Type} [DecidableEq K] [DecidableEq V] [Inhabited V]
    [DecidableEq T] :
    (∀ (code : hashfunc → K → Int) (thash : hashfunc) (m : HashMap K V),
      HashMap.Reachable code thash m →
      (∀ i, i < m.table.length → ∀ e ∈ m.table.getD i [],
        (HashMap.hash_compress code m e.1).toNat = i) ∧
      ∀ k, (HashMap.find_key code m k).isSome = true ↔ ∃ e ∈ m.table.flatten, e.1 = k) ∧
    (∀ (code : hashfunc → T → Int) (thash : hashfunc) (s : HashSet T),
      HashSet.Reachable code thash s →
      (∀ i, i < s.table.length → ∀ e ∈ s.table.getD i [],
        (HashSet.hash_compress code s e).toNat = i) ∧
      ∀ k, (HashSet.find_element code s k).isSome = true ↔ k ∈ s.table.flatten) :=
  ⟨fun code thash m h =>
    ⟨(HashMap.Reachable.WF code thash m h).1.2.2.1,
     HashMap.find_key_isSome_iff code m (HashMap.Reachable.WF code thash m h).1⟩,
   fun code thash s h =>
    ⟨(HashSet.Reachable.set_WF code thash s h).1.2.2.1,
     HashSet.find_element_isSome code s (HashSet.Reachable.set_WF code thash s h).1⟩⟩

/-- Witness of C35: the empty map after three `put` calls, which double the bins twice,
and the empty set after two `insert` calls. -/
theorem C35_placement_witness :
    ((∀ i, i < (HashMap.put Sample.code (HashMap.put Sample.code
          (HashMap.put Sample.code Sample.mapN 0 5).2 1 7).2 2 9).2.table.length →
        ∀ e ∈ (HashMap.put Sample.code (HashMap.put Sample.code
          (HashMap.put Sample.code Sample.mapN 0 5).2 1 7).2 2 9).2.table.getD i [],
          (HashMap.hash_compress Sample.code (HashMap.put Sample.code (HashMap.put Sample.code
            (HashMap.put Sample.code Sample.mapN 0 5).2 1 7).2 2 9).2 e.1).toNat = i) ∧
      ∀ k, (HashMap.find_key Sample.code (HashMap.put Sample.code (HashMap.put Sample.code
          (HashMap.put Sample.code Sample.mapN 0 5).2 1 7).2 2 9).2 k).isSome = true ↔
        ∃ e ∈ (HashMap.put Sample.code (HashMap.put Sample.code
          (HashMap.put Sample.code Sample.mapN 0 5).2 1 7).2 2 9).2.table.flatten, e.1 = k) ∧
    ((∀ i, i < (HashSet.insert Sample.code (HashSet.insert Sample.code Sample.setN 0).2
          1).2.table.length →
        ∀ e ∈ (HashSet.insert Sample.code (HashSet.insert Sample.code Sample.setN 0).2
          1).2.table.getD i [],
          (HashSet.hash_compress Sample.code (HashSet.insert Sample.code
            (HashSet.insert Sample.code Sample.setN 0).2 1).2 e).toNat = i) ∧
      ∀ k, (HashSet.find_element Sample.code (HashSet.insert Sample.code
          (HashSet.insert Sample.code Sample.setN 0).2 1).2 k).isSome = true ↔
        k ∈ (HashSet.insert Sample.code (HashSet.insert Sample.code Sample.setN 0).2
          1).2.table.flatten) :=
  ⟨(@C35_placement Int Int Int _ _ _ _).1 Sample.code 1 _
      (.by_put _ 2 9 (.by_put _ 1 7 (.by_put _ 0 5 Sample.mapN_reachable))),
   (@C35_placement Int Int Int _ _ _ _).2 Sample.code 1 _
      (.by_insert _ 1 (.by_insert _ 0 Sample.setN_reachable))⟩

/-- C36: in every table that the public operations produce (constructors and copy
construction, `put` / `insert` with its growth, table `erase`, cursor `erase()`, `clear`,
`operator[]` and `operator=`), the cached counter `used`, the value of `size()`, is the
total number of live nodes over all bins. -/
theorem C36_used_counts_nodes {K V T : Type} [DecidableEq K] [DecidableEq V] [Inhabited V]
    [DecidableEq T] :
    (∀ (code : hashfunc → K → Int) (thash : hashfunc) (m : HashMap K V),
      HashMap.Reachable code thash m →
      m.size = (((m.table.map List.length).sum : Nat) : Int)) ∧
    (∀ (code : hashfunc → T → Int) (thash : hashfunc) (s : HashSet T),
      HashSet.Reachable code thash s →
      s.size = (((s.table.map List.length).sum : Nat) : Int)) := by
  constructor
  · intro code thash m h
    have hw := (HashMap.Reachable.WF code thash m h).2
    rw [← List.length_flatten]
    exact hw
  · intro code thash s h
    have hw := (HashSet.Reachable.set_WF code thash s h).2
    rw [← List.length_flatten]
    exact hw

/-- Witness of C36: the empty map after `put(0,5)`, `put(1,7)`, `clear()` and `put(2,9)`;
the empty set after `insert(0)` and `erase(0)`. -/
theorem C36_used_counts_nodes_witness :
    (HashMap.put Sample.code (HashMap.clear (HashMap.put Sample.code
        (HashMap.put Sample.code Sample.mapN 0 5).2 1 7).2) 2 9).2.size
      = (((((HashMap.put Sample.code (HashMap.clear (HashMap.put Sample.code
          (HashMap.put Sample.code Sample.mapN 0 5).2 1 7).2) 2 9).2.table.map
            List.length).sum : Nat)) : Int) ∧
    (HashSet.erase Sample.code (HashSet.insert Sample.code Sample.setN 0).2 0).2.size
      = (((((HashSet.erase Sample.code (HashSet.insert Sample.code Sample.setN 0).2
          0).2.table.map List.length).sum : Nat)) : Int) :=
  ⟨(@C36_used_counts_nodes Int Int Int _ _ _ _).1 Sample.code 1 _
      (.by_put _ 2 9 (.by_clear _ (.by_put _ 1 7 (.by_put _ 0 5 Sample.mapN_reachable)))),
   (@C36_used_counts_nodes Int Int Int _ _ _ _).2 Sample.code 1 _
      (.by_erase _ 0 (.by_insert _ 0 Sample.setN_reachable))⟩

/-- C37: in every table that the public operations of `HashMap` produce, the bucket array
is `nullptr` only if `used == 0`; and with every read of a bin and every dereference of a
node pointer checked (a bin of a `nullptr` array, a bin index outside `[0, bins-1]` and the
`next` link of a trailer are undefined reads), `find_key`, `has_value`, `str`, `put`,
`operator[]`, `begin()` and the cursor operations `++`, `erase()` and `*` on a usable
cursor perform no undefined read and give the results of the unchecked operations; the loop
of `advance_cursors` started in bin `b` ends within `bins - b` iterations, at the end
position or on a live node. -/
theorem C37_reads_in_bounds {K V : Type} [DecidableEq K] [DecidableEq V] [Inhabited V]
    (code : hashfunc → K → Int) (thash : hashfunc) (m : HashMap K V)
    (hr : HashMap.Reachable code thash m) :
    (m.map = none → m.used = 0) ∧
    (∀ key, HashMap.find_key_checked code m key = some (HashMap.find_key code m key)) ∧
    (∀ value, HashMap.has_value_checked m value
      = some (decide (∃ e ∈ m.entries, e.2 = value))) ∧
    HashMap.str_checked m = some (if m.used > 0 then m.table else []) ∧
    (∀ key value, HashMap.put_checked code m key value = some (HashMap.put code m key value)) ∧
    (∀ key, HashMap.operator_index_checked code m key
      = some (HashMap.operator_index code m key)) ∧
    HashMap.begin_checked m = some (HashMap.begin m) ∧
    (∀ it, HashMap.Cursor_ok m it →
      HashMap.Iterator_inc_checked m it = some (HashMap.Iterator_inc m it) ∧
      HashMap.Iterator_erase_checked m it = some (HashMap.Iterator_erase m it) ∧
      HashMap.Iterator_deref_checked m it = some (HashMap.Iterator_deref m it)) ∧
    (∀ fuel b i : Nat, b < m.table.length → i ≤ (m.table.getD b []).length →
      m.bins ≤ fuel + b →
      ∃ c, Bucket.advance_loop_checked m.bins m.map fuel ((b : Int), some i) = some c ∧
        Bucket.End_or_live m.table c) := by
  have hw := HashMap.Reachable.WF code thash m hr
  exact ⟨HashMap.WF_map_none code m hw,
    HashMap.find_key_checked_eq code m hw.1,
    HashMap.has_value_checked_eq code m hw,
    HashMap.str_checked_eq code m hw,
    HashMap.put_checked_eq code m hw.1,
    HashMap.operator_index_checked_eq code m hw.1,
    HashMap.begin_checked_eq code m hw,
    fun it hc => ⟨HashMap.Iterator_inc_checked_eq code m hw it hc,
      HashMap.Iterator_erase_checked_eq code m hw it hc,
      HashMap.Iterator_deref_checked_eq m it hc⟩,
    HashMap.advance_loop_checked_ends code m hw.1⟩

/-- Witness of C37: the empty map after `put(0,5)` and `put(1,7)`, searched for the key 1
and stepped from its `begin()` cursor. -/
theorem C37_reads_in_bounds_witness :
    HashMap.find_key_checked Sample.code
        (HashMap.put Sample.code (HashMap.put Sample.code Sample.mapN 0 5).2 1 7).2 1
      = some (HashMap.find_key Sample.code
        (HashMap.put Sample.code (HashMap.put Sample.code Sample.mapN 0 5).2 1 7).2 1) ∧
    HashMap.Iterator_inc_checked
        (HashMap.put Sample.code (HashMap.put Sample.code Sample.mapN 0 5).2 1 7).2
        (HashMap.begin (HashMap.put Sample.code (HashMap.put Sample.code Sample.mapN 0 5).2 1 7).2)
      = some (HashMap.Iterator_inc
        (HashMap.put Sample.code (HashMap.put Sample.code Sample.mapN 0 5).2 1 7).2
        (HashMap.begin
          (HashMap.put Sample.code (HashMap.put Sample.code Sample.mapN 0 5).2 1 7).2)) :=
  ⟨(C37_reads_in_bounds Sample.code 1 _
      (.by_put _ 1 7 (.by_put _ 0 5 Sample.mapN_reachable))).2.1 1,
   ((C37_reads_in_bounds Sample.code 1 _
      (.by_put _ 1 7 (.by_put _ 0 5 Sample.mapN_reachable))).2.2.2.2.2.2.2.1 _
      (HashMap.Cursor_ok_begin Sample.code _ (HashMap.Reachable.WF Sample.code 1 _
        (.by_put _ 1 7 (.by_put _ 0 5 Sample.mapN_reachable))))).1⟩

/-- C38: for every priority function `gt` that is a strict weak ordering (irreflexive,
transitive, with a transitive complement), every `HeapPriorityQueue` that a sequence of
`enqueue` and `dequeue` calls produces from a constructed queue satisfies the heap ordering
property on its first `used` slots (for no `i > 0` does `gt(pq[i], pq[parent(i)])` hold);
`enqueue` ends and adds its argument to the values held; `dequeue` on a non-empty queue
ends and returns a value `e` such that `gt(x, e)` holds for no value `x` that remains, and
the values held before are `e` and the values that remain, counted with multiplicity; and
`percolate_up` and `percolate_down` end on every array. -/
theorem C38_heap_queue {T : Type} [Inhabited T] (gt : T → T → Bool)
    (hirr : ∀ a, gt a a = false)
    (htr : ∀ a b c, gt a b = true → gt b c = true → gt a c = true)
    (hneg : ∀ a b c, gt a b = false → gt b c = false → gt a c = false)
    (q : HeapPriorityQueue T) (hr : HeapPriorityQueue.Reachable gt q) :
    HeapPriorityQueue.Heap gt q.used q.pq ∧
    (∀ element, ∃ q2, HeapPriorityQueue.enqueue gt q element = some (1, q2) ∧
      q2.used = q.used + 1 ∧ q2.contents.Perm (element :: q.contents)) ∧
    (q.used ≠ 0 → ∃ val q2, HeapPriorityQueue.dequeue gt q = some (.ok (val, q2)) ∧
      q2.used + 1 = q.used ∧ q.contents.Perm (val :: q2.contents) ∧
      ∀ x ∈ q2.contents, gt x val = false) ∧
    (∀ (pq : List T) (i : Nat),
      (HeapPriorityQueue.percolate_up gt q.used pq i).isSome = true ∧
      (HeapPriorityQueue.percolate_down gt q.used pq i).isSome = true) := by
  obtain ⟨hu, hh⟩ := HeapPriorityQueue.reachable_heap gt hirr htr hneg q hr
  refine ⟨hh, ?_, ?_, ?_⟩
  · intro element
    obtain ⟨q2, h1, h2, -, -, h5, -⟩ :=
      HeapPriorityQueue.enqueue_spec gt hirr htr hneg q element hu hh
    exact ⟨q2, h1, h2, h5⟩
  · intro hne
    obtain ⟨val, q2, h1, h2, -, -, h5, h6, -⟩ :=
      HeapPriorityQueue.dequeue_spec gt hirr htr hneg q hu hh hne
    exact ⟨val, q2, h1, h2, h5, fun x hx => h6 x (h5.symm.subset (List.mem_cons_of_mem _ hx))⟩
  · intro pq i
    exact ⟨HeapPriorityQueue.percolate_up_loop_ends gt hirr q.used i (i + 1) i pq (by omega),
      HeapPriorityQueue.percolate_down_loop_ends gt q.used (q.used + 1) i pq (by omega)
        (by omega)⟩

/-- Witness of C38: the queue of `int` with the priority `a > b` after `enqueue(1)`,
`enqueue(5)`, `enqueue(3)` is a heap, and its `dequeue` is possible. -/
theorem C38_heap_queue_witness :
    HeapPriorityQueue.Heap Sample.gt_int Sample.heap3.used Sample.heap3.pq ∧
    (∃ val q2,
      HeapPriorityQueue.dequeue Sample.gt_int Sample.heap3 = some (.ok (val, q2)) ∧
      q2.used + 1 = Sample.heap3.used ∧ Sample.heap3.contents.Perm (val :: q2.contents) ∧
      ∀ x ∈ q2.contents, Sample.gt_int x val = false) :=
  ⟨(C38_heap_queue Sample.gt_int Sample.gt_int_irrefl Sample.gt_int_trans
      Sample.gt_int_neg_trans Sample.heap3 Sample.heap3_reachable).1,
   (C38_heap_queue Sample.gt_int Sample.gt_int_irrefl Sample.gt_int_trans
      Sample.gt_int_neg_trans Sample.heap3 Sample.heap3_reachable).2.2.1 (by decide)⟩

/-- C39: for every `lt` that is a strict total order on the keys, every `BSTMap` that a
sequence of `put` and `erase` calls produces from a constructed map is a binary search tree
(every key in a left subtree is `lt` the key of its root, which is `lt` every key in its
right subtree) without duplicate keys; `erase(k)` of a key in the map returns its value,
leaves the entries of the other keys and takes one off `size()`; `erase(k)` of a key not in
the map throws `KeyError` and leaves the map, so `size()`, unchanged; and the traversal
from `begin()` ends and yields the entries in strictly ascending key order. -/
theorem C39_bst_map {K V : Type} [DecidableEq K] (lt : K → K → Bool)
    (hirr : ∀ a, lt a a = false)
    (htr : ∀ a b c, lt a b = true → lt b c = true → lt a c = true)
    (htot : ∀ a b, a ≠ b → lt a b = true ∨ lt b a = true)
    (m : BSTMap K V) (hr : BSTMap.Reachable lt m) :
    BSTMap.BST lt m.map ∧ ((BSTMap.inorder m.map).map Prod.fst).Nodup ∧
    m.size = ((BSTMap.inorder m.map).length : Int) ∧
    (∀ key, key ∈ (BSTMap.inorder m.map).map Prod.fst →
      ∃ v, (key, v) ∈ BSTMap.inorder m.map ∧ (BSTMap.erase lt m key).1 = .ok v ∧
        BSTMap.inorder (BSTMap.erase lt m key).2.map
          = (BSTMap.inorder m.map).filter (fun e => decide (e.1 ≠ key)) ∧
        (BSTMap.erase lt m key).2.size = m.size - 1) ∧
    (∀ key, key ∉ (BSTMap.inorder m.map).map Prod.fst →
      BSTMap.erase lt m key = (.error Error.KeyError, m)) ∧
    (∀ ref_map, BSTMap.range_for m ref_map (m.size.toNat + 1)
      = some (.ok (BSTMap.inorder m.map))) ∧
    (BSTMap.inorder m.map).Pairwise (fun a b => lt a.1 b.1 = true) := by
  obtain ⟨hb, hu⟩ := BSTMap.bst_reachable_inv lt hirr htr htot m hr
  refine ⟨hb, BSTMap.bst_keys_nodup lt hirr htr m.map hb, hu, ?_, ?_, ?_,
    BSTMap.bst_inorder_sorted lt htr m.map hb⟩
  · intro key hk
    rcases BSTMap.bst_remove_spec lt hirr htr htot key m.map hb with
      ⟨hno, -⟩ | ⟨v, t2, hok, hmem, hio, -⟩
    · obtain ⟨x, hx, hxk⟩ := List.mem_map.1 hk
      exact absurd hxk (hno x hx)
    · refine ⟨v, hmem, ?_, ?_, ?_⟩
      · simp only [BSTMap.erase, hok]
      · simp only [BSTMap.erase, hok]
        exact hio
      · simp only [BSTMap.erase, hok, BSTMap.size]
  · intro key hk
    rcases BSTMap.bst_remove_spec lt hirr htr htot key m.map hb with
      ⟨-, herr⟩ | ⟨v, t2, -, hmem, -, -⟩
    · simp only [BSTMap.erase, herr]
    · exact absurd (List.mem_map.2 ⟨(key, v), hmem, rfl⟩) hk
  · intro ref_map
    have : m.size.toNat = (BSTMap.inorder m.map).length := by
      unfold BSTMap.size
      rw [hu]
      simp
    rw [this]
    exact BSTMap.bst_range_for_spec m ref_map

/-- Witness of C39: the map built by `put(2,20)`, `put(1,10)`, `put(3,30)`, `erase(2)` under
the order `<` of `int`: `erase(5)` throws `KeyError` and leaves it unchanged, and its
traversal yields the entries of the keys 1 and 3 in this order. -/
theorem C39_bst_map_witness :
    BSTMap.erase Sample.lt_int Sample.bst3 5 = (.error Error.KeyError, Sample.bst3) ∧
    BSTMap.range_for Sample.bst3 0 (Sample.bst3.size.toNat + 1) = some (.ok [(1, 10), (3, 30)]) :=
  ⟨(C39_bst_map Sample.lt_int Sample.lt_int_irrefl Sample.lt_int_trans Sample.lt_int_total
      Sample.bst3 Sample.bst3_reachable).2.2.2.2.1 5 (by decide),
   (C39_bst_map Sample.lt_int Sample.lt_int_irrefl Sample.lt_int_trans Sample.lt_int_total
      Sample.bst3 Sample.bst3_reachable).2.2.2.2.2.1 0⟩

/-- C40 (defect of the code): on the graph with the nodes `A`, `B`, `C`, `U` and the edges
`A -> B` (10), `A -> C` (1), `C -> B` (1), started at `A`, the function
`extended_dijkstra` returns a map with the four keys `U`, `B`, `A`, `C`, in which `U` has
the cost `INT_MAX` and the predecessor `"?"`, although no edge of the graph leads to `U`:
the entry `(B, 10)`, left in the queue when the cost of `B` dropped to 2, passes the test
against `INT_MAX`, and the loop that skips answered nodes then stops on the entry of `U`,
which is not tested again. -/
theorem C40_unreachable_node_answered :
    (match extended_dijkstra Sample.code_len 1 Sample.graph4 "A" 10 with
      | some (.ok m) =>
        decide ((m.entries.map Prod.fst) = ["U", "B", "A", "C"] ∧
          HashMap.get? Sample.code_len m "U"
            = some { node := "U", cost := INT_MAX, from_ := "?" } ∧
          HashMap.get? Sample.code_len m "B" = some { node := "B", cost := 2, from_ := "C" })
      | _ => false) = true ∧
    (Sample.graph4.all_nodes.all (fun n =>
      match Sample.graph4.out_nodes n with
      | .ok outs => !outs.contains "U"
      | .error _ => false)) = true := by
  decide!

end ics
